import Mathlib

/-!
The routing trie and the router of crow (`include/crow/routing.h`).

A shallow embedding of `crow::Trie` (nodes, `add`, `optimize`, `find`), of the handler
binder `detail::routing_handler_call_helper::call` and of `crow::Router` (registration,
`validate` and `handle`), followed by theorems about them.

Conventions of the embedding.

* A `std::string` is a `List Char`; a C++ `char` is a `Char`.
* `unsigned`, `size_t` and the rule indices are `Nat`: the embedding describes
  strings shorter than `2^32` characters and tables of fewer than `2^32` rules,
  where none of the index computations of the source wraps.
* In `Trie::find` the pair `(req_url, pos)` is represented by the suffix
  `req_url.drop pos`, the only part of the URL that `find` reads; `pos == req_url.size()`
  is `rest = []`.
* The loops of `Trie::add` and the recursion of `Trie::optimizeNode` need not
  terminate on the face of it; they take a fuel argument and return `none` when it
  runs out. `Trie.add` and `Trie.optimize` supply a fuel that is shown to suffice
  whenever the source terminates (`add_loop_total`, `add_loop_mono_le`,
  `trie_add_eq_none_iff`, `optimizeNode_total`, `optimizeNode_mono`).
* A thrown `std::runtime_error` is represented by its message, next to the state
  the object is left in.
* What `routing.h` takes from other headers (`routing_params`, `request`, `response`,
  `HTTPMethod`) is modelled from the spec and marked so where it is declared.
* Handlers are closures of the application. A handler is a function from its arguments
  to the response that it leaves and to the message of the exception with which it
  ends, if it throws; `Router.handle` takes the handlers as a parameter and lists the
  calls that it makes.
-/

namespace crow

/-! ## Types declared in `crow/common.h` -/

/-- Modelled from the spec: the enumeration `ParamType` is declared in `crow/common.h`,
which is not part of the sources at hand. The spec lists the kinds `Int`, `Uint`,
`Double`, `String`, `Path` and a sentinel for literal nodes; the names are the ones
`routing.h` uses (`ParamType::MAX` is the sentinel). -/
inductive ParamType where
  | INT
  | UINT
  | DOUBLE
  | STRING
  | PATH
  | MAX
  deriving DecidableEq, Repr

/-- A binary64 value, represented by its IEEE 754 bit pattern. -/
structure Double where
  bits : Nat
  deriving DecidableEq, Repr

/-- Modelled from the spec: `routing_params` is declared in `crow/common.h`. It holds
four ordered sequences, one each for `Int`, `Uint`, `Double` and `String` values;
`routing.h` fills them with `push_back` and `pop_back`. -/
structure routing_params where
  int_params : List Int
  uint_params : List Nat
  double_params : List Double
  string_params : List (List Char)
  deriving DecidableEq, Repr

/-- A default-constructed `routing_params`. -/
def routing_params.empty : routing_params := ⟨[], [], [], []⟩

/-! ## The C library: `strtoll`, `strtoull`, `strtod` -/

/-- What a call `strtoX(nptr, &eptr, 10)` leaves behind: the returned value,
`eptr - nptr`, and whether `errno` was set to `ERANGE`. -/
structure StrtoResult (α : Type) where
  value : α
  consumed : Nat
  erange : Bool
  deriving DecidableEq, Repr

/-- The test `c >= '0' && c <= '9'`. -/
def isdigit (c : Char) : Bool := decide (48 ≤ c.toNat ∧ c.toNat ≤ 57)

/-- The value of a decimal digit. -/
def digitVal (c : Char) : Nat := c.toNat - 48

/-- The C library's `isspace` in the "C" locale. -/
def isspace (c : Char) : Bool :=
  c.toNat = 32 || (decide (9 ≤ c.toNat) && decide (c.toNat ≤ 13))

/-- The digit loop of `strtoll`/`strtoull`: reads decimal digits from the front of the
string, accumulating their value in `acc` and their number in `n`. -/
def scanDigits : List Char → Nat → Nat → Nat × Nat
  | [], acc, n => (acc, n)
  | c :: cs, acc, n =>
    if isdigit c then scanDigits cs (acc * 10 + digitVal c) (n + 1) else (acc, n)

/-- The length of the optional sign at the front of the subject sequence. -/
def signLen : List Char → Nat
  | c :: _ => if c = '-' ∨ c = '+' then 1 else 0
  | [] => 0

/-- Whether the subject sequence starts with a minus sign. -/
def isNeg : List Char → Bool
  | c :: _ => decide (c = '-')
  | [] => false

/-- The C library's `strtoll(s, &eptr, 10)`: white space is skipped, then an optional
sign and the longest run of decimal digits are read. Without a digit nothing is
consumed; a value outside the range of `long long` is clamped and sets `ERANGE`. -/
def strtoll (s : List Char) : StrtoResult Int :=
  let ws := (s.takeWhile isspace).length
  let s1 := s.drop ws
  let sg := signLen s1
  let vn := scanDigits (s1.drop sg) 0 0
  if vn.2 = 0 then ⟨0, 0, false⟩
  else if isNeg s1 then
    if vn.1 > 2 ^ 63 then ⟨-(2 ^ 63 : Int), ws + sg + vn.2, true⟩
    else ⟨-(vn.1 : Int), ws + sg + vn.2, false⟩
  else
    if vn.1 > 2 ^ 63 - 1 then ⟨(2 ^ 63 - 1 : Int), ws + sg + vn.2, true⟩
    else ⟨(vn.1 : Int), ws + sg + vn.2, false⟩

/-- The C library's `strtoull(s, &eptr, 10)`: as `strtoll`, but the value is read as
`unsigned long long`; a minus sign negates it in that type, and a digit sequence
above `ULLONG_MAX` yields `ULLONG_MAX` and `ERANGE`. -/
def strtoull (s : List Char) : StrtoResult Nat :=
  let ws := (s.takeWhile isspace).length
  let s1 := s.drop ws
  let sg := signLen s1
  let vn := scanDigits (s1.drop sg) 0 0
  if vn.2 = 0 then ⟨0, 0, false⟩
  else if vn.1 > 2 ^ 64 - 1 then ⟨2 ^ 64 - 1, ws + sg + vn.2, true⟩
  else if isNeg s1 then ⟨(2 ^ 64 - vn.1) % 2 ^ 64, ws + sg + vn.2, false⟩
  else ⟨vn.1, ws + sg + vn.2, false⟩

/-- The C library's `strtod` is not modelled: every definition that reaches the
`DOUBLE` branch of `Trie::find` takes it as a parameter of this type, and every
theorem holds for each such function. -/
abbrev StrtodFn := List Char → StrtoResult Double

/-! ## `Trie::Node` -/

/-- `Trie::Node`: the rule index (0 for none), the key, the parameter kind
(`ParamType::MAX` for a literal node) and the children, in order. -/
inductive Node where
  | mk (rule_index : Nat) (key : List Char) (param : ParamType) (children : List Node)
  deriving Repr

namespace Node

/-- Field `rule_index`. -/
def rule_index : Node → Nat
  | mk r _ _ _ => r

/-- Field `key`. -/
def key : Node → List Char
  | mk _ k _ _ => k

/-- Field `param`. -/
def param : Node → ParamType
  | mk _ _ p _ => p

/-- Field `children`. -/
def children : Node → List Node
  | mk _ _ _ cs => cs

/-- A default-constructed node, `Node()`. -/
def new : Node := mk 0 [] ParamType.MAX []

/-- `Node::IsSimpleNode`. -/
def IsSimpleNode : Node → Bool
  | mk r _ p cs =>
    decide (r = 0) && decide (cs.length < 2) && decide (p = ParamType.MAX) &&
      cs.all (fun x => decide (x.param = ParamType.MAX))

/-- `key[0]` of a `std::string`: the first character, or the terminating NUL when the
key is empty. -/
def key0 (n : Node) : Char := n.key.headD (Char.ofNat 0)

end Node

/-- `Trie`: its only data member is the head node `head_`. -/
structure Trie where
  head_ : Node
  deriving Repr

/-- The trie a default-constructed `Trie` holds. -/
def Trie.init : Trie := ⟨Node.new⟩

/-- `Trie::is_empty`. -/
def Trie.is_empty (t : Trie) : Bool := t.head_.children.isEmpty

/-! ## `Trie::find` -/

/-- The lambda `update_found` of `Trie::find`, on the pair `(found, match_params)`. -/
def update_found (acc ret : Nat × routing_params) : Nat × routing_params :=
  if ret.1 ≠ 0 ∧ (acc.1 = 0 ∨ acc.1 > ret.1) then ret else acc

/-- The test that the body of the `for` loop of `Trie::find` makes on one child, given
the child's `param` and `key`, the rest of the URL and the current `params`: `none`
when the child is skipped, otherwise the `params` (after the `push_back`) and the rest
of the URL that the recursive call receives. -/
def enter (strtod : StrtodFn) (param : ParamType) (key : List Char) (rest : List Char)
    (params : routing_params) : Option (routing_params × List Char) :=
  let c := rest.headD (Char.ofNat 0)
  match param with
  | ParamType.INT =>
    if isdigit c || c == '+' || c == '-' then
      let r := strtoll rest
      if !r.erange && decide (r.consumed ≠ 0) then
        some ({ params with int_params := params.int_params ++ [r.value] }, rest.drop r.consumed)
      else none
    else none
  | ParamType.UINT =>
    if isdigit c || c == '+' then
      let r := strtoull rest
      if !r.erange && decide (r.consumed ≠ 0) then
        some ({ params with uint_params := params.uint_params ++ [r.value] }, rest.drop r.consumed)
      else none
    else none
  | ParamType.DOUBLE =>
    if isdigit c || c == '+' || c == '-' || c == '.' then
      let r := strtod rest
      if !r.erange && decide (r.consumed ≠ 0) then
        some ({ params with double_params := params.double_params ++ [r.value] },
          rest.drop r.consumed)
      else none
    else none
  | ParamType.STRING =>
    let seg := rest.takeWhile (fun x => x != '/')
    if seg.length ≠ 0 then
      some ({ params with string_params := params.string_params ++ [seg] }, rest.drop seg.length)
    else none
  | ParamType.PATH =>
    if rest.length ≠ 0 then
      some ({ params with string_params := params.string_params ++ [rest] }, [])
    else none
  | ParamType.MAX =>
    if key.isPrefixOf rest then some (params, rest.drop key.length) else none

mutual
/-- `Trie::find(req_url, node, pos, params)` with `rest = req_url.drop pos`. -/
def Trie.find_node (strtod : StrtodFn) :
    Node → List Char → routing_params → Nat × routing_params
  | Node.mk rule_index _ _ children, rest, params =>
    if rest = [] then (rule_index, params)
    else Trie.find_children strtod children rest params (0, routing_params.empty)
/-- The `for` loop over `node->children` in `Trie::find`, started with the given
`(found, match_params)`. -/
def Trie.find_children (strtod : StrtodFn) :
    List Node → List Char → routing_params → Nat × routing_params → Nat × routing_params
  | [], _, _, acc => acc
  | Node.mk r k p cs :: more, rest, params, acc =>
    Trie.find_children strtod more rest params
      (match enter strtod p k rest params with
        | none => acc
        | some x => update_found acc (Trie.find_node strtod (Node.mk r k p cs) x.2 x.1))
end

/-- `Trie::find(req_url)`, the call with the default arguments. -/
def Trie.find (strtod : StrtodFn) (t : Trie) (req_url : List Char) : Nat × routing_params :=
  Trie.find_node strtod t.head_ req_url routing_params.empty

/-! ## `Trie::add` -/

/-- The static table `paramTraits` of `Trie::add`. -/
def paramTraits : List (ParamType × List Char) :=
  [ (ParamType.INT, "<int>".toList),
    (ParamType.UINT, "<uint>".toList),
    (ParamType.DOUBLE, "<float>".toList),
    (ParamType.DOUBLE, "<double>".toList),
    (ParamType.STRING, "<str>".toList),
    (ParamType.STRING, "<string>".toList),
    (ParamType.PATH, "<path>".toList) ]

/-- The state a call of `Trie::add` ends in: the (sub)trie as the call leaves it and
the message of the `std::runtime_error` it throws, if it throws. -/
structure AddOutcome where
  node : Node
  thrown : Option (List Char)
  deriving Repr

/-- Moving `idx` to a child: the `for` loop over `idx->children` that stops at the first
child satisfying `pred`, or, when there is none, `new_node(idx)` initialised to `fresh`.
`f` is the rest of `add`, run with `idx` at that child; the children are returned with
that child as `f` leaves it. -/
def descend (pred : Node → Bool) (fresh : Node) (f : Node → Option AddOutcome) :
    List Node → Option (List Node × Option (List Char))
  | [] => (f fresh).map (fun o => ([o.node], o.thrown))
  | child :: more =>
    if pred child then (f child).map (fun o => (o.node :: more, o.thrown))
    else (descend pred fresh f more).map (fun x => (child :: x.1, x.2))

/-- The `for` loop of `Trie::add(url, rule_index)` from the iteration at which
`url.drop i = rest` and `idx = node`, followed by the final check and assignment.
One unit of fuel is spent per iteration; `none` means the fuel ran out. -/
def Trie.add_loop (url : List Char) (rule_index : Nat) :
    Nat → List Char → Node → Option AddOutcome
  | 0, _, _ => none
  | _ + 1, [], Node.mk r k p cs =>
    if r ≠ 0 then some ⟨Node.mk r k p cs, some ("handler already exists for ".toList ++ url)⟩
    else some ⟨Node.mk rule_index k p cs, none⟩
  | fuel + 1, c :: rest, Node.mk r k p cs =>
    if c = '<' then
      match paramTraits.find? (fun x => x.2.isPrefixOf (c :: rest)) with
      | some x =>
        (descend (fun child => decide (child.param = x.1)) (Node.mk 0 [] x.1 [])
            (Trie.add_loop url rule_index fuel ((c :: rest).drop x.2.length)) cs).map
          (fun y => ⟨Node.mk r k p y.1, y.2⟩)
      | none =>
        -- no name of the table matches: `i --` and then `i ++` leave `i` where it was
        Trie.add_loop url rule_index fuel (c :: rest) (Node.mk r k p cs)
    else
      (descend (fun child => decide (child.key0 = c)) (Node.mk 0 [c] ParamType.MAX [])
          (Trie.add_loop url rule_index fuel rest) cs).map
        (fun y => ⟨Node.mk r k p y.1, y.2⟩)

/-- `Trie::add(url, rule_index)`: the trie it leaves and the error it throws, or `none`
when the loop does not come to an end within `url.length + 1` iterations. -/
def Trie.add (t : Trie) (url : List Char) (rule_index : Nat) :
    Option (Trie × Option (List Char)) :=
  (Trie.add_loop url rule_index (url.length + 1) url t.head_).map (fun o => (⟨o.node⟩, o.thrown))

/-! ## `Trie::optimize` and `Trie::validate` -/

mutual
/-- The number of nodes of a subtree. -/
def Node.size : Node → Nat
  | Node.mk _ _ _ cs => 1 + Node.sizeList cs
/-- The number of nodes of a list of subtrees. -/
def Node.sizeList : List Node → Nat
  | [] => 0
  | n :: ns => Node.size n + Node.sizeList ns
end

/-- A loop `for (child : children) f(child)` that replaces each child by what `f` makes
of it; `none` when `f` does not return for one of them. -/
def forChildren (f : Node → Option Node) : List Node → Option (List Node)
  | [] => some []
  | child :: more =>
    match f child, forChildren f more with
    | some child', some more' => some (child' :: more')
    | _, _ => none

/-- `Trie::optimizeNode(node)`, one unit of fuel per call; `none` means the fuel ran
out. -/
def Trie.optimizeNode : Nat → Node → Option Node
  | 0, _ => none
  | fuel + 1, Node.mk r k p cs =>
    if cs.isEmpty then some (Node.mk r k p cs)
    else if (Node.mk r k p cs).IsSimpleNode then
      match cs with
      | child_temp :: _ =>
        Trie.optimizeNode fuel
          (Node.mk child_temp.rule_index (k ++ child_temp.key) p child_temp.children)
      | [] => some (Node.mk r k p cs)
    else (forChildren (Trie.optimizeNode fuel) cs).map (fun cs' => Node.mk r k p cs')

/-- `Trie::optimize`: `optimizeNode` on each child of the head, each with as much fuel
as the child has nodes. -/
def Trie.optimize (t : Trie) : Option Trie :=
  (forChildren (fun child => Trie.optimizeNode child.size child) t.head_.children).map
    (fun cs => ⟨Node.mk t.head_.rule_index t.head_.key t.head_.param cs⟩)

/-- `Trie::validate`: throws when the head is not simple, otherwise optimizes. The
result is `none` when `optimize` runs out of fuel; otherwise the trie it leaves and the
message of the error thrown, if any. -/
def Trie.validate (t : Trie) : Option (Trie × Option (List Char)) :=
  if !t.head_.IsSimpleNode then
    some (t, some "Internal error: Trie header should be simple!".toList)
  else (Trie.optimize t).map (fun t' => (t', none))

/-! ## `Router`: registration and validation -/

/-- `RULE_SPECIAL_REDIRECT_SLASH`. -/
def RULE_SPECIAL_REDIRECT_SLASH : Nat := 1

/-- Modelled from the spec: `HTTPMethod::InternalMethodCount` is declared in
`crow/common.h`; the spec lists nine methods and an upper-bound sentinel after them. -/
def InternalMethodCount : Nat := 9

/-- `BaseRule`: the data members that registration reads, the pattern `rule_`, the
bitmask `methods_` of the allowed methods and the display name `name_`. -/
structure BaseRule where
  rule_ : List Char
  methods_ : Nat
  name_ : List Char
  deriving DecidableEq, Repr

/-- `Router::PerMethod`: the rule pointers, indexed by rule id (`none` is a null pointer),
and the trie. -/
structure PerMethod where
  rules : List (Option BaseRule)
  trie : Trie

/-- `PerMethod()`: positions 0 and 1 of `rules` are preallocated. -/
def PerMethod.init : PerMethod := ⟨[none, none], Trie.init⟩

/-- The body of the lambda that `Router::internal_add_rule_object` hands to
`foreach_method`, as it acts on `per_methods_[method]`: the table it leaves and the
error thrown, or `none` when a call of `Trie::add` does not return. -/
def PerMethod.add_rule (pm : PerMethod) (rule : List Char) (has_trailing_slash : Bool)
    (rule_without_trailing_slash : List Char) (ruleObject : BaseRule) :
    Option (PerMethod × Option (List Char)) :=
  let rules := pm.rules ++ [some ruleObject]
  match Trie.add pm.trie rule (rules.length - 1) with
  | none => none
  | some (t, some e) => some (⟨rules, t⟩, some e)
  | some (t, none) =>
    if has_trailing_slash then
      (Trie.add t rule_without_trailing_slash RULE_SPECIAL_REDIRECT_SLASH).map
        (fun x => (⟨rules, x.1⟩, x.2))
    else some (⟨rules, t⟩, none)

/-- A loop whose body may throw or not return: the body `f` is run on each element in
turn, until one throws (`some` message) or does not return (`none`). -/
def forEach {α σ : Type} (f : α → σ → Option (σ × Option (List Char))) :
    List α → σ → Option (σ × Option (List Char))
  | [], s => some (s, none)
  | x :: xs, s =>
    match f x s with
    | none => none
    | some (s', some e) => some (s', some e)
    | some (s', none) => forEach f xs s'

/-- The test `methods_ & method_bit` of `BaseRule::foreach_method`, where `method_bit`
is `1 << method`: whether the bit of the method is set in the bitmask. It is written
with division and remainder. -/
def BaseRule.allows (ruleObject : BaseRule) (method : Nat) : Bool :=
  ruleObject.methods_ / 2 ^ method % 2 != 0

/-- `BaseRule::foreach_method`: `f(method)` for each method below `InternalMethodCount`,
in ascending order, whose bit is set in `methods_`. -/
def BaseRule.foreach_method {σ : Type} (ruleObject : BaseRule)
    (f : Nat → σ → Option (σ × Option (List Char))) (s : σ) : Option (σ × Option (List Char)) :=
  forEach f ((List.range InternalMethodCount).filter ruleObject.allows) s

/-- `Router`: the per-method tables `per_methods_`, indexed by the method, and the rules
`all_rules_`. -/
structure Router where
  per_methods_ : Nat → PerMethod
  all_rules_ : List BaseRule

/-- A router that holds the given rules and has not been validated. -/
def Router.init (rules : List BaseRule) : Router :=
  { per_methods_ := fun _ => PerMethod.init, all_rules_ := rules }

/-- An operation on `per_methods_[method]` that may throw or not return, as it acts on
the router. -/
def Router.on_per_method (op : PerMethod → Option (PerMethod × Option (List Char)))
    (method : Nat) (router : Router) : Option (Router × Option (List Char)) :=
  (op (router.per_methods_ method)).map
    (fun x =>
      ({ router with per_methods_ := Function.update router.per_methods_ method x.1 }, x.2))

/-- The local `has_trailing_slash` of `Router::internal_add_rule_object`:
`rule.size() > 1 && rule.back() == '/'`. -/
def has_trailing_slash (rule : List Char) : Bool :=
  decide (rule.length > 1) && (rule.getLast? == some '/')

/-- The local `rule_without_trailing_slash` of `Router::internal_add_rule_object`: the
rule after `pop_back()` when it has a trailing slash, and empty otherwise. -/
def rule_without_trailing_slash (rule : List Char) : List Char :=
  if has_trailing_slash rule then rule.dropLast else []

/-- `Router::internal_add_rule_object(rule, ruleObject)`. -/
def Router.internal_add_rule_object (router : Router) (rule : List Char)
    (ruleObject : BaseRule) : Option (Router × Option (List Char)) :=
  ruleObject.foreach_method
    (Router.on_per_method (fun per_method =>
      per_method.add_rule rule (has_trailing_slash rule) (rule_without_trailing_slash rule)
        ruleObject))
    router

/-- The statement `per_method.trie.validate()` of `Router::validate`, as it acts on the
per-method table. -/
def PerMethod.validate (per_method : PerMethod) : Option (PerMethod × Option (List Char)) :=
  (per_method.trie.validate).map (fun x => (⟨per_method.rules, x.1⟩, x.2))

/-- The body of the first loop of `Router::validate`, for the rule at index `i` of
`all_rules_`. The calls `rule->upgrade()` and `rule->validate()` concern the handlers of
the rule and are the parameter `check`: it returns the rule that takes the place at
index `i` (the upgraded rule, if there is one, otherwise the rule itself) and the
message of the error that `rule->validate()` throws, if it throws. -/
def Router.validate_rule (check : BaseRule → BaseRule × Option (List Char)) (i : Nat)
    (rule : BaseRule) (r : Router) : Option (Router × Option (List Char)) :=
  match check rule with
  | (rule', some e) => some ({ r with all_rules_ := r.all_rules_.set i rule' }, some e)
  | (rule', none) =>
    Router.internal_add_rule_object { r with all_rules_ := r.all_rules_.set i rule' }
      rule'.rule_ rule'

/-- `Router::validate`: the loop over `all_rules_`, then `trie.validate()` on the table
of every method. -/
def Router.validate (check : BaseRule → BaseRule × Option (List Char)) (router : Router) :
    Option (Router × Option (List Char)) :=
  match forEach (fun (x : Nat × BaseRule) => Router.validate_rule check x.1 x.2)
      router.all_rules_.enum router with
  | none => none
  | some (r, some e) => some (r, some e)
  | some (r, none) =>
    forEach (Router.on_per_method PerMethod.validate) (List.range InternalMethodCount) r

/-! ## The handler binder: `detail::routing_handler_call_helper` -/

/-- The four parameter types for which `routing_handler_call_helper::call` has a
specialisation: `int64_t`, `uint64_t`, `double` and `std::string`. -/
inductive ArgType where
  | int64_t
  | uint64_t
  | double
  | string
  deriving DecidableEq, Repr

/-- `call_pair<T, Pos>`: a parameter type and a position in the sequence of that type. -/
structure call_pair where
  type : ArgType
  pos : Nat
  deriving DecidableEq, Repr

/-- The template `call<F, NInt, NUint, NDouble, NString, S<Args1...>, S<Args2...>>`. The
specialisations for a list `Args1` that starts with `int64_t`, `uint64_t`, `double` or
`std::string` push the `call_pair` of that type and of its counter on `Args2` and go on
with the rest of `Args1` and the counter raised by one. The specialisation for the empty
`Args1` calls the handler with `params.get<T>(pos)` for each pair of `Args2`: the result
is that list of pairs, in the order of the handler's arguments. -/
def call : Nat → Nat → Nat → Nat → List ArgType → List call_pair → List call_pair
  | _, _, _, _, [], Args2 => Args2
  | NInt, NUint, NDouble, NString, ArgType.int64_t :: Args1, Args2 =>
    call (NInt + 1) NUint NDouble NString Args1 (Args2 ++ [⟨ArgType.int64_t, NInt⟩])
  | NInt, NUint, NDouble, NString, ArgType.uint64_t :: Args1, Args2 =>
    call NInt (NUint + 1) NDouble NString Args1 (Args2 ++ [⟨ArgType.uint64_t, NUint⟩])
  | NInt, NUint, NDouble, NString, ArgType.double :: Args1, Args2 =>
    call NInt NUint (NDouble + 1) NString Args1 (Args2 ++ [⟨ArgType.double, NDouble⟩])
  | NInt, NUint, NDouble, NString, ArgType.string :: Args1, Args2 =>
    call NInt NUint NDouble (NString + 1) Args1 (Args2 ++ [⟨ArgType.string, NString⟩])

/-- A value of one of the four parameter types: an argument of a handler. -/
inductive Value where
  | int64_t (v : Int)
  | uint64_t (v : Nat)
  | double (v : Double)
  | string (v : List Char)
  deriving DecidableEq, Repr

/-- Modelled from the spec: `routing_params::get<T>(index)` is declared in
`crow/common.h`. The spec has the binder read a value by the pair of its kind and of its
ordinal within that kind: the element at `index` of the sequence for `T`. The result is
`none` when the sequence has no such element. -/
def routing_params.get (params : routing_params) (T : ArgType) (index : Nat) : Option Value :=
  match T with
  | ArgType.int64_t => (params.int_params.get? index).map Value.int64_t
  | ArgType.uint64_t => (params.uint_params.get? index).map Value.uint64_t
  | ArgType.double => (params.double_params.get? index).map Value.double
  | ArgType.string => (params.string_params.get? index).map Value.string

/-- The arguments that `TaggedRule<Args...>::handle(req, res, params)` hands to `handler_`
after `req` and `res`: the instance of `call` with the four counters at 0, the list
`Args...` and the empty list. -/
def TaggedRule.handle_args (Args : List ArgType) (params : routing_params) : List (Option Value) :=
  (call 0 0 0 0 Args []).map (fun p => params.get p.type p.pos)



/-! ## Requests, responses and handlers -/

/-- Modelled from the spec: the enumeration `HTTPMethod` and the function `method_name`
are declared in `crow/common.h`. The spec names the methods GET, POST, PUT, DELETE,
PATCH, HEAD, OPTIONS, CONNECT and TRACE and an upper-bound sentinel, but not their
numbers. `Router::handle` reads the numbers of `Get`, `Head` and `Options` and the names
of the methods: they are the fields of this structure, and what is proved of
`Router::handle` is proved for every numbering. -/
structure HTTPMethod where
  Get : Nat
  Head : Nat
  Options : Nat
  method_name : Nat → List Char

/-- Modelled from the spec: `request` is declared in `crow/http_request.h`. The spec gives
a request a method, a URL path and headers. -/
structure request where
  method : Nat
  url : List Char
  headers : List (List Char × List Char)
  deriving DecidableEq, Repr

/-- Modelled from the spec: `request::get_header_value(key)`. The headers are a
case-insensitive map: the result is the value of the header whose name is `key` up to
case, and the empty string when there is none. -/
def request.get_header_value (req : request) (key : List Char) : List Char :=
  match req.headers.find? (fun h => h.1.map Char.toLower == key.map Char.toLower) with
  | some h => h.2
  | none => []

/-- Modelled from the spec: `response` is declared in `crow/http_response.h`. The spec
gives a response a status code, headers, a body, the flag that marks the response to a
HEAD request and the flag `manual_length_header`; `completed_` records the call of
`end()`. -/
structure response where
  code : Nat
  headers : List (List Char × List Char)
  body : List Char
  is_head_response : Bool
  manual_length_header : Bool
  completed_ : Bool
  deriving DecidableEq, Repr

/-- Modelled from the spec: the constructor `response(code)`, a response with the given
status code, without headers and without a body. -/
def response.ofCode (code : Nat) : response :=
  { code := code, headers := [], body := [], is_head_response := false,
    manual_length_header := false, completed_ := false }

/-- Modelled from the spec: the assignment `res = response(...)`. Status code, headers and
body become those of the right-hand side; the two flags are left as they are, as the
spec has the mark that a HEAD request sets hold for the response that the dispatch as
GET produces. -/
def response.assign (res r : response) : response :=
  { res with code := r.code, headers := r.headers, body := r.body, completed_ := r.completed_ }

/-- Modelled from the spec: `response::add_header(key, value)`, one more header. -/
def response.add_header (res : response) (key value : List Char) : response :=
  { res with headers := res.headers ++ [(key, value)] }

/-- Modelled from the spec: `response::set_header(key, value)`: the headers of that name,
up to case, are replaced by the one given. -/
def response.set_header (res : response) (key value : List Char) : response :=
  { res with
    headers := res.headers.filter (fun h => h.1.map Char.toLower != key.map Char.toLower) ++
      [(key, value)] }

/-- Modelled from the spec: `response::end()` completes the response; `end` being a
reserved word, the name has an underscore. -/
def response.end_ (res : response) : response :=
  { res with completed_ := true }

/-- What a call of a handler leaves behind: the response as the handler leaves it, and
the message of the exception with which the call ends, if it ends with one. -/
structure HandlerOutcome where
  res : response
  thrown : Option (List Char)
  deriving DecidableEq, Repr

/-- The closures that `Router::handle` calls. `catchall` is `catchall_rule_.handler_`
(`none` for an empty `std::function`, for which `has_handler()` is false); `handle` is the
virtual `BaseRule::handle` of the rule objects. -/
structure Handlers where
  catchall : Option (request → response → HandlerOutcome)
  handle : BaseRule → request → response → routing_params → HandlerOutcome

/-- A call of a handler that `Router::handle` makes, with its arguments. -/
inductive Call where
  | catchall (req : request) (res : response)
  | rule (rule : BaseRule) (req : request) (res : response) (params : routing_params)
  deriving DecidableEq, Repr

/-- The state in which a call of `Router::handle` ends: the response, the message of the
exception that leaves the call, if one does, and the calls of handlers made, in order. -/
structure Handled where
  res : response
  thrown : Option (List Char)
  calls : List Call
  deriving DecidableEq, Repr

/-- `TaggedRule<Args...>::handle(req, res, params)`: `handler_` is called with `req`, `res`
and the arguments that `call` reads from `params`. -/
def TaggedRule.handle (Args : List ArgType)
    (handler_ : request → response → List (Option Value) → HandlerOutcome)
    (req : request) (res : response) (params : routing_params) : HandlerOutcome :=
  handler_ req res (TaggedRule.handle_args Args params)

/-! ## `Router::handle` -/

/-- The loops of the `OPTIONS` branch of `Router::handle`: for each method `i` below
`InternalMethodCount`, in ascending order, `method_name(i) + ", "` is appended to
`allow` when the test holds of `per_methods_[i]`. -/
def Router.allow_loop (M : HTTPMethod) (router : Router) (test : PerMethod → Bool)
    (allow : List Char) : List Char :=
  (List.range InternalMethodCount).foldl
    (fun allow i =>
      if test (router.per_methods_ i) then allow ++ (M.method_name i ++ ", ".toList) else allow)
    allow

/-- The end of the two successful `OPTIONS` branches: `allow.substr(0, allow.size()-2)`,
`res = response(204)`, `res.set_header("Allow", allow)`,
`res.manual_length_header = true`, `res.end()`. -/
def Router.respond_allow (res : response) (allow : List Char) : response :=
  ({ (res.assign (response.ofCode 204)).set_header "Allow".toList
      (allow.take (allow.length - 2)) with manual_length_header := true }).end_

/-- The part of `Router::handle` that follows the branches on `req.method`, from the
lookup of `req.url` in the trie of `method_actual` on. The result is `none` when the
behaviour is undefined because `rules[rule_index]` is a null pointer. -/
def Router.dispatch (strtod : StrtodFn) (H : Handlers) (router : Router) (method_actual : Nat)
    (req : request) (res : response) : Option Handled :=
  let per_method := router.per_methods_ method_actual
  let found := Trie.find strtod per_method.trie req.url
  if found.1 = 0 then
    if (List.range InternalMethodCount).any
        (fun i => (Trie.find strtod (router.per_methods_ i).trie req.url).1 != 0) then
      some ⟨(res.assign (response.ofCode 405)).end_, none, []⟩
    else
      match H.catchall with
      | some handler_ =>
        match (handler_ req res).thrown with
        | some e => some ⟨(handler_ req res).res, some e, [Call.catchall req res]⟩
        | none => some ⟨(handler_ req res).res.end_, none, [Call.catchall req res]⟩
      | none => some ⟨(res.assign (response.ofCode 404)).end_, none, []⟩
  else if found.1 ≥ per_method.rules.length then
    some ⟨res, some "Trie internal structure corrupted!".toList, []⟩
  else if found.1 = RULE_SPECIAL_REDIRECT_SLASH then
    if (req.get_header_value "Host".toList).isEmpty then
      some ⟨((res.assign (response.ofCode 301)).add_header "Location".toList
        (req.url ++ "/".toList)).end_, none, []⟩
    else
      some ⟨((res.assign (response.ofCode 301)).add_header "Location".toList
        ("http://".toList ++ req.get_header_value "Host".toList ++ req.url ++ "/".toList)).end_,
        none, []⟩
  else
    match per_method.rules.get? found.1 with
    | some (some rule) =>
      match (H.handle rule req res found.2).thrown with
      | some _ =>
        some ⟨((H.handle rule req res found.2).res.assign (response.ofCode 500)).end_, none,
          [Call.rule rule req res found.2]⟩
      | none => some ⟨(H.handle rule req res found.2).res, none, [Call.rule rule req res found.2]⟩
    | _ => none

/-- `Router::handle(req, res)`. -/
def Router.handle (M : HTTPMethod) (strtod : StrtodFn) (H : Handlers) (router : Router)
    (req : request) (res : response) : Option Handled :=
  if req.method ≥ InternalMethodCount then some ⟨res, none, []⟩
  else if req.method = M.Head then
    Router.dispatch strtod H router M.Get req { res with is_head_response := true }
  else if req.method = M.Options then
    if req.url = "/*".toList then
      some ⟨Router.respond_allow res
        (Router.allow_loop M router (fun per_method => !per_method.trie.is_empty)
          "OPTIONS, HEAD, ".toList), none, []⟩
    else if Router.allow_loop M router
        (fun per_method => (Trie.find strtod per_method.trie req.url).1 != 0)
        "OPTIONS, HEAD, ".toList ≠ "OPTIONS, HEAD, ".toList then
      some ⟨Router.respond_allow res
        (Router.allow_loop M router
          (fun per_method => (Trie.find strtod per_method.trie req.url).1 != 0)
          "OPTIONS, HEAD, ".toList), none, []⟩
    else some ⟨(res.assign (response.ofCode 404)).end_, none, []⟩
  else Router.dispatch strtod H router req.method req res



/-! ## `Router::handle_upgrade` -/

/-- The state in which a call of `Router::handle_upgrade` ends: the response, the message
of the exception that leaves the call, if one does, and the calls of
`rules[rule_index]->handle_upgrade(req, res, adaptor)` made, each with the rule, the
request and the response it is given. -/
structure Upgraded where
  res : response
  thrown : Option (List Char)
  calls : List (BaseRule × request × response)
  deriving DecidableEq, Repr

/-- `Router::handle_upgrade(req, res, adaptor)`. The parameter `upgrade` is the virtual
`BaseRule::handle_upgrade` of the rule objects; the adaptor, which it takes over, belongs
to the I/O layer and is left out. The result is `none` when the behaviour is undefined
because `rules[rule_index]` is a null pointer. -/
def Router.handle_upgrade (strtod : StrtodFn)
    (upgrade : BaseRule → request → response → HandlerOutcome) (router : Router)
    (req : request) (res : response) : Option Upgraded :=
  if req.method ≥ InternalMethodCount then some ⟨res, none, []⟩
  else
    let per_method := router.per_methods_ req.method
    let rule_index := (Trie.find strtod per_method.trie req.url).1
    if rule_index = 0 then
      if (List.range InternalMethodCount).any
          (fun i => (Trie.find strtod (router.per_methods_ i).trie req.url).1 != 0) then
        some ⟨(res.assign (response.ofCode 405)).end_, none, []⟩
      else some ⟨(res.assign (response.ofCode 404)).end_, none, []⟩
    else if rule_index ≥ per_method.rules.length then
      some ⟨res, some "Trie internal structure corrupted!".toList, []⟩
    else if rule_index = RULE_SPECIAL_REDIRECT_SLASH then
      if (req.get_header_value "Host".toList).isEmpty then
        some ⟨((res.assign (response.ofCode 301)).add_header "Location".toList
          (req.url ++ "/".toList)).end_, none, []⟩
      else
        some ⟨((res.assign (response.ofCode 301)).add_header "Location".toList
          ("http://".toList ++ req.get_header_value "Host".toList ++ req.url ++
            "/".toList)).end_, none, []⟩
    else
      match per_method.rules.get? rule_index with
      | some (some rule) =>
        match (upgrade rule req res).thrown with
        | some _ =>
          some ⟨((upgrade rule req res).res.assign (response.ofCode 500)).end_, none,
            [(rule, req, res)]⟩
        | none => some ⟨(upgrade rule req res).res, none, [(rule, req, res)]⟩
      | _ => none



/-! ## The allowed methods of a rule -/

/-- The constructor `BaseRule(rule)`: the pattern is `rule`, the name is empty, and the
default member initialiser of the `uint32_t methods_` is
`1 << static_cast<int>(HTTPMethod::Get)`. -/
def BaseRule.new (M : HTTPMethod) (rule : List Char) : BaseRule :=
  { rule_ := rule, methods_ := 2 ^ M.Get % 2 ^ 32, name_ := [] }

/-- `RuleParameterTraits<T>::methods`, the two overloads: `methods(method)` assigns
`1 << static_cast<int>(method)` to `methods_`; `methods(method, args_method...)` calls
`methods(args_method...)` and then ors `1 << static_cast<int>(method)` into `methods_`.
The first argument is `method`, the list holds `args_method...`. -/
def RuleParameterTraits.methods (self : BaseRule) : Nat → List Nat → BaseRule
  | method, [] => { self with methods_ := 2 ^ method % 2 ^ 32 }
  | method, next :: args_method =>
    { RuleParameterTraits.methods self next args_method with
      methods_ :=
        ((RuleParameterTraits.methods self next args_method).methods_ ||| 2 ^ method) % 2 ^ 32 }




/-! ## The build-time checks of the rules -/

/-- `DynamicRule::validate`: throws when `erased_handler_` is empty. The message is
`name_ + (!name_.empty() ? ": " : "") + "no handler for url " + rule_`. -/
def DynamicRule.validate (rule : BaseRule) (has_handler : Bool) : Option (List Char) :=
  if !has_handler then
    some (rule.name_ ++ (if rule.name_ ≠ [] then ": ".toList else []) ++
      "no handler for url ".toList ++ rule.rule_)
  else none

/-- `TaggedRule::validate`: throws when `handler_` is empty, with the message of
`DynamicRule::validate`. -/
def TaggedRule.validate (rule : BaseRule) (has_handler : Bool) : Option (List Char) :=
  if !has_handler then
    some (rule.name_ ++ (if rule.name_ ≠ [] then ": ".toList else []) ++
      "no handler for url ".toList ++ rule.rule_)
  else none

/-- The check of `DynamicRule::wrap`: it throws when the parameter tag of the pattern and
the tag of the handler's arguments are not compatible. The test, from `crow/utility.h`,
is the parameter `compatible`. -/
def DynamicRule.wrap (rule : BaseRule) (compatible : Bool) : Option (List Char) :=
  if !compatible then
    some ("route_dynamic: Handler type is mismatched with URL parameters: ".toList ++ rule.rule_)
  else none

/-! ## Definitions used in the statements and proofs -/

/-- The number a string of decimal digits denotes. -/
def decimalValue (ds : List Char) : Nat := Nat.ofDigits 10 (ds.reverse.map digitVal)

/-- The integer that the sign `sign` and the digits `ds` denote. -/
def signedValue (sign ds : List Char) : Int :=
  if sign = ['-'] then -(decimalValue ds : Int) else (decimalValue ds : Int)

/-- One iteration of the `for` loop of `Trie::find`, as the pair handed to
`update_found`; a skipped child counts as the pair `(0, empty)`, which `update_found`
ignores. -/
def Trie.visit (strtod : StrtodFn) (child : Node) (rest : List Char) (params : routing_params) :
    Nat × routing_params :=
  match enter strtod child.param child.key rest params with
  | none => (0, routing_params.empty)
  | some x => Trie.find_node strtod child x.2 x.1

/-- A root-to-node path that completely matches the URL: starting at `node` with the
rest of the URL and the parameters bound so far, each step enters a child as the loop
of `Trie::find` does, and the path ends at a node where the whole URL is consumed. The
last two indices are the rule id of the final node and the parameters bound on the
way. -/
inductive Trie.CompleteMatch (strtod : StrtodFn) :
    Node → List Char → routing_params → Nat → routing_params → Prop
  | here (node : Node) (params : routing_params) :
    Trie.CompleteMatch strtod node [] params node.rule_index params
  | step (node child : Node) (rest : List Char) (params : routing_params)
      (x : routing_params × List Char) (r : Nat) (out : routing_params) :
    child ∈ node.children →
    enter strtod child.param child.key rest params = some x →
    Trie.CompleteMatch strtod child x.2 x.1 r out →
    Trie.CompleteMatch strtod node rest params r out

/-- No literal node below the root has an empty key. -/
inductive Node.KeysOk : Node → Prop
  | mk (r : Nat) (k : List Char) (p : ParamType) (cs : List Node) :
    (∀ c ∈ cs, c.param = ParamType.MAX → c.key ≠ []) → (∀ c ∈ cs, Node.KeysOk c) →
    Node.KeysOk (Node.mk r k p cs)

/-- The shape of an unoptimized trie: below the root, a literal node has a key of one
character and a parameter node has an empty key. -/
inductive Node.Raw : Node → Prop
  | mk (r : Nat) (k : List Char) (p : ParamType) (cs : List Node) :
    (∀ c ∈ cs, (c.param = ParamType.MAX ∧ ∃ ch, c.key = [ch]) ∨
      (c.param ≠ ParamType.MAX ∧ c.key = [])) →
    (∀ c ∈ cs, Node.Raw c) → Node.Raw (Node.mk r k p cs)

/-- The tries that calls of `Trie::add` build from the empty trie; a call that throws
counts with the state it leaves. -/
inductive Trie.Built : Trie → Prop
  | init : Trie.Built Trie.init
  | add (t t' : Trie) (url : List Char) (rule_index : Nat) (err : Option (List Char)) :
    Trie.Built t → Trie.add t url rule_index = some (t', err) → Trie.Built t'

/-- A pattern with a `<` at which no name of `paramTraits` starts. -/
def HasBadOpen (url : List Char) : Prop :=
  ∃ pre post, url = pre ++ '<' :: post ∧
    paramTraits.find? (fun x => x.2.isPrefixOf ('<' :: post)) = none

/-- The message `Trie::add` throws for a pattern that is already in the trie. -/
def alreadyExists (url : List Char) : List Char := "handler already exists for ".toList ++ url

/-- Two results of a recursive `find` that `update_found` cannot tell apart: equal, or
both without a rule. -/
def SameFound (x y : Nat × routing_params) : Prop := x = y ∨ (x.1 = 0 ∧ y.1 = 0)

/-- The label of a node below the root: its parameter kind and its key. -/
abbrev Label := ParamType × List Char

/-- The greedy run of `Trie::find` along a path of labels: each label is entered as the
loop of `find` enters a child, and at the end of the path the URL must be used up. The
result is the parameters bound on the way. -/
def matchPath (strtod : StrtodFn) : List Label → List Char → routing_params → Option routing_params
  | [], rest, params => if rest = [] then some params else none
  | l :: more, rest, params =>
    match enter strtod l.1 l.2 rest params with
    | none => none
    | some x => matchPath strtod more x.2 x.1

mutual
/-- The nodes of a subtree, each as the labels on the way to it and its rule index. -/
def Node.entries : Node → List (List Label × Nat)
  | Node.mk r _ _ cs => ([], r) :: Node.entriesList cs
/-- The nodes below a list of children. -/
def Node.entriesList : List Node → List (List Label × Nat)
  | [] => []
  | c :: cs => (Node.entries c).map (fun e => ((c.param, c.key) :: e.1, e.2)) ++ Node.entriesList cs
end

/-- The segments of a pattern as `Trie::add` reads them: a name of `paramTraits` where a
`<` starts one, single characters elsewhere; each with the label of the node that `add`
creates for it. -/
inductive Tokens : List Char → List Label → Prop
  | nil : Tokens [] []
  | lit (c : Char) (rest : List Char) (ls : List Label) :
    c ≠ '<' → Tokens rest ls → Tokens (c :: rest) ((ParamType.MAX, [c]) :: ls)
  | tok (rest : List Char) (x : ParamType × List Char) (ls : List Label) :
    paramTraits.find? (fun x => x.2.isPrefixOf ('<' :: rest)) = some x →
    Tokens (('<' :: rest).drop x.2.length) ls → Tokens ('<' :: rest) ((x.1, []) :: ls)

/-- No parameter node lies below the node. -/
inductive Node.NoParamBelow : Node → Prop
  | mk (r : Nat) (k : List Char) (p : ParamType) (cs : List Node) :
    (∀ c ∈ cs, c.param = ParamType.MAX) → (∀ c ∈ cs, Node.NoParamBelow c) →
    Node.NoParamBelow (Node.mk r k p cs)

/-- The labels of a pattern without `<`: one literal node per character. -/
def literalLabels (P : List Char) : List Label := P.map (fun c => (ParamType.MAX, [c]))

/-- One segment of a pattern together with the text that takes its place in a URL: a
literal character, or one of the tokens with a value. The flag of `dbl` and `str` tells
the two spellings of the token apart (`<float>`/`<double>`, `<str>`/`<string>`). -/
inductive Piece where
  | lit (c : Char)
  | int (text : List Char)
  | uint (text : List Char)
  | dbl (long : Bool) (text : List Char)
  | str (long : Bool) (text : List Char)
  | path (text : List Char)

/-- The segment as it is written in the pattern. -/
def Piece.pattern : Piece → List Char
  | Piece.lit c => [c]
  | Piece.int _ => ['<', 'i', 'n', 't', '>']
  | Piece.uint _ => ['<', 'u', 'i', 'n', 't', '>']
  | Piece.dbl false _ => ['<', 'f', 'l', 'o', 'a', 't', '>']
  | Piece.dbl true _ => ['<', 'd', 'o', 'u', 'b', 'l', 'e', '>']
  | Piece.str false _ => ['<', 's', 't', 'r', '>']
  | Piece.str true _ => ['<', 's', 't', 'r', 'i', 'n', 'g', '>']
  | Piece.path _ => ['<', 'p', 'a', 't', 'h', '>']

/-- The text that stands for the segment in the URL. -/
def Piece.text : Piece → List Char
  | Piece.lit c => [c]
  | Piece.int text => text
  | Piece.uint text => text
  | Piece.dbl _ text => text
  | Piece.str _ text => text
  | Piece.path text => text

/-- The label of the node that `add` creates for the segment. -/
def Piece.label : Piece → Label
  | Piece.lit c => (ParamType.MAX, [c])
  | Piece.int _ => (ParamType.INT, [])
  | Piece.uint _ => (ParamType.UINT, [])
  | Piece.dbl _ _ => (ParamType.DOUBLE, [])
  | Piece.str _ _ => (ParamType.STRING, [])
  | Piece.path _ => (ParamType.PATH, [])

/-- The pattern made of the segments. -/
def patternOf (ps : List Piece) : List Char := ps.flatMap Piece.pattern

/-- The URL made of the texts of the segments. -/
def urlOf (ps : List Piece) : List Char := ps.flatMap Piece.text

/-- The integer that the text of an `<int>` or `<uint>` value denotes. -/
def numeralValue (text : List Char) : Int :=
  signedValue (text.take (signLen text)) (text.drop (signLen text))

/-- The text is a valid value of the segment's kind and is delimited by `after`, the
text that follows it in the URL: a literal character is not `<`; an `<int>` value is an
optional sign and digits within the signed 64-bit range, a `<uint>` value an optional
`+` and digits below `2^64`, and neither is followed by a digit; a `<float>` value is
a non-empty text that `strtod` converts as a whole without a range error; a `<string>`
value is non-empty without `/` and is followed by `/` or by nothing; a `<path>` value is
non-empty and followed by nothing. -/
def Piece.ok (strtod : StrtodFn) : Piece → List Char → Prop
  | Piece.lit c, _ => c ≠ '<'
  | Piece.int text, after =>
    (∃ sign ds, text = sign ++ ds ∧ (sign = [] ∨ sign = ['+'] ∨ sign = ['-']) ∧ ds ≠ [] ∧
      (∀ c ∈ ds, isdigit c = true) ∧
      -(2 ^ 63 : Int) ≤ signedValue sign ds ∧ signedValue sign ds ≤ 2 ^ 63 - 1) ∧
    (∀ c, after.head? = some c → isdigit c = false)
  | Piece.uint text, after =>
    (∃ sign ds, text = sign ++ ds ∧ (sign = [] ∨ sign = ['+']) ∧ ds ≠ [] ∧
      (∀ c ∈ ds, isdigit c = true) ∧ decimalValue ds < 2 ^ 64) ∧
    (∀ c, after.head? = some c → isdigit c = false)
  | Piece.dbl _ text, after =>
    (∃ c cs, text = c :: cs ∧ (isdigit c || c == '+' || c == '-' || c == '.') = true) ∧
      (strtod (text ++ after)).consumed = text.length ∧ (strtod (text ++ after)).erange = false
  | Piece.str _ text, after =>
    text ≠ [] ∧ '/' ∉ text ∧ (after = [] ∨ after.head? = some '/')
  | Piece.path text, after => text ≠ [] ∧ after = []

/-- Every segment has a valid value that is delimited by what follows it in the URL. -/
def allOk (strtod : StrtodFn) : List Piece → Prop
  | [] => True
  | p :: ps => p.ok strtod (urlOf ps) ∧ allOk strtod ps

/-- Appending the sequences of two `routing_params`, kind by kind. -/
def routing_params.append (a b : routing_params) : routing_params :=
  ⟨a.int_params ++ b.int_params, a.uint_params ++ b.uint_params,
    a.double_params ++ b.double_params, a.string_params ++ b.string_params⟩

/-- The value of one segment, in the sequence of its kind (`<string>` and `<path>` values
share `string_params`); `after` is the text that follows the value in the URL. -/
def Piece.value (strtod : StrtodFn) : Piece → List Char → routing_params
  | Piece.lit _, _ => routing_params.empty
  | Piece.int text, _ => ⟨[numeralValue text], [], [], []⟩
  | Piece.uint text, _ => ⟨[], [(numeralValue text).toNat], [], []⟩
  | Piece.dbl _ text, after => ⟨[], [], [(strtod (text ++ after)).value], []⟩
  | Piece.str _ text, _ => ⟨[], [], [], [text]⟩
  | Piece.path text, _ => ⟨[], [], [], [text]⟩

/-- The values of the segments, in the order of the segments. -/
def valuesOf (strtod : StrtodFn) : List Piece → routing_params
  | [] => routing_params.empty
  | p :: ps => (p.value strtod (urlOf ps)).append (valuesOf strtod ps)

/-- What `internal_add_rule_object(rule->rule(), rule)` does to the table of a method
that the rule allows. -/
def PerMethod.register (ruleObject : BaseRule) (pm : PerMethod) :
    Option (PerMethod × Option (List Char)) :=
  pm.add_rule ruleObject.rule_ (has_trailing_slash ruleObject.rule_)
    (rule_without_trailing_slash ruleObject.rule_) ruleObject

/-- The rules that `Router::validate` registers: what `check` makes of the rules of
`all_rules_`, in their order. -/
def checkedRules (check : BaseRule → BaseRule × Option (List Char)) (rules : List BaseRule) :
    List BaseRule :=
  rules.map (fun rule => (check rule).1)

/-- The pattern matches the URL: the greedy run of `find` along the segments of the
pattern uses up the URL. -/
def PatternMatches (strtod : StrtodFn) (P url : List Char) : Prop :=
  ∃ ls out, Tokens P ls ∧ matchPath strtod ls url routing_params.empty = some out

/-- The state of a per-method table in which the rules `regs` have been registered, in
this order: the rule pointers after the two reserved ones, and the nodes of the trie
that carry a rule, which are the node of each pattern with the id of its rule and, for
each pattern with a trailing slash, the node of the pattern without it with id 1. -/
def TableInv (pm : PerMethod) (regs : List BaseRule) : Prop :=
  pm.rules.length = 2 + regs.length ∧ Node.Raw pm.trie.head_ ∧
    ∀ path r, r ≠ 0 →
      ((path, r) ∈ pm.trie.head_.entries ↔
        (∃ i ro, regs[i]? = some ro ∧ Tokens ro.rule_ path ∧ r = i + 2) ∨
          (∃ ro ∈ regs, has_trailing_slash ro.rule_ = true ∧
            Tokens ro.rule_.dropLast path ∧ r = 1))

/-- The trie `t` of a method selects among the rules `regs` registered for the method,
in their order: for every URL, `find` returns 1 when a pattern with a trailing slash
matches the URL once that slash is removed; otherwise the id of the earliest-registered
pattern that matches the URL, the pattern at position `i` (from 0) having id `i + 2`;
and 0 when no pattern matches. -/
def SelectsEarliest (strtod : StrtodFn) (regs : List BaseRule) (t : Trie) : Prop :=
  ∀ url,
    ((∃ ro ∈ regs, has_trailing_slash ro.rule_ = true ∧
        PatternMatches strtod ro.rule_.dropLast url) →
      (Trie.find strtod t url).1 = 1) ∧
    ((¬ ∃ ro ∈ regs, has_trailing_slash ro.rule_ = true ∧
        PatternMatches strtod ro.rule_.dropLast url) →
      (∀ i ro, regs[i]? = some ro → PatternMatches strtod ro.rule_ url →
        (∀ j ro', j < i → regs[j]? = some ro' → ¬ PatternMatches strtod ro'.rule_ url) →
        (Trie.find strtod t url).1 = i + 2) ∧
      ((∀ ro ∈ regs, ¬ PatternMatches strtod ro.rule_ url) →
        (Trie.find strtod t url).1 = 0))

/-- The parameter type of a value. -/
def Value.type : Value → ArgType
  | Value.int64_t _ => ArgType.int64_t
  | Value.uint64_t _ => ArgType.uint64_t
  | Value.double _ => ArgType.double
  | Value.string _ => ArgType.string

/-- The `push_back` of a value on the sequence of its type. -/
def routing_params.push (params : routing_params) : Value → routing_params
  | Value.int64_t v => { params with int_params := params.int_params ++ [v] }
  | Value.uint64_t v => { params with uint_params := params.uint_params ++ [v] }
  | Value.double v => { params with double_params := params.double_params ++ [v] }
  | Value.string v => { params with string_params := params.string_params ++ [v] }

/-- The `routing_params` that hold the given values: each sequence lists the values of
its type, in the order of the list, and nothing else. -/
def collect (vs : List Value) : routing_params :=
  { int_params := vs.filterMap (fun v => match v with | Value.int64_t x => some x | _ => none),
    uint_params := vs.filterMap (fun v => match v with | Value.uint64_t x => some x | _ => none),
    double_params := vs.filterMap (fun v => match v with | Value.double x => some x | _ => none),
    string_params := vs.filterMap (fun v => match v with | Value.string x => some x | _ => none) }

/-- The counter that `call` keeps for a parameter type. -/
def counterOf (NInt NUint NDouble NString : Nat) : ArgType → Nat
  | ArgType.int64_t => NInt
  | ArgType.uint64_t => NUint
  | ArgType.double => NDouble
  | ArgType.string => NString

/-- The tries that calls of `Trie::add` returning without an error build from the empty
trie, with the patterns added and their rule ids, the latest first. -/
inductive Trie.Holds : Trie → List (List Char × Nat) → Prop
  | init : Trie.Holds Trie.init []
  | add (t t' : Trie) (P : List Char) (r : Nat) (added : List (List Char × Nat)) :
    Trie.Holds t added → Trie.add t P r = some (t', none) → Trie.Holds t' ((P, r) :: added)

/-- The enumerators `Get`, `Head` and `Options` are distinct and lie below
`InternalMethodCount`, as in every enumeration that declares them before the sentinel. -/
def HTTPMethod.Valid (M : HTTPMethod) : Prop :=
  M.Get < InternalMethodCount ∧ M.Head < InternalMethodCount ∧
    M.Options < InternalMethodCount ∧ M.Get ≠ M.Head ∧ M.Get ≠ M.Options ∧ M.Head ≠ M.Options

instance (M : HTTPMethod) : Decidable M.Valid := by
  unfold HTTPMethod.Valid
  infer_instance

/-- The effective method of a request: `method_actual` at the lookup of `Router::handle`,
for the requests that reach the lookup. It is `Get` for a HEAD request and the method of
the request otherwise; a request whose method is outside the enumeration, or is OPTIONS,
does not reach the lookup. -/
def effective_method (M : HTTPMethod) (req : request) : Option Nat :=
  if req.method ≥ InternalMethodCount then none
  else if req.method = M.Head then some M.Get
  else if req.method = M.Options then none
  else some req.method

/-- The response with which `Router::handle` goes into the lookup: the response it was
given, marked as the response to a HEAD request when the request is one. -/
def marked (M : HTTPMethod) (req : request) (res : response) : response :=
  if req.method = M.Head then { res with is_head_response := true } else res

/-- The outcome of a handler on a HEAD request agrees with its outcome on the GET request:
the same status code and headers, the same way of ending, and the mark of the response
to a HEAD request still set. -/
def HeadOutcome (oh og : HandlerOutcome) : Prop :=
  oh.res.code = og.res.code ∧ oh.res.headers = og.res.headers ∧ oh.thrown = og.thrown ∧
    oh.res.is_head_response = true

/-- The handlers do not tell a HEAD request from the GET request: called with a HEAD
request and a marked response, each of them leaves the status code and the headers, and
returns or throws, as it does when called with the GET request for the same URL and the
response before the mark, and it leaves the mark. -/
def Handlers.MethodBlind (M : HTTPMethod) (H : Handlers) : Prop :=
  (∀ handler_, H.catchall = some handler_ → ∀ url headers res,
    HeadOutcome (handler_ ⟨M.Head, url, headers⟩ { res with is_head_response := true })
      (handler_ ⟨M.Get, url, headers⟩ res)) ∧
  (∀ rule url headers res params,
    HeadOutcome (H.handle rule ⟨M.Head, url, headers⟩ { res with is_head_response := true } params)
      (H.handle rule ⟨M.Get, url, headers⟩ res params))

/-- The state in which `Router::handle` ends on a HEAD request agrees with the state in
which it ends on the GET request: the same status code and headers, the same exception
leaving the call or none, and the response marked as the response to a HEAD request (or
the behaviour is undefined in both). -/
def HeadAgrees : Option Handled → Option Handled → Prop
  | some rh, some rg =>
    rh.res.code = rg.res.code ∧ rh.res.headers = rg.res.headers ∧ rh.thrown = rg.thrown ∧
      rh.res.is_head_response = true
  | none, none => True
  | _, _ => False

/-- The methods below `InternalMethodCount` whose trie returns a non-zero rule id for
the URL, in ascending order. -/
def Router.matching_methods (strtod : StrtodFn) (router : Router) (url : List Char) : List Nat :=
  (List.range InternalMethodCount).filter
    (fun i => (Trie.find strtod (router.per_methods_ i).trie url).1 != 0)

/-- Two nodes clash as siblings: they are parameter nodes of the same kind, or literal
nodes whose keys begin with the same character. -/
def Node.Clash (a b : Node) : Prop :=
  (a.param ≠ ParamType.MAX ∧ a.param = b.param) ∨
    (a.param = ParamType.MAX ∧ b.param = ParamType.MAX ∧
      ∃ c, a.key.head? = some c ∧ b.key.head? = some c)

/-- Sibling-uniqueness: in the subtree, no node has two children that clash. -/
inductive Node.SiblingsUnique : Node → Prop
  | mk (r : Nat) (k : List Char) (p : ParamType) (cs : List Node) :
    cs.Pairwise (fun a b => ¬ Node.Clash a b) → (∀ c ∈ cs, Node.SiblingsUnique c) →
    Node.SiblingsUnique (Node.mk r k p cs)

mutual
/-- The nodes of a subtree: the node itself and all nodes below it. -/
def Node.subnodes : Node → List Node
  | Node.mk r k p cs => Node.mk r k p cs :: Node.subnodesList cs
/-- The nodes of a list of subtrees. -/
def Node.subnodesList : List Node → List Node
  | [] => []
  | c :: cs => Node.subnodes c ++ Node.subnodesList cs
end

/-- No node of the subtree is left for `optimizeNode` to merge: a node with a child is
not simple. -/
def Node.Compressed (node : Node) : Prop :=
  ∀ x ∈ node.subnodes, x.children = [] ∨ x.IsSimpleNode = false

/-- Every rule index other than 0 that a node of the subtree carries satisfies `S`. -/
def Node.IdsIn (S : Nat → Prop) (node : Node) : Prop :=
  ∀ path r, (path, r) ∈ node.entries → r ≠ 0 → S r

/-- The ids that registering the rules `regs` in a table stores in its trie: 1 when one
of the patterns has a trailing slash, and the positions of the rules in the list of rule
pointers, which start at 2. -/
def StoredId (regs : List BaseRule) (r : Nat) : Prop :=
  (r = RULE_SPECIAL_REDIRECT_SLASH ∧ ∃ ro ∈ regs, has_trailing_slash ro.rule_ = true) ∨
    (2 ≤ r ∧ r < 2 + regs.length)

mutual
/-- The subtree of a child without what lies below its `PATH` nodes. -/
def Node.prune : Node → Node
  | Node.mk r k p cs => Node.mk r k p (if p = ParamType.PATH then [] else Node.pruneList cs)
/-- The list of children, each without what lies below its `PATH` nodes. -/
def Node.pruneList : List Node → List Node
  | [] => []
  | c :: cs => Node.prune c :: Node.pruneList cs
end

/-- The trie without the nodes that lie below a `PATH` node. -/
def Trie.prune (t : Trie) : Trie :=
  ⟨Node.mk t.head_.rule_index t.head_.key t.head_.param (Node.pruneList t.head_.children)⟩

/-- The node `b` is the node `a` as one run of the loop of `add` may leave it. -/
def Node.AddStep (a b : Node) : Prop :=
  b = a ∨ ∃ url ri fuel rest e, Trie.add_loop url ri fuel rest a = some ⟨b, e⟩

/-- The unoptimized trie that holds the pattern `/a/<int>` under rule id 2. -/
def exampleTrie1 : Trie :=
  ⟨Node.mk 0 [] ParamType.MAX [Node.mk 0 ['/'] ParamType.MAX [Node.mk 0 ['a'] ParamType.MAX
    [Node.mk 0 ['/'] ParamType.MAX [Node.mk 2 [] ParamType.INT []]]]]⟩

/-- The unoptimized trie that holds `/a/<int>` under rule id 2 and `/a/<string>` under
rule id 3. -/
def exampleTrie2 : Trie :=
  ⟨Node.mk 0 [] ParamType.MAX [Node.mk 0 ['/'] ParamType.MAX [Node.mk 0 ['a'] ParamType.MAX
    [Node.mk 0 ['/'] ParamType.MAX
      [Node.mk 2 [] ParamType.INT [], Node.mk 3 [] ParamType.STRING []]]]]⟩

/-- A stand-in for `strtod` in examples: it never converts anything. -/
def strtodNone : StrtodFn := fun _ => ⟨⟨0⟩, 0, false⟩

/-- A `check` for examples: no rule is upgraded and every rule has its handler. -/
def checkNone : BaseRule → BaseRule × Option (List Char) := fun rule => (rule, none)

/-- A rule for the method with index 0, with the given pattern. -/
def exampleRule (pattern : List Char) : BaseRule :=
  { rule_ := pattern, methods_ := 1, name_ := [] }

/-- Modelled from the spec: the methods numbered in the order in which the spec lists
them, GET, POST, PUT, DELETE, PATCH, HEAD, OPTIONS, CONNECT, TRACE, with these names. It
serves in the examples. -/
def specMethods : HTTPMethod :=
  { Get := 0, Head := 5, Options := 6,
    method_name := fun i =>
      (["GET", "POST", "PUT", "DELETE", "PATCH", "HEAD", "OPTIONS", "CONNECT", "TRACE"].map
        String.toList).getD i [] }

/-- The router that `Router::validate` leaves of the given rules, when no rule is upgraded
and every rule has its handler. -/
def validated (rules : List BaseRule) : Router :=
  match Router.validate checkNone (Router.init rules) with
  | some (router, _) => router
  | none => Router.init rules

/-- Handlers for examples: a catch-all handler is registered; it and the handler of every
rule set the status code to 200 and end the response. -/
def exampleHandlers : Handlers :=
  { catchall := some (fun _ res => ⟨{ res with code := 200, completed_ := true }, none⟩),
    handle := fun _ _ res _ => ⟨{ res with code := 200, completed_ := true }, none⟩ }

/-- A rule for the method with index 1 only, POST in `specMethods`. -/
def postOnlyRule (pattern : List Char) : BaseRule :=
  { rule_ := pattern, methods_ := 2, name_ := [] }

/-- Handlers for examples: the handler of every rule answers a GET request (method 0 in
`specMethods`) with the status code 200 and every other request with 204. -/
def methodAwareHandlers : Handlers :=
  { catchall := none,
    handle := fun _ req res _ =>
      ⟨{ res with code := if req.method = 0 then 200 else 204, completed_ := true }, none⟩ }

/-- Handlers for examples: the handler of every rule sets the status code 200 and takes
the mark of the response to a HEAD request off. -/
def unmarkingHandlers : Handlers :=
  { catchall := none,
    handle := fun _ _ res _ =>
      ⟨{ res with code := 200, is_head_response := false, completed_ := true }, none⟩ }

/-- Handlers for examples: no catch-all handler is registered, and the handler of every
rule throws after it has written a status code, a header and a body. -/
def throwingHandlers : Handlers :=
  { catchall := none,
    handle := fun _ _ res _ =>
      ⟨{ res with code := 200, headers := [("X".toList, "y".toList)], body := "half".toList },
        some "boom".toList⟩ }

/-- The `handle_upgrade` of `BaseRule`, which the rules other than `WebSocketRule`
inherit: `res = response(404); res.end();`. -/
def defaultUpgrade : BaseRule → request → response → HandlerOutcome :=
  fun _ _ res => ⟨(res.assign (response.ofCode 404)).end_, none⟩

/-- The trie that holds the single pattern `/<string>.html`, under rule id 2. -/
def exampleStringTrie : Trie :=
  match Trie.add Trie.init "/<string>.html".toList 2 with
  | some (t, _) => t
  | none => Trie.init

/-! ## Lemmas -/

theorem decimalValue_nil : decimalValue [] = 0 := by simp [decimalValue]

theorem decimalValue_cons (c : Char) (l : List Char) :
    decimalValue (c :: l) = digitVal c * 10 ^ l.length + decimalValue l := by
  simp [decimalValue, Nat.ofDigits_append, Nat.ofDigits_singleton]
  ring

theorem scanDigits_eq (s : List Char) (acc n : Nat) :
    scanDigits s acc n =
      (acc * 10 ^ (s.takeWhile isdigit).length + decimalValue (s.takeWhile isdigit),
        n + (s.takeWhile isdigit).length) := by
  induction s generalizing acc n with
  | nil => simp [scanDigits, decimalValue_nil]
  | cons c cs ih =>
    by_cases h : isdigit c = true
    · simp [scanDigits, h, ih, List.takeWhile_cons, decimalValue_cons]
      constructor <;> ring
    · simp [scanDigits, h, List.takeWhile_cons, decimalValue_nil]

theorem takeWhile_isdigit_append (ds rest : List Char) (hd : ∀ c ∈ ds, isdigit c = true)
    (hr : ∀ c, rest.head? = some c → isdigit c = false) :
    (ds ++ rest).takeWhile isdigit = ds := by
  induction ds with
  | nil =>
    cases rest with
    | nil => rfl
    | cons c cs => simp [List.takeWhile_cons, hr c rfl]
  | cons d ds ih =>
    simp [List.takeWhile_cons, hd d (List.mem_cons_self _ _)]
    exact ih (fun c hc => hd c (List.mem_cons_of_mem _ hc))

theorem isdigit_not_space {c : Char} (h : isdigit c = true) : isspace c = false := by
  simp only [isdigit, decide_eq_true_eq] at h
  simp only [isspace, Bool.or_eq_false_iff, Bool.and_eq_false_iff, decide_eq_false_iff_not]
  omega

theorem isdigit_not_sign {c : Char} (h : isdigit c = true) : c ≠ '-' ∧ c ≠ '+' := by
  constructor <;> · rintro rfl; revert h; decide

theorem drop_takeWhile_length {α : Type} (p : α → Bool) (l : List α) :
    l.drop (l.takeWhile p).length = l.dropWhile p := by
  induction l with
  | nil => rfl
  | cons a l ih =>
    by_cases h : p a = true
    · simp [List.takeWhile_cons, List.dropWhile_cons, h, ih]
    · simp [List.takeWhile_cons, List.dropWhile_cons, h]

/-- The subject sequence of `strtoll`/`strtoull` on a string that starts with a sign or a
digit: the sign, the digits, and what is left. -/
theorem strto_front (rest sign ds tail : List Char) (hsplit : rest = sign ++ ds ++ tail)
    (hsign : sign = [] ∨ sign = ['+'] ∨ sign = ['-']) (hne : ds ≠ [])
    (hd : ∀ c ∈ ds, isdigit c = true) (hl : ∀ c, tail.head? = some c → isdigit c = false) :
    rest.takeWhile isspace = [] ∧ signLen rest = sign.length ∧
      isNeg rest = decide (sign = ['-']) ∧
      scanDigits (rest.drop sign.length) 0 0 = (decimalValue ds, ds.length) := by
  obtain ⟨d, ds', rfl⟩ := List.exists_cons_of_ne_nil hne
  have hdd : isdigit d = true := hd d (List.mem_cons_self _ _)
  have hscan : scanDigits (d :: ds' ++ tail) 0 0 = (decimalValue (d :: ds'), (d :: ds').length) := by
    rw [scanDigits_eq, takeWhile_isdigit_append _ _ hd hl]; simp
  rcases hsign with rfl | rfl | rfl
  · subst hsplit
    refine ⟨?_, ?_, ?_, ?_⟩
    · simp [List.takeWhile_cons, isdigit_not_space hdd]
    · simp [signLen, (isdigit_not_sign hdd).1, (isdigit_not_sign hdd).2]
    · simp [isNeg, (isdigit_not_sign hdd).1]
    · simpa using hscan
  · subst hsplit
    refine ⟨by simp [List.takeWhile_cons]; decide, by simp [signLen], by simp [isNeg], ?_⟩
    simpa using hscan
  · subst hsplit
    refine ⟨by simp [List.takeWhile_cons]; decide, by simp [signLen], by simp [isNeg], ?_⟩
    simpa using hscan

/-- The converse: a string that starts with a sign or a digit and in which `scanDigits`
finds a digit after the sign splits into a sign, digits and a tail. -/
theorem strto_split (rest : List Char) (hws : rest.takeWhile isspace = [])
    (hn : (scanDigits (rest.drop (signLen rest)) 0 0).2 ≠ 0) :
    ∃ sign ds tail, rest = sign ++ ds ++ tail ∧
      (sign = [] ∨ sign = ['+'] ∨ (sign = ['-'])) ∧ ds ≠ [] ∧
      (∀ c ∈ ds, isdigit c = true) ∧ (∀ c, tail.head? = some c → isdigit c = false) ∧
      tail = rest.drop (signLen rest + (scanDigits (rest.drop (signLen rest)) 0 0).2) := by
  refine ⟨rest.take (signLen rest), (rest.drop (signLen rest)).takeWhile isdigit,
    (rest.drop (signLen rest)).dropWhile isdigit, ?_, ?_, ?_, ?_, ?_, ?_⟩
  · rw [List.append_assoc, List.takeWhile_append_dropWhile, List.take_append_drop]
  · cases rest with
    | nil => simp [signLen]
    | cons c cs =>
      by_cases h1 : c = '-'
      · subst h1; simp [signLen]
      · by_cases h2 : c = '+'
        · subst h2; simp [signLen]
        · simp [signLen, h1, h2]
  · rw [scanDigits_eq] at hn
    intro h
    simp [h] at hn
  · intro c hc
    exact (List.mem_takeWhile_imp hc)
  · intro c hc
    cases hdw : (rest.drop (signLen rest)).dropWhile isdigit with
    | nil => simp [hdw] at hc
    | cons x xs =>
      simp [hdw] at hc
      subst hc
      have := List.head_dropWhile_not isdigit (rest.drop (signLen rest)) (by simp [hdw])
      simpa [hdw] using this
  · rw [scanDigits_eq]
    simp only [zero_add]
    rw [← List.drop_drop, drop_takeWhile_length]

theorem strtoll_of_split (rest sign ds tail : List Char) (hsplit : rest = sign ++ ds ++ tail)
    (hsign : sign = [] ∨ sign = ['+'] ∨ sign = ['-']) (hne : ds ≠ [])
    (hd : ∀ c ∈ ds, isdigit c = true) (hl : ∀ c, tail.head? = some c → isdigit c = false) :
    strtoll rest =
      (if sign = ['-'] then
        (if decimalValue ds > 2 ^ 63 then ⟨-(2 ^ 63 : Int), sign.length + ds.length, true⟩
          else ⟨-(decimalValue ds : Int), sign.length + ds.length, false⟩)
      else
        (if decimalValue ds > 2 ^ 63 - 1 then ⟨(2 ^ 63 - 1 : Int), sign.length + ds.length, true⟩
          else ⟨(decimalValue ds : Int), sign.length + ds.length, false⟩)) := by
  obtain ⟨h1, h2, h3, h4⟩ := strto_front rest sign ds tail hsplit hsign hne hd hl
  have hlen : ds.length ≠ 0 := by simpa using hne
  unfold strtoll
  simp only [h1, List.length_nil, List.drop_zero, h2, h3, h4, hlen, if_false, zero_add,
    decide_eq_true_eq]

theorem strtoull_of_split (rest sign ds tail : List Char) (hsplit : rest = sign ++ ds ++ tail)
    (hsign : sign = [] ∨ sign = ['+'] ∨ sign = ['-']) (hne : ds ≠ [])
    (hd : ∀ c ∈ ds, isdigit c = true) (hl : ∀ c, tail.head? = some c → isdigit c = false) :
    strtoull rest =
      (if decimalValue ds > 2 ^ 64 - 1 then ⟨2 ^ 64 - 1, sign.length + ds.length, true⟩
      else if sign = ['-'] then ⟨(2 ^ 64 - decimalValue ds) % 2 ^ 64, sign.length + ds.length, false⟩
      else ⟨decimalValue ds, sign.length + ds.length, false⟩) := by
  obtain ⟨h1, h2, h3, h4⟩ := strto_front rest sign ds tail hsplit hsign hne hd hl
  have hlen : ds.length ≠ 0 := by simpa using hne
  unfold strtoull
  simp only [h1, List.length_nil, List.drop_zero, h2, h3, h4, hlen, if_false, zero_add,
    decide_eq_true_eq]

theorem drop_split (sign ds tail : List Char) :
    (sign ++ ds ++ tail).drop (sign.length + ds.length) = tail := by
  rw [← List.length_append]; exact List.drop_left' rfl

/-- A string whose first character passes the guard of the `INT`, `UINT` or `DOUBLE`
branch does not start with white space. -/
theorem takeWhile_isspace_of_guard (rest : List Char)
    (h : isdigit (rest.headD (Char.ofNat 0)) = true ∨ rest.headD (Char.ofNat 0) = '+' ∨
      rest.headD (Char.ofNat 0) = '-') :
    rest.takeWhile isspace = [] := by
  cases rest with
  | nil => rfl
  | cons c cs =>
    simp only [List.headD_cons] at h
    rcases h with h | h | h
    · simp [List.takeWhile_cons, isdigit_not_space h]
    · subst h; simp [List.takeWhile_cons]; decide
    · subst h; simp [List.takeWhile_cons]; decide

theorem split_guard (rest sign ds tail : List Char) (hsplit : rest = sign ++ ds ++ tail)
    (hne : ds ≠ []) (hd : ∀ c ∈ ds, isdigit c = true) :
    (sign = [] → isdigit (rest.headD (Char.ofNat 0)) = true) ∧
    (sign = ['+'] → rest.headD (Char.ofNat 0) = '+') ∧
    (sign = ['-'] → rest.headD (Char.ofNat 0) = '-') := by
  obtain ⟨d, ds', rfl⟩ := List.exists_cons_of_ne_nil hne
  subst hsplit
  refine ⟨?_, ?_, ?_⟩
  · rintro rfl; simpa using hd d (List.mem_cons_self _ _)
  · rintro rfl; simp
  · rintro rfl; simp

theorem int_child_iff (strtod : StrtodFn) (key rest : List Char) (params params' : routing_params)
    (rest' : List Char) :
    enter strtod ParamType.INT key rest params = some (params', rest') ↔
      ∃ sign ds, rest = sign ++ ds ++ rest' ∧ (sign = [] ∨ sign = ['+'] ∨ sign = ['-']) ∧
        ds ≠ [] ∧ (∀ c ∈ ds, isdigit c = true) ∧
        (∀ c, rest'.head? = some c → isdigit c = false) ∧
        -(2 ^ 63 : Int) ≤ signedValue sign ds ∧ signedValue sign ds ≤ 2 ^ 63 - 1 ∧
        params' = { params with int_params := params.int_params ++ [signedValue sign ds] } := by
  constructor
  · intro h
    unfold enter at h
    simp only [Bool.or_eq_true, beq_iff_eq, Bool.and_eq_true, Bool.not_eq_true',
      decide_eq_true_eq] at h
    split at h
    · rename_i hg
      split at h
      · rename_i hr
        have hws := takeWhile_isspace_of_guard rest (by tauto)
        have hn : (scanDigits (rest.drop (signLen rest)) 0 0).2 ≠ 0 := by
          intro h0
          apply hr.2
          unfold strtoll
          simp [hws, h0]
        obtain ⟨sign, ds, tail, hsplit, hsign, hne, hd, hl, _⟩ := strto_split rest hws hn
        have hst := strtoll_of_split rest sign ds tail hsplit hsign hne hd hl
        rw [hst] at h hr
        refine ⟨sign, ds, ?_⟩
        by_cases hs : sign = ['-']
        · simp only [hs, if_true] at h hr
          by_cases hv : decimalValue ds > 2 ^ 63
          · rw [if_pos hv] at hr
            exact absurd hr.1 (by simp)
          · simp only [hv, if_false, Option.some.injEq, Prod.mk.injEq] at h
            obtain ⟨h1, h2⟩ := h
            rw [hsplit, hs, drop_split] at h2
            subst h2
            refine ⟨by rw [hsplit, hs], hsign, hne, hd, hl, ?_, ?_, ?_⟩
            · simp only [signedValue, hs, if_true]; norm_num at hv ⊢; omega
            · simp only [signedValue, hs, if_true]; norm_num at hv ⊢; omega
            · simp only [signedValue, hs, if_true]; exact h1.symm
        · simp only [hs, if_false] at h hr
          by_cases hv : decimalValue ds > 2 ^ 63 - 1
          · rw [if_pos hv] at hr
            exact absurd hr.1 (by simp)
          · simp only [hv, if_false, Option.some.injEq, Prod.mk.injEq] at h
            obtain ⟨h1, h2⟩ := h
            rw [hsplit, drop_split] at h2
            subst h2
            refine ⟨hsplit, hsign, hne, hd, hl, ?_, ?_, ?_⟩
            · simp only [signedValue, hs, if_false]; norm_num at hv ⊢; omega
            · simp only [signedValue, hs, if_false]; norm_num at hv ⊢; omega
            · simp only [signedValue, hs, if_false]; exact h1.symm
      · exact absurd h (by simp)
    · exact absurd h (by simp)
  · rintro ⟨sign, ds, hsplit, hsign, hne, hd, hl, hlo, hhi, hp⟩
    have hst := strtoll_of_split rest sign ds rest' hsplit hsign hne hd hl
    obtain ⟨g1, g2, g3⟩ := split_guard rest sign ds rest' hsplit hne hd
    have hg : isdigit (rest.headD (Char.ofNat 0)) = true ∨ rest.headD (Char.ofNat 0) = '+' ∨
        rest.headD (Char.ofNat 0) = '-' := by
      rcases hsign with h | h | h
      · exact Or.inl (g1 h)
      · exact Or.inr (Or.inl (g2 h))
      · exact Or.inr (Or.inr (g3 h))
    have hlen : sign.length + ds.length ≠ 0 := by
      have : ds.length ≠ 0 := by simpa using hne
      omega
    unfold enter
    simp only [Bool.or_eq_true, beq_iff_eq, Bool.and_eq_true, Bool.not_eq_true',
      decide_eq_true_eq]
    rw [if_pos (by tauto), hst]
    by_cases hs : sign = ['-']
    · simp only [signedValue, hs, if_true] at hlo hhi hp
      have hv : ¬ decimalValue ds > 2 ^ 63 := by norm_num at hlo ⊢; omega
      simp only [hs, if_true, hv, if_false]
      rw [if_pos ⟨trivial, by simp⟩]
      rw [hsplit, hs, drop_split, hp]
    · simp only [signedValue, hs, if_false] at hlo hhi hp
      have hv : ¬ decimalValue ds > 2 ^ 63 - 1 := by norm_num at hhi ⊢; omega
      simp only [hs, if_false, hv]
      rw [if_pos ⟨trivial, hlen⟩]
      rw [hsplit, drop_split, hp]

theorem uint_child_iff (strtod : StrtodFn) (key rest : List Char) (params params' : routing_params)
    (rest' : List Char) :
    enter strtod ParamType.UINT key rest params = some (params', rest') ↔
      ∃ sign ds, rest = sign ++ ds ++ rest' ∧ (sign = [] ∨ sign = ['+']) ∧
        ds ≠ [] ∧ (∀ c ∈ ds, isdigit c = true) ∧
        (∀ c, rest'.head? = some c → isdigit c = false) ∧
        decimalValue ds < 2 ^ 64 ∧
        params' = { params with uint_params := params.uint_params ++ [decimalValue ds] } := by
  constructor
  · intro h
    unfold enter at h
    simp only [Bool.or_eq_true, beq_iff_eq, Bool.and_eq_true, Bool.not_eq_true',
      decide_eq_true_eq] at h
    split at h
    · rename_i hg
      split at h
      · rename_i hr
        have hws := takeWhile_isspace_of_guard rest (by tauto)
        have hn : (scanDigits (rest.drop (signLen rest)) 0 0).2 ≠ 0 := by
          intro h0
          apply hr.2
          unfold strtoull
          simp [hws, h0]
        obtain ⟨sign, ds, tail, hsplit, hsign, hne, hd, hl, _⟩ := strto_split rest hws hn
        have hst := strtoull_of_split rest sign ds tail hsplit hsign hne hd hl
        obtain ⟨g1, g2, g3⟩ := split_guard rest sign ds tail hsplit hne hd
        have hs : sign ≠ ['-'] := by
          intro hs
          have hc := g3 hs
          rw [hc] at hg
          revert hg
          decide
        rw [hst] at h hr
        refine ⟨sign, ds, ?_⟩
        simp only [hs, if_false] at h hr
        by_cases hv : decimalValue ds > 2 ^ 64 - 1
        · rw [if_pos hv] at hr
          exact absurd hr.1 (by simp)
        · simp only [hv, if_false, Option.some.injEq, Prod.mk.injEq] at h
          obtain ⟨h1, h2⟩ := h
          rw [hsplit, drop_split] at h2
          subst h2
          refine ⟨hsplit, ?_, hne, hd, hl, ?_, h1.symm⟩
          · rcases hsign with h | h | h
            · exact Or.inl h
            · exact Or.inr h
            · exact absurd h hs
          · norm_num at hv ⊢; omega
      · exact absurd h (by simp)
    · exact absurd h (by simp)
  · rintro ⟨sign, ds, hsplit, hsign, hne, hd, hl, hhi, hp⟩
    have hsign' : sign = [] ∨ sign = ['+'] ∨ sign = ['-'] := by
      rcases hsign with h | h
      · exact Or.inl h
      · exact Or.inr (Or.inl h)
    have hs : sign ≠ ['-'] := by
      rcases hsign with h | h <;> · rw [h]; decide
    have hst := strtoull_of_split rest sign ds rest' hsplit hsign' hne hd hl
    obtain ⟨g1, g2, g3⟩ := split_guard rest sign ds rest' hsplit hne hd
    have hg : isdigit (rest.headD (Char.ofNat 0)) = true ∨ rest.headD (Char.ofNat 0) = '+' := by
      rcases hsign with h | h
      · exact Or.inl (g1 h)
      · exact Or.inr (g2 h)
    have hlen : sign.length + ds.length ≠ 0 := by
      have : ds.length ≠ 0 := by simpa using hne
      omega
    unfold enter
    simp only [Bool.or_eq_true, beq_iff_eq, Bool.and_eq_true, Bool.not_eq_true',
      decide_eq_true_eq]
    rw [if_pos hg, hst]
    have hv : ¬ decimalValue ds > 2 ^ 64 - 1 := by norm_num at hhi ⊢; omega
    simp only [hs, if_false, hv]
    rw [if_pos ⟨trivial, hlen⟩]
    rw [hsplit, drop_split, hp]

/-- A URL fragment that starts with a minus sign does not pass the guard of the `UINT`
branch. -/
theorem uint_child_minus (strtod : StrtodFn) (key rest : List Char) (params : routing_params) :
    enter strtod ParamType.UINT key ('-' :: rest) params = none := by
  have h : isdigit '-' = false := by decide
  simp [enter, h]

/-- Structural induction on nodes. -/
theorem Node.induct {P : Node → Prop}
    (h : ∀ r k p cs, (∀ c ∈ cs, P c) → P (Node.mk r k p cs)) : ∀ n, P n := by
  intro n
  refine Node.rec (motive_1 := P) (motive_2 := fun cs => ∀ c ∈ cs, P c) ?_ ?_ ?_ n
  · intro r k p cs ih
    exact h r k p cs ih
  · intro c hc
    cases hc
  · intro hd tl ih1 ih2 c hc
    rcases List.mem_cons.mp hc with rfl | hc
    · exact ih1
    · exact ih2 c hc

theorem update_found_zero (acc : Nat × routing_params) (p : routing_params) :
    update_found acc (0, p) = acc := by
  simp [update_found]

theorem find_children_eq (strtod : StrtodFn) (cs : List Node) (rest : List Char)
    (params : routing_params) (acc : Nat × routing_params) :
    Trie.find_children strtod cs rest params acc =
      (cs.map (fun ch => Trie.visit strtod ch rest params)).foldl update_found acc := by
  induction cs generalizing acc with
  | nil => simp [Trie.find_children]
  | cons c cs ih =>
    obtain ⟨r, k, p, cs'⟩ := c
    rw [Trie.find_children, ih]
    simp only [List.map_cons, List.foldl_cons, Trie.visit, Node.param, Node.key]
    cases enter strtod p k rest params with
    | none => simp [update_found_zero]
    | some x => rfl

theorem find_node_eq (strtod : StrtodFn) (r : Nat) (k : List Char) (p : ParamType)
    (cs : List Node) (rest : List Char) (params : routing_params) :
    Trie.find_node strtod (Node.mk r k p cs) rest params =
      if rest = [] then (r, params)
      else (cs.map (fun ch => Trie.visit strtod ch rest params)).foldl update_found
        (0, routing_params.empty) := by
  rw [Trie.find_node, find_children_eq]

theorem best_mem (l : List (Nat × routing_params)) (acc : Nat × routing_params) :
    l.foldl update_found acc = acc ∨
      (l.foldl update_found acc ∈ l ∧ (l.foldl update_found acc).1 ≠ 0) := by
  induction l generalizing acc with
  | nil => exact Or.inl rfl
  | cons x l ih =>
    simp only [List.foldl_cons]
    rcases ih (update_found acc x) with h | h
    · rw [h]
      unfold update_found
      split
      · rename_i hc
        exact Or.inr ⟨List.mem_cons_self _ _, hc.1⟩
      · exact Or.inl rfl
    · exact Or.inr ⟨List.mem_cons_of_mem _ h.1, h.2⟩

theorem best_le_acc (l : List (Nat × routing_params)) (acc : Nat × routing_params)
    (h : acc.1 ≠ 0) :
    (l.foldl update_found acc).1 ≠ 0 ∧ (l.foldl update_found acc).1 ≤ acc.1 := by
  induction l generalizing acc with
  | nil => exact ⟨h, le_refl _⟩
  | cons x l ih =>
    simp only [List.foldl_cons]
    by_cases hc : x.1 ≠ 0 ∧ (acc.1 = 0 ∨ acc.1 > x.1)
    · have hu : update_found acc x = x := by simp only [update_found, if_pos hc]
      rw [hu]
      obtain ⟨h1, h2⟩ := ih x hc.1
      refine ⟨h1, ?_⟩
      rcases hc.2 with h0 | h0
      · exact absurd h0 h
      · omega
    · have hu : update_found acc x = acc := by simp only [update_found, if_neg hc]
      rw [hu]
      exact ih acc h

theorem best_le_mem (l : List (Nat × routing_params)) (acc x : Nat × routing_params)
    (hx : x ∈ l) (h : x.1 ≠ 0) :
    (l.foldl update_found acc).1 ≠ 0 ∧ (l.foldl update_found acc).1 ≤ x.1 := by
  induction l generalizing acc with
  | nil => cases hx
  | cons y l ih =>
    simp only [List.foldl_cons]
    rcases List.mem_cons.mp hx with rfl | hx
    · by_cases hc : x.1 ≠ 0 ∧ (acc.1 = 0 ∨ acc.1 > x.1)
      · have hu : update_found acc x = x := by simp only [update_found, if_pos hc]
        rw [hu]
        exact best_le_acc l x h
      · have hu : update_found acc x = acc := by simp only [update_found, if_neg hc]
        rw [hu]
        have hacc : acc.1 ≠ 0 ∧ acc.1 ≤ x.1 := by
          by_cases h0 : acc.1 = 0
          · exact absurd ⟨h, Or.inl h0⟩ hc
          · refine ⟨h0, ?_⟩
            by_contra hgt
            exact hc ⟨h, Or.inr (by omega)⟩
        obtain ⟨h1, h2⟩ := best_le_acc l acc hacc.1
        exact ⟨h1, le_trans h2 hacc.2⟩
    · exact ih _ hx

theorem best_zero (l : List (Nat × routing_params)) (acc : Nat × routing_params)
    (h : ∀ x ∈ l, x.1 = 0) : l.foldl update_found acc = acc := by
  induction l generalizing acc with
  | nil => rfl
  | cons y l ih =>
    simp only [List.foldl_cons]
    have hy : y.1 = 0 := h y (List.mem_cons_self _ _)
    have hu : update_found acc y = acc := by simp [update_found, hy]
    rw [hu]
    exact ih acc (fun x hx => h x (List.mem_cons_of_mem _ hx))

/-- At the end of the URL only a literal child with an empty key can be entered. -/
theorem enter_nil (strtod : StrtodFn) (p : ParamType) (k : List Char) (params : routing_params)
    (x : routing_params × List Char) (h : enter strtod p k [] params = some x) :
    p = ParamType.MAX ∧ k = [] := by
  have hd : isdigit (Char.ofNat 0) = false := by decide
  cases p <;> simp [enter, hd] at h
  exact ⟨rfl, h.1⟩

theorem visit_of_enter (strtod : StrtodFn) (child : Node) (rest : List Char)
    (params : routing_params) (x : routing_params × List Char)
    (h : enter strtod child.param child.key rest params = some x) :
    Trie.visit strtod child rest params = Trie.find_node strtod child x.2 x.1 := by
  simp [Trie.visit, h]

theorem visit_ne_zero (strtod : StrtodFn) (child : Node) (rest : List Char)
    (params : routing_params) (h : (Trie.visit strtod child rest params).1 ≠ 0) :
    ∃ x, enter strtod child.param child.key rest params = some x ∧
      Trie.visit strtod child rest params = Trie.find_node strtod child x.2 x.1 := by
  cases he : enter strtod child.param child.key rest params with
  | none => simp [Trie.visit, he] at h
  | some x => exact ⟨x, rfl, visit_of_enter strtod child rest params x he⟩

/-- When `find` returns a non-zero id at a node, a complete match with that id and the
returned parameters starts there. -/
theorem find_node_sound (strtod : StrtodFn) (node : Node) :
    ∀ (rest : List Char) (params : routing_params),
      (Trie.find_node strtod node rest params).1 ≠ 0 →
      Trie.CompleteMatch strtod node rest params (Trie.find_node strtod node rest params).1
        (Trie.find_node strtod node rest params).2 := by
  induction node using Node.induct with
  | h r k p cs ih =>
    intro rest params hne
    rw [find_node_eq] at hne ⊢
    by_cases hr : rest = []
    · subst hr
      simp only [if_true]
      exact Trie.CompleteMatch.here (Node.mk r k p cs) params
    · simp only [hr, if_false] at hne ⊢
      rcases best_mem (cs.map (fun ch => Trie.visit strtod ch rest params))
          (0, routing_params.empty) with h | ⟨h, _⟩
      · rw [h] at hne
        exact absurd rfl hne
      · obtain ⟨ch, hch, hv⟩ := List.mem_map.mp h
        rw [← hv] at hne ⊢
        obtain ⟨x, hx, hvx⟩ := visit_ne_zero strtod ch rest params hne
        rw [hvx] at hne ⊢
        exact Trie.CompleteMatch.step (Node.mk r k p cs) ch rest params x _ _ hch hx
          (ih ch hch x.2 x.1 hne)

/-- In a trie without empty literal keys, `find` returns a non-zero id that is at most
the id of any complete match. -/
theorem find_node_least (strtod : StrtodFn) (node : Node) :
    ∀ (rest : List Char) (params : routing_params) (r : Nat) (out : routing_params),
      Node.KeysOk node → Trie.CompleteMatch strtod node rest params r out → r ≠ 0 →
      (Trie.find_node strtod node rest params).1 ≠ 0 ∧
        (Trie.find_node strtod node rest params).1 ≤ r := by
  induction node using Node.induct with
  | h r0 k p cs ih =>
    intro rest params r out hk hm hr
    cases hk with
    | mk _ _ _ _ hkeys hrec =>
      rw [find_node_eq]
      cases hm with
      | here =>
        simp only [if_true, Node.rule_index] at hr ⊢
        exact ⟨hr, le_refl _⟩
      | step _ child _ _ x _ _ hch hx hm' =>
        have hrest : rest ≠ [] := by
          rintro rfl
          obtain ⟨h1, h2⟩ := enter_nil strtod _ _ _ _ hx
          exact hkeys child hch h1 h2
        simp only [hrest, if_false]
        obtain ⟨h1, h2⟩ := ih child hch x.2 x.1 r out (hrec child hch) hm' hr
        have hv := visit_of_enter strtod child rest params x hx
        have hmem : Trie.visit strtod child rest params ∈
            cs.map (fun ch => Trie.visit strtod ch rest params) :=
          List.mem_map.mpr ⟨child, hch, rfl⟩
        obtain ⟨h3, h4⟩ := best_le_mem _ (0, routing_params.empty) _ hmem (by rw [hv]; exact h1)
        refine ⟨h3, le_trans h4 ?_⟩
        rw [hv]
        exact h2

theorem descend_found (pred : Node → Bool) (fresh : Node) (f : Node → Option AddOutcome)
    (pre : List Node) (ch : Node) (post : List Node) (hpre : ∀ c ∈ pre, pred c = false)
    (hch : pred ch = true) :
    descend pred fresh f (pre ++ ch :: post) =
      (f ch).map (fun o => (pre ++ o.node :: post, o.thrown)) := by
  induction pre with
  | nil => simp [descend, hch]
  | cons a pre ih =>
    have ha : pred a = false := hpre a (List.mem_cons_self _ _)
    show descend pred fresh f (a :: (pre ++ ch :: post)) = _
    rw [descend, if_neg (by simp [ha]), ih (fun c hc => hpre c (List.mem_cons_of_mem _ hc))]
    cases f ch <;> simp

theorem descend_fresh (pred : Node → Bool) (fresh : Node) (f : Node → Option AddOutcome)
    (cs : List Node) (hcs : ∀ c ∈ cs, pred c = false) :
    descend pred fresh f cs = (f fresh).map (fun o => (cs ++ [o.node], o.thrown)) := by
  induction cs with
  | nil => simp [descend]
  | cons a cs ih =>
    have ha : pred a = false := hcs a (List.mem_cons_self _ _)
    rw [descend, if_neg (by simp [ha]), ih (fun c hc => hcs c (List.mem_cons_of_mem _ hc))]
    cases f fresh <;> simp

/-- Either some child satisfies the predicate, and then there is a first one, or none
does. -/
theorem first_split (pred : Node → Bool) (cs : List Node) :
    (∃ pre ch post, cs = pre ++ ch :: post ∧ (∀ c ∈ pre, pred c = false) ∧ pred ch = true) ∨
      (∀ c ∈ cs, pred c = false) := by
  induction cs with
  | nil => exact Or.inr (fun c hc => by cases hc)
  | cons a cs ih =>
    by_cases ha : pred a = true
    · exact Or.inl ⟨[], a, cs, rfl, by simp, ha⟩
    · rcases ih with ⟨pre, ch, post, h1, h2, h3⟩ | h
      · refine Or.inl ⟨a :: pre, ch, post, by rw [h1]; rfl, ?_, h3⟩
        intro c hc
        rcases List.mem_cons.mp hc with rfl | hc
        · simpa using ha
        · exact h2 c hc
      · refine Or.inr ?_
        intro c hc
        rcases List.mem_cons.mp hc with rfl | hc
        · simpa using ha
        · exact h c hc

theorem descend_some (pred : Node → Bool) (fresh : Node) (f : Node → Option AddOutcome)
    (cs : List Node) (y : List Node × Option (List Char))
    (h : descend pred fresh f cs = some y) :
    (∃ pre ch post o, cs = pre ++ ch :: post ∧ (∀ c ∈ pre, pred c = false) ∧ pred ch = true ∧
        f ch = some o ∧ y = (pre ++ o.node :: post, o.thrown)) ∨
      ((∀ c ∈ cs, pred c = false) ∧ ∃ o, f fresh = some o ∧ y = (cs ++ [o.node], o.thrown)) := by
  rcases first_split pred cs with ⟨pre, ch, post, h1, h2, h3⟩ | hnone
  · left
    rw [h1, descend_found pred fresh f pre ch post h2 h3] at h
    cases hf : f ch with
    | none => simp [hf] at h
    | some o =>
      simp only [hf, Option.map_some', Option.some.injEq] at h
      exact ⟨pre, ch, post, o, h1, h2, h3, hf, h.symm⟩
  · right
    rw [descend_fresh pred fresh f cs hnone] at h
    cases hf : f fresh with
    | none => simp [hf] at h
    | some o =>
      simp only [hf, Option.map_some', Option.some.injEq] at h
      exact ⟨hnone, o, rfl, h.symm⟩

theorem descend_none (pred : Node → Bool) (fresh : Node) (f : Node → Option AddOutcome)
    (cs : List Node) (h : ∀ n, f n = none) : descend pred fresh f cs = none := by
  rcases first_split pred cs with ⟨pre, ch, post, h1, h2, h3⟩ | hnone
  · rw [h1, descend_found pred fresh f pre ch post h2 h3, h ch]; rfl
  · rw [descend_fresh pred fresh f cs hnone, h fresh]; rfl

theorem descend_isSome (pred : Node → Bool) (fresh : Node) (f : Node → Option AddOutcome)
    (cs : List Node) (h : ∀ n, ∃ o, f n = some o) : ∃ y, descend pred fresh f cs = some y := by
  rcases first_split pred cs with ⟨pre, ch, post, h1, h2, h3⟩ | hnone
  · obtain ⟨o, ho⟩ := h ch
    exact ⟨_, by rw [h1, descend_found pred fresh f pre ch post h2 h3, ho]; rfl⟩
  · obtain ⟨o, ho⟩ := h fresh
    exact ⟨_, by rw [descend_fresh pred fresh f cs hnone, ho]; rfl⟩

theorem descend_mono (pred : Node → Bool) (fresh : Node) (f g : Node → Option AddOutcome)
    (cs : List Node) (y : List Node × Option (List Char))
    (hfg : ∀ n o, f n = some o → g n = some o) (h : descend pred fresh f cs = some y) :
    descend pred fresh g cs = some y := by
  rcases descend_some pred fresh f cs y h with ⟨pre, ch, post, o, h1, h2, h3, h4, h5⟩ |
    ⟨h1, o, h2, h3⟩
  · rw [h1, descend_found pred fresh g pre ch post h2 h3, hfg ch o h4, h5]; rfl
  · rw [descend_fresh pred fresh g cs h1, hfg fresh o h2, h3]; rfl

theorem add_loop_shape (url : List Char) (ri : Nat) (fuel : Nat) :
    ∀ (rest : List Char) (node : Node) (o : AddOutcome),
      Trie.add_loop url ri fuel rest node = some o →
      o.node.key = node.key ∧ o.node.param = node.param := by
  induction fuel with
  | zero => intro rest node o h; simp [Trie.add_loop] at h
  | succ fuel ih =>
    intro rest node o h
    obtain ⟨r, k, p, cs⟩ := node
    cases rest with
    | nil =>
      simp only [Trie.add_loop] at h
      split at h <;> · simp only [Option.some.injEq] at h; subst h; exact ⟨rfl, rfl⟩
    | cons c rest =>
      simp only [Trie.add_loop] at h
      split at h
      · split at h
        · simp only [Option.map_eq_some'] at h
          obtain ⟨y, _, hy⟩ := h
          subst hy
          exact ⟨rfl, rfl⟩
        · exact ih _ _ _ h
      · simp only [Option.map_eq_some'] at h
        obtain ⟨y, _, hy⟩ := h
        subst hy
        exact ⟨rfl, rfl⟩

theorem add_loop_mono (url : List Char) (ri : Nat) (fuel : Nat) :
    ∀ (rest : List Char) (node : Node) (o : AddOutcome),
      Trie.add_loop url ri fuel rest node = some o →
      Trie.add_loop url ri (fuel + 1) rest node = some o := by
  induction fuel with
  | zero => intro rest node o h; simp [Trie.add_loop] at h
  | succ fuel ih =>
    intro rest node o h
    obtain ⟨r, k, p, cs⟩ := node
    cases rest with
    | nil => simpa [Trie.add_loop] using h
    | cons c rest =>
      rw [Trie.add_loop] at h ⊢
      split at h
      · rename_i hc
        rw [if_pos hc]
        split at h
        · rename_i x hx
          simp only [Option.map_eq_some'] at h
          obtain ⟨y, hy, hyo⟩ := h
          rw [descend_mono _ _ _ _ cs y (fun n o' => ih _ n o') hy]
          simpa using hyo
        · rename_i hx
          exact ih _ _ _ h
      · rename_i hc
        rw [if_neg hc]
        simp only [Option.map_eq_some'] at h
        obtain ⟨y, hy, hyo⟩ := h
        rw [descend_mono _ _ _ _ cs y (fun n o' => ih _ n o') hy]
        simpa using hyo

theorem add_loop_mono_le (url : List Char) (ri : Nat) (fuel fuel' : Nat) (hle : fuel ≤ fuel')
    (rest : List Char) (node : Node) (o : AddOutcome)
    (h : Trie.add_loop url ri fuel rest node = some o) :
    Trie.add_loop url ri fuel' rest node = some o := by
  induction hle with
  | refl => exact h
  | step _ ih => exact add_loop_mono url ri _ rest node o ih

/-- A second walk of `add` along a pattern that a first walk has gone through with a
non-zero rule index ends at the same node, finds its rule index set and throws, and
leaves the trie as it is. -/
theorem add_loop_twice (url : List Char) (r1 r2 : Nat) (hr1 : r1 ≠ 0) (fuel : Nat) :
    ∀ (rest : List Char) (node : Node) (o : AddOutcome),
      Trie.add_loop url r1 fuel rest node = some o →
      Trie.add_loop url r2 fuel rest o.node = some ⟨o.node, some (alreadyExists url)⟩ := by
  induction fuel with
  | zero => intro rest node o h; simp [Trie.add_loop] at h
  | succ fuel ih =>
    intro rest node o h
    obtain ⟨r, k, p, cs⟩ := node
    cases rest with
    | nil =>
      simp only [Trie.add_loop] at h
      split at h
      · rename_i hr
        simp only [Option.some.injEq] at h
        subst h
        simp [Trie.add_loop, hr, alreadyExists]
      · simp only [Option.some.injEq] at h
        subst h
        simp [Trie.add_loop, hr1, alreadyExists]
    | cons c rest =>
      rw [Trie.add_loop] at h
      split at h
      · rename_i hc
        split at h
        · rename_i x hx
          simp only [Option.map_eq_some'] at h
          obtain ⟨y, hy, hyo⟩ := h
          subst hyo
          rw [Trie.add_loop, if_pos hc]
          simp only [hx]
          rcases descend_some _ _ _ cs y hy with ⟨pre, ch, post, o, h1, h2, h3, h4, h5⟩ |
            ⟨h1, o, h2, h3⟩
          · have hs := add_loop_shape url r1 fuel _ ch o h4
            subst h5
            rw [descend_found _ _ _ pre o.node post h2 (by rw [hs.2]; exact h3),
              ih _ ch o h4]
            rfl
          · have hs := add_loop_shape url r1 fuel _ _ o h2
            subst h3
            rw [descend_found _ _ _ cs o.node [] h1 (by rw [hs.2]; exact decide_eq_true rfl),
              ih _ _ o h2]
            rfl
        · rename_i hx
          have h' := ih _ _ o h
          obtain ⟨node', thrown⟩ := o
          obtain ⟨r', k', p', cs'⟩ := node'
          rw [Trie.add_loop, if_pos hc]
          simp only [hx]
          exact h'
      · rename_i hc
        simp only [Option.map_eq_some'] at h
        obtain ⟨y, hy, hyo⟩ := h
        subst hyo
        rw [Trie.add_loop, if_neg hc]
        rcases descend_some _ _ _ cs y hy with ⟨pre, ch, post, o, h1, h2, h3, h4, h5⟩ |
          ⟨h1, o, h2, h3⟩
        · have hs := add_loop_shape url r1 fuel _ ch o h4
          subst h5
          rw [descend_found _ _ _ pre o.node post h2
            (by rw [Node.key0, hs.1]; exact h3), ih _ ch o h4]
          rfl
        · have hs := add_loop_shape url r1 fuel _ _ o h2
          subst h3
          rw [descend_found _ _ _ cs o.node [] h1
            (by rw [Node.key0, hs.1]; exact decide_eq_true rfl), ih _ _ o h2]
          rfl

theorem paramTraits_names :
    ∀ x ∈ paramTraits, x.2.head? = some '<' ∧ '<' ∉ x.2.tail ∧ x.2 ≠ [] := by
  decide

theorem prefix_length_le (nm pre post : List Char) (a : Char) (h : nm.isPrefixOf (pre ++ a :: post) = true)
    (ha : a ∉ nm) : nm.length ≤ pre.length := by
  induction pre generalizing nm with
  | nil =>
    cases nm with
    | nil => simp
    | cons b nm =>
      simp only [List.nil_append, List.isPrefixOf, Bool.and_eq_true, beq_iff_eq] at h
      exact absurd (h.1 ▸ List.mem_cons_self _ _) ha
  | cons b pre ih =>
    cases nm with
    | nil => simp
    | cons b' nm =>
      simp only [List.cons_append, List.isPrefixOf, Bool.and_eq_true, beq_iff_eq] at h
      have := ih nm h.2 (fun hm => ha (List.mem_cons_of_mem _ hm))
      simp only [List.length_cons]
      omega

/-- Dropping a name of `paramTraits` that starts the pattern keeps a `<` that starts no
name in the rest of the pattern. -/
theorem hasBadOpen_drop (x : ParamType × List Char) (rest : List Char)
    (hx : paramTraits.find? (fun x => x.2.isPrefixOf rest) = some x) (hb : HasBadOpen rest) :
    HasBadOpen (rest.drop x.2.length) := by
  obtain ⟨pre, post, hsplit, hnone⟩ := hb
  have hmem : x ∈ paramTraits := List.mem_of_find?_eq_some hx
  have hpre : x.2.isPrefixOf rest = true := by
    simpa using List.find?_some hx
  obtain ⟨hhead, htail, hne⟩ := paramTraits_names x hmem
  obtain ⟨n0, nm, hn⟩ := List.exists_cons_of_ne_nil hne
  rw [hn] at hhead htail hpre ⊢
  simp only [List.head?_cons, Option.some.injEq, List.tail_cons] at hhead htail
  subst hhead
  cases pre with
  | nil =>
    rw [List.nil_append] at hsplit
    rw [← hsplit, hx] at hnone
    cases hnone
  | cons b pre =>
    rw [hsplit] at hpre ⊢
    simp only [List.cons_append, List.isPrefixOf, Bool.and_eq_true, beq_iff_eq] at hpre
    have hle := prefix_length_le nm pre post '<' hpre.2 htail
    refine ⟨pre.drop nm.length, post, ?_, hnone⟩
    simp only [List.cons_append, List.length_cons, List.drop_succ_cons]
    exact List.drop_append_of_le_length hle

/-- On a pattern with a `<` that starts no name of `paramTraits`, the loop of `Trie::add`
never comes to its end, whatever the fuel. -/
theorem add_loop_badOpen (url : List Char) (ri : Nat) (fuel : Nat) :
    ∀ (rest : List Char) (node : Node), HasBadOpen rest →
      Trie.add_loop url ri fuel rest node = none := by
  induction fuel with
  | zero => intro rest node _; simp [Trie.add_loop]
  | succ fuel ih =>
    intro rest node hb
    obtain ⟨r, k, p, cs⟩ := node
    cases rest with
    | nil =>
      obtain ⟨pre, post, hsplit, _⟩ := hb
      cases pre <;> simp at hsplit
    | cons c rest =>
      rw [Trie.add_loop]
      split
      · split
        · rename_i x hx
          rw [descend_none _ _ _ cs (fun n => ih _ n (hasBadOpen_drop x _ hx hb))]
          rfl
        · exact ih _ _ hb
      · rename_i hc
        have hb' : HasBadOpen rest := by
          obtain ⟨pre, post, hsplit, hnone⟩ := hb
          cases pre with
          | nil =>
            simp only [List.nil_append, List.cons.injEq] at hsplit
            exact absurd hsplit.1 hc
          | cons b pre =>
            simp only [List.cons_append, List.cons.injEq] at hsplit
            exact ⟨pre, post, hsplit.2, hnone⟩
        rw [descend_none _ _ _ cs (fun n => ih _ n hb')]
        rfl

/-- On a pattern in which every `<` starts a name of `paramTraits`, the loop of
`Trie::add` comes to its end within one iteration per character, plus one. -/
theorem add_loop_total (url : List Char) (ri : Nat) (fuel : Nat) :
    ∀ (rest : List Char) (node : Node), ¬ HasBadOpen rest → rest.length < fuel →
      ∃ o, Trie.add_loop url ri fuel rest node = some o := by
  induction fuel with
  | zero => intro rest node _ h; omega
  | succ fuel ih =>
    intro rest node hb hlen
    obtain ⟨r, k, p, cs⟩ := node
    cases rest with
    | nil =>
      rw [Trie.add_loop]
      split <;> exact ⟨_, rfl⟩
    | cons c rest =>
      rw [Trie.add_loop]
      split
      · rename_i hc
        split
        · rename_i x hx
          have hmem : x ∈ paramTraits := List.mem_of_find?_eq_some hx
          obtain ⟨_, _, hne⟩ := paramTraits_names x hmem
          have hpos : 0 < x.2.length := List.length_pos.mpr hne
          have hb' : ¬ HasBadOpen ((c :: rest).drop x.2.length) := by
            rintro ⟨pre, post, hsplit, hnone⟩
            refine hb ⟨(c :: rest).take x.2.length ++ pre, post, ?_, hnone⟩
            rw [List.append_assoc, ← hsplit, List.take_append_drop]
          have hlen' : ((c :: rest).drop x.2.length).length < fuel := by
            simp only [List.length_drop, List.length_cons] at hlen ⊢
            omega
          obtain ⟨y, hy⟩ := descend_isSome (fun child => decide (child.param = x.1))
            (Node.mk 0 [] x.1 []) _ cs (fun n => ih _ n hb' hlen')
          exact ⟨_, by rw [hy]; rfl⟩
        · rename_i hx
          exact absurd ⟨[], rest, by rw [hc]; rfl, by rw [← hc]; exact hx⟩ hb
      · have hb' : ¬ HasBadOpen rest := by
          rintro ⟨pre, post, hsplit, hnone⟩
          exact hb ⟨c :: pre, post, by rw [hsplit]; rfl, hnone⟩
        have hlen' : rest.length < fuel := by
          simp only [List.length_cons] at hlen
          omega
        obtain ⟨y, hy⟩ := descend_isSome (fun child => decide (child.key0 = c))
          (Node.mk 0 [c] ParamType.MAX []) _ cs (fun n => ih _ n hb' hlen')
        exact ⟨_, by rw [hy]; rfl⟩

theorem SameFound.refl (x : Nat × routing_params) : SameFound x x := Or.inl rfl

theorem SameFound.trans {x y z : Nat × routing_params} (h1 : SameFound x y)
    (h2 : SameFound y z) : SameFound x z := by
  rcases h1 with rfl | ⟨h1, h1'⟩
  · exact h2
  · rcases h2 with rfl | ⟨_, h2'⟩
    · exact Or.inr ⟨h1, h1'⟩
    · exact Or.inr ⟨h1, h2'⟩

theorem update_found_congr (acc x y : Nat × routing_params) (h : SameFound x y) :
    update_found acc x = update_found acc y := by
  rcases h with rfl | ⟨h1, h2⟩
  · rfl
  · simp [update_found, h1, h2]

theorem best_congr (l l' : List (Nat × routing_params)) (acc : Nat × routing_params)
    (h : List.Forall₂ SameFound l l') :
    l.foldl update_found acc = l'.foldl update_found acc := by
  induction h generalizing acc with
  | nil => rfl
  | cons hxy _ ih =>
    simp only [List.foldl_cons]
    rw [update_found_congr acc _ _ hxy]
    exact ih _

theorem forChildren_some (f : Node → Option Node) (cs cs' : List Node)
    (h : forChildren f cs = some cs') : List.Forall₂ (fun c c' => f c = some c') cs cs' := by
  induction cs generalizing cs' with
  | nil =>
    simp only [forChildren, Option.some.injEq] at h
    subst h
    exact List.Forall₂.nil
  | cons c cs ih =>
    rw [forChildren] at h
    cases hc : f c with
    | none => simp [hc] at h
    | some c' =>
      cases hcs : forChildren f cs with
      | none => simp [hc, hcs] at h
      | some more' =>
        simp only [hc, hcs, Option.some.injEq] at h
        subst h
        exact List.Forall₂.cons hc (ih more' hcs)

theorem forChildren_isSome (f : Node → Option Node) (cs : List Node)
    (h : ∀ c ∈ cs, ∃ c', f c = some c') : ∃ cs', forChildren f cs = some cs' := by
  induction cs with
  | nil => exact ⟨[], rfl⟩
  | cons c cs ih =>
    obtain ⟨c', hc⟩ := h c (List.mem_cons_self _ _)
    obtain ⟨cs', hcs⟩ := ih (fun x hx => h x (List.mem_cons_of_mem _ hx))
    exact ⟨c' :: cs', by rw [forChildren, hc, hcs]⟩

theorem size_le_sizeList (c : Node) (cs : List Node) (h : c ∈ cs) :
    c.size ≤ Node.sizeList cs := by
  induction cs with
  | nil => cases h
  | cons a cs ih =>
    rw [Node.sizeList]
    rcases List.mem_cons.mp h with rfl | h
    · omega
    · have := ih h
      omega

/-- `optimizeNode` returns when it is given as much fuel as the subtree has nodes. -/
theorem optimizeNode_total (fuel : Nat) :
    ∀ node : Node, node.size ≤ fuel → ∃ node', Trie.optimizeNode fuel node = some node' := by
  induction fuel with
  | zero =>
    intro node h
    obtain ⟨r, k, p, cs⟩ := node
    rw [Node.size] at h
    omega
  | succ fuel ih =>
    intro node h
    obtain ⟨r, k, p, cs⟩ := node
    rw [Node.size] at h
    rw [Trie.optimizeNode.eq_def]
    simp only
    split
    · exact ⟨_, rfl⟩
    · split
      · cases cs with
        | nil => exact ⟨_, rfl⟩
        | cons child more =>
          obtain ⟨r', k', p', cs'⟩ := child
          simp only [Node.sizeList, Node.size] at h
          exact ih _ (by rw [Node.size]; simp only [Node.children]; omega)
      · have hall : ∀ c ∈ cs, ∃ c', Trie.optimizeNode fuel c = some c' := by
          intro c hc
          have := size_le_sizeList c cs hc
          exact ih c (by omega)
        obtain ⟨cs', hcs'⟩ := forChildren_isSome _ cs hall
        exact ⟨_, by rw [hcs']; rfl⟩

theorem find_node_congr (strtod : StrtodFn) (r : Nat) (k k' : List Char) (p p' : ParamType)
    (cs : List Node) (rest : List Char) (params : routing_params) :
    Trie.find_node strtod (Node.mk r k p cs) rest params =
      Trie.find_node strtod (Node.mk r k' p' cs) rest params := by
  rw [find_node_eq, find_node_eq]

theorem isPrefixOf_append (k ck rest : List Char) :
    (k ++ ck).isPrefixOf rest = (k.isPrefixOf rest && ck.isPrefixOf (rest.drop k.length)) := by
  induction k generalizing rest with
  | nil => simp
  | cons a k ih =>
    cases rest with
    | nil => simp [List.isPrefixOf]
    | cons b rest =>
      show (a == b && (k ++ ck).isPrefixOf rest) = _
      rw [ih]
      simp only [List.isPrefixOf, List.length_cons, List.drop_succ_cons, Bool.and_assoc]

theorem visit_literal (strtod : StrtodFn) (r : Nat) (k : List Char) (cs : List Node)
    (rest : List Char) (params : routing_params) :
    Trie.visit strtod (Node.mk r k ParamType.MAX cs) rest params =
      if k.isPrefixOf rest then
        Trie.find_node strtod (Node.mk r k ParamType.MAX cs) (rest.drop k.length) params
      else (0, routing_params.empty) := by
  by_cases h : k.isPrefixOf rest = true
  · simp [Trie.visit, Node.param, Node.key, enter, h]
  · simp [Trie.visit, Node.param, Node.key, enter, h]

theorem keysOk_children {r : Nat} {k : List Char} {p : ParamType} {cs : List Node}
    (h : Node.KeysOk (Node.mk r k p cs)) :
    (∀ c ∈ cs, c.param = ParamType.MAX → c.key ≠ []) ∧ (∀ c ∈ cs, Node.KeysOk c) := by
  cases h with
  | mk _ _ _ _ h1 h2 => exact ⟨h1, h2⟩

/-- A node and its optimized form are entered alike and, once entered, found alike when
their children are. -/
theorem visit_congr_children (strtod : StrtodFn) (r : Nat) (k : List Char) (p : ParamType)
    (cs cs' : List Node) (rest : List Char) (params : routing_params)
    (h : List.Forall₂ (fun c c' => ∀ rest params,
      SameFound (Trie.visit strtod c' rest params) (Trie.visit strtod c rest params)) cs cs') :
    Trie.visit strtod (Node.mk r k p cs') rest params =
      Trie.visit strtod (Node.mk r k p cs) rest params := by
  simp only [Trie.visit, Node.param, Node.key]
  cases enter strtod p k rest params with
  | none => rfl
  | some x =>
    simp only [find_node_eq]
    split
    · rfl
    · apply best_congr
      rw [List.forall₂_map_left_iff, List.forall₂_map_right_iff]
      exact List.Forall₂.imp (fun a b hab => hab x.2 x.1) (List.Forall₂.flip h)

theorem visit_merge (strtod : StrtodFn) (k : List Char) (child : Node)
    (hp : child.param = ParamType.MAX) (hk : child.key ≠ []) (rest : List Char)
    (params : routing_params) :
    SameFound
      (Trie.visit strtod
        (Node.mk child.rule_index (k ++ child.key) ParamType.MAX child.children) rest params)
      (Trie.visit strtod (Node.mk 0 k ParamType.MAX [child]) rest params) := by
  obtain ⟨cr, ck, cp, ccs⟩ := child
  simp only [Node.param] at hp
  simp only [Node.key] at hk
  subst hp
  simp only [Node.rule_index, Node.key, Node.children]
  rw [visit_literal, visit_literal, isPrefixOf_append]
  by_cases h1 : k.isPrefixOf rest = true
  · simp only [h1, Bool.true_and, if_true]
    rw [find_node_eq strtod 0 k]
    by_cases h2 : rest.drop k.length = []
    · have h3 : ck.isPrefixOf ([] : List Char) = false := by
        cases ck with
        | nil => exact absurd rfl hk
        | cons a ck => rfl
      simp only [h2, h3, if_true, Bool.false_eq_true, if_false]
      exact Or.inr ⟨rfl, rfl⟩
    · simp only [h2, if_false, List.map_cons, List.map_nil, List.foldl_cons, List.foldl_nil]
      rw [visit_literal]
      by_cases h3 : ck.isPrefixOf (rest.drop k.length) = true
      · simp only [h3, if_true, List.length_append, List.drop_drop]
        rw [find_node_congr strtod cr (k ++ ck) ck ParamType.MAX ParamType.MAX ccs,
          Nat.add_comm]
        by_cases h4 : (Trie.find_node strtod (Node.mk cr ck ParamType.MAX ccs)
            (rest.drop (ck.length + k.length)) params).1 = 0
        · exact Or.inr ⟨h4, by simp [update_found, h4]⟩
        · exact Or.inl (by simp [update_found, h4])
      · simp only [h3, if_false, Bool.false_eq_true, update_found_zero]
        exact Or.inl rfl
  · simp only [h1, Bool.false_and, Bool.false_eq_true, if_false]
    exact Or.inl rfl

theorem forall₂_of_mem {α β : Type} {Q R : α → β → Prop} {l : List α} {l' : List β}
    (h : List.Forall₂ Q l l') (hi : ∀ a ∈ l, ∀ b, Q a b → R a b) : List.Forall₂ R l l' := by
  induction h with
  | nil => exact List.Forall₂.nil
  | cons hab _ ih =>
    exact List.Forall₂.cons (hi _ (List.mem_cons_self _ _) _ hab)
      (ih (fun a ha b hq => hi a (List.mem_cons_of_mem _ ha) b hq))

theorem forall₂_right_mem {α β : Type} {R : α → β → Prop} {l : List α} {l' : List β}
    (h : List.Forall₂ R l l') : ∀ b ∈ l', ∃ a ∈ l, R a b := by
  induction h with
  | nil => intro b hb; cases hb
  | cons hab _ ih =>
    intro b hb
    rcases List.mem_cons.mp hb with rfl | hb
    · exact ⟨_, List.mem_cons_self _ _, hab⟩
    · obtain ⟨a, ha, hr⟩ := ih b hb
      exact ⟨a, List.mem_cons_of_mem _ ha, hr⟩

theorem isSimple_iff (r : Nat) (k : List Char) (p : ParamType) (cs : List Node) :
    (Node.mk r k p cs).IsSimpleNode = true ↔
      r = 0 ∧ cs.length < 2 ∧ p = ParamType.MAX ∧ ∀ c ∈ cs, c.param = ParamType.MAX := by
  simp [Node.IsSimpleNode, and_assoc]

/-- What `optimizeNode` makes of a node is entered by `find` with the same results, and
keeps the shape that the argument relies on. -/
theorem optimizeNode_visit (strtod : StrtodFn) (fuel : Nat) :
    ∀ node node' : Node, (node.param = ParamType.MAX → node.key ≠ []) → Node.KeysOk node →
      Trie.optimizeNode fuel node = some node' →
      (node'.param = ParamType.MAX → node'.key ≠ []) ∧ Node.KeysOk node' ∧
        ∀ rest params,
          SameFound (Trie.visit strtod node' rest params) (Trie.visit strtod node rest params) := by
  induction fuel with
  | zero =>
    intro node node' _ _ h
    simp [Trie.optimizeNode] at h
  | succ fuel ih =>
    intro node node' hkey hok h
    obtain ⟨r, k, p, cs⟩ := node
    obtain ⟨hck, hcok⟩ := keysOk_children hok
    rw [Trie.optimizeNode.eq_def] at h
    simp only at h
    split at h
    · simp only [Option.some.injEq] at h
      subst h
      exact ⟨hkey, hok, fun _ _ => SameFound.refl _⟩
    · split at h
      · rename_i hsimple
        obtain ⟨hr, hlen, hp, hall⟩ := (isSimple_iff r k p cs).mp hsimple
        cases cs with
        | nil =>
          simp only [Option.some.injEq] at h
          subst h
          exact ⟨hkey, hok, fun _ _ => SameFound.refl _⟩
        | cons child more =>
          have hmore : more = [] := by
            cases more with
            | nil => rfl
            | cons _ _ => simp only [List.length_cons] at hlen; omega
          subst hmore
          subst hr
          subst hp
          simp only at h
          have hcp : child.param = ParamType.MAX := hall child (List.mem_cons_self _ _)
          have hckey : child.key ≠ [] := hck child (List.mem_cons_self _ _) hcp
          have hcok' : Node.KeysOk child := hcok child (List.mem_cons_self _ _)
          have hmk : Node.KeysOk (Node.mk child.rule_index (k ++ child.key) ParamType.MAX
              child.children) := by
            obtain ⟨cr, ck, cp, ccs⟩ := child
            obtain ⟨h1, h2⟩ := keysOk_children hcok'
            exact Node.KeysOk.mk _ _ _ _ h1 h2
          obtain ⟨g1, g2, g3⟩ := ih _ node' (fun _ => by
            simp only [Node.key]
            intro hnil
            exact hckey (List.append_eq_nil.mp hnil).2) hmk h
          exact ⟨g1, g2, fun rest params =>
            (g3 rest params).trans (visit_merge strtod k child hcp hckey rest params)⟩
      · simp only [Option.map_eq_some'] at h
        obtain ⟨cs', hcs', hn⟩ := h
        subst hn
        have hf := forChildren_some _ cs cs' hcs'
        have hall : List.Forall₂ (fun c c' =>
            ((c'.param = ParamType.MAX → c'.key ≠ []) ∧ Node.KeysOk c') ∧
            ∀ rest params, SameFound (Trie.visit strtod c' rest params)
              (Trie.visit strtod c rest params)) cs cs' :=
          forall₂_of_mem hf (fun a ha b hab =>
            have h3 := ih a b (hck a ha) (hcok a ha) hab
            ⟨⟨h3.1, h3.2.1⟩, h3.2.2⟩)
        refine ⟨hkey, ?_, ?_⟩
        · have h1 : ∀ c' ∈ cs', (c'.param = ParamType.MAX → c'.key ≠ []) ∧ Node.KeysOk c' := by
            intro c' hc'
            obtain ⟨a, _, ha⟩ := forall₂_right_mem hall c' hc'
            exact ha.1
          exact Node.KeysOk.mk _ _ _ _ (fun c hc => (h1 c hc).1) (fun c hc => (h1 c hc).2)
        · intro rest params
          rw [visit_congr_children strtod r k p cs cs' rest params
            (List.Forall₂.imp (fun a b hab => hab.2) hall)]
          exact SameFound.refl _

theorem raw_children {r : Nat} {k : List Char} {p : ParamType} {cs : List Node}
    (h : Node.Raw (Node.mk r k p cs)) :
    (∀ c ∈ cs, (c.param = ParamType.MAX ∧ ∃ ch, c.key = [ch]) ∨
      (c.param ≠ ParamType.MAX ∧ c.key = [])) ∧ (∀ c ∈ cs, Node.Raw c) := by
  cases h with
  | mk _ _ _ _ h1 h2 => exact ⟨h1, h2⟩

theorem raw_keysOk : ∀ node : Node, Node.Raw node → Node.KeysOk node := by
  intro node
  induction node using Node.induct with
  | h r k p cs ih =>
    intro h
    obtain ⟨h1, h2⟩ := raw_children h
    refine Node.KeysOk.mk _ _ _ _ ?_ (fun c hc => ih c hc (h2 c hc))
    intro c hc hp
    rcases h1 c hc with ⟨_, ch, hk⟩ | ⟨hnp, _⟩
    · rw [hk]; simp
    · exact absurd hp hnp

theorem paramTraits_types : ∀ x ∈ paramTraits, x.1 ≠ ParamType.MAX := by
  decide

/-- The children after `descend`, when all that `f` does to a node keeps the property
`P` of children. -/
theorem descend_forall (P : Node → Prop) (pred : Node → Bool) (fresh : Node)
    (f : Node → Option AddOutcome) (cs : List Node) (y : List Node × Option (List Char))
    (h : descend pred fresh f cs = some y) (hcs : ∀ c ∈ cs, P c)
    (hf : ∀ n o, (n ∈ cs ∨ n = fresh) → f n = some o → P o.node) : ∀ c ∈ y.1, P c := by
  rcases descend_some pred fresh f cs y h with ⟨pre, ch, post, o, h1, _, _, h4, h5⟩ |
    ⟨_, o, h2, h3⟩
  · subst h5
    subst h1
    intro c hc
    simp only [List.mem_append, List.mem_cons] at hc hcs
    rcases hc with hc | rfl | hc
    · exact hcs c (Or.inl hc)
    · exact hf ch o (Or.inl (by simp)) h4
    · exact hcs c (Or.inr (Or.inr hc))
  · subst h3
    intro c hc
    simp only [List.mem_append, List.mem_singleton] at hc
    rcases hc with hc | rfl
    · exact hcs c hc
    · exact hf fresh o (Or.inr rfl) h2

theorem add_loop_raw (url : List Char) (ri : Nat) (fuel : Nat) :
    ∀ (rest : List Char) (node : Node) (o : AddOutcome), Node.Raw node →
      Trie.add_loop url ri fuel rest node = some o → Node.Raw o.node := by
  induction fuel with
  | zero => intro rest node o _ h; simp [Trie.add_loop] at h
  | succ fuel ih =>
    intro rest node o hraw h
    obtain ⟨r, k, p, cs⟩ := node
    obtain ⟨h1, h2⟩ := raw_children hraw
    cases rest with
    | nil =>
      simp only [Trie.add_loop] at h
      split at h <;>
      · simp only [Option.some.injEq] at h
        subst h
        exact Node.Raw.mk _ _ _ _ h1 h2
    | cons c rest =>
      rw [Trie.add_loop] at h
      split at h
      · split at h
        · rename_i x hx
          have hmem : x ∈ paramTraits := List.mem_of_find?_eq_some hx
          simp only [Option.map_eq_some'] at h
          obtain ⟨y, hy, hyo⟩ := h
          subst hyo
          have hfresh : Node.Raw (Node.mk 0 [] x.1 []) :=
            Node.Raw.mk _ _ _ _ (fun c hc => by cases hc) (fun c hc => by cases hc)
          refine Node.Raw.mk _ _ _ _ ?_ ?_
          · refine descend_forall (fun c => (c.param = ParamType.MAX ∧ ∃ ch, c.key = [ch]) ∨
              (c.param ≠ ParamType.MAX ∧ c.key = [])) _ _ _ cs y hy h1 ?_
            intro n o hn ho
            obtain ⟨hs1, hs2⟩ := add_loop_shape url ri fuel _ n o ho
            rw [hs1, hs2]
            rcases hn with hn | rfl
            · exact h1 n hn
            · exact Or.inr ⟨paramTraits_types x hmem, rfl⟩
          · refine descend_forall Node.Raw _ _ _ cs y hy h2 ?_
            intro n o hn ho
            rcases hn with hn | rfl
            · exact ih _ n o (h2 n hn) ho
            · exact ih _ _ o hfresh ho
        · exact ih _ _ o hraw h
      · simp only [Option.map_eq_some'] at h
        obtain ⟨y, hy, hyo⟩ := h
        subst hyo
        have hfresh : Node.Raw (Node.mk 0 [c] ParamType.MAX []) :=
          Node.Raw.mk _ _ _ _ (fun c hc => by cases hc) (fun c hc => by cases hc)
        refine Node.Raw.mk _ _ _ _ ?_ ?_
        · refine descend_forall (fun c => (c.param = ParamType.MAX ∧ ∃ ch, c.key = [ch]) ∨
            (c.param ≠ ParamType.MAX ∧ c.key = [])) _ _ _ cs y hy h1 ?_
          intro n o hn ho
          obtain ⟨hs1, hs2⟩ := add_loop_shape url ri fuel _ n o ho
          rw [hs1, hs2]
          rcases hn with hn | rfl
          · exact h1 n hn
          · exact Or.inl ⟨rfl, c, rfl⟩
        · refine descend_forall Node.Raw _ _ _ cs y hy h2 ?_
          intro n o hn ho
          rcases hn with hn | rfl
          · exact ih _ n o (h2 n hn) ho
          · exact ih _ _ o hfresh ho

theorem built_raw (t : Trie) (h : Trie.Built t) : Node.Raw t.head_ := by
  induction h with
  | init => exact Node.Raw.mk _ _ _ _ (fun c hc => by cases hc) (fun c hc => by cases hc)
  | add t t' url ri err _ hadd ih =>
    simp only [Trie.add, Option.map_eq_some'] at hadd
    obtain ⟨o, ho, hoe⟩ := hadd
    simp only [Prod.mk.injEq] at hoe
    rw [← hoe.1]
    exact add_loop_raw url ri _ url t.head_ o ih ho

/-- `optimize` returns on every trie, and on a trie without empty literal keys `find`
returns the same pair after it as before it. -/
theorem optimize_find (strtod : StrtodFn) (t : Trie) (hok : Node.KeysOk t.head_) :
    ∃ t', Trie.optimize t = some t' ∧ Node.KeysOk t'.head_ ∧
      ∀ url, Trie.find strtod t' url = Trie.find strtod t url := by
  obtain ⟨head⟩ := t
  obtain ⟨r, k, p, cs⟩ := head
  obtain ⟨hck, hcok⟩ := keysOk_children hok
  obtain ⟨cs', hcs'⟩ := forChildren_isSome (fun child => Trie.optimizeNode child.size child) cs
    (fun c _ => optimizeNode_total c.size c (le_refl _))
  have hf := forChildren_some _ cs cs' hcs'
  have hall : List.Forall₂ (fun c c' =>
      ((c'.param = ParamType.MAX → c'.key ≠ []) ∧ Node.KeysOk c') ∧
      ∀ rest params, SameFound (Trie.visit strtod c' rest params)
        (Trie.visit strtod c rest params)) cs cs' :=
    forall₂_of_mem hf (fun a ha b hab =>
      have h3 := optimizeNode_visit strtod a.size a b (hck a ha) (hcok a ha) hab
      ⟨⟨h3.1, h3.2.1⟩, h3.2.2⟩)
  refine ⟨⟨Node.mk r k p cs'⟩, ?_, ?_, ?_⟩
  · simp only [Trie.optimize, Node.children, hcs', Option.map_some', Node.rule_index, Node.key,
      Node.param]
  · have h1 : ∀ c' ∈ cs', (c'.param = ParamType.MAX → c'.key ≠ []) ∧ Node.KeysOk c' := by
      intro c' hc'
      obtain ⟨a, _, ha⟩ := forall₂_right_mem hall c' hc'
      exact ha.1
    exact Node.KeysOk.mk _ _ _ _ (fun c hc => (h1 c hc).1) (fun c hc => (h1 c hc).2)
  · intro url
    simp only [Trie.find, find_node_eq]
    split
    · rfl
    · apply best_congr
      rw [List.forall₂_map_left_iff, List.forall₂_map_right_iff]
      exact List.Forall₂.imp (fun a b hab => hab.2 url routing_params.empty)
        (List.Forall₂.flip hall)

theorem mem_entriesList (cs : List Node) (path : List Label) (r : Nat) :
    (path, r) ∈ Node.entriesList cs ↔
      ∃ c ∈ cs, ∃ tail, path = (c.param, c.key) :: tail ∧ (tail, r) ∈ Node.entries c := by
  induction cs with
  | nil => simp [Node.entriesList]
  | cons a cs ih =>
    rw [Node.entriesList, List.mem_append, ih]
    constructor
    · rintro (h | ⟨c, hc, tail, h1, h2⟩)
      · obtain ⟨e, he, heq⟩ := List.mem_map.mp h
        simp only [Prod.mk.injEq] at heq
        exact ⟨a, List.mem_cons_self _ _, e.1, heq.1.symm, by rw [← heq.2]; exact he⟩
      · exact ⟨c, List.mem_cons_of_mem _ hc, tail, h1, h2⟩
    · rintro ⟨c, hc, tail, h1, h2⟩
      rcases List.mem_cons.mp hc with rfl | hc
      · exact Or.inl (List.mem_map.mpr ⟨(tail, r), h2, by rw [h1]⟩)
      · exact Or.inr ⟨c, hc, tail, h1, h2⟩

theorem mem_entries (r0 : Nat) (k : List Char) (p : ParamType) (cs : List Node)
    (path : List Label) (r : Nat) :
    (path, r) ∈ Node.entries (Node.mk r0 k p cs) ↔
      (path = [] ∧ r = r0) ∨
        ∃ c ∈ cs, ∃ tail, path = (c.param, c.key) :: tail ∧ (tail, r) ∈ Node.entries c := by
  rw [Node.entries, List.mem_cons, mem_entriesList]
  simp only [Prod.mk.injEq]

/-- A complete match is a node of the trie whose path of labels matches the URL. -/
theorem completeMatch_iff (strtod : StrtodFn) (node : Node) :
    ∀ (rest : List Char) (params : routing_params) (r : Nat) (out : routing_params),
      Trie.CompleteMatch strtod node rest params r out ↔
        ∃ path, (path, r) ∈ node.entries ∧ matchPath strtod path rest params = some out := by
  induction node using Node.induct with
  | h r0 k p cs ih =>
    intro rest params r out
    constructor
    · intro h
      cases h with
      | here => exact ⟨[], (mem_entries _ _ _ _ _ _).mpr (Or.inl ⟨rfl, rfl⟩), by simp [matchPath]⟩
      | step _ child _ _ x _ _ hch hx hm =>
        obtain ⟨path, hp, hmp⟩ := (ih child hch x.2 x.1 r out).mp hm
        refine ⟨(child.param, child.key) :: path,
          (mem_entries _ _ _ _ _ _).mpr (Or.inr ⟨child, hch, path, rfl, hp⟩), ?_⟩
        simp only [matchPath, hx, hmp]
    · rintro ⟨path, hp, hmp⟩
      rcases (mem_entries _ _ _ _ _ _).mp hp with ⟨rfl, rfl⟩ | ⟨c, hc, tail, rfl, ht⟩
      · simp only [matchPath] at hmp
        split at hmp
        · rename_i hr
          subst hr
          simp only [Option.some.injEq] at hmp
          subst hmp
          exact Trie.CompleteMatch.here (Node.mk r k p cs) params
        · cases hmp
      · simp only [matchPath] at hmp
        cases hx : enter strtod c.param c.key rest params with
        | none => simp [hx] at hmp
        | some x =>
          simp only [hx] at hmp
          exact Trie.CompleteMatch.step _ c rest params x r out hc hx
            ((ih c hc x.2 x.1 r out).mpr ⟨tail, ht, hmp⟩)

theorem noParamBelow_children {r : Nat} {k : List Char} {p : ParamType} {cs : List Node}
    (h : Node.NoParamBelow (Node.mk r k p cs)) :
    (∀ c ∈ cs, c.param = ParamType.MAX) ∧ (∀ c ∈ cs, Node.NoParamBelow c) := by
  cases h with
  | mk _ _ _ _ h1 h2 => exact ⟨h1, h2⟩

theorem entries_replace (r0 : Nat) (k : List Char) (p : ParamType) (pre post : List Node)
    (ch ch' : Node) (ls : List Label) (ri : Nat) (hp : ch'.param = ch.param)
    (hk : ch'.key = ch.key)
    (h : ∀ tail r, r ≠ 0 →
      ((tail, r) ∈ ch'.entries ↔ (tail, r) ∈ ch.entries ∨ (tail = ls ∧ r = ri))) :
    ∀ path r, r ≠ 0 →
      ((path, r) ∈ (Node.mk r0 k p (pre ++ ch' :: post)).entries ↔
        (path, r) ∈ (Node.mk r0 k p (pre ++ ch :: post)).entries ∨
          (path = (ch.param, ch.key) :: ls ∧ r = ri)) := by
  intro path r hr
  rw [mem_entries, mem_entries]
  constructor
  · rintro (h0 | ⟨c, hc, tail, h1, h2⟩)
    · exact Or.inl (Or.inl h0)
    · simp only [List.mem_append, List.mem_cons] at hc
      rcases hc with hc | rfl | hc
      · exact Or.inl (Or.inr ⟨c, by simp [hc], tail, h1, h2⟩)
      · rcases (h tail r hr).mp h2 with h3 | ⟨h3, h4⟩
        · exact Or.inl (Or.inr ⟨ch, by simp, tail, by rw [h1, hp, hk], h3⟩)
        · exact Or.inr ⟨by rw [h1, hp, hk, h3], h4⟩
      · exact Or.inl (Or.inr ⟨c, by simp [hc], tail, h1, h2⟩)
  · rintro ((h0 | ⟨c, hc, tail, h1, h2⟩) | ⟨h1, h2⟩)
    · exact Or.inl h0
    · simp only [List.mem_append, List.mem_cons] at hc
      rcases hc with hc | rfl | hc
      · exact Or.inr ⟨c, by simp [hc], tail, h1, h2⟩
      · exact Or.inr ⟨ch', by simp, tail, by rw [h1, hp, hk],
          (h tail r hr).mpr (Or.inl h2)⟩
      · exact Or.inr ⟨c, by simp [hc], tail, h1, h2⟩
    · exact Or.inr ⟨ch', by simp, ls, by rw [h1, hp, hk], (h ls r hr).mpr (Or.inr ⟨rfl, h2⟩)⟩

theorem entries_append (r0 : Nat) (k : List Char) (p : ParamType) (cs : List Node)
    (ch' : Node) (ls : List Label) (ri : Nat)
    (h : ∀ tail r, r ≠ 0 → ((tail, r) ∈ ch'.entries ↔ (tail = ls ∧ r = ri))) :
    ∀ path r, r ≠ 0 →
      ((path, r) ∈ (Node.mk r0 k p (cs ++ [ch'])).entries ↔
        (path, r) ∈ (Node.mk r0 k p cs).entries ∨
          (path = (ch'.param, ch'.key) :: ls ∧ r = ri)) := by
  intro path r hr
  rw [mem_entries, mem_entries]
  constructor
  · rintro (h0 | ⟨c, hc, tail, h1, h2⟩)
    · exact Or.inl (Or.inl h0)
    · simp only [List.mem_append, List.mem_singleton] at hc
      rcases hc with hc | rfl
      · exact Or.inl (Or.inr ⟨c, hc, tail, h1, h2⟩)
      · obtain ⟨h3, h4⟩ := (h tail r hr).mp h2
        exact Or.inr ⟨by rw [h1, h3], h4⟩
  · rintro ((h0 | ⟨c, hc, tail, h1, h2⟩) | ⟨h1, h2⟩)
    · exact Or.inl h0
    · exact Or.inr ⟨c, by simp [hc], tail, h1, h2⟩
    · exact Or.inr ⟨ch', by simp, ls, h1, (h ls r hr).mpr ⟨rfl, h2⟩⟩

theorem label_of_key0 (ch : Node) (c : Char)
    (hraw : (ch.param = ParamType.MAX ∧ ∃ x, ch.key = [x]) ∨
      (ch.param ≠ ParamType.MAX ∧ ch.key = []))
    (hk : ch.key0 = c) (hc : c ≠ Char.ofNat 0 ∨ ch.param = ParamType.MAX) :
    ch.param = ParamType.MAX ∧ ch.key = [c] := by
  rcases hraw with ⟨h1, x, h2⟩ | ⟨h1, h2⟩
  · refine ⟨h1, ?_⟩
    rw [Node.key0, h2] at hk
    simp only [List.headD_cons] at hk
    rw [h2, hk]
  · rcases hc with hc | hc
    · rw [Node.key0, h2] at hk
      exact absurd hk.symm hc
    · exact absurd hc h1

theorem entries_leaf (r0 : Nat) (k : List Char) (p : ParamType) (tail : List Label) (r : Nat)
    (hr : r ≠ 0) (h0 : r0 = 0) : (tail, r) ∉ (Node.mk r0 k p []).entries := by
  rw [mem_entries]
  rintro (⟨_, h⟩ | ⟨c, hc, _⟩)
  · exact hr (h.trans h0)
  · cases hc

/-- What a successful `add` changes in the trie, seen through its nodes with a rule: the
node at the path of the pattern's segments now carries the new rule index, and nothing
else changes. The pattern must be free of NUL characters unless the trie has no
parameter node. -/
theorem add_loop_entries (url : List Char) (ri : Nat) (fuel : Nat) :
    ∀ (rest : List Char) (node n' : Node), Node.Raw node →
      (Char.ofNat 0 ∉ rest ∨ Node.NoParamBelow node) →
      Trie.add_loop url ri fuel rest node = some ⟨n', none⟩ →
      ∃ ls, Tokens rest ls ∧ ∀ path r, r ≠ 0 →
        ((path, r) ∈ n'.entries ↔ (path, r) ∈ node.entries ∨ (path = ls ∧ r = ri)) := by
  induction fuel with
  | zero => intro rest node n' _ _ h; simp [Trie.add_loop] at h
  | succ fuel ih =>
    intro rest node n' hraw hnul h
    obtain ⟨r0, k, p, cs⟩ := node
    obtain ⟨h1, h2⟩ := raw_children hraw
    cases rest with
    | nil =>
      simp only [Trie.add_loop] at h
      split at h
      · simp at h
      · rename_i hr0
        simp only [ne_eq, Decidable.not_not] at hr0
        simp only [Option.some.injEq, AddOutcome.mk.injEq, and_true] at h
        subst h
        refine ⟨[], Tokens.nil, ?_⟩
        intro path r hr
        rw [mem_entries, mem_entries]
        constructor
        · rintro (h | h)
          · exact Or.inr h
          · exact Or.inl (Or.inr h)
        · rintro ((⟨_, h⟩ | h) | h)
          · exact absurd (h.trans hr0) hr
          · exact Or.inr h
          · exact Or.inl h
    | cons c rest =>
      rw [Trie.add_loop] at h
      split at h
      · rename_i hc
        subst hc
        split at h
        · rename_i x hx
          have hmem : x ∈ paramTraits := List.mem_of_find?_eq_some hx
          have hxt := paramTraits_types x hmem
          simp only [Option.map_eq_some'] at h
          obtain ⟨y, hy, hyo⟩ := h
          simp only [AddOutcome.mk.injEq] at hyo
          obtain ⟨hy1, hy2⟩ := hyo
          subst hy1
          have hnul' : ∀ n, (n ∈ cs ∨ n = Node.mk 0 [] x.1 []) →
              (Char.ofNat 0 ∉ ('<' :: rest).drop x.2.length ∨ Node.NoParamBelow n) := by
            intro n hn
            rcases hnul with hnul | hnul
            · exact Or.inl (fun hm => hnul (List.mem_of_mem_drop hm))
            · rcases hn with hn | rfl
              · exact Or.inr ((noParamBelow_children hnul).2 n hn)
              · exact Or.inr (Node.NoParamBelow.mk _ _ _ _ (fun c hc => by cases hc)
                  (fun c hc => by cases hc))
          rcases descend_some _ _ _ cs y hy with ⟨pre, ch, post, o, g1, _, g3, g4, g5⟩ |
            ⟨_, o, g2, g3⟩
          · subst g5
            subst g1
            simp only at hy2
            obtain ⟨nd, ot⟩ := o
            simp only at hy2
            subst hy2
            have hch : ch ∈ pre ++ ch :: post := by simp
            obtain ⟨ls, hls, hiff⟩ := ih _ ch nd (h2 ch hch) (hnul' ch (Or.inl hch)) g4
            obtain ⟨s1, s2⟩ := add_loop_shape url ri fuel _ ch _ g4
            simp only at s1 s2
            have hpar : ch.param = x.1 := by simpa using g3
            have hkey : ch.key = [] := by
              rcases h1 ch hch with ⟨hm, _⟩ | ⟨_, hk⟩
              · exact absurd (hm ▸ hpar.symm) hxt
              · exact hk
            refine ⟨(x.1, []) :: ls, Tokens.tok rest x ls hx hls, ?_⟩
            have := entries_replace r0 k p pre post ch nd ls ri s2 s1 hiff
            rw [hpar, hkey] at this
            exact this
          · subst g3
            simp only at hy2
            obtain ⟨nd, ot⟩ := o
            simp only at hy2
            subst hy2
            have hfresh : Node.Raw (Node.mk 0 [] x.1 []) :=
              Node.Raw.mk _ _ _ _ (fun c hc => by cases hc) (fun c hc => by cases hc)
            obtain ⟨ls, hls, hiff⟩ := ih _ _ nd hfresh (hnul' _ (Or.inr rfl)) g2
            obtain ⟨s1, s2⟩ := add_loop_shape url ri fuel _ _ _ g2
            simp only [Node.key, Node.param] at s1 s2
            refine ⟨(x.1, []) :: ls, Tokens.tok rest x ls hx hls, ?_⟩
            have := entries_append r0 k p cs nd ls ri (fun tail r hr => by
              rw [hiff tail r hr]
              constructor
              · rintro (h | h)
                · exact absurd h (entries_leaf _ _ _ _ _ hr rfl)
                · exact h
              · exact Or.inr)
            simp only [Node.key, Node.param, s1, s2] at this
            exact this
        · rename_i hx
          -- the loop is back at the same `<` with less fuel
          have hb : HasBadOpen ('<' :: rest) := ⟨[], rest, rfl, hx⟩
          rw [add_loop_badOpen url ri fuel _ _ hb] at h
          cases h
      · rename_i hc
        simp only [Option.map_eq_some'] at h
        obtain ⟨y, hy, hyo⟩ := h
        simp only [AddOutcome.mk.injEq] at hyo
        obtain ⟨hy1, hy2⟩ := hyo
        subst hy1
        have hnul' : ∀ n, (n ∈ cs ∨ n = Node.mk 0 [c] ParamType.MAX []) →
            (Char.ofNat 0 ∉ rest ∨ Node.NoParamBelow n) := by
          intro n hn
          rcases hnul with hnul | hnul
          · exact Or.inl (fun hm => hnul (List.mem_cons_of_mem _ hm))
          · rcases hn with hn | rfl
            · exact Or.inr ((noParamBelow_children hnul).2 n hn)
            · exact Or.inr (Node.NoParamBelow.mk _ _ _ _ (fun c hc => by cases hc)
                (fun c hc => by cases hc))
        rcases descend_some _ _ _ cs y hy with ⟨pre, ch, post, o, g1, _, g3, g4, g5⟩ |
          ⟨_, o, g2, g3⟩
        · subst g5
          subst g1
          simp only at hy2
          obtain ⟨nd, ot⟩ := o
          simp only at hy2
          subst hy2
          have hch : ch ∈ pre ++ ch :: post := by simp
          obtain ⟨ls, hls, hiff⟩ := ih _ ch nd (h2 ch hch) (hnul' ch (Or.inl hch)) g4
          obtain ⟨s1, s2⟩ := add_loop_shape url ri fuel _ ch _ g4
          simp only at s1 s2
          have hlab : ch.param = ParamType.MAX ∧ ch.key = [c] := by
            refine label_of_key0 ch c (h1 ch hch) (by simpa using g3) ?_
            rcases hnul with hnul | hnul
            · exact Or.inl (fun h0 => hnul (h0 ▸ List.mem_cons_self _ _))
            · exact Or.inr ((noParamBelow_children hnul).1 ch hch)
          refine ⟨(ParamType.MAX, [c]) :: ls, Tokens.lit c rest ls hc hls, ?_⟩
          have := entries_replace r0 k p pre post ch nd ls ri s2 s1 hiff
          rw [hlab.1, hlab.2] at this
          exact this
        · subst g3
          simp only at hy2
          obtain ⟨nd, ot⟩ := o
          simp only at hy2
          subst hy2
          have hfresh : Node.Raw (Node.mk 0 [c] ParamType.MAX []) :=
            Node.Raw.mk _ _ _ _ (fun c hc => by cases hc) (fun c hc => by cases hc)
          obtain ⟨ls, hls, hiff⟩ := ih _ _ nd hfresh (hnul' _ (Or.inr rfl)) g2
          obtain ⟨s1, s2⟩ := add_loop_shape url ri fuel _ _ _ g2
          simp only [Node.key, Node.param] at s1 s2
          refine ⟨(ParamType.MAX, [c]) :: ls, Tokens.lit c rest ls hc hls, ?_⟩
          have := entries_append r0 k p cs nd ls ri (fun tail r hr => by
            rw [hiff tail r hr]
            constructor
            · rintro (h | h)
              · exact absurd h (entries_leaf _ _ _ _ _ hr rfl)
              · exact h
            · exact Or.inr)
          simp only [Node.key, Node.param, s1, s2] at this
          exact this

/-- Some node with a non-zero rule matches: `find` returns a non-zero id, at most the id
of that node. -/
theorem find_le_entry (strtod : StrtodFn) (node : Node) (hk : Node.KeysOk node)
    (rest : List Char) (params out : routing_params) (path : List Label) (r : Nat)
    (hr : r ≠ 0) (hmem : (path, r) ∈ node.entries)
    (hm : matchPath strtod path rest params = some out) :
    (Trie.find_node strtod node rest params).1 ≠ 0 ∧
      (Trie.find_node strtod node rest params).1 ≤ r :=
  find_node_least strtod node rest params r out hk
    ((completeMatch_iff strtod node rest params r out).mpr ⟨path, hmem, hm⟩) hr

/-- A non-zero result of `find` is the rule of a node whose path matches the URL with the
parameters returned. -/
theorem find_entry (strtod : StrtodFn) (node : Node) (rest : List Char)
    (params : routing_params) (h : (Trie.find_node strtod node rest params).1 ≠ 0) :
    ∃ path, (path, (Trie.find_node strtod node rest params).1) ∈ node.entries ∧
      matchPath strtod path rest params = some (Trie.find_node strtod node rest params).2 :=
  (completeMatch_iff strtod node rest params _ _).mp (find_node_sound strtod node rest params h)

/-- A result of `find` without a rule is the pair `(0, empty)` when `find` was started
with empty parameters. -/
theorem find_zero (strtod : StrtodFn) (node : Node) (rest : List Char)
    (h : (Trie.find_node strtod node rest routing_params.empty).1 = 0) :
    Trie.find_node strtod node rest routing_params.empty = (0, routing_params.empty) := by
  obtain ⟨r, k, p, cs⟩ := node
  rw [find_node_eq] at h ⊢
  split at h
  · rename_i hr
    simp only at h
    simp only [hr, if_true, h]
  · rename_i hr
    simp only [hr, if_false]
    rcases best_mem (cs.map (fun ch => Trie.visit strtod ch rest routing_params.empty))
      (0, routing_params.empty) with h1 | ⟨_, h1⟩
    · exact h1
    · exact absurd h h1

/-- When the only node with a non-zero rule is the one at `path`, and `path` matches the
URL, `find` returns the rule of that node and the parameters bound along `path`. -/
theorem find_unique (strtod : StrtodFn) (node : Node) (hk : Node.KeysOk node)
    (rest : List Char) (params out : routing_params) (path : List Label) (r : Nat)
    (hr : r ≠ 0) (hmem : (path, r) ∈ node.entries)
    (honly : ∀ path' r', r' ≠ 0 → (path', r') ∈ node.entries → path' = path ∧ r' = r)
    (hm : matchPath strtod path rest params = some out) :
    Trie.find_node strtod node rest params = (r, out) := by
  obtain ⟨h1, _⟩ := find_le_entry strtod node hk rest params out path r hr hmem hm
  obtain ⟨path', hp', hm'⟩ := find_entry strtod node rest params h1
  obtain ⟨e1, e2⟩ := honly _ _ h1 hp'
  rw [e1, hm] at hm'
  simp only [Option.some.injEq] at hm'
  exact Prod.ext e2 hm'.symm

/-- When no node with a non-zero rule has a path that matches the URL, `find` returns
0. -/
theorem find_none (strtod : StrtodFn) (node : Node) (rest : List Char)
    (params : routing_params)
    (h : ∀ path r, r ≠ 0 → (path, r) ∈ node.entries → matchPath strtod path rest params = none) :
    (Trie.find_node strtod node rest params).1 = 0 := by
  by_contra hne
  obtain ⟨path, hp, hm⟩ := find_entry strtod node rest params hne
  rw [h path _ hne hp] at hm
  cases hm

theorem tokens_unique (P : List Char) (ls ls' : List Label) (h : Tokens P ls)
    (h' : Tokens P ls') : ls = ls' := by
  induction h generalizing ls' with
  | nil => cases h'; rfl
  | lit c rest ls hc _ ih =>
    cases h' with
    | lit _ _ ls2 _ h2 => rw [ih ls2 h2]
    | tok _ _ _ _ _ => exact absurd rfl hc
  | tok rest x ls hx _ ih =>
    cases h' with
    | lit _ _ _ hc _ => exact absurd rfl hc
    | tok _ x2 ls2 hx2 h2 =>
      rw [hx] at hx2
      simp only [Option.some.injEq] at hx2
      subst hx2
      rw [ih ls2 h2]

theorem tokens_literal (P : List Char) (h : '<' ∉ P) : Tokens P (literalLabels P) := by
  induction P with
  | nil => exact Tokens.nil
  | cons c P ih =>
    exact Tokens.lit c P _ (fun hc => h (hc ▸ List.mem_cons_self _ _))
      (ih (fun hm => h (List.mem_cons_of_mem _ hm)))

theorem enter_literal_cons (strtod : StrtodFn) (c : Char) (rest : List Char)
    (params : routing_params) :
    enter strtod ParamType.MAX [c] (c :: rest) params = some (params, rest) := by
  simp [enter, List.isPrefixOf]

theorem enter_literal_ne (strtod : StrtodFn) (c d : Char) (rest : List Char)
    (params : routing_params) (h : c ≠ d) :
    enter strtod ParamType.MAX [c] (d :: rest) params = none := by
  simp [enter, List.isPrefixOf, h]

/-- Along the labels of a literal pattern, `find` consumes exactly the pattern. -/
theorem matchPath_literal (strtod : StrtodFn) (P s : List Char) (params : routing_params) :
    matchPath strtod (literalLabels P) (P ++ s) params = if s = [] then some params else none := by
  induction P with
  | nil => simp [literalLabels, matchPath]
  | cons c P ih =>
    simp only [literalLabels, List.map_cons, List.cons_append, matchPath, enter_literal_cons]
    exact ih

theorem paramTraits_eq :
    paramTraits =
      [ (ParamType.INT, ['<', 'i', 'n', 't', '>']),
        (ParamType.UINT, ['<', 'u', 'i', 'n', 't', '>']),
        (ParamType.DOUBLE, ['<', 'f', 'l', 'o', 'a', 't', '>']),
        (ParamType.DOUBLE, ['<', 'd', 'o', 'u', 'b', 'l', 'e', '>']),
        (ParamType.STRING, ['<', 's', 't', 'r', '>']),
        (ParamType.STRING, ['<', 's', 't', 'r', 'i', 'n', 'g', '>']),
        (ParamType.PATH, ['<', 'p', 'a', 't', 'h', '>']) ] := rfl

/-- At a token of the pattern, the first name of `paramTraits` that matches is the name
of that token. -/
theorem find_token (p : Piece) (hp : ∀ c, p ≠ Piece.lit c) (rest : List Char) :
    paramTraits.find? (fun x => x.2.isPrefixOf (p.pattern ++ rest)) =
      some (p.label.1, p.pattern) := by
  rw [paramTraits_eq]
  cases p with
  | lit c => exact absurd rfl (hp c)
  | int t => simp [Piece.pattern, Piece.label, List.find?, List.isPrefixOf]
  | uint t => simp [Piece.pattern, Piece.label, List.find?, List.isPrefixOf]
  | dbl l t => cases l <;> simp [Piece.pattern, Piece.label, List.find?, List.isPrefixOf]
  | str l t => cases l <;> simp [Piece.pattern, Piece.label, List.find?, List.isPrefixOf]
  | path t => simp [Piece.pattern, Piece.label, List.find?, List.isPrefixOf]

theorem token_pattern (p : Piece) (hp : ∀ c, p ≠ Piece.lit c) :
    ∃ tl, p.pattern = '<' :: tl ∧ p.label.2 = [] := by
  cases p with
  | lit c => exact absurd rfl (hp c)
  | int t => exact ⟨_, rfl, rfl⟩
  | uint t => exact ⟨_, rfl, rfl⟩
  | dbl l t => cases l <;> exact ⟨_, rfl, rfl⟩
  | str l t => cases l <;> exact ⟨_, rfl, rfl⟩
  | path t => exact ⟨_, rfl, rfl⟩

theorem tokens_pieces (strtod : StrtodFn) (ps : List Piece) (h : allOk strtod ps) :
    Tokens (patternOf ps) (ps.map Piece.label) := by
  induction ps with
  | nil => exact Tokens.nil
  | cons p ps ih =>
    obtain ⟨hp, hps⟩ := h
    have ih' := ih hps
    by_cases hl : ∃ c, p = Piece.lit c
    · obtain ⟨c, rfl⟩ := hl
      exact Tokens.lit c _ _ hp ih'
    · have hp' : ∀ c, p ≠ Piece.lit c := fun c hc => hl ⟨c, hc⟩
      obtain ⟨tl, htl, hk⟩ := token_pattern p hp'
      have hf := find_token p hp' (patternOf ps)
      have hpat : patternOf (p :: ps) = '<' :: (tl ++ patternOf ps) := by
        simp [patternOf, htl]
      rw [hpat]
      have hf' : paramTraits.find? (fun x => x.2.isPrefixOf ('<' :: (tl ++ patternOf ps))) =
          some (p.label.1, p.pattern) := by
        rw [← hf, htl]; rfl
      have hdrop : ('<' :: (tl ++ patternOf ps)).drop (p.label.1, p.pattern).2.length =
          patternOf ps := by
        simp only [htl, List.length_cons, List.drop_succ_cons]
        exact List.drop_left' rfl
      have hlab : p.label = ((p.label.1, p.pattern).1, []) := Prod.ext rfl hk
      have := Tokens.tok (tl ++ patternOf ps) (p.label.1, p.pattern) (ps.map Piece.label) hf'
        (by rw [hdrop]; exact ih')
      rw [List.map_cons, hlab]
      exact this

theorem append_empty (a : routing_params) : a.append routing_params.empty = a := by
  simp [routing_params.append, routing_params.empty]

theorem empty_append (a : routing_params) : routing_params.empty.append a = a := by
  simp [routing_params.append, routing_params.empty]

theorem append_assoc (a b c : routing_params) : (a.append b).append c = a.append (b.append c) := by
  simp [routing_params.append]

theorem numeralValue_eq (sign ds : List Char) (hsign : sign = [] ∨ sign = ['+'] ∨ sign = ['-'])
    (hne : ds ≠ []) (hd : ∀ c ∈ ds, isdigit c = true) :
    numeralValue (sign ++ ds) = signedValue sign ds := by
  obtain ⟨_, h2, _, _⟩ := strto_front (sign ++ ds ++ []) sign ds [] rfl hsign hne hd (by simp)
  rw [List.append_nil] at h2
  rw [numeralValue, h2, List.take_left' rfl, List.drop_left' rfl]

/-- A segment with a valid, delimited value is entered by `find` with exactly that value
bound, and what follows it is left as the rest of the URL. -/
theorem enter_piece (strtod : StrtodFn) (p : Piece) (after : List Char) (params : routing_params)
    (h : p.ok strtod after) :
    enter strtod p.label.1 p.label.2 (p.text ++ after) params =
      some (params.append (p.value strtod after), after) := by
  cases p with
  | lit c =>
    simp only [Piece.label, Piece.text, Piece.value, append_empty]
    exact enter_literal_cons strtod c after params
  | int text =>
    obtain ⟨⟨sign, ds, rfl, hsign, hne, hd, hlo, hhi⟩, hafter⟩ := h
    simp only [Piece.label, Piece.text, Piece.value]
    rw [int_child_iff]
    exact ⟨sign, ds, rfl, hsign, hne, hd, hafter, hlo, hhi, by
      rw [numeralValue_eq sign ds hsign hne hd]; simp [routing_params.append]⟩
  | uint text =>
    obtain ⟨⟨sign, ds, rfl, hsign, hne, hd, hhi⟩, hafter⟩ := h
    simp only [Piece.label, Piece.text, Piece.value]
    rw [uint_child_iff]
    refine ⟨sign, ds, rfl, hsign, hne, hd, hafter, hhi, ?_⟩
    have hs : sign ≠ ['-'] := by rcases hsign with h | h <;> · rw [h]; decide
    rw [numeralValue_eq sign ds (by tauto) hne hd]
    simp [signedValue, hs, routing_params.append]
  | dbl l text =>
    obtain ⟨⟨c, cs, rfl, hg⟩, hcons, her⟩ := h
    simp only [Piece.label, Piece.text, Piece.value]
    have hlen : (c :: cs).length ≠ 0 := by simp
    have hd : ((c :: cs) ++ after).drop (c :: cs).length = after := List.drop_left' rfl
    simp only [enter]
    rw [if_pos (by simpa using hg), her, hcons]
    simp only [Bool.not_false, Bool.true_and, decide_eq_true_eq]
    rw [if_pos hlen, hd]
    simp [routing_params.append]
  | str l text =>
    obtain ⟨hne, hslash, hafter⟩ := h
    simp only [Piece.label, Piece.text, Piece.value]
    have htw : (text ++ after).takeWhile (fun x => x != '/') = text := by
      rw [List.takeWhile_append_of_pos (fun c hc => by
        simp only [bne_iff_ne, ne_eq]
        rintro rfl
        exact hslash hc)]
      rcases hafter with rfl | hafter
      · simp
      · cases after with
        | nil => simp
        | cons a after =>
          simp only [List.head?_cons, Option.some.injEq] at hafter
          subst hafter
          simp [List.takeWhile_cons]
    have hlen : text.length ≠ 0 := by simpa using hne
    simp only [enter, htw]
    rw [if_pos hlen, List.drop_left' rfl]
    simp [routing_params.append]
  | path text =>
    obtain ⟨hne, rfl⟩ := h
    have hlen : text.length ≠ 0 := by simpa using hne
    simp only [Piece.label, Piece.text, Piece.value, enter, List.append_nil]
    rw [if_pos hlen]
    simp [routing_params.append]

theorem matchPath_pieces (strtod : StrtodFn) (ps : List Piece) (h : allOk strtod ps)
    (params : routing_params) :
    matchPath strtod (ps.map Piece.label) (urlOf ps) params =
      some (params.append (valuesOf strtod ps)) := by
  induction ps generalizing params with
  | nil => simp [matchPath, urlOf, valuesOf, append_empty]
  | cons p ps ih =>
    obtain ⟨hp, hps⟩ := h
    have hurl : urlOf (p :: ps) = p.text ++ urlOf ps := by simp [urlOf]
    rw [List.map_cons, hurl, matchPath, enter_piece strtod p (urlOf ps) params hp]
    simp only
    rw [ih hps, valuesOf, append_assoc]

/-- A walk of `add` through a part of the trie in which no node carries a rule does not
throw. -/
theorem add_loop_no_throw (url : List Char) (ri : Nat) (fuel : Nat) :
    ∀ (rest : List Char) (node : Node) (o : AddOutcome),
      (∀ path r, (path, r) ∈ node.entries → r = 0) →
      Trie.add_loop url ri fuel rest node = some o → o.thrown = none := by
  induction fuel with
  | zero => intro rest node o _ h; simp [Trie.add_loop] at h
  | succ fuel ih =>
    intro rest node o hz h
    obtain ⟨r0, k, p, cs⟩ := node
    have hr0 : r0 = 0 := hz [] r0 ((mem_entries _ _ _ _ _ _).mpr (Or.inl ⟨rfl, rfl⟩))
    have hcs : ∀ n, (n ∈ cs ∨ n.children = [] ∧ n.rule_index = 0) →
        ∀ path r, (path, r) ∈ n.entries → r = 0 := by
      intro n hn path r hmem
      rcases hn with hn | ⟨hn1, hn2⟩
      · exact hz ((n.param, n.key) :: path) r
          ((mem_entries _ _ _ _ _ _).mpr (Or.inr ⟨n, hn, path, rfl, hmem⟩))
      · obtain ⟨nr, nk, np, ncs⟩ := n
        simp only [Node.children, Node.rule_index] at hn1 hn2
        subst hn1
        rcases (mem_entries _ _ _ _ _ _).mp hmem with ⟨_, h⟩ | ⟨c, hc, _⟩
        · exact h.trans hn2
        · cases hc
    cases rest with
    | nil =>
      simp only [Trie.add_loop] at h
      rw [if_neg (by simpa using hr0)] at h
      simp only [Option.some.injEq] at h
      rw [← h]
    | cons c rest =>
      rw [Trie.add_loop] at h
      split at h
      · split at h
        · simp only [Option.map_eq_some'] at h
          obtain ⟨y, hy, hyo⟩ := h
          rw [← hyo]
          rcases descend_some _ _ _ cs y hy with ⟨pre, ch, post, o', g1, _, _, g4, g5⟩ |
            ⟨_, o', g2, g3⟩
          · rw [g5]
            exact ih _ ch o' (hcs ch (Or.inl (by rw [g1]; simp))) g4
          · rw [g3]
            exact ih _ (Node.mk 0 [] _ []) o' (hcs _ (Or.inr ⟨rfl, rfl⟩)) g2
        · exact ih _ _ o hz h
      · simp only [Option.map_eq_some'] at h
        obtain ⟨y, hy, hyo⟩ := h
        rw [← hyo]
        rcases descend_some _ _ _ cs y hy with ⟨pre, ch, post, o', g1, _, _, g4, g5⟩ |
          ⟨_, o', g2, g3⟩
        · rw [g5]
          exact ih _ ch o' (hcs ch (Or.inl (by rw [g1]; simp))) g4
        · rw [g3]
          exact ih _ (Node.mk 0 [c] ParamType.MAX []) o' (hcs _ (Or.inr ⟨rfl, rfl⟩)) g2

theorem tokens_not_badOpen (P : List Char) (ls : List Label) (h : Tokens P ls) :
    ¬ HasBadOpen P := by
  induction h with
  | nil =>
    rintro ⟨pre, post, hsplit, _⟩
    cases pre <;> simp at hsplit
  | lit c rest ls hc _ ih =>
    rintro ⟨pre, post, hsplit, hnone⟩
    cases pre with
    | nil =>
      simp only [List.nil_append, List.cons.injEq] at hsplit
      exact hc hsplit.1
    | cons b pre =>
      simp only [List.cons_append, List.cons.injEq] at hsplit
      exact ih ⟨pre, post, hsplit.2, hnone⟩
  | tok rest x ls hx _ ih =>
    intro hb
    exact ih (hasBadOpen_drop x _ hx hb)

theorem init_raw : Node.Raw Trie.init.head_ :=
  Node.Raw.mk _ _ _ _ (fun c hc => by cases hc) (fun c hc => by cases hc)

theorem init_noParamBelow : Node.NoParamBelow Trie.init.head_ :=
  Node.NoParamBelow.mk _ _ _ _ (fun c hc => by cases hc) (fun c hc => by cases hc)

theorem init_entries (path : List Label) (r : Nat) (h : (path, r) ∈ Trie.init.head_.entries) :
    r = 0 := by
  rcases (mem_entries _ _ _ _ _ _).mp h with ⟨_, h⟩ | ⟨c, hc, _⟩
  · exact h
  · cases hc

/-- The trie that holds a single pattern: `add` on the empty trie returns without an
error, and the only node with a rule is the one at the path of the pattern's
segments. -/
theorem add_init (P : List Char) (ls : List Label) (r : Nat) (hr : r ≠ 0) (hP : Tokens P ls) :
    ∃ t, Trie.add Trie.init P r = some (t, none) ∧ Node.Raw t.head_ ∧
      (ls, r) ∈ t.head_.entries ∧
      ∀ path r', r' ≠ 0 → (path, r') ∈ t.head_.entries → path = ls ∧ r' = r := by
  obtain ⟨o, ho⟩ := add_loop_total P r (P.length + 1) P Trie.init.head_
    (tokens_not_badOpen P ls hP) (Nat.lt_succ_self _)
  have hthrown := add_loop_no_throw P r _ P _ o init_entries ho
  obtain ⟨nd, th⟩ := o
  simp only at hthrown
  subst hthrown
  obtain ⟨ls', hls', hiff⟩ := add_loop_entries P r _ P _ nd init_raw (Or.inr init_noParamBelow) ho
  have hl : ls' = ls := tokens_unique P ls' ls hls' hP
  subst hl
  refine ⟨⟨nd⟩, ?_, add_loop_raw P r _ P _ _ init_raw ho, ?_, ?_⟩
  · simp only [Trie.add, ho, Option.map_some']
  · exact (hiff ls' r hr).mpr (Or.inr ⟨rfl, rfl⟩)
  · intro path r' hr' hmem
    rcases (hiff path r' hr').mp hmem with h | h
    · exact absurd (init_entries path r' h) hr'
    · exact h

theorem forEach_cons_ok {α σ : Type} (f : α → σ → Option (σ × Option (List Char))) (x : α)
    (xs : List α) (s s' : σ) :
    forEach f (x :: xs) s = some (s', none) ↔
      ∃ s1, f x s = some (s1, none) ∧ forEach f xs s1 = some (s', none) := by
  rw [forEach]
  constructor
  · intro h
    split at h
    · cases h
    · simp at h
    · rename_i s1 hs1
      exact ⟨s1, hs1, h⟩
  · rintro ⟨s1, h1, h2⟩
    simp only [h1, h2]

theorem on_per_method_ok (op : PerMethod → Option (PerMethod × Option (List Char)))
    (m : Nat) (r r' : Router) :
    Router.on_per_method op m r = some (r', none) ↔
      ∃ pm, op (r.per_methods_ m) = some (pm, none) ∧
        r' = { r with per_methods_ := Function.update r.per_methods_ m pm } := by
  simp only [Router.on_per_method, Option.map_eq_some', Prod.mk.injEq]
  constructor
  · rintro ⟨⟨pm, e⟩, h1, h2, h3⟩
    simp only at h2 h3
    subst h3
    exact ⟨pm, h1, h2.symm⟩
  · rintro ⟨pm, h1, h2⟩
    exact ⟨(pm, none), h1, h2.symm, rfl⟩

/-- A loop that runs an operation on the per-method tables of the listed methods and
ends without an error has run the operation on each of these tables, without an error,
and has left the other tables and the rules alone. -/
theorem forEach_on_per_method (op : PerMethod → Option (PerMethod × Option (List Char)))
    (ms : List Nat) (hnd : ms.Nodup) (r r' : Router)
    (h : forEach (Router.on_per_method op) ms r = some (r', none)) :
    (∀ m ∈ ms, op (r.per_methods_ m) = some (r'.per_methods_ m, none)) ∧
      (∀ m, m ∉ ms → r'.per_methods_ m = r.per_methods_ m) ∧
      r'.all_rules_ = r.all_rules_ := by
  induction ms generalizing r with
  | nil =>
    simp only [forEach, Option.some.injEq, Prod.mk.injEq, and_true] at h
    subst h
    exact ⟨fun m hm => (by cases hm), fun _ _ => rfl, rfl⟩
  | cons x xs ih =>
    obtain ⟨hx, hxs⟩ := List.nodup_cons.mp hnd
    obtain ⟨r1, h1, h2⟩ := (forEach_cons_ok _ x xs r r').mp h
    obtain ⟨pm, hpm, hr1⟩ := (on_per_method_ok op x r r1).mp h1
    obtain ⟨g1, g2, g3⟩ := ih hxs r1 h2
    subst hr1
    refine ⟨?_, ?_, ?_⟩
    · intro m hm
      rcases List.mem_cons.mp hm with rfl | hm
      · rw [g2 m hx]
        simpa using hpm
      · have hne : m ≠ x := fun h => hx (h ▸ hm)
        have := g1 m hm
        simpa [Function.update_noteq hne] using this
    · intro m hm
      have hne : m ≠ x := fun h => hm (h ▸ List.mem_cons_self _ _)
      rw [g2 m (fun h => hm (List.mem_cons_of_mem _ h))]
      simp [Function.update_noteq hne]
    · exact g3

/-- A loop that runs an operation on the per-method tables of the listed methods ends
without an error when the operation does so on each of these tables. -/
theorem forEach_on_per_method_ok (op : PerMethod → Option (PerMethod × Option (List Char)))
    (ms : List Nat) (hnd : ms.Nodup) (r : Router)
    (h : ∀ m ∈ ms, ∃ pm, op (r.per_methods_ m) = some (pm, none)) :
    ∃ r', forEach (Router.on_per_method op) ms r = some (r', none) := by
  induction ms generalizing r with
  | nil => exact ⟨r, rfl⟩
  | cons x xs ih =>
    obtain ⟨hx, hxs⟩ := List.nodup_cons.mp hnd
    obtain ⟨pm, hpm⟩ := h x (List.mem_cons_self _ _)
    have h1 : Router.on_per_method op x r =
        some ({ r with per_methods_ := Function.update r.per_methods_ x pm }, none) :=
      (on_per_method_ok op x r _).mpr ⟨pm, hpm, rfl⟩
    obtain ⟨r', hr'⟩ := ih hxs { r with per_methods_ := Function.update r.per_methods_ x pm }
      (fun m hm => by
        have hne : m ≠ x := fun h => hx (h ▸ hm)
        simpa [Function.update_noteq hne] using h m (List.mem_cons_of_mem _ hm))
    exact ⟨r', (forEach_cons_ok _ x xs r r').mpr ⟨_, h1, hr'⟩⟩

theorem methods_nodup (ro : BaseRule) :
    ((List.range InternalMethodCount).filter ro.allows).Nodup :=
  (List.nodup_range _).filter _

theorem mem_methods (ro : BaseRule) (m : Nat) :
    m ∈ (List.range InternalMethodCount).filter ro.allows ↔
      m < InternalMethodCount ∧ ro.allows m = true := by
  simp [List.mem_filter]

theorem validate_ok (check : BaseRule → BaseRule × Option (List Char))
    (router router' : Router) :
    Router.validate check router = some (router', none) ↔
      ∃ r1, forEach (fun (x : Nat × BaseRule) => Router.validate_rule check x.1 x.2)
          router.all_rules_.enum router = some (r1, none) ∧
        forEach (Router.on_per_method PerMethod.validate) (List.range InternalMethodCount) r1 =
          some (router', none) := by
  unfold Router.validate
  constructor
  · intro h
    split at h
    · cases h
    · simp at h
    · rename_i r1 h1
      exact ⟨r1, h1, h⟩
  · rintro ⟨r1, h1, h2⟩
    simp only [h1, h2]

theorem validate_rule_ok (check : BaseRule → BaseRule × Option (List Char)) (i : Nat)
    (rule : BaseRule) (r r' : Router) :
    Router.validate_rule check i rule r = some (r', none) ↔
      (check rule).2 = none ∧
        Router.internal_add_rule_object
          { r with all_rules_ := r.all_rules_.set i (check rule).1 }
          (check rule).1.rule_ (check rule).1 = some (r', none) := by
  unfold Router.validate_rule
  constructor
  · intro h
    split at h
    · simp at h
    · rename_i rule' hc
      rw [hc]
      exact ⟨rfl, h⟩
  · rintro ⟨h1, h2⟩
    split
    · rename_i rule' e hc
      rw [hc] at h1
      cases h1
    · rename_i rule' hc
      rw [hc] at h2
      exact h2

/-- A registration without an error registers the rule in the table of every method it
allows and leaves the other tables alone. -/
theorem internal_add_rule_object_ok (r r' : Router) (ro : BaseRule)
    (h : r.internal_add_rule_object ro.rule_ ro = some (r', none)) (m : Nat) :
    (m < InternalMethodCount ∧ ro.allows m = true →
        PerMethod.register ro (r.per_methods_ m) = some (r'.per_methods_ m, none)) ∧
      (¬ (m < InternalMethodCount ∧ ro.allows m = true) →
        r'.per_methods_ m = r.per_methods_ m) := by
  obtain ⟨h1, h2, _⟩ := forEach_on_per_method _ _ (methods_nodup ro) r r' h
  exact ⟨fun hm => h1 m ((mem_methods ro m).mpr hm),
    fun hm => h2 m (fun hmem => hm ((mem_methods ro m).mp hmem))⟩

/-- The registration phase of a `validate` that ends without an error: in the table of
each method, the checked rules that allow the method have been registered one after the
other, each without an error. -/
theorem register_all (check : BaseRule → BaseRule × Option (List Char)) (rules : List BaseRule)
    (k : Nat) (r r1 : Router)
    (h : forEach (fun (x : Nat × BaseRule) => Router.validate_rule check x.1 x.2)
      (rules.enumFrom k) r = some (r1, none))
    (m : Nat) (hm : m < InternalMethodCount) :
    forEach PerMethod.register ((checkedRules check rules).filter (fun ro => ro.allows m))
      (r.per_methods_ m) = some (r1.per_methods_ m, none) := by
  induction rules generalizing r k with
  | nil =>
    simp only [List.enumFrom_nil, forEach, Option.some.injEq, Prod.mk.injEq, and_true] at h
    subst h
    rfl
  | cons rule rules ih =>
    rw [List.enumFrom_cons] at h
    obtain ⟨r2, h1, h2⟩ := (forEach_cons_ok _ _ _ r r1).mp h
    obtain ⟨_, hadd⟩ := (validate_rule_ok check k rule r r2).mp h1
    obtain ⟨g1, g2⟩ := internal_add_rule_object_ok _ r2 (check rule).1 hadd m
    have hcr : checkedRules check (rule :: rules) = (check rule).1 :: checkedRules check rules :=
      rfl
    rw [hcr]
    by_cases ha : (check rule).1.allows m = true
    · rw [List.filter_cons_of_pos (by simpa using ha)]
      exact (forEach_cons_ok _ _ _ _ _).mpr ⟨_, g1 ⟨hm, ha⟩, ih (k + 1) r2 h2⟩
    · rw [List.filter_cons_of_neg (by simpa using ha)]
      have := g2 (fun h => ha h.2)
      simp only at this
      rw [← this]
      exact ih (k + 1) r2 h2

theorem trie_add_entries (t t' : Trie) (P : List Char) (ri : Nat) (hraw : Node.Raw t.head_)
    (hnul : Char.ofNat 0 ∉ P ∨ Node.NoParamBelow t.head_)
    (h : Trie.add t P ri = some (t', none)) :
    Node.Raw t'.head_ ∧ ∃ ls, Tokens P ls ∧ ∀ path r, r ≠ 0 →
      ((path, r) ∈ t'.head_.entries ↔ (path, r) ∈ t.head_.entries ∨ (path = ls ∧ r = ri)) := by
  simp only [Trie.add, Option.map_eq_some', Prod.mk.injEq] at h
  obtain ⟨o, ho, h1, h2⟩ := h
  obtain ⟨nd, th⟩ := o
  simp only at h1 h2
  subst h2
  subst h1
  exact ⟨add_loop_raw P ri _ P _ _ hraw ho, add_loop_entries P ri _ P _ nd hraw hnul ho⟩

theorem register_ok (ro : BaseRule) (pm pm' : PerMethod)
    (h : PerMethod.register ro pm = some (pm', none)) :
    pm'.rules = pm.rules ++ [some ro] ∧
      ∃ t1, Trie.add pm.trie ro.rule_ pm.rules.length = some (t1, none) ∧
        (has_trailing_slash ro.rule_ = true →
          Trie.add t1 ro.rule_.dropLast RULE_SPECIAL_REDIRECT_SLASH = some (pm'.trie, none)) ∧
        (has_trailing_slash ro.rule_ = false → pm'.trie = t1) := by
  unfold PerMethod.register PerMethod.add_rule at h
  simp only [List.length_append, List.length_singleton, Nat.add_sub_cancel] at h
  split at h
  · cases h
  · simp at h
  · rename_i t1 hadd
    by_cases hts : has_trailing_slash ro.rule_ = true
    · simp only [hts, if_true, rule_without_trailing_slash, Option.map_eq_some',
        Prod.mk.injEq] at h
      obtain ⟨x, hx, hx1, hx2⟩ := h
      subst hx1
      refine ⟨rfl, t1, hadd, fun _ => ?_, fun hf => by rw [hts] at hf; cases hf⟩
      rw [hx]
      exact congrArg some (Prod.ext rfl hx2)
    · simp only [hts, Bool.false_eq_true, if_false, Option.some.injEq, Prod.mk.injEq,
        and_true] at h
      subst h
      exact ⟨rfl, t1, hadd, fun hf => absurd hf hts, fun _ => rfl⟩

theorem not_mem_dropLast {a : Char} {l : List Char} (h : a ∉ l) : a ∉ l.dropLast :=
  fun hm => h (List.dropLast_subset l hm)

theorem tableInv_register (ro : BaseRule) (pm pm' : PerMethod) (regs : List BaseRule)
    (hinv : TableInv pm regs) (hnul : Char.ofNat 0 ∉ ro.rule_)
    (h : PerMethod.register ro pm = some (pm', none)) : TableInv pm' (regs ++ [ro]) := by
  obtain ⟨hlen, hraw, hent⟩ := hinv
  obtain ⟨hrules, t1, hadd1, hadd2, hno⟩ := register_ok ro pm pm' h
  obtain ⟨hraw1, ls1, hls1, hent1⟩ := trie_add_entries pm.trie t1 ro.rule_ _ hraw (Or.inl hnul) hadd1
  have hidx : ∀ i ro', (regs ++ [ro])[i]? = some ro' ↔
      (regs[i]? = some ro' ∨ (i = regs.length ∧ ro' = ro)) := by
    intro i ro'
    by_cases hi : i < regs.length
    · rw [List.getElem?_append_left hi]
      constructor
      · exact Or.inl
      · rintro (h | ⟨h, _⟩)
        · exact h
        · omega
    · rw [List.getElem?_append_right (by omega)]
      have hnone : regs[i]? = none := List.getElem?_eq_none (by omega)
      rw [hnone]
      by_cases hi' : i = regs.length
      · subst hi'
        simp [eq_comm]
      · have : i - regs.length ≠ 0 := by omega
        obtain ⟨j, hj⟩ := Nat.exists_eq_succ_of_ne_zero this
        simp [hj, hi']
  have hstep1 : ∀ path r, r ≠ 0 →
      ((path, r) ∈ t1.head_.entries ↔
        (∃ i ro', (regs ++ [ro])[i]? = some ro' ∧ Tokens ro'.rule_ path ∧ r = i + 2) ∨
          (∃ ro' ∈ regs, has_trailing_slash ro'.rule_ = true ∧
            Tokens ro'.rule_.dropLast path ∧ r = 1)) := by
    intro path r hr
    rw [hent1 path r hr, hent path r hr]
    constructor
    · rintro ((⟨i, ro', h1, h2, h3⟩ | h) | ⟨h1, h2⟩)
      · exact Or.inl ⟨i, ro', (hidx i ro').mpr (Or.inl h1), h2, h3⟩
      · exact Or.inr h
      · exact Or.inl ⟨regs.length, ro, (hidx _ _).mpr (Or.inr ⟨rfl, rfl⟩), h1 ▸ hls1, by omega⟩
    · rintro (⟨i, ro', h1, h2, h3⟩ | h)
      · rcases (hidx i ro').mp h1 with h1 | ⟨h1, h1'⟩
        · exact Or.inl (Or.inl ⟨i, ro', h1, h2, h3⟩)
        · subst h1'
          exact Or.inr ⟨tokens_unique _ _ _ h2 hls1, by omega⟩
      · exact Or.inl (Or.inr h)
  refine ⟨by rw [hrules]; simp; omega, ?_, ?_⟩
  · by_cases hts : has_trailing_slash ro.rule_ = true
    · exact (trie_add_entries t1 pm'.trie _ _ hraw1 (Or.inl (not_mem_dropLast hnul))
        (hadd2 hts)).1
    · rw [hno (by simpa using hts)]
      exact hraw1
  · intro path r hr
    by_cases hts : has_trailing_slash ro.rule_ = true
    · obtain ⟨_, ls2, hls2, hent2⟩ := trie_add_entries t1 pm'.trie _ _ hraw1
        (Or.inl (not_mem_dropLast hnul)) (hadd2 hts)
      rw [hent2 path r hr, hstep1 path r hr]
      constructor
      · rintro ((h | ⟨ro', h1, h2⟩) | ⟨h1, h2⟩)
        · exact Or.inl h
        · exact Or.inr ⟨ro', List.mem_append_left _ h1, h2⟩
        · exact Or.inr ⟨ro, by simp, hts, h1 ▸ hls2, h2⟩
      · rintro (h | ⟨ro', h1, h2, h3, h4⟩)
        · exact Or.inl (Or.inl h)
        · rcases List.mem_append.mp h1 with h1 | h1
          · exact Or.inl (Or.inr ⟨ro', h1, h2, h3, h4⟩)
          · simp only [List.mem_singleton] at h1
            subst h1
            exact Or.inr ⟨tokens_unique _ _ _ h3 hls2, h4⟩
    · rw [hno (by simpa using hts), hstep1 path r hr]
      constructor
      · rintro (h | ⟨ro', h1, h2⟩)
        · exact Or.inl h
        · exact Or.inr ⟨ro', List.mem_append_left _ h1, h2⟩
      · rintro (h | ⟨ro', h1, h2, h3, h4⟩)
        · exact Or.inl h
        · rcases List.mem_append.mp h1 with h1 | h1
          · exact Or.inr ⟨ro', h1, h2, h3, h4⟩
          · simp only [List.mem_singleton] at h1
            subst h1
            exact absurd h2 hts

theorem tableInv_init : TableInv PerMethod.init [] := by
  refine ⟨rfl, init_raw, ?_⟩
  intro path r hr
  constructor
  · intro h
    exact absurd (init_entries path r h) hr
  · rintro (⟨i, ro, h, _⟩ | ⟨ro, h, _⟩)
    · simp at h
    · cases h

theorem tableInv_forEach (pats : List BaseRule) :
    ∀ (regs : List BaseRule) (pm pm' : PerMethod), TableInv pm regs →
      (∀ ro ∈ pats, Char.ofNat 0 ∉ ro.rule_) →
      forEach PerMethod.register pats pm = some (pm', none) → TableInv pm' (regs ++ pats) := by
  induction pats with
  | nil =>
    intro regs pm pm' hinv _ h
    simp only [forEach, Option.some.injEq, Prod.mk.injEq, and_true] at h
    subst h
    simpa using hinv
  | cons ro pats ih =>
    intro regs pm pm' hinv hnul h
    obtain ⟨pm1, h1, h2⟩ := (forEach_cons_ok _ ro pats pm pm').mp h
    have := ih (regs ++ [ro]) pm1 pm'
      (tableInv_register ro pm pm1 regs hinv (hnul ro (List.mem_cons_self _ _)) h1)
      (fun x hx => hnul x (List.mem_cons_of_mem _ hx)) h2
    simpa using this

theorem trie_validate_ok (t t' : Trie) (h : Trie.validate t = some (t', none)) :
    t.head_.IsSimpleNode = true ∧ Trie.optimize t = some t' := by
  unfold Trie.validate at h
  split at h
  · simp at h
  · rename_i hs
    simp only [Bool.not_eq_true', Bool.not_eq_false] at hs
    simp only [Option.map_eq_some', Prod.mk.injEq, and_true] at h
    obtain ⟨a, h1, h2⟩ := h
    subst h2
    exact ⟨hs, h1⟩

theorem perMethod_validate_ok (pm pm' : PerMethod)
    (h : PerMethod.validate pm = some (pm', none)) :
    pm'.rules = pm.rules ∧ Trie.validate pm.trie = some (pm'.trie, none) := by
  simp only [PerMethod.validate, Option.map_eq_some', Prod.mk.injEq] at h
  obtain ⟨x, hx, h1, h2⟩ := h
  subst h1
  exact ⟨rfl, by rw [hx]; exact congrArg some (Prod.ext rfl h2)⟩

/-- After a `validate` without an error, `find` in the table of a method returns what it
returns in the unoptimized trie in which the checked rules that allow the method have
been registered in their order. -/
theorem validate_table (strtod : StrtodFn) (check : BaseRule → BaseRule × Option (List Char))
    (rules : List BaseRule) (router' : Router) (m : Nat)
    (hv : Router.validate check (Router.init rules) = some (router', none))
    (hnul : ∀ ro ∈ checkedRules check rules, Char.ofNat 0 ∉ ro.rule_)
    (hm : m < InternalMethodCount) :
    ∃ pm1, TableInv pm1 ((checkedRules check rules).filter (fun ro => ro.allows m)) ∧
      ∀ url, Trie.find strtod (router'.per_methods_ m).trie url = Trie.find strtod pm1.trie url := by
  obtain ⟨r1, h1, h2⟩ := (validate_ok check _ router').mp hv
  have hreg := register_all check rules 0 (Router.init rules) r1 h1 m hm
  have hinv := tableInv_forEach _ [] PerMethod.init (r1.per_methods_ m) tableInv_init
    (fun ro hro => hnul ro (List.mem_of_mem_filter hro)) hreg
  rw [List.nil_append] at hinv
  obtain ⟨g1, _, _⟩ := forEach_on_per_method _ _ (List.nodup_range _) r1 router' h2
  obtain ⟨_, hval⟩ := perMethod_validate_ok _ _ (g1 m (List.mem_range.mpr hm))
  obtain ⟨_, hopt⟩ := trie_validate_ok _ _ hval
  obtain ⟨t', ht', _, hfind⟩ := optimize_find strtod (r1.per_methods_ m).trie
    (raw_keysOk _ hinv.2.1)
  rw [hopt] at ht'
  simp only [Option.some.injEq] at ht'
  subst ht'
  exact ⟨r1.per_methods_ m, hinv, hfind⟩

/-- In a table in which the rules `regs` have been registered, `find` selects the
redirect entry or else the earliest-registered matching pattern. -/
theorem table_find (strtod : StrtodFn) (pm : PerMethod) (regs : List BaseRule)
    (hinv : TableInv pm regs) : SelectsEarliest strtod regs pm.trie := by
  intro url
  obtain ⟨_, hraw, hent⟩ := hinv
  have hk := raw_keysOk _ hraw
  -- a non-zero result is the id of an entry that matches
  have hsound : (Trie.find strtod pm.trie url).1 ≠ 0 →
      (∃ i ro, regs[i]? = some ro ∧ PatternMatches strtod ro.rule_ url ∧
        (Trie.find strtod pm.trie url).1 = i + 2) ∨
      (∃ ro ∈ regs, has_trailing_slash ro.rule_ = true ∧
        PatternMatches strtod ro.rule_.dropLast url) := by
    intro hne
    obtain ⟨path, hp, hmp⟩ := find_entry strtod pm.trie.head_ url routing_params.empty hne
    rcases (hent path _ hne).mp hp with ⟨i, ro, h1, h2, h3⟩ | ⟨ro, h1, h2, h3, _⟩
    · exact Or.inl ⟨i, ro, h1, ⟨path, _, h2, hmp⟩, h3⟩
    · exact Or.inr ⟨ro, h1, h2, ⟨path, _, h3, hmp⟩⟩
  refine ⟨?_, fun hnr => ⟨?_, ?_⟩⟩
  · rintro ⟨ro, h1, h2, ls, out, h3, h4⟩
    have hmem := (hent ls 1 (by decide)).mpr (Or.inr ⟨ro, h1, h2, h3, rfl⟩)
    obtain ⟨g1, g2⟩ := find_le_entry strtod pm.trie.head_ hk url _ out ls 1 (by decide) hmem h4
    simp only [Trie.find]
    omega
  · rintro i ro h1 ⟨ls, out, h3, h4⟩ hearlier
    have hmem := (hent ls (i + 2) (by omega)).mpr (Or.inl ⟨i, ro, h1, h3, rfl⟩)
    obtain ⟨g1, g2⟩ := find_le_entry strtod pm.trie.head_ hk url _ out ls (i + 2) (by omega)
      hmem h4
    rcases hsound g1 with ⟨j, ro', k1, k2, k3⟩ | h
    · have hji : ¬ j < i := fun hlt => hearlier j ro' hlt k1 k2
      simp only [Trie.find] at k3 ⊢
      omega
    · exact absurd h hnr
  · intro hnone
    by_contra hne
    rcases hsound hne with ⟨j, ro', k1, k2, _⟩ | h
    · exact hnone ro' (List.getElem?_mem k1) k2
    · exact hnr h

/-- The head of the trie that holds a single non-empty pattern without `<` is simple. -/
theorem add_init_simple (P : List Char) (r : Nat) (t : Trie) (e : Option (List Char))
    (hne : P ≠ []) (hlit : '<' ∉ P) (h : Trie.add Trie.init P r = some (t, e)) :
    t.head_.IsSimpleNode = true := by
  obtain ⟨c, rest, rfl⟩ := List.exists_cons_of_ne_nil hne
  have hc : c ≠ '<' := fun hc => hlit (hc ▸ List.mem_cons_self _ _)
  simp only [Trie.add, Trie.init, Node.new, List.length_cons, Option.map_eq_some',
    Prod.mk.injEq] at h
  obtain ⟨o, ho, h1, _⟩ := h
  rw [Trie.add_loop, if_neg hc] at ho
  simp only [descend, Option.map_map, Option.map_eq_some'] at ho
  obtain ⟨o', ho', hoo⟩ := ho
  obtain ⟨_, hs⟩ := add_loop_shape _ _ _ _ _ o' ho'
  rw [← h1, ← hoo]
  show (Node.mk 0 [] ParamType.MAX [o'.node]).IsSimpleNode = true
  rw [isSimple_iff]
  refine ⟨rfl, by simp, rfl, ?_⟩
  intro n hn
  simp only [List.mem_singleton] at hn
  rw [hn, hs]
  rfl

theorem init_simple : Trie.init.head_.IsSimpleNode = true := by decide

theorem trie_validate_of_simple (strtod : StrtodFn) (t : Trie) (hk : Node.KeysOk t.head_)
    (hs : t.head_.IsSimpleNode = true) :
    ∃ t', Trie.validate t = some (t', none) ∧
      ∀ url, Trie.find strtod t' url = Trie.find strtod t url := by
  obtain ⟨t', h1, _, h2⟩ := optimize_find strtod t hk
  refine ⟨t', ?_, h2⟩
  simp [Trie.validate, hs, h1]

theorem validate_find (strtod : StrtodFn) (t t' : Trie) (hk : Node.KeysOk t.head_)
    (h : Trie.validate t = some (t', none)) :
    ∀ url, Trie.find strtod t' url = Trie.find strtod t url := by
  obtain ⟨_, hopt⟩ := trie_validate_ok t t' h
  obtain ⟨t'', h1, _, h2⟩ := optimize_find strtod t hk
  rw [hopt] at h1
  simp only [Option.some.injEq] at h1
  subst h1
  exact h2

theorem has_trailing_slash_false (P : List Char) (h : P.getLast? ≠ some '/') :
    has_trailing_slash P = false := by
  simp [has_trailing_slash, h]

theorem internal_add_rule_object_eq (r : Router) (ro : BaseRule) :
    r.internal_add_rule_object ro.rule_ ro =
      forEach (Router.on_per_method (PerMethod.register ro))
        ((List.range InternalMethodCount).filter ro.allows) r := rfl

/-- Registering a pattern without `<` and without a trailing slash in an empty table. -/
theorem register_init_literal (ro : BaseRule) (hlit : '<' ∉ ro.rule_)
    (hend : ro.rule_.getLast? ≠ some '/') :
    ∃ t, PerMethod.register ro PerMethod.init = some (⟨[none, none, some ro], t⟩, none) ∧
      Node.Raw t.head_ ∧
      (ro.rule_ ≠ [] → t.head_.IsSimpleNode = true) ∧
      ∀ path r', r' ≠ 0 → (path, r') ∈ t.head_.entries →
        path = literalLabels ro.rule_ ∧ r' = 2 := by
  obtain ⟨t, hadd, hraw, _, honly⟩ := add_init ro.rule_ _ 2 (by decide) (tokens_literal _ hlit)
  refine ⟨t, ?_, hraw, fun hne => add_init_simple _ _ _ _ hne hlit hadd, honly⟩
  simp [PerMethod.register, PerMethod.add_rule, PerMethod.init, hadd,
    has_trailing_slash_false _ hend]

/-- `Trie.add` does not return exactly on the patterns with a `<` that starts no name of
`paramTraits`; on these the loop of `Trie::add` does not end for any fuel
(`add_loop_badOpen`), and on all others more fuel does not change the result
(`add_loop_mono_le`). -/
theorem trie_add_eq_none_iff (t : Trie) (P : List Char) (r : Nat) :
    Trie.add t P r = none ↔ HasBadOpen P := by
  constructor
  · intro h
    by_contra hb
    obtain ⟨o, ho⟩ := add_loop_total P r (P.length + 1) P t.head_ hb (Nat.lt_succ_self _)
    simp [Trie.add, ho] at h
  · intro hb
    simp [Trie.add, add_loop_badOpen P r _ P t.head_ hb]

theorem forChildren_mono (f g : Node → Option Node) (cs cs' : List Node)
    (hfg : ∀ n n', n ∈ cs → f n = some n' → g n = some n')
    (h : forChildren f cs = some cs') : forChildren g cs = some cs' := by
  induction cs generalizing cs' with
  | nil => simpa [forChildren] using h
  | cons c cs ih =>
    rw [forChildren] at h ⊢
    cases hc : f c with
    | none => simp [hc] at h
    | some c' =>
      cases hcs : forChildren f cs with
      | none => simp [hc, hcs] at h
      | some more' =>
        simp only [hc, hcs, Option.some.injEq] at h
        rw [hfg c c' (List.mem_cons_self _ _) hc,
          ih more' (fun n n' hn => hfg n n' (List.mem_cons_of_mem _ hn)) hcs]
        exact congrArg some h

/-- More fuel does not change what `optimizeNode` returns. -/
theorem optimizeNode_mono (fuel : Nat) :
    ∀ node node' : Node, Trie.optimizeNode fuel node = some node' →
      Trie.optimizeNode (fuel + 1) node = some node' := by
  induction fuel with
  | zero => intro node node' h; simp [Trie.optimizeNode] at h
  | succ fuel ih =>
    intro node node' h
    obtain ⟨r, k, p, cs⟩ := node
    rw [Trie.optimizeNode.eq_def] at h ⊢
    simp only at h ⊢
    split at h
    · rename_i he
      rw [if_pos he]
      exact h
    · rename_i he
      rw [if_neg he]
      split at h
      · rename_i hs
        rw [if_pos hs]
        cases cs with
        | nil => exact h
        | cons child more => exact ih _ _ h
      · rename_i hs
        rw [if_neg hs]
        simp only [Option.map_eq_some'] at h ⊢
        obtain ⟨cs', hcs', hn⟩ := h
        exact ⟨cs', forChildren_mono _ _ cs cs' (fun n n' _ hn' => ih n n' hn') hcs', hn⟩

/-- The longest prefix without `/`: a list splits at the result of `takeWhile` exactly
when the first part holds no `/` and the second part is empty or starts with `/`. -/
theorem takeWhile_slash_iff (rest seg rest' : List Char) :
    (rest.takeWhile (fun x => x != '/') = seg ∧ rest.drop seg.length = rest') ↔
      (rest = seg ++ rest' ∧ '/' ∉ seg ∧ (rest' = [] ∨ rest'.head? = some '/')) := by
  constructor
  · rintro ⟨h1, h2⟩
    have hsplit : rest = seg ++ rest' := by
      have := List.takeWhile_append_dropWhile (fun x => x != '/') rest
      rw [← this, h1, List.append_cancel_left_eq]
      rw [← h2, ← h1, drop_takeWhile_length]
    refine ⟨hsplit, ?_, ?_⟩
    · intro hmem
      rw [← h1] at hmem
      have := List.mem_takeWhile_imp hmem
      simp at this
    · have hd : rest' = rest.dropWhile (fun x => x != '/') := by
        rw [← h2, ← h1, drop_takeWhile_length]
      cases hr : rest' with
      | nil => exact Or.inl rfl
      | cons a as =>
        right
        have hh := List.head_dropWhile_not (fun x => x != '/') rest
          (by rw [← hd, hr]; simp)
        simp only [← hd, hr, List.head_cons, bne_iff_ne, ne_eq, Bool.not_eq_true,
          decide_eq_false_iff_not, not_not] at hh
        simp only [List.head?_cons, Option.some.injEq]
        simpa using hh
  · rintro ⟨rfl, hno, hafter⟩
    have htw : (seg ++ rest').takeWhile (fun x => x != '/') = seg := by
      rw [List.takeWhile_append_of_pos (fun c hc => by
        simp only [bne_iff_ne, ne_eq]
        rintro rfl
        exact hno hc)]
      rcases hafter with rfl | hafter
      · simp
      · cases rest' with
        | nil => simp
        | cons a as =>
          simp only [List.head?_cons, Option.some.injEq] at hafter
          subst hafter
          simp [List.takeWhile_cons]
    exact ⟨htw, List.drop_left' rfl⟩

theorem string_child_iff (strtod : StrtodFn) (key rest : List Char)
    (params params' : routing_params) (rest' : List Char) :
    enter strtod ParamType.STRING key rest params = some (params', rest') ↔
      ∃ seg, rest = seg ++ rest' ∧ seg ≠ [] ∧ '/' ∉ seg ∧
        (rest' = [] ∨ rest'.head? = some '/') ∧
        params' = { params with string_params := params.string_params ++ [seg] } := by
  simp only [enter]
  constructor
  · intro h
    split at h
    · rename_i hlen
      simp only [Option.some.injEq, Prod.mk.injEq] at h
      obtain ⟨h1, h2, h3⟩ := (takeWhile_slash_iff rest _ rest').mp ⟨rfl, h.2⟩
      exact ⟨_, h1, by simpa using hlen, h2, h3, h.1.symm⟩
    · cases h
  · rintro ⟨seg, h1, hne, h2, h3, rfl⟩
    obtain ⟨g1, g2⟩ := (takeWhile_slash_iff rest seg rest').mpr ⟨h1, h2, h3⟩
    rw [g1, if_pos (by simpa using hne), g2]

theorem string_child_skip (strtod : StrtodFn) (key rest : List Char) (params : routing_params) :
    enter strtod ParamType.STRING key rest params = none ↔ rest = [] ∨ rest.head? = some '/' := by
  cases rest with
  | nil => simp [enter]
  | cons c cs =>
    by_cases hc : c = '/'
    · subst hc
      simp [enter, List.takeWhile_cons]
    · simp [enter, List.takeWhile_cons, hc]

theorem path_child_iff (strtod : StrtodFn) (key rest : List Char)
    (params params' : routing_params) (rest' : List Char) :
    enter strtod ParamType.PATH key rest params = some (params', rest') ↔
      rest ≠ [] ∧ rest' = [] ∧
        params' = { params with string_params := params.string_params ++ [rest] } := by
  simp only [enter]
  constructor
  · intro h
    split at h
    · rename_i hlen
      simp only [Option.some.injEq, Prod.mk.injEq] at h
      exact ⟨by simpa using hlen, h.2.symm, h.1.symm⟩
    · cases h
  · rintro ⟨hne, rfl, rfl⟩
    rw [if_pos (by simpa using hne)]

/-- At the top level `find` returns the rule id 0 only with empty parameters. -/
theorem find_zero_empty (strtod : StrtodFn) (node : Node) (rest : List Char)
    (h : (Trie.find_node strtod node rest routing_params.empty).1 = 0) :
    (Trie.find_node strtod node rest routing_params.empty).2 = routing_params.empty := by
  obtain ⟨r, k, p, cs⟩ := node
  rw [find_node_eq] at h ⊢
  split at h
  · rename_i hr
    rw [if_pos hr]
  · rename_i hr
    rw [if_neg hr]
    rcases best_mem (cs.map (fun ch => Trie.visit strtod ch rest routing_params.empty))
      (0, routing_params.empty) with hb | hb
    · rw [hb]
    · exact absurd h hb.2

theorem push_eq_append (params : routing_params) (v : Value) :
    params.push v = params.append (routing_params.empty.push v) := by
  cases v <;> simp [routing_params.push, routing_params.append, routing_params.empty]

theorem call_acc (Args1 : List ArgType) :
    ∀ (a b c d : Nat) (Args2 : List call_pair),
      call a b c d Args1 Args2 = Args2 ++ call a b c d Args1 [] := by
  induction Args1 with
  | nil => intro a b c d Args2; simp [call]
  | cons T Args1 ih =>
    intro a b c d Args2
    cases T <;> simp only [call] <;> rw [ih _ _ _ _ (Args2 ++ _), ih _ _ _ _ ([] ++ _)] <;> simp

theorem call_cons (T : ArgType) (Args1 : List ArgType) (a b c d : Nat) :
    call a b c d (T :: Args1) [] =
      ⟨T, counterOf a b c d T⟩ ::
        call (a + if T = ArgType.int64_t then 1 else 0) (b + if T = ArgType.uint64_t then 1 else 0)
          (c + if T = ArgType.double then 1 else 0) (d + if T = ArgType.string then 1 else 0)
          Args1 [] := by
  cases T <;> simp only [call] <;> rw [call_acc] <;> simp [counterOf]

/-- The pair that `call` computes for position `i`: the type at that position and the
counter of that type raised by the number of earlier positions of the same type. -/
theorem call_getElem (Args1 : List ArgType) :
    ∀ (a b c d i : Nat),
      (call a b c d Args1 [])[i]? =
        Args1[i]?.map (fun T => ⟨T, counterOf a b c d T + (Args1.take i).count T⟩) := by
  induction Args1 with
  | nil => intro a b c d i; simp [call]
  | cons T Args1 ih =>
    intro a b c d i
    rw [call_cons]
    cases i with
    | zero => simp
    | succ i =>
      simp only [List.getElem?_cons_succ, List.take_succ_cons]
      rw [ih]
      cases h : Args1[i]? with
      | none => rfl
      | some T' =>
        simp only [Option.map_some', Option.some.injEq, call_pair.mk.injEq, true_and]
        rw [List.count_cons]
        cases T <;> cases T' <;> simp [counterOf] <;> omega

theorem collect_append (pre vs : List Value) :
    collect (pre ++ vs) = (collect pre).append (collect vs) := by
  simp [collect, routing_params.append, List.filterMap_append]

theorem handle_args_collect_aux (vs : List Value) :
    ∀ pre : List Value,
      (call (collect pre).int_params.length (collect pre).uint_params.length
          (collect pre).double_params.length (collect pre).string_params.length
          (vs.map Value.type) []).map (fun p => (collect (pre ++ vs)).get p.type p.pos) =
        vs.map some := by
  induction vs with
  | nil => intro pre; simp [call]
  | cons v vs ih =>
    intro pre
    have hpre : pre ++ v :: vs = (pre ++ [v]) ++ vs := by simp
    have hih := ih (pre ++ [v])
    rw [← hpre] at hih
    rw [List.map_cons, call_cons, List.map_cons, List.map_cons]
    congr 1
    · rw [collect_append]
      cases v <;>
        simp [counterOf, Value.type, routing_params.get, routing_params.append, collect] <;>
        · rw [List.getElem_append_right (le_refl _)]
          simp
    · rw [← hih, collect_append pre [v]]
      cases v <;> simp [Value.type, routing_params.append, collect]

theorem handle_dispatch (M : HTTPMethod) (strtod : StrtodFn) (H : Handlers) (router : Router)
    (req : request) (res : response) (m : Nat) (hm : effective_method M req = some m) :
    Router.handle M strtod H router req res =
      Router.dispatch strtod H router m req (marked M req res) := by
  unfold effective_method at hm
  unfold Router.handle marked
  split at hm
  · cases hm
  · rename_i h1
    rw [if_neg h1]
    split at hm
    · rename_i h2
      simp only [Option.some.injEq] at hm
      rw [if_pos h2, if_pos h2, hm]
    · rename_i h2
      rw [if_neg h2, if_neg h2]
      split at hm
      · cases hm
      · rename_i h3
        simp only [Option.some.injEq] at hm
        rw [if_neg h3, hm]

theorem effective_method_lt (M : HTTPMethod) (hM : M.Valid) (req : request) (m : Nat)
    (hm : effective_method M req = some m) : m < InternalMethodCount := by
  unfold effective_method at hm
  split at hm
  · cases hm
  · rename_i h1
    split at hm
    · simp only [Option.some.injEq] at hm
      rw [← hm]
      exact hM.1
    · split at hm
      · cases hm
      · simp only [Option.some.injEq] at hm
        omega

theorem dispatch_405 (strtod : StrtodFn) (H : Handlers) (router : Router) (m : Nat)
    (req : request) (res : response)
    (h0 : (Trie.find strtod (router.per_methods_ m).trie req.url).1 = 0)
    (hother : ∃ i, i < InternalMethodCount ∧
      (Trie.find strtod (router.per_methods_ i).trie req.url).1 ≠ 0) :
    Router.dispatch strtod H router m req res =
      some ⟨(res.assign (response.ofCode 405)).end_, none, []⟩ := by
  obtain ⟨i, hi, hne⟩ := hother
  have hany : (List.range InternalMethodCount).any
      (fun i => (Trie.find strtod (router.per_methods_ i).trie req.url).1 != 0) = true := by
    rw [List.any_eq_true]
    exact ⟨i, List.mem_range.mpr hi, by simpa using hne⟩
  simp only [Router.dispatch, h0, if_true, hany]

theorem dispatch_no_match (strtod : StrtodFn) (H : Handlers) (router : Router) (m : Nat)
    (req : request) (res : response) (hm : m < InternalMethodCount)
    (hnone : ∀ i, i < InternalMethodCount →
      (Trie.find strtod (router.per_methods_ i).trie req.url).1 = 0) :
    Router.dispatch strtod H router m req res =
      match H.catchall with
      | some handler_ =>
        match (handler_ req res).thrown with
        | some e => some ⟨(handler_ req res).res, some e, [Call.catchall req res]⟩
        | none => some ⟨(handler_ req res).res.end_, none, [Call.catchall req res]⟩
      | none => some ⟨(res.assign (response.ofCode 404)).end_, none, []⟩ := by
  have hany : (List.range InternalMethodCount).any
      (fun i => (Trie.find strtod (router.per_methods_ i).trie req.url).1 != 0) = false := by
    rw [List.any_eq_false]
    intro i hi
    simp [hnone i (List.mem_range.mp hi)]
  simp only [Router.dispatch, hnone m hm, if_true, hany]
  rfl

theorem dispatch_redirect (strtod : StrtodFn) (H : Handlers) (router : Router) (m : Nat)
    (req : request) (res : response)
    (h1 : (Trie.find strtod (router.per_methods_ m).trie req.url).1 =
      RULE_SPECIAL_REDIRECT_SLASH)
    (hsize : 2 ≤ (router.per_methods_ m).rules.length) :
    Router.dispatch strtod H router m req res =
      some ⟨((res.assign (response.ofCode 301)).add_header "Location".toList
        (if req.get_header_value "Host".toList = [] then req.url ++ "/".toList
          else "http://".toList ++ req.get_header_value "Host".toList ++ req.url ++
            "/".toList)).end_, none, []⟩ := by
  have hne : ¬ (1 = 0) := by decide
  have hlt : ¬ (1 ≥ (router.per_methods_ m).rules.length) := by omega
  simp only [Router.dispatch, h1, RULE_SPECIAL_REDIRECT_SLASH, hne, if_false, hlt, if_true,
    List.isEmpty_iff]
  split <;> rfl

theorem get_header_value_absent (req : request) (key : List Char)
    (h : ∀ x ∈ req.headers, x.1.map Char.toLower ≠ key.map Char.toLower) :
    req.get_header_value key = [] := by
  unfold request.get_header_value
  have : req.headers.find? (fun h => h.1.map Char.toLower == key.map Char.toLower) = none := by
    rw [List.find?_eq_none]
    intro x hx
    simpa using h x hx
  rw [this]

theorem forEach_invariant {α σ : Type} (I : σ → Prop)
    (f : α → σ → Option (σ × Option (List Char)))
    (hf : ∀ x s s' e, I s → f x s = some (s', e) → I s') :
    ∀ (xs : List α) (s s' : σ) (e : Option (List Char)),
      I s → forEach f xs s = some (s', e) → I s' := by
  intro xs
  induction xs with
  | nil =>
    intro s s' e hI h
    simp only [forEach, Option.some.injEq, Prod.mk.injEq] at h
    rw [← h.1]
    exact hI
  | cons x xs ih =>
    intro s s' e hI h
    simp only [forEach] at h
    split at h
    · cases h
    · rename_i s1 e1 hx
      simp only [Option.some.injEq, Prod.mk.injEq] at h
      rw [← h.1]
      exact hf x s s1 (some e1) hI hx
    · rename_i s1 hx
      exact ih s1 s' e (hf x s s1 none hI hx) h

theorem add_rule_length (pm pm' : PerMethod) (rule : List Char) (b : Bool) (rule' : List Char)
    (ro : BaseRule) (e : Option (List Char))
    (h : pm.add_rule rule b rule' ro = some (pm', e)) :
    pm'.rules.length = pm.rules.length + 1 := by
  unfold PerMethod.add_rule at h
  simp only at h
  split at h
  · cases h
  · simp only [Option.some.injEq, Prod.mk.injEq] at h
    rw [← h.1]
    simp
  · split at h
    · simp only [Option.map_eq_some', Prod.mk.injEq] at h
      obtain ⟨x, _, hx, _⟩ := h
      rw [← hx]
      simp
    · simp only [Option.some.injEq, Prod.mk.injEq] at h
      rw [← h.1]
      simp

theorem on_per_method_length (op : PerMethod → Option (PerMethod × Option (List Char)))
    (hop : ∀ pm pm' e, op pm = some (pm', e) → pm.rules.length ≤ pm'.rules.length)
    (method : Nat) (router router' : Router) (e : Option (List Char))
    (hI : ∀ m, 2 ≤ (router.per_methods_ m).rules.length)
    (h : Router.on_per_method op method router = some (router', e)) :
    ∀ m, 2 ≤ (router'.per_methods_ m).rules.length := by
  unfold Router.on_per_method at h
  simp only [Option.map_eq_some', Prod.mk.injEq] at h
  obtain ⟨x, hx, hr, _⟩ := h
  intro m
  rw [← hr]
  simp only [Function.update]
  split
  · rename_i hm
    subst hm
    have := hop _ _ _ hx
    have := hI m
    simp only [eq_rec_constant, ge_iff_le]
    omega
  · exact hI m

/-- Every per-method table of a router that `Router::validate` leaves, with or without
an error, still has the two reserved positions 0 and 1 in its list of rules. -/
theorem validate_rules_length (check : BaseRule → BaseRule × Option (List Char))
    (rules : List BaseRule) (router' : Router) (e : Option (List Char))
    (h : Router.validate check (Router.init rules) = some (router', e)) :
    ∀ m, 2 ≤ (router'.per_methods_ m).rules.length := by
  have hreg : ∀ (ro : BaseRule) (rule : List Char) (s s' : Router) (e : Option (List Char)),
      (∀ m, 2 ≤ (s.per_methods_ m).rules.length) →
      Router.internal_add_rule_object s rule ro = some (s', e) →
      ∀ m, 2 ≤ (s'.per_methods_ m).rules.length := by
    intro ro rule s s' e hI hs
    unfold Router.internal_add_rule_object BaseRule.foreach_method at hs
    refine forEach_invariant (fun r : Router => ∀ m, 2 ≤ (r.per_methods_ m).rules.length) _ ?_
      _ s s' e hI hs
    intro method r r' e' hr hstep
    exact on_per_method_length _ (fun pm pm' e'' hpm => by
      rw [add_rule_length pm pm' _ _ _ _ e'' hpm]; omega) method r r' e' hr hstep
  have hloop : ∀ (s s' : Router) (e : Option (List Char)) (xs : List (Nat × BaseRule)),
      (∀ m, 2 ≤ (s.per_methods_ m).rules.length) →
      forEach (fun (x : Nat × BaseRule) => Router.validate_rule check x.1 x.2) xs s =
        some (s', e) →
      ∀ m, 2 ≤ (s'.per_methods_ m).rules.length := by
    intro s s' e xs hI hs
    refine forEach_invariant (fun r : Router => ∀ m, 2 ≤ (r.per_methods_ m).rules.length) _ ?_
      xs s s' e hI hs
    intro x r r' e' hr hstep
    unfold Router.validate_rule at hstep
    split at hstep
    · simp only [Option.some.injEq, Prod.mk.injEq] at hstep
      rw [← hstep.1]
      exact hr
    · exact hreg _ _ { r with all_rules_ := r.all_rules_.set x.1 _ } r' e' hr hstep
  unfold Router.validate at h
  split at h
  · cases h
  · rename_i r e1 h1
    simp only [Option.some.injEq, Prod.mk.injEq] at h
    rw [← h.1]
    exact hloop _ r (some e1) _ (fun m => by simp [Router.init, PerMethod.init]) h1
  · rename_i r h1
    have hr := hloop _ r none _ (fun m => by simp [Router.init, PerMethod.init]) h1
    refine forEach_invariant (fun r : Router => ∀ m, 2 ≤ (r.per_methods_ m).rules.length) _ ?_
      _ r router' e hr h
    intro method s s' e' hs hstep
    exact on_per_method_length _ (fun pm pm' e'' hpm => by
      unfold PerMethod.validate at hpm
      simp only [Option.map_eq_some', Prod.mk.injEq] at hpm
      obtain ⟨x, _, hx, _⟩ := hpm
      rw [← hx]) method s s' e' hs hstep

theorem allow_loop_eq (M : HTTPMethod) (router : Router) (test : PerMethod → Bool)
    (allow : List Char) :
    Router.allow_loop M router test allow =
      allow ++ ((List.range InternalMethodCount).filter
        (fun i => test (router.per_methods_ i))).flatMap
          (fun i => M.method_name i ++ ", ".toList) := by
  unfold Router.allow_loop
  generalize List.range InternalMethodCount = l
  induction l generalizing allow with
  | nil => simp
  | cons i l ih =>
    simp only [List.foldl_cons, List.filter_cons]
    rw [ih]
    split
    · simp [List.flatMap_cons]
    · rfl

/-- Names that are each followed by `", "`, after a text that ends in `", "`, are the
names each preceded by `", "`, after that text without its end, and `", "` at the
end. -/
theorem separators_shift (name : Nat → List Char) (l : List Nat) :
    ∀ pre : List Char,
      pre ++ ", ".toList ++ l.flatMap (fun i => name i ++ ", ".toList) =
        pre ++ l.flatMap (fun i => ", ".toList ++ name i) ++ ", ".toList := by
  induction l with
  | nil => intro pre; simp
  | cons i l ih =>
    intro pre
    have := ih (pre ++ ", ".toList ++ name i)
    simp only [List.flatMap_cons, List.append_assoc] at this ⊢
    rw [this]

theorem take_allow (M : HTTPMethod) (router : Router) (test : PerMethod → Bool) :
    (Router.allow_loop M router test "OPTIONS, HEAD, ".toList).take
        ((Router.allow_loop M router test "OPTIONS, HEAD, ".toList).length - 2) =
      "OPTIONS, HEAD".toList ++ ((List.range InternalMethodCount).filter
        (fun i => test (router.per_methods_ i))).flatMap
          (fun i => ", ".toList ++ M.method_name i) := by
  rw [allow_loop_eq]
  have h := separators_shift M.method_name ((List.range InternalMethodCount).filter
    (fun i => test (router.per_methods_ i))) "OPTIONS, HEAD".toList
  have h0 : "OPTIONS, HEAD, ".toList = "OPTIONS, HEAD".toList ++ ", ".toList := by decide
  rw [h0, h]
  apply List.take_left'
  simp

theorem handle_options_star (M : HTTPMethod) (strtod : StrtodFn) (H : Handlers)
    (router : Router) (req : request) (res : response) (hM : M.Valid)
    (hmeth : req.method = M.Options) (hurl : req.url = "/*".toList) :
    Router.handle M strtod H router req res =
      some ⟨Router.respond_allow res
        (Router.allow_loop M router (fun per_method => !per_method.trie.is_empty)
          "OPTIONS, HEAD, ".toList), none, []⟩ := by
  obtain ⟨_, _, h3, _, _, h6⟩ := hM
  unfold Router.handle
  rw [if_neg (by rw [hmeth]; omega), if_neg (by rw [hmeth]; exact fun h => h6 h.symm),
    if_pos hmeth, if_pos hurl]

theorem handle_head (M : HTTPMethod) (strtod : StrtodFn) (H : Handlers) (router : Router)
    (url : List Char) (headers : List (List Char × List Char)) (res : response)
    (hM : M.Valid) :
    Router.handle M strtod H router ⟨M.Head, url, headers⟩ res =
      Router.dispatch strtod H router M.Get ⟨M.Head, url, headers⟩
        { res with is_head_response := true } := by
  have h := handle_dispatch M strtod H router ⟨M.Head, url, headers⟩ res M.Get (by
    unfold effective_method
    rw [if_neg (by simp only [ge_iff_le, not_le]; exact hM.2.1), if_pos rfl])
  rw [h]
  simp [marked]

theorem handle_get (M : HTTPMethod) (strtod : StrtodFn) (H : Handlers) (router : Router)
    (url : List Char) (headers : List (List Char × List Char)) (res : response)
    (hM : M.Valid) :
    Router.handle M strtod H router ⟨M.Get, url, headers⟩ res =
      Router.dispatch strtod H router M.Get ⟨M.Get, url, headers⟩ res := by
  have h := handle_dispatch M strtod H router ⟨M.Get, url, headers⟩ res M.Get (by
    unfold effective_method
    rw [if_neg (by simp only [ge_iff_le, not_le]; exact hM.1), if_neg hM.2.2.2.1,
      if_neg hM.2.2.2.2.1])
  rw [h]
  simp [marked, hM.2.2.2.1]

theorem dispatch_head_agrees (M : HTTPMethod) (strtod : StrtodFn) (H : Handlers)
    (router : Router) (url : List Char) (headers : List (List Char × List Char))
    (res : response)
    (hH : H.MethodBlind M ∨
      ∃ rg, Router.dispatch strtod H router M.Get ⟨M.Get, url, headers⟩ res = some rg ∧
        rg.calls = []) :
    HeadAgrees
      (Router.dispatch strtod H router M.Get ⟨M.Head, url, headers⟩
        { res with is_head_response := true })
      (Router.dispatch strtod H router M.Get ⟨M.Get, url, headers⟩ res) := by
  unfold Router.dispatch at hH ⊢
  simp only at hH ⊢
  split
  · split
    · exact ⟨rfl, rfl, rfl, rfl⟩
    · cases hc : H.catchall with
      | none => exact ⟨rfl, rfl, rfl, rfl⟩
      | some handler_ =>
        simp only
        rcases hH with hH | ⟨rg, hrg, hcalls⟩
        · obtain ⟨h1, h2, h3, h4⟩ := hH.1 handler_ hc url headers res
          rw [h3]
          cases (handler_ ⟨M.Get, url, headers⟩ res).thrown with
          | none => exact ⟨h1, h2, rfl, h4⟩
          | some e => exact ⟨h1, h2, rfl, h4⟩
        · rename_i h0 hany
          rw [if_pos h0, if_neg hany, hc] at hrg
          simp only at hrg
          split at hrg <;>
          · simp only [Option.some.injEq] at hrg
            rw [← hrg] at hcalls
            cases hcalls
  · split
    · exact ⟨rfl, rfl, rfl, rfl⟩
    · split
      · simp only [request.get_header_value]
        split <;> exact ⟨rfl, rfl, rfl, rfl⟩
      · rename_i h0 hlt h1
        cases hr : (router.per_methods_ M.Get).rules.get?
            (Trie.find strtod (router.per_methods_ M.Get).trie url).1 with
        | none => trivial
        | some o =>
          cases o with
          | none => trivial
          | some rule =>
            simp only
            rcases hH with hH | ⟨rg, hrg, hcalls⟩
            · obtain ⟨g1, g2, g3, g4⟩ := hH.2 rule url headers res
                (Trie.find strtod (router.per_methods_ M.Get).trie url).2
              rw [g3]
              cases (H.handle rule ⟨M.Get, url, headers⟩ res
                  (Trie.find strtod (router.per_methods_ M.Get).trie url).2).thrown with
              | none => exact ⟨g1, g2, rfl, g4⟩
              | some e => exact ⟨rfl, rfl, rfl, g4⟩
            · rw [if_neg h0, if_neg hlt, if_neg h1, hr] at hrg
              simp only at hrg
              split at hrg <;>
              · simp only [Option.some.injEq] at hrg
                rw [← hrg] at hcalls
                cases hcalls

theorem flatMap_sep_eq_nil (name : Nat → List Char) (l : List Nat) :
    l.flatMap (fun i => name i ++ ", ".toList) = [] ↔ l = [] := by
  cases l with
  | nil => simp
  | cons a l => simp [List.flatMap_cons]

theorem flatMap_intercalate (name : Nat → List Char) (l : List Nat) (hl : l ≠ []) :
    l.flatMap (fun i => ", ".toList ++ name i) =
      ", ".toList ++ ", ".toList.intercalate (l.map name) := by
  induction l with
  | nil => exact absurd rfl hl
  | cons a l ih =>
    cases l with
    | nil => simp [List.intercalate]
    | cons b l =>
      have := ih (by simp)
      rw [List.flatMap_cons, this]
      simp [List.intercalate, List.intersperse]

theorem handle_options_url (M : HTTPMethod) (strtod : StrtodFn) (H : Handlers)
    (router : Router) (req : request) (res : response) (hM : M.Valid)
    (hmeth : req.method = M.Options) (hurl : req.url ≠ "/*".toList) :
    Router.handle M strtod H router req res =
      if Router.matching_methods strtod router req.url ≠ [] then
        some ⟨Router.respond_allow res
          (Router.allow_loop M router
            (fun per_method => (Trie.find strtod per_method.trie req.url).1 != 0)
            "OPTIONS, HEAD, ".toList), none, []⟩
      else some ⟨(res.assign (response.ofCode 404)).end_, none, []⟩ := by
  obtain ⟨_, _, h3, _, _, h6⟩ := hM
  unfold Router.handle
  rw [if_neg (by rw [hmeth]; omega), if_neg (by rw [hmeth]; exact fun h => h6 h.symm),
    if_pos hmeth, if_neg hurl]
  have hiff : Router.allow_loop M router
      (fun per_method => (Trie.find strtod per_method.trie req.url).1 != 0)
      "OPTIONS, HEAD, ".toList ≠ "OPTIONS, HEAD, ".toList ↔
      Router.matching_methods strtod router req.url ≠ [] := by
    rw [allow_loop_eq, Router.matching_methods]
    rw [Ne, Ne, List.append_right_eq_self, flatMap_sep_eq_nil]
  by_cases h : Router.matching_methods strtod router req.url ≠ []
  · rw [if_pos (hiff.mpr h), if_pos h]
  · rw [if_neg (fun h' => h (hiff.mp h')), if_neg h]

theorem dispatch_rule (strtod : StrtodFn) (H : Handlers) (router : Router) (m : Nat)
    (req : request) (res : response) (rule : BaseRule)
    (hid : 2 ≤ (Trie.find strtod (router.per_methods_ m).trie req.url).1)
    (hrule : (router.per_methods_ m).rules.get?
      (Trie.find strtod (router.per_methods_ m).trie req.url).1 = some (some rule)) :
    Router.dispatch strtod H router m req res =
      match (H.handle rule req res
          (Trie.find strtod (router.per_methods_ m).trie req.url).2).thrown with
      | some _ =>
        some ⟨((H.handle rule req res
            (Trie.find strtod (router.per_methods_ m).trie req.url).2).res.assign
          (response.ofCode 500)).end_, none,
          [Call.rule rule req res (Trie.find strtod (router.per_methods_ m).trie req.url).2]⟩
      | none =>
        some ⟨(H.handle rule req res
            (Trie.find strtod (router.per_methods_ m).trie req.url).2).res, none,
          [Call.rule rule req res
            (Trie.find strtod (router.per_methods_ m).trie req.url).2]⟩ := by
  have hlt : (Trie.find strtod (router.per_methods_ m).trie req.url).1 <
      (router.per_methods_ m).rules.length := by
    by_contra hge
    rw [List.get?_eq_none.mpr (by omega)] at hrule
    cases hrule
  unfold Router.dispatch
  simp only
  rw [if_neg (by omega), if_neg (by omega), if_neg (by unfold RULE_SPECIAL_REDIRECT_SLASH; omega),
    hrule]

theorem handle_plain (M : HTTPMethod) (strtod : StrtodFn) (H : Handlers) (router : Router)
    (req : request) (res : response) (hh : req.method ≠ M.Head) (ho : req.method ≠ M.Options) :
    Router.handle M strtod H router req res =
      if req.method ≥ InternalMethodCount then some ⟨res, none, []⟩
      else Router.dispatch strtod H router req.method req res := by
  unfold Router.handle
  rw [if_neg hh, if_neg ho]

theorem matching_methods_any (strtod : StrtodFn) (router : Router) (url : List Char) :
    (List.range InternalMethodCount).any
        (fun i => (Trie.find strtod (router.per_methods_ i).trie url).1 != 0) = true ↔
      Router.matching_methods strtod router url ≠ [] := by
  unfold Router.matching_methods
  rw [List.any_eq_true, Ne, List.filter_eq_nil_iff]
  simp

/-- The outcomes of `Router::handle` and `Router::handle_upgrade` on a request that is
neither HEAD nor OPTIONS, side by side. -/
theorem upgrade_cases (M : HTTPMethod) (strtod : StrtodFn) (H : Handlers)
    (upgrade : BaseRule → request → response → HandlerOutcome) (router : Router)
    (req : request) (res : response) (hh : req.method ≠ M.Head) (ho : req.method ≠ M.Options) :
    (∃ out : response × Option (List Char),
      Router.handle M strtod H router req res = some ⟨out.1, out.2, []⟩ ∧
      Router.handle_upgrade strtod upgrade router req res = some ⟨out.1, out.2, []⟩ ∧
      (H.catchall = none ∨ Router.matching_methods strtod router req.url ≠ [] ∨
        req.method ≥ InternalMethodCount)) ∨
    (req.method < InternalMethodCount ∧ Router.matching_methods strtod router req.url = [] ∧
      Router.handle_upgrade strtod upgrade router req res =
        some ⟨(res.assign (response.ofCode 404)).end_, none, []⟩ ∧
      ∃ handler_, H.catchall = some handler_ ∧ ∃ rh,
        Router.handle M strtod H router req res = some rh ∧
          rh.calls = [Call.catchall req res] ∧ rh.thrown = (handler_ req res).thrown) ∨
    (∃ rule rh ru, Router.handle M strtod H router req res = some rh ∧
      Router.handle_upgrade strtod upgrade router req res = some ru ∧
      (router.per_methods_ req.method).rules.get?
        (Trie.find strtod (router.per_methods_ req.method).trie req.url).1 = some (some rule) ∧
      rh.calls = [Call.rule rule req res
        (Trie.find strtod (router.per_methods_ req.method).trie req.url).2] ∧
      ru.calls = [(rule, req, res)]) ∨
    (Router.handle M strtod H router req res = none ∧
      Router.handle_upgrade strtod upgrade router req res = none) := by
  rw [handle_plain M strtod H router req res hh ho]
  unfold Router.handle_upgrade Router.dispatch
  by_cases h1 : req.method ≥ InternalMethodCount
  · simp only [if_pos h1]
    exact Or.inl ⟨(res, none), (by trivial), (by trivial), Or.inr (Or.inr h1)⟩
  · simp only [if_neg h1]
    by_cases h2 : (Trie.find strtod (router.per_methods_ req.method).trie req.url).1 = 0
    · simp only [if_pos h2]
      by_cases h3 : (List.range InternalMethodCount).any
          (fun i => (Trie.find strtod (router.per_methods_ i).trie req.url).1 != 0) = true
      · simp only [if_pos h3]
        exact Or.inl ⟨(_, none), (by trivial), (by trivial),
          Or.inr (Or.inl ((matching_methods_any strtod router req.url).mp h3))⟩
      · simp only [if_neg h3]
        have hnone : Router.matching_methods strtod router req.url = [] := by
          by_contra hne
          exact h3 ((matching_methods_any strtod router req.url).mpr hne)
        cases hc : H.catchall with
        | none => exact Or.inl ⟨(_, none), (by trivial), (by trivial), Or.inl (by trivial)⟩
        | some handler_ =>
          refine Or.inr (Or.inl ⟨by omega, hnone, (by trivial), handler_, (by trivial), ?_⟩)
          simp only
          cases ht : (handler_ req res).thrown with
          | none => exact ⟨_, (by trivial), (by trivial), (by trivial)⟩
          | some e => exact ⟨_, (by trivial), (by trivial), (by trivial)⟩
    · simp only [if_neg h2]
      have hmatch : Router.matching_methods strtod router req.url ≠ [] := by
        apply (matching_methods_any strtod router req.url).mp
        rw [List.any_eq_true]
        exact ⟨req.method, List.mem_range.mpr (by omega), by simpa using h2⟩
      by_cases h4 : (Trie.find strtod (router.per_methods_ req.method).trie req.url).1 ≥
          (router.per_methods_ req.method).rules.length
      · simp only [if_pos h4]
        exact Or.inl ⟨(_, some _), (by trivial), (by trivial), Or.inr (Or.inl hmatch)⟩
      · simp only [if_neg h4]
        by_cases h5 : (Trie.find strtod (router.per_methods_ req.method).trie req.url).1 =
            RULE_SPECIAL_REDIRECT_SLASH
        · simp only [if_pos h5]
          split
          · exact Or.inl ⟨(_, none), (by trivial), (by trivial), Or.inr (Or.inl hmatch)⟩
          · exact Or.inl ⟨(_, none), (by trivial), (by trivial), Or.inr (Or.inl hmatch)⟩
        · simp only [if_neg h5]
          cases hr : (router.per_methods_ req.method).rules.get?
              (Trie.find strtod (router.per_methods_ req.method).trie req.url).1 with
          | none => exact Or.inr (Or.inr (Or.inr ⟨(by trivial), (by trivial)⟩))
          | some o =>
            cases o with
            | none => exact Or.inr (Or.inr (Or.inr ⟨(by trivial), (by trivial)⟩))
            | some rule =>
              refine Or.inr (Or.inr (Or.inl ⟨rule, ?_⟩))
              simp only
              cases (H.handle rule req res
                  (Trie.find strtod (router.per_methods_ req.method).trie req.url).2).thrown <;>
                cases (upgrade rule req res).thrown <;>
                exact ⟨_, _, (by trivial), (by trivial), (by trivial), (by trivial), (by trivial)⟩

theorem allows_eq_testBit (ro : BaseRule) (i : Nat) : ro.allows i = ro.methods_.testBit i := by
  rw [BaseRule.allows, Nat.testBit_to_div_mod]
  rcases Nat.mod_two_eq_zero_or_one (ro.methods_ / 2 ^ i) with h | h <;> simp [h]

theorem new_allows (M : HTTPMethod) (rule : List Char) (i : Nat) (hget : M.Get < 32) :
    (BaseRule.new M rule).allows i = true ↔ i = M.Get := by
  rw [allows_eq_testBit, BaseRule.new]
  simp only [Nat.testBit_mod_two_pow, Nat.testBit_two_pow, Bool.and_eq_true, decide_eq_true_eq]
  constructor
  · rintro ⟨_, h⟩
    exact h.symm
  · rintro rfl
    exact ⟨hget, rfl⟩

theorem methods_allows (self : BaseRule) (args : List Nat) :
    ∀ (method i : Nat), (∀ x ∈ method :: args, x < 32) →
      ((RuleParameterTraits.methods self method args).allows i = true ↔ i ∈ method :: args) := by
  induction args with
  | nil =>
    intro method i h
    rw [allows_eq_testBit, RuleParameterTraits.methods]
    simp only [Nat.testBit_mod_two_pow, Nat.testBit_two_pow, Bool.and_eq_true,
      decide_eq_true_eq, List.mem_singleton]
    constructor
    · rintro ⟨_, h⟩
      exact h.symm
    · rintro rfl
      exact ⟨h i (List.mem_cons_self _ _), rfl⟩
  | cons next args ih =>
    intro method i h
    have hih := ih next i (fun x hx => h x (List.mem_cons_of_mem _ hx))
    rw [allows_eq_testBit] at hih ⊢
    rw [RuleParameterTraits.methods]
    simp only [Nat.testBit_mod_two_pow, Nat.testBit_lor, Nat.testBit_two_pow, Bool.and_eq_true,
      Bool.or_eq_true, decide_eq_true_eq]
    rw [hih]
    constructor
    · rintro ⟨_, h1 | h1⟩
      · exact List.mem_cons_of_mem _ h1
      · rw [h1]
        exact List.mem_cons_self _ _
    · intro hmem
      refine ⟨h i hmem, ?_⟩
      rcases List.mem_cons.mp hmem with h1 | h1
      · exact Or.inr h1.symm
      · exact Or.inl h1

theorem methods_fields (self : BaseRule) (args : List Nat) :
    ∀ method : Nat, (RuleParameterTraits.methods self method args).rule_ = self.rule_ ∧
      (RuleParameterTraits.methods self method args).name_ = self.name_ := by
  induction args with
  | nil => intro method; exact ⟨rfl, rfl⟩
  | cons next args ih =>
    intro method
    rw [RuleParameterTraits.methods]
    exact ih next

theorem forEach_log (l : List Nat) :
    ∀ log : List Nat,
      forEach (fun (method : Nat) (log : List Nat) => some (log ++ [method], none)) l log =
        some (log ++ l, none) := by
  induction l with
  | nil => intro log; simp [forEach]
  | cons a l ih =>
    intro log
    rw [forEach]
    simp only
    rw [ih]
    simp

/-- Registering rules one after the other in a table appends them to the list of rules,
and the rule at position `n` of the sequence is added to the trie, as it is after the
first `n` registrations, under the id that is the length of the list before plus `n`. -/
theorem register_ids (regs : List BaseRule) :
    ∀ (pm pm' : PerMethod), forEach PerMethod.register regs pm = some (pm', none) →
      pm'.rules = pm.rules ++ regs.map some ∧
      ∀ n ro, regs[n]? = some ro →
        ∃ pm_n t1, forEach PerMethod.register (regs.take n) pm = some (pm_n, none) ∧
          pm_n.rules.length = pm.rules.length + n ∧
          Trie.add pm_n.trie ro.rule_ (pm.rules.length + n) = some (t1, none) := by
  induction regs with
  | nil =>
    intro pm pm' h
    simp only [forEach, Option.some.injEq, Prod.mk.injEq, and_true] at h
    subst h
    refine ⟨by simp, fun n ro hn => ?_⟩
    simp at hn
  | cons r regs ih =>
    intro pm pm' h
    obtain ⟨pm1, h1, h2⟩ := (forEach_cons_ok _ r regs pm pm').mp h
    obtain ⟨hrules, t1, hadd, _⟩ := register_ok r pm pm1 h1
    obtain ⟨g1, g2⟩ := ih pm1 pm' h2
    refine ⟨by rw [g1, hrules]; simp, fun n ro hn => ?_⟩
    cases n with
    | zero =>
      simp only [List.getElem?_cons_zero, Option.some.injEq] at hn
      subst hn
      exact ⟨pm, t1, rfl, rfl, hadd⟩
    | succ n =>
      simp only [List.getElem?_cons_succ] at hn
      obtain ⟨pm_n, t2, k1, k2, k3⟩ := g2 n ro hn
      refine ⟨pm_n, t2, ?_, ?_, ?_⟩
      · rw [List.take_succ_cons]
        exact (forEach_cons_ok _ _ _ _ _).mpr ⟨pm1, h1, k1⟩
      · rw [k2, hrules]
        simp
        omega
      · rw [hrules] at k3
        simp only [List.length_append, List.length_singleton] at k3
        rw [show pm.rules.length + (n + 1) = pm.rules.length + 1 + n by omega]
        exact k3

/-- After a `validate` without an error, the list of rules of a method is the two reserved
positions followed by the checked rules that allow the method, in their order. -/
theorem validate_rules (check : BaseRule → BaseRule × Option (List Char))
    (rules : List BaseRule) (router' : Router) (m : Nat)
    (hv : Router.validate check (Router.init rules) = some (router', none))
    (hm : m < InternalMethodCount) :
    ∃ pm1, forEach PerMethod.register
        ((checkedRules check rules).filter (fun ro => ro.allows m)) PerMethod.init =
          some (pm1, none) ∧
      (router'.per_methods_ m).rules = pm1.rules ∧
      Trie.validate pm1.trie = some ((router'.per_methods_ m).trie, none) := by
  obtain ⟨r1, h1, h2⟩ := (validate_ok check _ router').mp hv
  have hreg := register_all check rules 0 (Router.init rules) r1 h1 m hm
  obtain ⟨g1, _, _⟩ := forEach_on_per_method _ _ (List.nodup_range _) r1 router' h2
  obtain ⟨hr, hval⟩ := perMethod_validate_ok _ _ (g1 m (List.mem_range.mpr hm))
  exact ⟨r1.per_methods_ m, hreg, hr, hval⟩

/-- The only error that `Trie::add` throws carries the message
`"handler already exists for " + url`. -/
theorem add_loop_thrown (url : List Char) (ri : Nat) (fuel : Nat) :
    ∀ (rest : List Char) (node : Node) (o : AddOutcome) (msg : List Char),
      Trie.add_loop url ri fuel rest node = some o → o.thrown = some msg →
      msg = "handler already exists for ".toList ++ url := by
  induction fuel with
  | zero => intro rest node o msg h; simp [Trie.add_loop] at h
  | succ fuel ih =>
    intro rest node o msg h hthrown
    obtain ⟨r, k, p, cs⟩ := node
    cases rest with
    | nil =>
      simp only [Trie.add_loop] at h
      split at h
      · simp only [Option.some.injEq] at h
        subst h
        simp only [Option.some.injEq] at hthrown
        exact hthrown.symm
      · simp only [Option.some.injEq] at h
        subst h
        cases hthrown
    | cons c rest =>
      rw [Trie.add_loop] at h
      split at h
      · split at h
        · simp only [Option.map_eq_some'] at h
          obtain ⟨y, hy, hyo⟩ := h
          subst hyo
          simp only at hthrown
          rcases descend_some _ _ _ cs y hy with ⟨_, ch, _, o', _, _, _, h4, h5⟩ | ⟨_, o', h2, h3⟩
          · subst h5
            exact ih _ ch o' msg h4 hthrown
          · subst h3
            exact ih _ _ o' msg h2 hthrown
        · exact ih _ _ o msg h hthrown
      · simp only [Option.map_eq_some'] at h
        obtain ⟨y, hy, hyo⟩ := h
        subst hyo
        simp only at hthrown
        rcases descend_some _ _ _ cs y hy with ⟨_, ch, _, o', _, _, _, h4, h5⟩ | ⟨_, o', h2, h3⟩
        · subst h5
          exact ih _ ch o' msg h4 hthrown
        · subst h3
          exact ih _ _ o' msg h2 hthrown

theorem trie_add_thrown (t t' : Trie) (P : List Char) (r : Nat) (msg : List Char)
    (h : Trie.add t P r = some (t', some msg)) :
    msg = "handler already exists for ".toList ++ P := by
  simp only [Trie.add, Option.map_eq_some', Prod.mk.injEq] at h
  obtain ⟨o, ho, _, h2⟩ := h
  exact add_loop_thrown P r _ P t.head_ o msg ho h2

/-- A loop that ends with an error ends with the error of one of its steps. -/
theorem forEach_error {α σ : Type} (f : α → σ → Option (σ × Option (List Char))) :
    ∀ (xs : List α) (s s' : σ) (e : List Char), forEach f xs s = some (s', some e) →
      ∃ x ∈ xs, ∃ s1 s2, f x s1 = some (s2, some e) := by
  intro xs
  induction xs with
  | nil => intro s s' e h; simp [forEach] at h
  | cons x xs ih =>
    intro s s' e h
    simp only [forEach] at h
    split at h
    · cases h
    · rename_i s1 e1 hx
      simp only [Option.some.injEq, Prod.mk.injEq] at h
      exact ⟨x, List.mem_cons_self _ _, s, s1, by rw [hx, h.2]⟩
    · rename_i s1 hx
      obtain ⟨y, hy, k⟩ := ih s1 s' e h
      exact ⟨y, List.mem_cons_of_mem _ hy, k⟩

theorem add_rule_thrown (pm pm' : PerMethod) (ro : BaseRule) (msg : List Char)
    (h : PerMethod.register ro pm = some (pm', some msg)) :
    msg = "handler already exists for ".toList ++ ro.rule_ ∨
      (has_trailing_slash ro.rule_ = true ∧
        msg = "handler already exists for ".toList ++ ro.rule_.dropLast) := by
  unfold PerMethod.register PerMethod.add_rule at h
  simp only at h
  split at h
  · cases h
  · rename_i t e hadd
    simp only [Option.some.injEq, Prod.mk.injEq] at h
    rw [← h.2]
    exact Or.inl (trie_add_thrown _ _ _ _ _ hadd)
  · rename_i t hadd
    split at h
    · rename_i hts
      simp only [Option.map_eq_some', Prod.mk.injEq] at h
      obtain ⟨x, hx, _, hx2⟩ := h
      obtain ⟨t2, e2⟩ := x
      simp only at hx2
      subst hx2
      right
      refine ⟨hts, ?_⟩
      have := trie_add_thrown _ _ _ _ _ hx
      rw [rule_without_trailing_slash, if_pos hts] at this
      exact this
    · simp at h

/-- The errors with which `Router::validate` ends: the error of `rule->validate()` for one
of the rules, the error of `Trie::add` for the pattern of a checked rule or for that
pattern without its trailing slash, or the error of `Trie::validate`. -/
theorem validate_error (check : BaseRule → BaseRule × Option (List Char))
    (rules : List BaseRule) (router' : Router) (msg : List Char)
    (h : Router.validate check (Router.init rules) = some (router', some msg)) :
    (∃ rule ∈ rules, (check rule).2 = some msg) ∨
    (∃ rule ∈ rules, msg = "handler already exists for ".toList ++ (check rule).1.rule_ ∨
      (has_trailing_slash (check rule).1.rule_ = true ∧
        msg = "handler already exists for ".toList ++ (check rule).1.rule_.dropLast)) ∨
    msg = "Internal error: Trie header should be simple!".toList := by
  unfold Router.validate at h
  split at h
  · cases h
  · rename_i r e h1
    simp only [Option.some.injEq, Prod.mk.injEq] at h
    obtain ⟨_, rfl⟩ := h
    obtain ⟨x, hx, s1, s2, hstep⟩ := forEach_error _ _ _ _ _ h1
    have hmem : x.2 ∈ rules := by
      have := List.mem_enum hx
      simp only [Router.init] at this
      rw [this.2]
      exact List.getElem_mem _
    unfold Router.validate_rule at hstep
    split at hstep
    · rename_i rule' e' hc
      simp only [Option.some.injEq, Prod.mk.injEq] at hstep
      refine Or.inl ⟨x.2, hmem, ?_⟩
      rw [hc, ← hstep.2]
    · rename_i rule' hc
      right
      left
      refine ⟨x.2, hmem, ?_⟩
      have hrule : (check x.2).1 = rule' := by rw [hc]
      rw [hrule]
      rw [internal_add_rule_object_eq] at hstep
      obtain ⟨method, _, s3, s4, hstep2⟩ := forEach_error _ _ _ _ _ hstep
      unfold Router.on_per_method at hstep2
      simp only [Option.map_eq_some', Prod.mk.injEq] at hstep2
      obtain ⟨y, hy, _, hy2⟩ := hstep2
      obtain ⟨pm2, e2⟩ := y
      simp only at hy2
      subst hy2
      exact add_rule_thrown _ _ _ _ hy
  · rename_i r h1
    right
    right
    obtain ⟨method, _, s3, s4, hstep2⟩ := forEach_error _ _ _ _ _ h
    unfold Router.on_per_method PerMethod.validate Trie.validate at hstep2
    simp only [Option.map_eq_some', Prod.mk.injEq] at hstep2
    obtain ⟨y, ⟨z, hz, hz2⟩, _, hy2⟩ := hstep2
    split at hz
    · simp only [Option.some.injEq] at hz
      subst hz
      subst hz2
      simp only [Option.some.injEq] at hy2
      exact hy2.symm
    · simp only [Option.map_eq_some'] at hz
      obtain ⟨w, _, hw⟩ := hz
      subst hw
      subst hz2
      cases hy2

theorem siblingsUnique_children {r : Nat} {k : List Char} {p : ParamType} {cs : List Node}
    (h : Node.SiblingsUnique (Node.mk r k p cs)) :
    cs.Pairwise (fun a b => ¬ Node.Clash a b) ∧ ∀ c ∈ cs, Node.SiblingsUnique c := by
  cases h with
  | mk _ _ _ _ h1 h2 => exact ⟨h1, h2⟩

theorem clash_congr (a a' b b' : Node) (ha : a'.param = a.param)
    (hak : a'.key.head? = a.key.head?) (hb : b'.param = b.param)
    (hbk : b'.key.head? = b.key.head?) : Node.Clash a' b' ↔ Node.Clash a b := by
  unfold Node.Clash
  rw [ha, hb, hak, hbk]

theorem pairwise_forall₂ {R : Node → Node → Prop} {S : Node → Node → Prop} {l l' : List Node}
    (hS : List.Forall₂ S l l') (hR : l.Pairwise R)
    (hc : ∀ a a' b b', S a a' → S b b' → R a b → R a' b') : l'.Pairwise R := by
  induction hS with
  | nil => exact List.Pairwise.nil
  | cons hab htl ih =>
    rename_i a a' l1 l2
    rw [List.pairwise_cons] at hR ⊢
    refine ⟨fun b' hb' => ?_, ih hR.2⟩
    obtain ⟨b, hb, hbb⟩ := forall₂_right_mem htl b' hb'
    exact hc _ _ _ _ hab hbb (hR.1 b hb)

theorem forall₂_replace {S : Node → Node → Prop} (hrefl : ∀ a, S a a) (pre post : List Node)
    (ch ch' : Node) (h : S ch ch') :
    List.Forall₂ S (pre ++ ch :: post) (pre ++ ch' :: post) := by
  induction pre with
  | nil =>
    exact List.Forall₂.cons h (List.forall₂_same.mpr (fun a _ => hrefl a))
  | cons a pre ih => exact List.Forall₂.cons (hrefl a) ih

/-- `add` keeps sibling-uniqueness: it moves to the first child that its test accepts and
makes a new child only when the test accepts none. -/
theorem add_loop_siblings (url : List Char) (ri : Nat) (fuel : Nat) :
    ∀ (rest : List Char) (node : Node) (o : AddOutcome), Node.SiblingsUnique node →
      Trie.add_loop url ri fuel rest node = some o → Node.SiblingsUnique o.node := by
  induction fuel with
  | zero => intro rest node o _ h; simp [Trie.add_loop] at h
  | succ fuel ih =>
    intro rest node o hsu h
    obtain ⟨r, k, p, cs⟩ := node
    obtain ⟨h1, h2⟩ := siblingsUnique_children hsu
    have hstep : ∀ (pred : Node → Bool) (fresh : Node) (rest' : List Char)
        (y : List Node × Option (List Char)),
        fresh.children = [] →
        (∀ c, pred c = false → ¬ Node.Clash c fresh) →
        descend pred fresh (Trie.add_loop url ri fuel rest') cs = some y →
        y.1.Pairwise (fun a b => ¬ Node.Clash a b) ∧ ∀ c ∈ y.1, Node.SiblingsUnique c := by
      intro pred fresh rest' y hfresh hpred hy
      have hfsu : Node.SiblingsUnique fresh := by
        obtain ⟨fr, fk, fp, fcs⟩ := fresh
        simp only [Node.children] at hfresh
        subst hfresh
        exact Node.SiblingsUnique.mk _ _ _ _ List.Pairwise.nil (fun c hc => by cases hc)
      refine ⟨?_, ?_⟩
      · rcases descend_some pred fresh _ cs y hy with
          ⟨pre, ch, post, o', e1, _, _, e4, e5⟩ | ⟨hnone, o', e2, e3⟩
        · subst e5
          subst e1
          obtain ⟨s1, s2⟩ := add_loop_shape url ri fuel _ ch o' e4
          refine pairwise_forall₂
            (forall₂_replace (S := fun a a' => a'.param = a.param ∧ a'.key = a.key)
              (fun a => ⟨rfl, rfl⟩) pre post ch o'.node ⟨s2, s1⟩) h1 ?_
          intro a a' b b' ha hb hab hcl
          exact hab ((clash_congr a a' b b' ha.1 (by rw [ha.2]) hb.1 (by rw [hb.2])).mp hcl)
        · subst e3
          obtain ⟨s1, s2⟩ := add_loop_shape url ri fuel _ fresh o' e2
          rw [List.pairwise_append]
          refine ⟨h1, List.pairwise_singleton _ _, ?_⟩
          intro a ha b hb
          simp only [List.mem_singleton] at hb
          subst hb
          intro hcl
          exact hpred a (hnone a ha)
            ((clash_congr a a fresh o'.node rfl rfl s2 (by rw [s1])).mp hcl)
      · exact descend_forall Node.SiblingsUnique pred fresh _ cs y hy h2 (fun n o' hn ho' => by
          rcases hn with hn | rfl
          · exact ih _ n o' (h2 n hn) ho'
          · exact ih _ _ o' hfsu ho')
    cases rest with
    | nil =>
      simp only [Trie.add_loop] at h
      split at h <;>
      · simp only [Option.some.injEq] at h
        subst h
        exact Node.SiblingsUnique.mk _ _ _ _ h1 h2
    | cons c rest =>
      rw [Trie.add_loop] at h
      split at h
      · split at h
        · rename_i x hx
          have hmem : x ∈ paramTraits := List.mem_of_find?_eq_some hx
          simp only [Option.map_eq_some'] at h
          obtain ⟨y, hy, hyo⟩ := h
          subst hyo
          obtain ⟨g1, g2⟩ := hstep (fun child => decide (child.param = x.1))
              (Node.mk 0 [] x.1 []) _ y rfl (fun a ha hcl => by
            simp only [decide_eq_false_iff_not] at ha
            rcases hcl with ⟨_, hp⟩ | ⟨_, hp, _⟩
            · exact ha hp
            · exact paramTraits_types x hmem hp) hy
          exact Node.SiblingsUnique.mk _ _ _ _ g1 g2
        · exact ih _ _ o hsu h
      · simp only [Option.map_eq_some'] at h
        obtain ⟨y, hy, hyo⟩ := h
        subst hyo
        obtain ⟨g1, g2⟩ := hstep (fun child => decide (child.key0 = c))
            (Node.mk 0 [c] ParamType.MAX []) _ y rfl (fun a ha hcl => by
          simp only [decide_eq_false_iff_not] at ha
          rcases hcl with ⟨hp, hp'⟩ | ⟨_, _, ch, hk, hk'⟩
          · exact hp (by rw [hp']; rfl)
          · apply ha
            simp only [Node.key, List.head?_cons, Option.some.injEq] at hk'
            subst hk'
            unfold Node.key0
            cases hkey : a.key with
            | nil => rw [hkey] at hk; cases hk
            | cons d ds =>
              rw [hkey] at hk
              simp only [List.head?_cons, Option.some.injEq] at hk
              simp [hk]) hy
        exact Node.SiblingsUnique.mk _ _ _ _ g1 g2

theorem built_siblings (t : Trie) (h : Trie.Built t) : Node.SiblingsUnique t.head_ := by
  induction h with
  | init => exact Node.SiblingsUnique.mk _ _ _ _ List.Pairwise.nil (fun c hc => by cases hc)
  | add t t' url ri err _ hadd ih =>
    simp only [Trie.add, Option.map_eq_some'] at hadd
    obtain ⟨o, ho, hoe⟩ := hadd
    simp only [Prod.mk.injEq] at hoe
    rw [← hoe.1]
    exact add_loop_siblings url ri _ url t.head_ o ih ho

theorem mem_subnodesList (cs : List Node) (x : Node) :
    x ∈ Node.subnodesList cs ↔ ∃ c ∈ cs, x ∈ c.subnodes := by
  induction cs with
  | nil => simp [Node.subnodesList]
  | cons a cs ih =>
    rw [Node.subnodesList, List.mem_append, ih]
    simp

theorem mem_subnodes (r : Nat) (k : List Char) (p : ParamType) (cs : List Node) (x : Node) :
    x ∈ (Node.mk r k p cs).subnodes ↔ x = Node.mk r k p cs ∨ ∃ c ∈ cs, x ∈ c.subnodes := by
  rw [Node.subnodes, List.mem_cons, mem_subnodesList]

theorem self_mem_subnodes (n : Node) : n ∈ n.subnodes := by
  obtain ⟨r, k, p, cs⟩ := n
  exact (mem_subnodes r k p cs _).mpr (Or.inl rfl)

theorem siblingsUnique_iff : ∀ n : Node,
    Node.SiblingsUnique n ↔
      ∀ x ∈ n.subnodes, x.children.Pairwise (fun a b => ¬ Node.Clash a b) := by
  intro n
  induction n using Node.induct with
  | h r k p cs ih =>
    constructor
    · intro h x hx
      obtain ⟨h1, h2⟩ := siblingsUnique_children h
      rcases (mem_subnodes r k p cs x).mp hx with rfl | ⟨c, hc, hxc⟩
      · exact h1
      · exact (ih c hc).mp (h2 c hc) x hxc
    · intro h
      refine Node.SiblingsUnique.mk _ _ _ _ (h _ (self_mem_subnodes _)) (fun c hc => ?_)
      exact (ih c hc).mpr (fun x hx => h x ((mem_subnodes r k p cs x).mpr (Or.inr ⟨c, hc, hx⟩)))

/-- What `optimizeNode` keeps of a node: the parameter kind, the key of a parameter node,
and the first character of a key that is not empty. -/
theorem optimizeNode_shape (fuel : Nat) :
    ∀ node node' : Node, Trie.optimizeNode fuel node = some node' →
      node'.param = node.param ∧ (node.param ≠ ParamType.MAX → node'.key = node.key) ∧
        (node.key ≠ [] → node'.key.head? = node.key.head?) := by
  induction fuel with
  | zero => intro node node' h; simp [Trie.optimizeNode] at h
  | succ fuel ih =>
    intro node node' h
    obtain ⟨r, k, p, cs⟩ := node
    rw [Trie.optimizeNode.eq_def] at h
    simp only at h
    split at h
    · simp only [Option.some.injEq] at h
      subst h
      exact ⟨rfl, fun _ => rfl, fun _ => rfl⟩
    · split at h
      · rename_i hsimple
        obtain ⟨_, _, hp, _⟩ := (isSimple_iff r k p cs).mp hsimple
        cases cs with
        | nil =>
          simp only [Option.some.injEq] at h
          subst h
          exact ⟨rfl, fun _ => rfl, fun _ => rfl⟩
        | cons child more =>
          simp only at h
          obtain ⟨g1, _, g3⟩ := ih _ node' h
          simp only [Node.param, Node.key] at g1 g3 ⊢
          refine ⟨g1, fun hne => absurd hp hne, fun hk => ?_⟩
          rw [g3 (by simp [hk])]
          cases k with
          | nil => exact absurd rfl hk
          | cons a as => rfl
      · simp only [Option.map_eq_some'] at h
        obtain ⟨cs', _, hn⟩ := h
        subst hn
        exact ⟨rfl, fun _ => rfl, fun _ => rfl⟩

theorem isSimple_congr (r : Nat) (k : List Char) (p : ParamType) (cs cs' : List Node)
    (h : List.Forall₂ (fun c c' => c'.param = c.param) cs cs') :
    (Node.mk r k p cs').IsSimpleNode = (Node.mk r k p cs).IsSimpleNode := by
  have hlen := h.length_eq
  have hall : (∀ c ∈ cs', c.param = ParamType.MAX) ↔ (∀ c ∈ cs, c.param = ParamType.MAX) := by
    constructor
    · intro hc c hmem
      obtain ⟨c', hc', hp⟩ := forall₂_right_mem h.flip c hmem
      have hp' : c'.param = c.param := hp
      rw [← hp']
      exact hc c' hc'
    · intro hc c' hmem
      obtain ⟨c, hc', hp⟩ := forall₂_right_mem h c' hmem
      rw [hp]
      exact hc c hc'
  have h1 := isSimple_iff r k p cs
  have h2 := isSimple_iff r k p cs'
  rw [← hlen, hall] at h2
  cases hs : (Node.mk r k p cs).IsSimpleNode with
  | true => exact h2.mpr (h1.mp hs)
  | false =>
    cases hs' : (Node.mk r k p cs').IsSimpleNode with
    | true => rw [h1.mpr (h2.mp hs')] at hs; cases hs
    | false => rfl

/-- `optimizeNode` leaves nothing to merge in the subtree. -/
theorem optimizeNode_compressed (fuel : Nat) :
    ∀ node node' : Node, Trie.optimizeNode fuel node = some node' → Node.Compressed node' := by
  induction fuel with
  | zero => intro node node' h; simp [Trie.optimizeNode] at h
  | succ fuel ih =>
    intro node node' h
    obtain ⟨r, k, p, cs⟩ := node
    rw [Trie.optimizeNode.eq_def] at h
    simp only at h
    split at h
    · rename_i hempty
      simp only [Option.some.injEq] at h
      subst h
      simp only [List.isEmpty_iff] at hempty
      subst hempty
      intro x hx
      rcases (mem_subnodes _ _ _ _ x).mp hx with rfl | ⟨c, hc, _⟩
      · exact Or.inl rfl
      · cases hc
    · rename_i hne
      split at h
      · cases cs with
        | nil => exact absurd rfl hne
        | cons child more => exact ih _ node' h
      · rename_i hns
        simp only [Option.map_eq_some'] at h
        obtain ⟨cs', hcs', hn⟩ := h
        subst hn
        have hf := forChildren_some _ cs cs' hcs'
        intro x hx
        rcases (mem_subnodes _ _ _ _ x).mp hx with rfl | ⟨c', hc', hxc⟩
        · right
          rw [isSimple_congr r k p cs cs'
            (forall₂_of_mem hf (fun a _ b hab => (optimizeNode_shape fuel a b hab).1))]
          simpa using hns
        · obtain ⟨c, _, hcc⟩ := forall₂_right_mem hf c' hc'
          exact ih c c' hcc x hxc

theorem forChildren_id (f : Node → Option Node) (cs : List Node)
    (h : ∀ c ∈ cs, f c = some c) : forChildren f cs = some cs := by
  induction cs with
  | nil => rfl
  | cons c cs ih =>
    rw [forChildren, h c (List.mem_cons_self _ _),
      ih (fun x hx => h x (List.mem_cons_of_mem _ hx))]

/-- `optimizeNode` leaves a subtree in which nothing is left to merge as it is. -/
theorem optimizeNode_fixed (fuel : Nat) :
    ∀ node : Node, Node.Compressed node → node.size ≤ fuel →
      Trie.optimizeNode fuel node = some node := by
  induction fuel with
  | zero =>
    intro node _ h
    obtain ⟨r, k, p, cs⟩ := node
    rw [Node.size] at h
    omega
  | succ fuel ih =>
    intro node hc hsize
    obtain ⟨r, k, p, cs⟩ := node
    rw [Node.size] at hsize
    rw [Trie.optimizeNode.eq_def]
    simp only
    split
    · rfl
    · rename_i hne
      have hns : (Node.mk r k p cs).IsSimpleNode = false := by
        rcases hc _ (self_mem_subnodes _) with h | h
        · simp only [Node.children] at h
          subst h
          exact absurd rfl hne
        · exact h
      rw [if_neg (by simp [hns])]
      have hall : ∀ c ∈ cs, Trie.optimizeNode fuel c = some c := by
        intro c hmem
        have := size_le_sizeList c cs hmem
        exact ih c (fun x hx => hc x ((mem_subnodes r k p cs x).mpr (Or.inr ⟨c, hmem, hx⟩)))
          (by omega)
      rw [forChildren_id _ cs hall]
      rfl

/-- `optimizeNode` keeps sibling-uniqueness in a subtree without empty literal keys. -/
theorem optimizeNode_siblings (fuel : Nat) :
    ∀ node node' : Node, Node.KeysOk node → Node.SiblingsUnique node →
      Trie.optimizeNode fuel node = some node' → Node.SiblingsUnique node' := by
  induction fuel with
  | zero => intro node node' _ _ h; simp [Trie.optimizeNode] at h
  | succ fuel ih =>
    intro node node' hok hsu h
    obtain ⟨r, k, p, cs⟩ := node
    obtain ⟨hck, hcok⟩ := keysOk_children hok
    obtain ⟨h1, h2⟩ := siblingsUnique_children hsu
    rw [Trie.optimizeNode.eq_def] at h
    simp only at h
    split at h
    · simp only [Option.some.injEq] at h
      subst h
      exact hsu
    · split at h
      · cases cs with
        | nil =>
          simp only [Option.some.injEq] at h
          subst h
          exact hsu
        | cons child more =>
          simp only at h
          have hcok' := hcok child (List.mem_cons_self _ _)
          have hcsu := h2 child (List.mem_cons_self _ _)
          obtain ⟨cr, ck, cp, ccs⟩ := child
          obtain ⟨k1, k2⟩ := keysOk_children hcok'
          obtain ⟨s1, s2⟩ := siblingsUnique_children hcsu
          exact ih _ node' (Node.KeysOk.mk _ _ _ _ k1 k2) (Node.SiblingsUnique.mk _ _ _ _ s1 s2) h
      · simp only [Option.map_eq_some'] at h
        obtain ⟨cs', hcs', hn⟩ := h
        subst hn
        have hf := forChildren_some _ cs cs' hcs'
        have hS : List.Forall₂ (fun c c' => c'.param = c.param ∧ c'.key.head? = c.key.head?)
            cs cs' :=
          forall₂_of_mem hf (fun a ha b hab => by
            obtain ⟨g1, g2, g3⟩ := optimizeNode_shape fuel a b hab
            refine ⟨g1, ?_⟩
            by_cases hp : a.param = ParamType.MAX
            · exact g3 (hck a ha hp)
            · rw [g2 hp])
        refine Node.SiblingsUnique.mk _ _ _ _ ?_ ?_
        · refine pairwise_forall₂ hS h1 ?_
          intro a a' b b' ha hb hab hcl
          exact hab ((clash_congr a a' b b' ha.1 ha.2 hb.1 hb.2).mp hcl)
        · intro c' hc'
          obtain ⟨c, hc, hcc⟩ := forall₂_right_mem hf c' hc'
          exact ih c c' (hcok c hc) (h2 c hc) hcc

/-- `optimize` returns on every trie. -/
theorem optimize_total (t : Trie) :
    ∃ cs', forChildren (fun child => Trie.optimizeNode child.size child) t.head_.children =
        some cs' ∧
      Trie.optimize t = some ⟨Node.mk t.head_.rule_index t.head_.key t.head_.param cs'⟩ := by
  obtain ⟨cs', hcs'⟩ := forChildren_isSome
    (fun child => Trie.optimizeNode child.size child) t.head_.children
    (fun c _ => optimizeNode_total c.size c (le_refl _))
  exact ⟨cs', hcs', by simp only [Trie.optimize, hcs', Option.map_some']⟩

/-- `optimize` keeps sibling-uniqueness in a trie without empty literal keys. -/
theorem optimize_siblings (t t' : Trie) (hok : Node.KeysOk t.head_)
    (hsu : Node.SiblingsUnique t.head_) (h : Trie.optimize t = some t') :
    Node.SiblingsUnique t'.head_ := by
  obtain ⟨⟨r, k, p, cs⟩⟩ := t
  obtain ⟨hck, hcok⟩ := keysOk_children hok
  obtain ⟨h1, h2⟩ := siblingsUnique_children hsu
  simp only [Trie.optimize, Option.map_eq_some'] at h
  obtain ⟨cs', hcs', ht⟩ := h
  subst ht
  have hf := forChildren_some _ cs cs' hcs'
  have hS : List.Forall₂ (fun c c' => c'.param = c.param ∧ c'.key.head? = c.key.head?)
      cs cs' :=
    forall₂_of_mem hf (fun a ha b hab => by
      obtain ⟨g1, g2, g3⟩ := optimizeNode_shape _ a b hab
      refine ⟨g1, ?_⟩
      by_cases hp : a.param = ParamType.MAX
      · exact g3 (hck a ha hp)
      · rw [g2 hp])
  refine Node.SiblingsUnique.mk _ _ _ _ ?_ ?_
  · refine pairwise_forall₂ hS h1 ?_
    intro a a' b b' ha hb hab hcl
    exact hab ((clash_congr a a' b b' ha.1 ha.2 hb.1 hb.2).mp hcl)
  · intro c' hc'
    obtain ⟨c, hc, hcc⟩ := forall₂_right_mem hf c' hc'
    exact optimizeNode_siblings _ c c' (hcok c hc) (h2 c hc) hcc

/-- `optimize` leaves nothing to merge below the root and, run again, changes nothing. -/
theorem optimize_compressed (t t' : Trie) (h : Trie.optimize t = some t') :
    (∀ c ∈ t'.head_.children, Node.Compressed c) ∧ Trie.optimize t' = some t' := by
  obtain ⟨⟨r, k, p, cs⟩⟩ := t
  simp only [Trie.optimize, Option.map_eq_some'] at h
  obtain ⟨cs', hcs', ht⟩ := h
  subst ht
  have hf := forChildren_some _ cs cs' hcs'
  have hc : ∀ c ∈ cs', Node.Compressed c := by
    intro c' hc'
    obtain ⟨c, _, hcc⟩ := forall₂_right_mem hf c' hc'
    exact optimizeNode_compressed _ c c' hcc
  refine ⟨hc, ?_⟩
  simp only [Trie.optimize, Node.children, Node.rule_index, Node.key, Node.param]
  rw [forChildren_id _ cs' (fun c hmem => optimizeNode_fixed _ c (hc c hmem) (le_refl _))]
  rfl

/-- The children after `descend`: every child of before is kept with its key and kind, and
there is a child on which the test holds or that was made of `fresh`. -/
theorem descend_children (pred : Node → Bool) (fresh : Node) (f : Node → Option AddOutcome)
    (cs : List Node) (y : List Node × Option (List Char))
    (h : descend pred fresh f cs = some y)
    (hf : ∀ n o, f n = some o → o.node.key = n.key ∧ o.node.param = n.param) :
    (∀ ch ∈ cs, ∃ ch' ∈ y.1, ch'.param = ch.param ∧ ch'.key = ch.key) ∧
      ∃ n ch', (pred n = true ∨ n = fresh) ∧ ch' ∈ y.1 ∧ ch'.param = n.param ∧
        ch'.key = n.key := by
  rcases descend_some pred fresh f cs y h with ⟨pre, ch, post, o, h1, _, h3, h4, h5⟩ |
    ⟨_, o, h2, h3⟩
  · subst h5
    subst h1
    obtain ⟨g1, g2⟩ := hf ch o h4
    refine ⟨fun c hc => ?_, ch, o.node, Or.inl h3, by simp, g2, g1⟩
    rcases List.mem_append.mp hc with hc | hc
    · exact ⟨c, by simp [hc], rfl, rfl⟩
    · rcases List.mem_cons.mp hc with rfl | hc
      · exact ⟨o.node, by simp, g2, g1⟩
      · exact ⟨c, by simp [hc], rfl, rfl⟩
  · subst h3
    obtain ⟨g1, g2⟩ := hf fresh o h2
    exact ⟨fun c hc => ⟨c, by simp [hc], rfl, rfl⟩, fresh, o.node, Or.inr rfl, by simp, g2, g1⟩

/-- What a run of the loop of `add` does to the node it starts at. -/
theorem add_loop_head (url : List Char) (ri : Nat) (fuel : Nat) :
    ∀ (rest : List Char) (node : Node) (o : AddOutcome),
      Trie.add_loop url ri fuel rest node = some o →
      (node.rule_index ≠ 0 → o.node.rule_index ≠ 0) ∧
      (∀ ch ∈ node.children, ∃ ch' ∈ o.node.children, ch'.param = ch.param ∧ ch'.key = ch.key) ∧
      (rest = [] → o.thrown = none → o.node.rule_index = ri) ∧
      (∀ c rest', rest = c :: rest' → c ≠ '<' → ∃ ch ∈ o.node.children, ch.key0 = c) ∧
      (∀ rest', rest = '<' :: rest' → ∃ ch ∈ o.node.children, ch.param ≠ ParamType.MAX) := by
  induction fuel with
  | zero => intro rest node o h; simp [Trie.add_loop] at h
  | succ fuel ih =>
    intro rest node o h
    obtain ⟨r, k, p, cs⟩ := node
    cases rest with
    | nil =>
      simp only [Trie.add_loop] at h
      split at h
      · rename_i hr
        simp only [Option.some.injEq] at h
        subst h
        refine ⟨fun _ => hr, fun ch hch => ⟨ch, hch, rfl, rfl⟩, fun _ ht => (by cases ht),
          fun c rest' hc => (by cases hc), fun rest' hc => (by cases hc)⟩
      · rename_i hr
        simp only [Option.some.injEq] at h
        subst h
        refine ⟨fun h0 => absurd h0 hr, fun ch hch => ⟨ch, hch, rfl, rfl⟩, fun _ _ => rfl,
          fun c rest' hc => (by cases hc), fun rest' hc => (by cases hc)⟩
    | cons c rest =>
      simp only [Trie.add_loop] at h
      split at h
      · rename_i hc
        split at h
        · rename_i x hx
          simp only [Option.map_eq_some'] at h
          obtain ⟨y, hy, hyo⟩ := h
          subst hyo
          obtain ⟨g1, n, ch', g2, g3, g4, _⟩ := descend_children _ _ _ cs y hy
            (fun n o ho => add_loop_shape url ri fuel _ n o ho)
          have hx1 := paramTraits_types x (List.mem_of_find?_eq_some hx)
          refine ⟨fun h0 => h0, g1, fun hr => (by cases hr), fun c' rest' hcr hne => ?_,
            fun rest' _ => ⟨ch', g3, ?_⟩⟩
          · simp only [List.cons.injEq] at hcr
            exact absurd (hcr.1 ▸ hc) hne
          · rw [g4]
            rcases g2 with g2 | g2
            · rw [of_decide_eq_true g2]
              exact hx1
            · rw [g2]
              exact hx1
        · exact ih _ _ _ h
      · rename_i hc
        simp only [Option.map_eq_some'] at h
        obtain ⟨y, hy, hyo⟩ := h
        subst hyo
        obtain ⟨g1, n, ch', g2, g3, _, g5⟩ := descend_children _ _ _ cs y hy
          (fun n o ho => add_loop_shape url ri fuel _ n o ho)
        refine ⟨fun h0 => h0, g1, fun hr => (by cases hr), fun c' rest' hcr _ => ⟨ch', g3, ?_⟩,
          fun rest' hcr => ?_⟩
        · simp only [List.cons.injEq] at hcr
          rw [Node.key0, g5, ← hcr.1]
          rcases g2 with g2 | g2
          · exact of_decide_eq_true g2
          · rw [g2]
            rfl
        · simp only [List.cons.injEq] at hcr
          exact absurd hcr.1 hc

theorem token_prefix_head (P : List Char)
    (h : ∃ x ∈ paramTraits, x.2.isPrefixOf P = true) : ∃ rest, P = '<' :: rest := by
  obtain ⟨x, hx, hp⟩ := h
  obtain ⟨h1, _, h3⟩ := paramTraits_names x hx
  obtain ⟨nm1, nm2⟩ := x
  cases nm2 with
  | nil => exact absurd rfl h3
  | cons a as =>
    simp only [List.head?_cons, Option.some.injEq] at h1
    subst h1
    cases P with
    | nil => simp [List.isPrefixOf] at hp
    | cons b bs =>
      simp only [List.isPrefixOf, Bool.and_eq_true, beq_iff_eq] at hp
      exact ⟨bs, by rw [← hp.1]⟩

/-- What the patterns added leave at the head of the trie. -/
theorem holds_head (t : Trie) (added : List (List Char × Nat)) (h : Trie.Holds t added) :
    t.head_.param = ParamType.MAX ∧
      (∀ r, ([], r) ∈ added → r ≠ 0 → t.head_.rule_index ≠ 0) ∧
      (∀ rest r, ('<' :: rest, r) ∈ added →
        ∃ ch ∈ t.head_.children, ch.param ≠ ParamType.MAX) ∧
      (∀ c rest r, (c :: rest, r) ∈ added → c ≠ '<' → ∃ ch ∈ t.head_.children, ch.key0 = c) := by
  induction h with
  | init =>
    exact ⟨rfl, fun r hr => (by cases hr), fun rest r hr => (by cases hr),
      fun c rest r hr => (by cases hr)⟩
  | add t t' P r added _ hadd ih =>
    simp only [Trie.add, Option.map_eq_some', Prod.mk.injEq] at hadd
    obtain ⟨o, ho, ho1, ho2⟩ := hadd
    subst ho1
    obtain ⟨g1, g2, g3, g4, g5⟩ := add_loop_head P r _ P t.head_ o ho
    obtain ⟨i1, i2, i3, i4⟩ := ih
    refine ⟨by rw [(add_loop_shape P r _ P t.head_ o ho).2]; exact i1, ?_, ?_, ?_⟩
    · intro r' hr' hne
      rcases List.mem_cons.mp hr' with heq | hr'
      · simp only [Prod.mk.injEq] at heq
        rw [g3 heq.1.symm ho2, ← heq.2]
        exact hne
      · exact g1 (i2 r' hr' hne)
    · intro rest r' hr'
      rcases List.mem_cons.mp hr' with heq | hr'
      · simp only [Prod.mk.injEq] at heq
        exact g5 rest heq.1.symm
      · obtain ⟨ch, hch, hp⟩ := i3 rest r' hr'
        obtain ⟨ch', hch', hp', _⟩ := g2 ch hch
        exact ⟨ch', hch', by rw [hp']; exact hp⟩
    · intro c rest r' hr' hne
      rcases List.mem_cons.mp hr' with heq | hr'
      · simp only [Prod.mk.injEq] at heq
        exact g4 c rest heq.1.symm hne
      · obtain ⟨ch, hch, hk⟩ := i4 c rest r' hr' hne
        obtain ⟨ch', hch', _, hk'⟩ := g2 ch hch
        exact ⟨ch', hch', by rw [Node.key0, hk']; exact hk⟩

theorem two_members {α : Type} (l : List α) (a b : α) (ha : a ∈ l) (hb : b ∈ l) (hab : a ≠ b) :
    2 ≤ l.length := by
  cases l with
  | nil => cases ha
  | cons x l =>
    cases l with
    | nil =>
      simp only [List.mem_singleton] at ha hb
      exact absurd (ha.trans hb.symm) hab
    | cons y l => simp

/-- A trie that holds the empty pattern under an id other than 0, a pattern that begins
with a token, or two patterns with different first characters has a head that is not
simple. -/
theorem holds_not_simple (t : Trie) (added : List (List Char × Nat)) (h : Trie.Holds t added)
    (hbad : (∃ r, r ≠ 0 ∧ ([], r) ∈ added) ∨
      (∃ P r, (P, r) ∈ added ∧ ∃ x ∈ paramTraits, x.2.isPrefixOf P = true) ∨
      (∃ c1 P1 r1 c2 P2 r2, (c1 :: P1, r1) ∈ added ∧ (c2 :: P2, r2) ∈ added ∧ c1 ≠ c2)) :
    t.head_.IsSimpleNode = false := by
  obtain ⟨_, i2, i3, i4⟩ := holds_head t added h
  obtain ⟨⟨r, k, p, cs⟩⟩ := t
  cases hs : (Node.mk r k p cs).IsSimpleNode with
  | false => rfl
  | true =>
    exfalso
    obtain ⟨s1, s2, _, s4⟩ := (isSimple_iff r k p cs).mp hs
    have hparam : ∀ rest r', ('<' :: rest, r') ∈ added → False := by
      intro rest r' hm
      obtain ⟨ch, hch, hp⟩ := i3 rest r' hm
      exact hp (s4 ch hch)
    rcases hbad with ⟨r', hr', hm⟩ | ⟨P, r', hm, hx⟩ | ⟨c1, P1, r1, c2, P2, r2, hm1, hm2, hne⟩
    · exact i2 r' hm hr' s1
    · obtain ⟨rest, hP⟩ := token_prefix_head P hx
      subst hP
      exact hparam rest r' hm
    · by_cases h1 : c1 = '<'
      · subst h1
        exact hparam P1 r1 hm1
      · by_cases h2 : c2 = '<'
        · subst h2
          exact hparam P2 r2 hm2
        · obtain ⟨a, ha, hka⟩ := i4 c1 P1 r1 hm1 h1
          obtain ⟨b, hb, hkb⟩ := i4 c2 P2 r2 hm2 h2
          have hab : a ≠ b := by
            intro heq
            rw [heq, hkb] at hka
            exact hne hka.symm
          have := two_members cs a b ha hb hab
          simp only [Node.children] at this
          omega

/-- Registering rules adds their patterns to the trie under ids that are not 0. -/
theorem register_holds (regs : List BaseRule) :
    ∀ (pm pm' : PerMethod) (added : List (List Char × Nat)), Trie.Holds pm.trie added →
      pm.rules ≠ [] → forEach PerMethod.register regs pm = some (pm', none) →
      ∃ added', Trie.Holds pm'.trie added' ∧ (∀ x ∈ added, x ∈ added') ∧
        ∀ ro ∈ regs, ∃ r, r ≠ 0 ∧ (ro.rule_, r) ∈ added' := by
  induction regs with
  | nil =>
    intro pm pm' added hh _ h
    simp only [forEach, Option.some.injEq, Prod.mk.injEq, and_true] at h
    subst h
    exact ⟨added, hh, fun x hx => hx, fun ro hro => (by cases hro)⟩
  | cons ro regs ih =>
    intro pm pm' added hh hne h
    obtain ⟨pm1, h1, h2⟩ := (forEach_cons_ok _ ro regs pm pm').mp h
    obtain ⟨hrules, t1, hadd, hts, hnts⟩ := register_ok ro pm pm1 h1
    have hlen : pm.rules.length ≠ 0 := by
      cases hpm : pm.rules with
      | nil => exact absurd hpm hne
      | cons a as => simp
    have hne1 : pm1.rules ≠ [] := by
      rw [hrules]
      simp
    have hh2 := Trie.Holds.add _ _ _ _ _ hh hadd
    by_cases hslash : has_trailing_slash ro.rule_ = true
    · obtain ⟨added', g1, g2, g3⟩ := ih pm1 pm' _ (Trie.Holds.add _ _ _ _ _ hh2 (hts hslash))
        hne1 h2
      refine ⟨added', g1, fun x hx => g2 x (List.mem_cons_of_mem _ (List.mem_cons_of_mem _ hx)),
        fun ro' hro' => ?_⟩
      rcases List.mem_cons.mp hro' with rfl | hro'
      · exact ⟨_, hlen, g2 _ (List.mem_cons_of_mem _ (List.mem_cons_self _ _))⟩
      · exact g3 ro' hro'
    · simp only [Bool.not_eq_true] at hslash
      rw [← hnts hslash] at hh2
      obtain ⟨added', g1, g2, g3⟩ := ih pm1 pm' _ hh2 hne1 h2
      refine ⟨added', g1, fun x hx => g2 x (List.mem_cons_of_mem _ hx), fun ro' hro' => ?_⟩
      rcases List.mem_cons.mp hro' with rfl | hro'
      · exact ⟨_, hlen, g2 _ (List.mem_cons_self _ _)⟩
      · exact g3 ro' hro'

theorem idsIn_children {S : Nat → Prop} {r : Nat} {k : List Char} {p : ParamType}
    {cs : List Node} (h : Node.IdsIn S (Node.mk r k p cs)) :
    (r ≠ 0 → S r) ∧ ∀ c ∈ cs, Node.IdsIn S c := by
  refine ⟨fun hr => h [] r ((mem_entries _ _ _ _ _ _).mpr (Or.inl ⟨rfl, rfl⟩)) hr, ?_⟩
  intro c hc path r' hm hr'
  exact h _ r' ((mem_entries _ _ _ _ _ _).mpr (Or.inr ⟨c, hc, path, rfl, hm⟩)) hr'

theorem idsIn_mk {S : Nat → Prop} (r : Nat) (k : List Char) (p : ParamType)
    (cs : List Node) (hr : r ≠ 0 → S r) (hcs : ∀ c ∈ cs, Node.IdsIn S c) :
    Node.IdsIn S (Node.mk r k p cs) := by
  intro path r' hm hr'
  rcases (mem_entries _ _ _ _ _ _).mp hm with ⟨_, h⟩ | ⟨c, hc, tail, _, h2⟩
  · rw [h]
    rw [h] at hr'
    exact hr hr'
  · exact hcs c hc tail r' h2 hr'

/-- A run of the loop of `add` stores no rule index but the one it is given. -/
theorem add_loop_ids (S : Nat → Prop) (url : List Char) (ri : Nat) (hri : S ri) (fuel : Nat) :
    ∀ (rest : List Char) (node : Node) (o : AddOutcome), Node.IdsIn S node →
      Trie.add_loop url ri fuel rest node = some o → Node.IdsIn S o.node := by
  induction fuel with
  | zero => intro rest node o _ h; simp [Trie.add_loop] at h
  | succ fuel ih =>
    intro rest node o hin h
    obtain ⟨r, k, p, cs⟩ := node
    obtain ⟨h1, h2⟩ := idsIn_children hin
    have hfresh : ∀ (k' : List Char) (p' : ParamType), Node.IdsIn S (Node.mk 0 k' p' []) :=
      fun k' p' => idsIn_mk 0 k' p' [] (fun h0 => absurd rfl h0) (fun c hc => (by cases hc))
    cases rest with
    | nil =>
      simp only [Trie.add_loop] at h
      split at h
      · simp only [Option.some.injEq] at h
        subst h
        exact hin
      · simp only [Option.some.injEq] at h
        subst h
        exact idsIn_mk _ _ _ _ (fun _ => hri) h2
    | cons c rest =>
      simp only [Trie.add_loop] at h
      split at h
      · split at h
        · simp only [Option.map_eq_some'] at h
          obtain ⟨y, hy, hyo⟩ := h
          subst hyo
          refine idsIn_mk _ _ _ _ h1 (descend_forall (Node.IdsIn S) _ _ _ cs y hy h2 ?_)
          intro n o hn ho
          rcases hn with hn | hn
          · exact ih _ n o (h2 n hn) ho
          · exact ih _ n o (hn ▸ hfresh _ _) ho
        · exact ih _ _ _ hin h
      · simp only [Option.map_eq_some'] at h
        obtain ⟨y, hy, hyo⟩ := h
        subst hyo
        refine idsIn_mk _ _ _ _ h1 (descend_forall (Node.IdsIn S) _ _ _ cs y hy h2 ?_)
        intro n o hn ho
        rcases hn with hn | hn
        · exact ih _ n o (h2 n hn) ho
        · exact ih _ n o (hn ▸ hfresh _ _) ho

theorem trie_add_ids (S : Nat → Prop) (t t' : Trie) (P : List Char) (ri : Nat)
    (e : Option (List Char)) (hri : S ri) (hin : Node.IdsIn S t.head_)
    (h : Trie.add t P ri = some (t', e)) : Node.IdsIn S t'.head_ := by
  simp only [Trie.add, Option.map_eq_some', Prod.mk.injEq] at h
  obtain ⟨o, ho, ho1, _⟩ := h
  subst ho1
  exact add_loop_ids S P ri hri _ P t.head_ o hin ho

theorem idsIn_mono {S S' : Nat → Prop} (node : Node) (h : ∀ r, S r → S' r)
    (hin : Node.IdsIn S node) : Node.IdsIn S' node :=
  fun path r hm hr => h r (hin path r hm hr)

/-- Registering rules in a table stores only their ids in the trie. -/
theorem register_stored (pats : List BaseRule) :
    ∀ (regs : List BaseRule) (pm pm' : PerMethod), pm.rules.length = 2 + regs.length →
      Node.IdsIn (StoredId regs) pm.trie.head_ →
      forEach PerMethod.register pats pm = some (pm', none) →
      pm'.rules.length = 2 + (regs ++ pats).length ∧
        Node.IdsIn (StoredId (regs ++ pats)) pm'.trie.head_ := by
  induction pats with
  | nil =>
    intro regs pm pm' hlen hin h
    simp only [forEach, Option.some.injEq, Prod.mk.injEq, and_true] at h
    subst h
    simpa using ⟨hlen, hin⟩
  | cons ro pats ih =>
    intro regs pm pm' hlen hin h
    obtain ⟨pm1, h1, h2⟩ := (forEach_cons_ok _ ro pats pm pm').mp h
    obtain ⟨hrules, t1, hadd, hts, hnts⟩ := register_ok ro pm pm1 h1
    have hlen1 : pm1.rules.length = 2 + (regs ++ [ro]).length := by
      rw [hrules]
      simp only [List.length_append, List.length_singleton, hlen]
      omega
    have hmono : ∀ r, StoredId regs r → StoredId (regs ++ [ro]) r := by
      rintro r (⟨g1, x, hx, g2⟩ | ⟨g1, g2⟩)
      · exact Or.inl ⟨g1, x, List.mem_append_left _ hx, g2⟩
      · refine Or.inr ⟨g1, ?_⟩
        simp only [List.length_append, List.length_singleton]
        omega
    have hin1 : Node.IdsIn (StoredId (regs ++ [ro])) t1.head_ := by
      refine trie_add_ids _ pm.trie t1 ro.rule_ _ none ?_ (idsIn_mono _ hmono hin) hadd
      refine Or.inr ⟨by omega, ?_⟩
      simp only [List.length_append, List.length_singleton]
      omega
    have hin2 : Node.IdsIn (StoredId (regs ++ [ro])) pm1.trie.head_ := by
      by_cases hslash : has_trailing_slash ro.rule_ = true
      · refine trie_add_ids _ t1 pm1.trie _ _ none ?_ hin1 (hts hslash)
        exact Or.inl ⟨rfl, ro, by simp, hslash⟩
      · simp only [Bool.not_eq_true] at hslash
        rw [hnts hslash]
        exact hin1
    have := ih (regs ++ [ro]) pm1 pm' hlen1 hin2 h2
    simpa using this

theorem holds_built (t : Trie) (added : List (List Char × Nat)) (h : Trie.Holds t added) :
    Trie.Built t := by
  induction h with
  | init => exact Trie.Built.init
  | add t t' P r added _ hadd ih => exact Trie.Built.add t t' P r none ih hadd

/-- After a `validate` without an error, what `find` returns in the table of a method is 0
or an id that registering the rules of the method has stored, and the list of rule
pointers holds the rule with id `n + 2` at position `n + 2`. -/
theorem validate_stored (strtod : StrtodFn) (check : BaseRule → BaseRule × Option (List Char))
    (rules : List BaseRule) (router' : Router) (m : Nat)
    (hv : Router.validate check (Router.init rules) = some (router', none))
    (hm : m < InternalMethodCount) :
    (router'.per_methods_ m).rules =
        none :: none :: ((checkedRules check rules).filter (fun ro => ro.allows m)).map some ∧
      ∀ url, (Trie.find strtod (router'.per_methods_ m).trie url).1 = 0 ∨
        StoredId ((checkedRules check rules).filter (fun ro => ro.allows m))
          (Trie.find strtod (router'.per_methods_ m).trie url).1 := by
  obtain ⟨pm1, hreg, hrules, hval⟩ := validate_rules check rules router' m hv hm
  obtain ⟨added', hh, _, _⟩ := register_holds _ PerMethod.init pm1 [] Trie.Holds.init
    (by simp [PerMethod.init]) hreg
  have hk := raw_keysOk _ (built_raw _ (holds_built _ _ hh))
  have hfind := validate_find strtod pm1.trie _ hk hval
  obtain ⟨_, hin⟩ := register_stored _ [] PerMethod.init pm1 rfl
    (fun path r hp hr => absurd (init_entries path r hp) hr) hreg
  rw [List.nil_append] at hin
  refine ⟨?_, fun url => ?_⟩
  · rw [hrules, (register_ids _ PerMethod.init pm1 hreg).1]
    rfl
  · rw [hfind url]
    by_cases h0 : (Trie.find strtod pm1.trie url).1 = 0
    · exact Or.inl h0
    · obtain ⟨path, hp, _⟩ := find_entry strtod pm1.trie.head_ url routing_params.empty h0
      exact Or.inr (hin path _ hp h0)

/-- With an id that is 0 or below the number of rule pointers, and a rule at every such id
other than 0 and 1, `dispatch` returns, and it throws only what a handler throws. -/
theorem dispatch_not_corrupted (strtod : StrtodFn) (H : Handlers) (router : Router) (m : Nat)
    (req : request) (res : response)
    (hok : (Trie.find strtod (router.per_methods_ m).trie req.url).1 = 0 ∨
      ((Trie.find strtod (router.per_methods_ m).trie req.url).1 <
          (router.per_methods_ m).rules.length ∧
        ((Trie.find strtod (router.per_methods_ m).trie req.url).1 ≠
            RULE_SPECIAL_REDIRECT_SLASH →
          ∃ ro, (router.per_methods_ m).rules.get?
            (Trie.find strtod (router.per_methods_ m).trie req.url).1 = some (some ro)))) :
    ∃ r, Router.dispatch strtod H router m req res = some r ∧ (r.calls = [] → r.thrown = none) := by
  unfold Router.dispatch
  simp only
  split
  · split
    · exact ⟨_, rfl, fun _ => rfl⟩
    · split
      · split
        · exact ⟨_, rfl, fun hc => (by cases hc)⟩
        · exact ⟨_, rfl, fun _ => rfl⟩
      · exact ⟨_, rfl, fun _ => rfl⟩
  · rename_i h0
    rcases hok with hok | ⟨hlt, hrule⟩
    · exact absurd hok h0
    · rw [if_neg (by omega)]
      split
      · split
        · exact ⟨_, rfl, fun _ => rfl⟩
        · exact ⟨_, rfl, fun _ => rfl⟩
      · rename_i h1
        obtain ⟨ro, hro⟩ := hrule h1
        rw [hro]
        simp only
        split
        · exact ⟨_, rfl, fun _ => rfl⟩
        · exact ⟨_, rfl, fun _ => rfl⟩

/-- In a table that holds the two reserved positions and then the rules `regs`, an id
that registration has stored is a position of the table, and a rule stands at every such
position from 2 on. -/
theorem stored_in_table (regs : List BaseRule) (table : List (Option BaseRule)) (id : Nat)
    (ht : table = none :: none :: regs.map some) (hs : StoredId regs id) :
    id ≠ 0 ∧ id < table.length ∧
      (id ≠ RULE_SPECIAL_REDIRECT_SLASH →
        2 ≤ id ∧ ∃ ro, regs[id - 2]? = some ro ∧ table.get? id = some (some ro)) := by
  subst ht
  rcases hs with ⟨h1, _⟩ | ⟨h1, h2⟩
  · refine ⟨by rw [h1]; decide, by rw [h1]; simp [RULE_SPECIAL_REDIRECT_SLASH], fun hne => ?_⟩
    exact absurd h1 hne
  · refine ⟨by omega, by simp only [List.length_cons, List.length_map]; omega, fun _ => ?_⟩
    obtain ⟨n, rfl⟩ : ∃ n, id = n + 2 := ⟨id - 2, by omega⟩
    have hn : n < regs.length := by omega
    refine ⟨h1, regs[n], ?_, ?_⟩
    · simp only [Nat.add_sub_cancel]
      exact List.getElem?_eq_getElem hn
    · simp only [List.get?_eq_getElem?, List.getElem?_cons_succ, List.getElem?_map,
        List.getElem?_eq_getElem hn, Option.map_some']

/-- With an id that is 0 or below the number of rule pointers, and a rule at every such id
other than 0 and 1, `handle_upgrade` returns without an exception. -/
theorem upgrade_not_corrupted (strtod : StrtodFn)
    (upgrade : BaseRule → request → response → HandlerOutcome) (router : Router)
    (req : request) (res : response)
    (hok : req.method < InternalMethodCount →
      (Trie.find strtod (router.per_methods_ req.method).trie req.url).1 = 0 ∨
      ((Trie.find strtod (router.per_methods_ req.method).trie req.url).1 <
          (router.per_methods_ req.method).rules.length ∧
        ((Trie.find strtod (router.per_methods_ req.method).trie req.url).1 ≠
            RULE_SPECIAL_REDIRECT_SLASH →
          ∃ ro, (router.per_methods_ req.method).rules.get?
            (Trie.find strtod (router.per_methods_ req.method).trie req.url).1 =
              some (some ro)))) :
    ∃ r, Router.handle_upgrade strtod upgrade router req res = some r ∧ r.thrown = none := by
  unfold Router.handle_upgrade
  simp only
  split
  · exact ⟨_, rfl, rfl⟩
  · rename_i hm
    split
    · split
      · exact ⟨_, rfl, rfl⟩
      · exact ⟨_, rfl, rfl⟩
    · rename_i h0
      rcases hok (by omega) with hok | ⟨hlt, hrule⟩
      · exact absurd hok h0
      · rw [if_neg (by omega)]
        split
        · split
          · exact ⟨_, rfl, rfl⟩
          · exact ⟨_, rfl, rfl⟩
        · rename_i h1
          obtain ⟨ro, hro⟩ := hrule h1
          rw [hro]
          simp only
          split
          · exact ⟨_, rfl, rfl⟩
          · exact ⟨_, rfl, rfl⟩

/-- With tables as `dispatch_not_corrupted` asks for every method, `handle` returns, and
it throws only what a handler throws. -/
theorem handle_not_corrupted (M : HTTPMethod) (strtod : StrtodFn) (H : Handlers)
    (router : Router) (req : request) (res : response) (hM : M.Valid)
    (hok : ∀ m, m < InternalMethodCount →
      (Trie.find strtod (router.per_methods_ m).trie req.url).1 = 0 ∨
      ((Trie.find strtod (router.per_methods_ m).trie req.url).1 <
          (router.per_methods_ m).rules.length ∧
        ((Trie.find strtod (router.per_methods_ m).trie req.url).1 ≠
            RULE_SPECIAL_REDIRECT_SLASH →
          ∃ ro, (router.per_methods_ m).rules.get?
            (Trie.find strtod (router.per_methods_ m).trie req.url).1 = some (some ro)))) :
    ∃ r, Router.handle M strtod H router req res = some r ∧
      (r.calls = [] → r.thrown = none) := by
  unfold Router.handle
  split
  · exact ⟨_, rfl, fun _ => rfl⟩
  · rename_i hm
    split
    · exact dispatch_not_corrupted strtod H router M.Get req _ (hok M.Get hM.1)
    · split
      · split
        · exact ⟨_, rfl, fun _ => rfl⟩
        · split
          · exact ⟨_, rfl, fun _ => rfl⟩
          · exact ⟨_, rfl, fun _ => rfl⟩
      · exact dispatch_not_corrupted strtod H router req.method req res
          (hok req.method (by omega))

/-- The loops of the `OPTIONS` branch give the same value in two routers whose tables pass
the test alike. -/
theorem allow_loop_congr (M : HTTPMethod) (router router' : Router) (test : PerMethod → Bool)
    (allow : List Char)
    (h : ∀ i, test (router'.per_methods_ i) = test (router.per_methods_ i)) :
    Router.allow_loop M router' test allow = Router.allow_loop M router test allow := by
  rw [allow_loop_eq, allow_loop_eq]
  have : (fun i => test (router'.per_methods_ i)) = (fun i => test (router.per_methods_ i)) :=
    funext h
  rw [this]

/-- On an OPTIONS request `handle` returns without a call of a handler, with 204 or 404. -/
theorem handle_options (M : HTTPMethod) (strtod : StrtodFn) (H : Handlers)
    (router : Router) (req : request) (res : response) (hM : M.Valid)
    (hmeth : req.method = M.Options) :
    ∃ r, Router.handle M strtod H router req res = some r ∧ r.calls = [] ∧ r.thrown = none ∧
      (r.res.code = 204 ∨ r.res.code = 404) := by
  by_cases hurl : req.url = "/*".toList
  · rw [handle_options_star M strtod H router req res hM hmeth hurl]
    exact ⟨_, rfl, rfl, rfl, Or.inl rfl⟩
  · rw [handle_options_url M strtod H router req res hM hmeth hurl]
    split
    · exact ⟨_, rfl, rfl, rfl, Or.inl rfl⟩
    · exact ⟨_, rfl, rfl, rfl, Or.inr rfl⟩

/-- On an OPTIONS request the outcome of `handle` is the same for all handlers and for all
routers with the same tries. -/
theorem handle_options_tries (M : HTTPMethod) (strtod : StrtodFn) (H H' : Handlers)
    (router router' : Router) (req : request) (res : response) (hM : M.Valid)
    (hmeth : req.method = M.Options)
    (ht : ∀ i, (router'.per_methods_ i).trie = (router.per_methods_ i).trie) :
    Router.handle M strtod H' router' req res = Router.handle M strtod H router req res := by
  have hlt : ¬ req.method ≥ InternalMethodCount := by
    rw [hmeth]
    exact Nat.not_le.mpr hM.2.2.1
  have hhead : req.method ≠ M.Head := by
    rw [hmeth]
    exact fun h => hM.2.2.2.2.2 h.symm
  unfold Router.handle
  rw [if_neg hlt, if_neg hhead, if_pos hmeth, if_neg hlt, if_neg hhead, if_pos hmeth]
  rw [allow_loop_congr M router router' (fun per_method => !per_method.trie.is_empty) _
      (fun i => by simp only [ht i]),
    allow_loop_congr M router router'
      (fun per_method => (Trie.find strtod per_method.trie req.url).1 != 0) _
      (fun i => by simp only [ht i])]

/-- The rule that `dispatch` calls stands in the table of the method. -/
theorem dispatch_calls (strtod : StrtodFn) (H : Handlers) (router : Router) (m : Nat)
    (req : request) (res : response) (r : Handled)
    (h : Router.dispatch strtod H router m req res = some r) :
    ∀ rule req' res' params, Call.rule rule req' res' params ∈ r.calls →
      some rule ∈ (router.per_methods_ m).rules := by
  intro rule req' res' params hc
  unfold Router.dispatch at h
  simp only at h
  split at h
  · split at h
    · simp only [Option.some.injEq] at h
      subst h
      cases hc
    · split at h
      · split at h
        · simp only [Option.some.injEq] at h
          subst h
          simp at hc
        · simp only [Option.some.injEq] at h
          subst h
          simp at hc
      · simp only [Option.some.injEq] at h
        subst h
        cases hc
  · split at h
    · simp only [Option.some.injEq] at h
      subst h
      cases hc
    · split at h
      · split at h
        · simp only [Option.some.injEq] at h
          subst h
          cases hc
        · simp only [Option.some.injEq] at h
          subst h
          cases hc
      · split at h
        · rename_i rule0 hrule
          have hmem : some rule0 ∈ (router.per_methods_ m).rules := by
            exact List.get?_mem hrule
          split at h
          · simp only [Option.some.injEq] at h
            subst h
            simp only [List.mem_singleton, Call.rule.injEq] at hc
            rw [hc.1]
            exact hmem
          · simp only [Option.some.injEq] at h
            subst h
            simp only [List.mem_singleton, Call.rule.injEq] at hc
            rw [hc.1]
            exact hmem
        · cases h

/-- A rule that `handle` calls stands in the table of a method other than `Options`. -/
theorem handle_calls (M : HTTPMethod) (strtod : StrtodFn) (H : Handlers) (router : Router)
    (req : request) (res : response) (r : Handled) (hM : M.Valid)
    (h : Router.handle M strtod H router req res = some r) :
    ∀ rule req' res' params, Call.rule rule req' res' params ∈ r.calls →
      ∃ m, m < InternalMethodCount ∧ m ≠ M.Options ∧
        some rule ∈ (router.per_methods_ m).rules := by
  intro rule req' res' params hc
  cases hm : effective_method M req with
  | some m =>
    rw [handle_dispatch M strtod H router req res m hm] at h
    refine ⟨m, effective_method_lt M hM req m hm, ?_,
      dispatch_calls strtod H router m req _ r h rule req' res' params hc⟩
    unfold effective_method at hm
    split at hm
    · cases hm
    · split at hm
      · simp only [Option.some.injEq] at hm
        rw [← hm]
        exact hM.2.2.2.2.1
      · split at hm
        · cases hm
        · rename_i ho
          simp only [Option.some.injEq] at hm
          rw [← hm]
          exact ho
  | none =>
    exfalso
    unfold effective_method at hm
    unfold Router.handle at h
    split at hm
    · rename_i hge
      rw [if_pos hge] at h
      simp only [Option.some.injEq] at h
      subst h
      cases hc
    · rename_i hge
      split at hm
      · cases hm
      · rename_i hh
        split at hm
        · rename_i ho
          obtain ⟨r0, hr0, hcalls, _⟩ := handle_options M strtod H router req res hM ho
          unfold Router.handle at hr0
          rw [h] at hr0
          simp only [Option.some.injEq] at hr0
          subst hr0
          rw [hcalls] at hc
          cases hc
        · cases hm

/-- A run of the loop of `add` that starts at a node made by `new_node` does not throw. -/
theorem add_loop_fresh (url : List Char) (ri : Nat) (fuel : Nat) (rest : List Char)
    (k : List Char) (p : ParamType) (o : AddOutcome)
    (h : Trie.add_loop url ri fuel rest (Node.mk 0 k p []) = some o) : o.thrown = none := by
  refine add_loop_no_throw url ri fuel rest _ o ?_ h
  intro path r hm
  rcases (mem_entries _ _ _ _ _ _).mp hm with ⟨_, hr⟩ | ⟨c, hc, _⟩
  · exact hr
  · cases hc

/-- A run of the loop of `add` that throws leaves the node as it was. -/
theorem add_loop_atomic (url : List Char) (ri : Nat) (fuel : Nat) :
    ∀ (rest : List Char) (node : Node) (o : AddOutcome),
      Trie.add_loop url ri fuel rest node = some o → o.thrown ≠ none → o.node = node := by
  induction fuel with
  | zero => intro rest node o h; simp [Trie.add_loop] at h
  | succ fuel ih =>
    intro rest node o h ht
    obtain ⟨r, k, p, cs⟩ := node
    have hdesc : ∀ (pred : Node → Bool) (k' : List Char) (p' : ParamType) (rest' : List Char)
        (y : List Node × Option (List Char)),
        descend pred (Node.mk 0 k' p' []) (Trie.add_loop url ri fuel rest') cs = some y →
        y.2 ≠ none → y.1 = cs := by
      intro pred k' p' rest' y hy hy2
      rcases descend_some _ _ _ cs y hy with ⟨pre, ch, post, o', h1, _, _, h4, h5⟩ |
        ⟨_, o', h2, h3⟩
      · subst h5
        rw [h1, ih _ ch o' h4 hy2]
      · subst h3
        exact absurd (add_loop_fresh url ri fuel rest' k' p' o' h2) hy2
    cases rest with
    | nil =>
      simp only [Trie.add_loop] at h
      split at h
      · simp only [Option.some.injEq] at h
        subst h
        rfl
      · simp only [Option.some.injEq] at h
        subst h
        exact absurd rfl ht
    | cons c rest =>
      simp only [Trie.add_loop] at h
      split at h
      · split at h
        · simp only [Option.map_eq_some'] at h
          obtain ⟨y, hy, hyo⟩ := h
          subst hyo
          rw [hdesc _ _ _ _ y hy ht]
        · exact ih _ _ _ h ht
      · simp only [Option.map_eq_some'] at h
        obtain ⟨y, hy, hyo⟩ := h
        subst hyo
        rw [hdesc _ _ _ _ y hy ht]

/-- A call of `add` that throws leaves the trie as it was. -/
theorem trie_add_atomic (t t' : Trie) (P : List Char) (r : Nat) (msg : List Char)
    (h : Trie.add t P r = some (t', some msg)) : t' = t := by
  simp only [Trie.add, Option.map_eq_some', Prod.mk.injEq] at h
  obtain ⟨o, ho, ho1, ho2⟩ := h
  subst ho1
  have := add_loop_atomic P r _ P t.head_ o ho (by rw [ho2]; exact fun hn => by cases hn)
  rw [this]

theorem pruneList_eq_map (cs : List Node) : Node.pruneList cs = cs.map Node.prune := by
  induction cs with
  | nil => rfl
  | cons c cs ih => rw [Node.pruneList, ih, List.map_cons]

/-- A visit of a `PATH` child returns the rule index of the child itself, with the rest of
the URL as the value, and nothing when the URL is at its end. -/
theorem visit_path (strtod : StrtodFn) (r : Nat) (k : List Char) (cs : List Node)
    (rest : List Char) (params : routing_params) :
    Trie.visit strtod (Node.mk r k ParamType.PATH cs) rest params =
      if rest = [] then (0, routing_params.empty)
      else (r, { params with string_params := params.string_params ++ [rest] }) := by
  unfold Trie.visit
  simp only [Node.param, Node.key, enter]
  cases rest with
  | nil => simp
  | cons a rest => simp [find_node_eq]

theorem visit_prune (strtod : StrtodFn) :
    ∀ (c : Node) (rest : List Char) (params : routing_params),
      Trie.visit strtod c.prune rest params = Trie.visit strtod c rest params := by
  intro c
  induction c using Node.induct with
  | h r k p cs ih =>
    intro rest params
    rw [Node.prune]
    by_cases hp : p = ParamType.PATH
    · subst hp
      rw [if_pos rfl, visit_path, visit_path]
    · rw [if_neg hp, pruneList_eq_map]
      refine visit_congr_children strtod r k p cs (cs.map Node.prune) rest params ?_
      clear hp
      induction cs with
      | nil => exact List.Forall₂.nil
      | cons a cs ihcs =>
        exact List.Forall₂.cons
          (fun rest params => Or.inl (ih a (List.mem_cons_self _ _) rest params))
          (ihcs (fun c hc => ih c (List.mem_cons_of_mem _ hc)))

/-- What lies below a `PATH` node has no part in the result of `find`. -/
theorem find_prune (strtod : StrtodFn) (t : Trie) (url : List Char) :
    Trie.find strtod (Trie.prune t) url = Trie.find strtod t url := by
  obtain ⟨⟨r, k, p, cs⟩⟩ := t
  simp only [Trie.find, Trie.prune, Node.rule_index, Node.key, Node.param, Node.children]
  rw [find_node_eq, find_node_eq, pruneList_eq_map, List.map_map]
  have : (fun ch => Trie.visit strtod ch url routing_params.empty) ∘ Node.prune =
      fun ch => Trie.visit strtod ch url routing_params.empty :=
    funext (fun ch => visit_prune strtod ch url routing_params.empty)
  rw [this]

theorem prune_subnodes : ∀ (c x : Node), x ∈ c.prune.subnodes → x.param = ParamType.PATH →
    x.children = [] := by
  intro c
  induction c using Node.induct with
  | h r k p cs ih =>
    intro x hx hxp
    rw [Node.prune] at hx
    rcases (mem_subnodes _ _ _ _ x).mp hx with rfl | ⟨c', hc', hxc⟩
    · simp only [Node.param] at hxp
      simp only [Node.children, hxp, if_true]
    · by_cases hp : p = ParamType.PATH
      · rw [if_pos hp] at hc'
        cases hc'
      · rw [if_neg hp, pruneList_eq_map] at hc'
        obtain ⟨c0, hc0, rfl⟩ := List.mem_map.mp hc'
        exact ih c0 hc0 x hxc hxp

/-- The segments of a pattern in which a token stands: those of the part before it, the
token, and those of the part after it. -/
theorem tokens_split (p : Piece) (hp : ∀ c, p ≠ Piece.lit c) (B : List Char) :
    ∀ (n : Nat) (A : List Char) (ls : List Label), A.length ≤ n →
      Tokens (A ++ p.pattern ++ B) ls →
      ∃ lsA lsB, ls = lsA ++ p.label :: lsB ∧ Tokens B lsB := by
  obtain ⟨tl, hpat, hlab⟩ := token_pattern p hp
  have hfind := find_token p hp B
  rw [hpat] at hfind
  have hnil : ∀ ls, Tokens (p.pattern ++ B) ls →
      ∃ lsA lsB, ls = lsA ++ p.label :: lsB ∧ Tokens B lsB := by
    intro ls h
    rw [hpat] at h
    simp only [List.cons_append] at h hfind
    cases h with
    | lit c rest ls' hne _ => exact absurd rfl hne
    | tok rest x ls' hx hrest =>
      rw [hfind] at hx
      simp only [Option.some.injEq] at hx
      subst hx
      simp only [List.length_cons, List.drop_succ_cons, List.drop_left] at hrest
      exact ⟨[], ls', by rw [List.nil_append]; exact congrArg (· :: ls') (Prod.ext rfl hlab.symm),
        hrest⟩
  intro n
  induction n with
  | zero =>
    intro A ls hlen h
    cases A with
    | nil => exact hnil ls h
    | cons a A' => simp at hlen
  | succ n ih =>
    intro A ls hlen h
    cases A with
    | nil => exact hnil ls h
    | cons a A' =>
      simp only [List.length_cons, Nat.add_le_add_iff_right] at hlen
      simp only [List.cons_append, List.append_assoc] at h
      cases h with
      | lit _ _ ls' hne hrest =>
        rw [← List.append_assoc] at hrest
        obtain ⟨lsA, lsB, h1, h2⟩ := ih A' ls' hlen hrest
        exact ⟨(ParamType.MAX, [a]) :: lsA, lsB, by rw [h1]; rfl, h2⟩
      | tok _ x ls' hx hrest =>
        have hmem := List.mem_of_find?_eq_some hx
        have hpre := List.find?_some hx
        obtain ⟨h1, h2, h3⟩ := paramTraits_names x hmem
        obtain ⟨ty, nm⟩ := x
        cases nm with
        | nil => exact absurd rfl h3
        | cons b tail =>
          simp only [List.tail_cons] at h2
          simp only [List.isPrefixOf, Bool.and_eq_true] at hpre
          rw [hpat] at hpre
          simp only [List.cons_append] at hpre
          have hle := prefix_length_le tail A' (tl ++ B) '<' hpre.2 h2
          simp only [List.length_cons, List.drop_succ_cons] at hrest
          rw [List.drop_append_of_le_length hle, ← List.append_assoc] at hrest
          obtain ⟨lsA, lsB, g1, g2⟩ := ih (A'.drop tail.length) ls'
            (by rw [List.length_drop]; omega) hrest
          exact ⟨(ty, []) :: lsA, lsB, by rw [g1]; rfl, g2⟩

theorem tokens_labels (P : List Char) (ls : List Label) (h : Tokens P ls) :
    ∀ l ∈ ls, (l.1 = ParamType.MAX ∧ ∃ c, c ≠ '<' ∧ l.2 = [c]) ∨
      (l.1 ≠ ParamType.MAX ∧ l.2 = []) := by
  induction h with
  | nil => intro l hl; cases hl
  | lit c rest ls hne _ ih =>
    intro l hl
    rcases List.mem_cons.mp hl with rfl | hl
    · exact Or.inl ⟨rfl, c, hne, rfl⟩
    · exact ih l hl
  | tok rest x ls hx _ ih =>
    intro l hl
    rcases List.mem_cons.mp hl with rfl | hl
    · exact Or.inr ⟨paramTraits_types x (List.mem_of_find?_eq_some hx), rfl⟩
    · exact ih l hl

theorem tokens_cons (c : Char) (B : List Char) (ls : List Label) (h : Tokens (c :: B) ls) :
    ∃ l more, ls = l :: more ∧ (c ≠ '<' → l = (ParamType.MAX, [c])) := by
  cases h with
  | lit _ _ ls' hne _ => exact ⟨_, ls', rfl, fun _ => rfl⟩
  | tok _ x ls' _ _ => exact ⟨_, ls', rfl, fun hc => absurd rfl hc⟩

theorem matchPath_append_none (strtod : StrtodFn) (pre suf : List Label)
    (h : ∀ rest params, matchPath strtod suf rest params = none) :
    ∀ rest params, matchPath strtod (pre ++ suf) rest params = none := by
  induction pre with
  | nil => exact h
  | cons l pre ih =>
    intro rest params
    simp only [List.cons_append, matchPath]
    cases enter strtod l.1 l.2 rest params with
    | none => rfl
    | some x => exact ih x.2 x.1

/-- After a `PATH` segment no further segment of a pattern is entered. -/
theorem matchPath_after_path (strtod : StrtodFn) (k : List Char) (l : Label)
    (more : List Label)
    (hl : (l.1 = ParamType.MAX ∧ ∃ c, c ≠ '<' ∧ l.2 = [c]) ∨ (l.1 ≠ ParamType.MAX ∧ l.2 = []))
    (rest : List Char) (params : routing_params) :
    matchPath strtod ((ParamType.PATH, k) :: l :: more) rest params = none := by
  simp only [matchPath]
  cases h1 : enter strtod ParamType.PATH k rest params with
  | none => rfl
  | some x =>
    obtain ⟨params', rest'⟩ := x
    obtain ⟨_, hr, _⟩ := (path_child_iff strtod k rest params params' rest').mp h1
    subst hr
    simp only
    cases h2 : enter strtod l.1 l.2 [] params' with
    | none => rfl
    | some y =>
      obtain ⟨g1, g2⟩ := enter_nil strtod l.1 l.2 params' y h2
      rcases hl with ⟨_, c, _, hc⟩ | ⟨hne, _⟩
      · rw [hc] at g2
        cases g2
      · exact absurd g1 hne

/-- After a `STRING` segment a literal other than `/` is not entered. -/
theorem matchPath_after_string (strtod : StrtodFn) (k : List Char) (c : Char)
    (more : List Label) (hc : c ≠ '/') (rest : List Char) (params : routing_params) :
    matchPath strtod ((ParamType.STRING, k) :: (ParamType.MAX, [c]) :: more) rest params =
      none := by
  simp only [matchPath]
  cases h1 : enter strtod ParamType.STRING k rest params with
  | none => rfl
  | some x =>
    obtain ⟨params', rest'⟩ := x
    obtain ⟨seg, _, _, _, hr, _⟩ := (string_child_iff strtod k rest params params' rest').mp h1
    simp only
    cases rest' with
    | nil => simp [enter]
    | cons d rest'' =>
      have hd : d = '/' := by
        rcases hr with hr | hr
        · cases hr
        · simpa using hr
      subst hd
      rw [enter_literal_ne strtod c '/' rest'' params' hc]

/-- In the trie that holds a single pattern whose segments no URL runs through, `find`
returns 0 for every URL, before and after `optimize`. -/
theorem single_pattern_no_match (strtod : StrtodFn) (P : List Char) (r : Nat) (t : Trie)
    (hadd : Trie.add Trie.init P r = some (t, none))
    (hno : ∀ ls, Tokens P ls → ∀ rest params, matchPath strtod ls rest params = none) :
    ∀ url, Trie.find strtod t url = (0, routing_params.empty) ∧
      ∃ t', Trie.optimize t = some t' ∧ Trie.find strtod t' url = (0, routing_params.empty) := by
  obtain ⟨hraw, ls, hls, hent⟩ := trie_add_entries Trie.init t P r init_raw
    (Or.inr init_noParamBelow) hadd
  have hzero : ∀ url, Trie.find strtod t url = (0, routing_params.empty) := by
    intro url
    refine find_zero strtod t.head_ url (find_none strtod t.head_ url routing_params.empty ?_)
    intro path r' hr' hmem
    rcases (hent path r' hr').mp hmem with h0 | ⟨h1, _⟩
    · exact absurd (init_entries path r' h0) hr'
    · rw [h1]
      exact hno ls hls url routing_params.empty
  obtain ⟨t', h1, _, h3⟩ := optimize_find strtod t (raw_keysOk _ hraw)
  exact fun url => ⟨hzero url, t', h1, by rw [h3 url]; exact hzero url⟩

theorem addStep_shape (a b : Node) (h : Node.AddStep a b) :
    b.key = a.key ∧ b.param = a.param := by
  rcases h with rfl | ⟨url, ri, fuel, rest, e, h⟩
  · exact ⟨rfl, rfl⟩
  · exact add_loop_shape url ri fuel rest a _ h

/-- What a run of the loop of `add` does to the children of the node it starts at: each
child is left as it is or as a run of the loop leaves it, and children may be appended. -/
theorem add_loop_step (url : List Char) (ri : Nat) (fuel : Nat) :
    ∀ (rest : List Char) (r0 : Nat) (k : List Char) (p : ParamType) (cs : List Node)
      (o : AddOutcome), Trie.add_loop url ri fuel rest (Node.mk r0 k p cs) = some o →
      ∃ r0' cs1 extra, o.node = Node.mk r0' k p (cs1 ++ extra) ∧ (r0 ≠ 0 → r0' ≠ 0) ∧
        List.Forall₂ Node.AddStep cs cs1 := by
  induction fuel with
  | zero => intro rest r0 k p cs o h; simp [Trie.add_loop] at h
  | succ fuel ih =>
    intro rest r0 k p cs o h
    have hrefl : ∀ l : List Node, List.Forall₂ Node.AddStep l l :=
      fun l => List.forall₂_same.mpr (fun a _ => Or.inl rfl)
    have hdesc : ∀ (pred : Node → Bool) (fresh : Node) (rest' : List Char)
        (y : List Node × Option (List Char)),
        descend pred fresh (Trie.add_loop url ri fuel rest') cs = some y →
        ∃ cs1 extra, y.1 = cs1 ++ extra ∧ List.Forall₂ Node.AddStep cs cs1 := by
      intro pred fresh rest' y hy
      rcases descend_some _ _ _ cs y hy with ⟨pre, ch, post, o', h1, _, _, h4, h5⟩ |
        ⟨_, o', _, h3⟩
      · subst h5
        subst h1
        exact ⟨pre ++ o'.node :: post, [], by simp,
          forall₂_replace (fun a => Or.inl rfl) pre post ch o'.node
            (Or.inr ⟨url, ri, fuel, rest', o'.thrown, h4⟩)⟩
      · subst h3
        exact ⟨cs, [o'.node], rfl, hrefl cs⟩
    cases rest with
    | nil =>
      simp only [Trie.add_loop] at h
      split at h
      · simp only [Option.some.injEq] at h
        subst h
        exact ⟨r0, cs, [], by simp, fun h0 => h0, hrefl cs⟩
      · rename_i hr
        simp only [Option.some.injEq] at h
        subst h
        exact ⟨ri, cs, [], by simp, fun h0 => absurd h0 hr, hrefl cs⟩
    | cons c rest =>
      simp only [Trie.add_loop] at h
      split at h
      · split at h
        · simp only [Option.map_eq_some'] at h
          obtain ⟨y, hy, hyo⟩ := h
          subst hyo
          obtain ⟨cs1, extra, g1, g2⟩ := hdesc _ _ _ y hy
          exact ⟨r0, cs1, extra, by rw [g1], fun h0 => h0, g2⟩
        · exact ih _ _ _ _ _ _ h
      · simp only [Option.map_eq_some'] at h
        obtain ⟨y, hy, hyo⟩ := h
        subst hyo
        obtain ⟨cs1, extra, g1, g2⟩ := hdesc _ _ _ y hy
        exact ⟨r0, cs1, extra, by rw [g1], fun h0 => h0, g2⟩

/-- When moving to a child ends in a throw, it still does after the children have been
left by runs of the loop of `add` and children have been appended. -/
theorem descend_thrown_stable (pred : Node → Bool) (fresh : Node)
    (f g : Node → Option AddOutcome) (extra : List Node)
    (hpred : ∀ a b, Node.AddStep a b → pred b = pred a)
    (hfresh : ∀ o, f fresh = some o → o.thrown = none)
    (hfg : ∀ a b, Node.AddStep a b → ∀ o, f a = some o → o.thrown ≠ none →
      ∃ o2, g b = some o2 ∧ o2.thrown ≠ none) :
    ∀ (cs cs1 : List Node), List.Forall₂ Node.AddStep cs cs1 →
      ∀ y, descend pred fresh f cs = some y → y.2 ≠ none →
      ∃ y2, descend pred fresh g (cs1 ++ extra) = some y2 ∧ y2.2 ≠ none := by
  intro cs cs1 h
  induction h with
  | nil =>
    intro y hy hy2
    simp only [descend, Option.map_eq_some'] at hy
    obtain ⟨o, ho, hyo⟩ := hy
    subst hyo
    exact absurd (hfresh o ho) hy2
  | @cons a b l l' hab _ ih =>
    intro y hy hy2
    rw [descend] at hy
    rw [List.cons_append, descend, hpred a b hab]
    split at hy
    · rename_i hp
      rw [if_pos hp]
      simp only [Option.map_eq_some'] at hy
      obtain ⟨o, ho, hyo⟩ := hy
      subst hyo
      obtain ⟨o2, ho2, ht2⟩ := hfg a b hab o ho hy2
      exact ⟨(o2.node :: (l' ++ extra), o2.thrown), by rw [ho2]; rfl, ht2⟩
    · rename_i hp
      rw [if_neg hp]
      simp only [Option.map_eq_some'] at hy
      obtain ⟨y', hy', hyo⟩ := hy
      subst hyo
      obtain ⟨y2, hy2', ht2⟩ := ih y' hy' hy2
      exact ⟨(b :: y2.1, y2.2), by rw [hy2']; rfl, ht2⟩

/-- A pattern for which `add` throws at a node still makes it throw after any run of the
loop of `add` from that node, whatever rule index is added. -/
theorem add_loop_throws_stable (u1 u2 : List Char) (r1 r2 : Nat) (fuel : Nat) :
    ∀ (rest : List Char) (node node2 : Node) (o : AddOutcome), Node.AddStep node node2 →
      Trie.add_loop u1 r1 fuel rest node = some o → o.thrown ≠ none →
      ∃ o2, Trie.add_loop u2 r2 fuel rest node2 = some o2 ∧ o2.thrown ≠ none := by
  induction fuel with
  | zero => intro rest node node2 o _ h; simp [Trie.add_loop] at h
  | succ fuel ih =>
    intro rest node node2 o hstep h ht
    obtain ⟨r0, k, p, cs⟩ := node
    have hshape : ∃ r0' cs1 extra, node2 = Node.mk r0' k p (cs1 ++ extra) ∧
        (r0 ≠ 0 → r0' ≠ 0) ∧ List.Forall₂ Node.AddStep cs cs1 := by
      rcases hstep with rfl | ⟨url, ri, f', rest', e, hs⟩
      · exact ⟨r0, cs, [], by simp, fun h0 => h0,
          List.forall₂_same.mpr (fun a _ => Or.inl rfl)⟩
      · exact add_loop_step url ri f' rest' r0 k p cs _ hs
    obtain ⟨r0', cs1, extra, hn2, hr0, hcs⟩ := hshape
    have hdesc : ∀ (pred : Node → Bool) (k' : List Char) (p' : ParamType) (rest' : List Char)
        (y : List Node × Option (List Char)),
        (∀ a b, Node.AddStep a b → pred b = pred a) →
        descend pred (Node.mk 0 k' p' []) (Trie.add_loop u1 r1 fuel rest') cs = some y →
        y.2 ≠ none →
        ∃ y2, descend pred (Node.mk 0 k' p' []) (Trie.add_loop u2 r2 fuel rest')
          (cs1 ++ extra) = some y2 ∧ y2.2 ≠ none := by
      intro pred k' p' rest' y hpred hy hy2
      exact descend_thrown_stable pred _ _ _ extra hpred
        (fun o' ho' => add_loop_fresh u1 r1 fuel rest' k' p' o' ho')
        (fun a b hab o' ho' ht' => ih rest' a b o' hab ho' ht') cs cs1 hcs y hy hy2
    cases rest with
    | nil =>
      simp only [Trie.add_loop] at h
      split at h
      · rename_i hr
        rw [hn2]
        simp only [Trie.add_loop, if_pos (hr0 hr)]
        exact ⟨_, rfl, fun hn => by cases hn⟩
      · simp only [Option.some.injEq] at h
        subst h
        exact absurd rfl ht
    | cons c rest =>
      rw [Trie.add_loop] at h
      split at h
      · rename_i hc
        split at h
        · rename_i x hx
          simp only [Option.map_eq_some'] at h
          obtain ⟨y, hy, hyo⟩ := h
          subst hyo
          obtain ⟨y2, hy2, ht2⟩ := hdesc _ _ _ _ y
            (fun a b hab => by rw [(addStep_shape a b hab).2]) hy ht
          rw [hn2, Trie.add_loop, if_pos hc]
          simp only [hx]
          exact ⟨⟨Node.mk r0' k p y2.1, y2.2⟩, by rw [hy2]; rfl, ht2⟩
        · rename_i hx
          obtain ⟨o2, ho2, ht2⟩ := ih _ _ node2 o hstep h ht
          rw [hn2] at ho2 ⊢
          rw [Trie.add_loop, if_pos hc]
          simp only [hx]
          exact ⟨o2, ho2, ht2⟩
      · rename_i hc
        simp only [Option.map_eq_some'] at h
        obtain ⟨y, hy, hyo⟩ := h
        subst hyo
        obtain ⟨y2, hy2, ht2⟩ := hdesc _ _ _ _ y
          (fun a b hab => by rw [Node.key0, Node.key0, (addStep_shape a b hab).1]) hy ht
        rw [hn2, Trie.add_loop, if_neg hc]
        exact ⟨⟨Node.mk r0' k p y2.1, y2.2⟩, by rw [hy2]; rfl, ht2⟩

/-- Adding again a pattern that was added under a rule index other than 0 throws. -/
theorem trie_add_twice (t t1 : Trie) (P : List Char) (r1 r2 : Nat)
    (err : Option (List Char)) (hr1 : r1 ≠ 0) (hadd : Trie.add t P r1 = some (t1, err)) :
    Trie.add t1 P r2 = some (t1, some (alreadyExists P)) := by
  simp only [Trie.add, Option.map_eq_some'] at hadd
  obtain ⟨o, ho, hoe⟩ := hadd
  simp only [Prod.mk.injEq] at hoe
  have h2 := add_loop_twice P r1 r2 hr1 _ P t.head_ o ho
  rw [← hoe.1]
  simp only [Trie.add, h2, Option.map_some']

/-- A pattern for which `add` throws still makes it throw after another call of `add`. -/
theorem trie_add_throws_stable (t t2 : Trie) (Q P : List Char) (rq rq' rp : Nat)
    (e : Option (List Char))
    (hq : ∃ t1 msg, Trie.add t Q rq = some (t1, some msg))
    (hp : Trie.add t P rp = some (t2, e)) :
    Trie.add t2 Q rq' = some (t2, some (alreadyExists Q)) := by
  obtain ⟨t1, msg, hq⟩ := hq
  simp only [Trie.add, Option.map_eq_some', Prod.mk.injEq] at hq hp
  obtain ⟨oq, hoq, _, hoq2⟩ := hq
  obtain ⟨op, hop, hop1, _⟩ := hp
  subst hop1
  obtain ⟨o2, ho2, ht2⟩ := add_loop_throws_stable Q Q rq rq' _ Q t.head_ op.node oq
    (Or.inr ⟨P, rp, _, P, op.thrown, hop⟩) hoq (by rw [hoq2]; exact fun hn => by cases hn)
  have hadd : Trie.add ⟨op.node⟩ Q rq' = some (⟨o2.node⟩, o2.thrown) := by
    simp only [Trie.add, ho2, Option.map_some']
  cases hthrown : o2.thrown with
  | none => exact absurd hthrown ht2
  | some m =>
    rw [hthrown] at hadd
    have hm := trie_add_thrown _ _ Q rq' m hadd
    have ht := trie_add_atomic _ _ Q rq' m hadd
    rw [hadd, ht, hm]
    rfl

/-- In a trie built by calls of `add` that returned without an error, adding again a
pattern that was added under a rule index other than 0 throws. -/
theorem holds_throws (t : Trie) (added : List (List Char × Nat)) (h : Trie.Holds t added) :
    ∀ Q r, (Q, r) ∈ added → r ≠ 0 → ∀ r2,
      Trie.add t Q r2 = some (t, some (alreadyExists Q)) := by
  induction h with
  | init => intro Q r hm; cases hm
  | add t t' P r added _ hadd ih =>
    intro Q rq hm hrq r2
    rcases List.mem_cons.mp hm with heq | hm
    · simp only [Prod.mk.injEq] at heq
      rw [heq.1]
      exact trie_add_twice t t' P r r2 none (heq.2 ▸ hrq) hadd
    · exact trie_add_throws_stable t t' Q P r2 r2 r none ⟨t, _, ih Q rq hm hrq r2⟩ hadd

/-- No pattern has been added twice under rule indices other than 0. -/
theorem holds_distinct (t : Trie) (added : List (List Char × Nat)) (h : Trie.Holds t added) :
    added.Pairwise (fun a b => a.1 = b.1 → b.2 = 0) := by
  induction h with
  | init => exact List.Pairwise.nil
  | add t t' P r added hh hadd ih =>
    refine List.Pairwise.cons ?_ ih
    intro b hb heq
    by_contra hb0
    have := holds_throws t added hh b.1 b.2 hb hb0 r
    simp only at heq
    rw [← heq, hadd] at this
    simp at this

theorem pairwise_two {α : Type} {R : α → α → Prop} {l : List α} (h : l.Pairwise R)
    (a b : α) (ha : a ∈ l) (hb : b ∈ l) (hab : a ≠ b) : R a b ∨ R b a := by
  induction h with
  | nil => cases ha
  | cons hx _ ih =>
    rcases List.mem_cons.mp ha with ha1 | ha1
    · rcases List.mem_cons.mp hb with hb1 | hb1
      · exact absurd (ha1.trans hb1.symm) hab
      · exact Or.inl (ha1 ▸ hx b hb1)
    · rcases List.mem_cons.mp hb with hb1 | hb1
      · exact Or.inr (hb1 ▸ hx a ha1)
      · exact ih ha1 hb1

/-- Registering rules adds their patterns to the trie under ids from 2 on, and the patterns
with a trailing slash also without it, under id 1. -/
theorem register_added (regs : List BaseRule) :
    ∀ (pm pm' : PerMethod) (added : List (List Char × Nat)), Trie.Holds pm.trie added →
      2 ≤ pm.rules.length → forEach PerMethod.register regs pm = some (pm', none) →
      ∃ added', Trie.Holds pm'.trie added' ∧ (∀ x ∈ added, x ∈ added') ∧
        (∀ ro ∈ regs, ∃ r, 2 ≤ r ∧ (ro.rule_, r) ∈ added') ∧
        (∀ ro ∈ regs, has_trailing_slash ro.rule_ = true →
          (ro.rule_.dropLast, RULE_SPECIAL_REDIRECT_SLASH) ∈ added') := by
  induction regs with
  | nil =>
    intro pm pm' added hh _ h
    simp only [forEach, Option.some.injEq, Prod.mk.injEq, and_true] at h
    subst h
    exact ⟨added, hh, fun x hx => hx, fun ro hro => (by cases hro),
      fun ro hro => (by cases hro)⟩
  | cons ro regs ih =>
    intro pm pm' added hh hlen h
    obtain ⟨pm1, h1, h2⟩ := (forEach_cons_ok _ ro regs pm pm').mp h
    obtain ⟨hrules, t1, hadd, hts, hnts⟩ := register_ok ro pm pm1 h1
    have hlen1 : 2 ≤ pm1.rules.length := by
      rw [hrules, List.length_append]
      omega
    have hh2 := Trie.Holds.add _ _ _ _ _ hh hadd
    by_cases hslash : has_trailing_slash ro.rule_ = true
    · obtain ⟨added', g1, g2, g3, g4⟩ := ih pm1 pm' _
        (Trie.Holds.add _ _ _ _ _ hh2 (hts hslash)) hlen1 h2
      refine ⟨added', g1, fun x hx => g2 x (List.mem_cons_of_mem _ (List.mem_cons_of_mem _ hx)),
        fun ro' hro' => ?_, fun ro' hro' hs' => ?_⟩
      · rcases List.mem_cons.mp hro' with rfl | hro'
        · exact ⟨_, hlen, g2 _ (List.mem_cons_of_mem _ (List.mem_cons_self _ _))⟩
        · exact g3 ro' hro'
      · rcases List.mem_cons.mp hro' with rfl | hro'
        · exact g2 _ (List.mem_cons_self _ _)
        · exact g4 ro' hro' hs'
    · simp only [Bool.not_eq_true] at hslash
      rw [← hnts hslash] at hh2
      obtain ⟨added', g1, g2, g3, g4⟩ := ih pm1 pm' _ hh2 hlen1 h2
      refine ⟨added', g1, fun x hx => g2 x (List.mem_cons_of_mem _ hx),
        fun ro' hro' => ?_, fun ro' hro' hs' => ?_⟩
      · rcases List.mem_cons.mp hro' with rfl | hro'
        · exact ⟨_, hlen, g2 _ (List.mem_cons_self _ _)⟩
        · exact g3 ro' hro'
      · rcases List.mem_cons.mp hro' with rfl | hro'
        · rw [hslash] at hs'
          cases hs'
        · exact g4 ro' hro' hs'

theorem has_trailing_slash_snoc (Q : List Char) (hQ : Q ≠ []) :
    has_trailing_slash (Q ++ ['/']) = true ∧ (Q ++ ['/']).dropLast = Q := by
  refine ⟨?_, by simp⟩
  have h1 : (Q ++ ['/']).getLast? = some '/' := by simp
  have h2 : (Q ++ ['/']).length > 1 := by
    cases Q with
    | nil => exact absurd rfl hQ
    | cons a Q => simp
  simp only [has_trailing_slash, h1, beq_self_eq_true, Bool.and_true, decide_eq_true_eq]
  exact h2

/-- Registering, in a table in its first state, rules among which one has the pattern `Q/`
and one the pattern `Q` does not end without an error. -/
theorem register_slash_conflict (regs : List BaseRule) (pm' : PerMethod) (Q : List Char)
    (roA roB : BaseRule) (hQ : Q ≠ []) (hA : roA.rule_ = Q ++ ['/']) (hB : roB.rule_ = Q)
    (hmA : roA ∈ regs) (hmB : roB ∈ regs)
    (h : forEach PerMethod.register regs PerMethod.init = some (pm', none)) : False := by
  obtain ⟨added', hh, _, g3, g4⟩ := register_added regs PerMethod.init pm' [] Trie.Holds.init
    (by simp [PerMethod.init]) h
  obtain ⟨hs1, hs2⟩ := has_trailing_slash_snoc Q hQ
  have h1 := g4 roA hmA (by rw [hA]; exact hs1)
  rw [hA, hs2] at h1
  obtain ⟨r, hr, h2⟩ := g3 roB hmB
  rw [hB] at h2
  have hne : (Q, RULE_SPECIAL_REDIRECT_SLASH) ≠ (Q, r) := by
    intro heq
    simp only [Prod.mk.injEq, true_and, RULE_SPECIAL_REDIRECT_SLASH] at heq
    omega
  rcases pairwise_two (holds_distinct _ _ hh) _ _ h1 h2 hne with hc | hc
  · have := hc rfl
    simp only at this
    omega
  · have := hc rfl
    simp only [RULE_SPECIAL_REDIRECT_SLASH] at this
    omega

theorem hasBadOpen_snoc (Q : List Char) (h : HasBadOpen (Q ++ ['/'])) : HasBadOpen Q := by
  obtain ⟨pre, post, heq, hfind⟩ := h
  rcases List.eq_nil_or_concat post with hp | ⟨post', z, hp⟩
  · subst hp
    have := congrArg List.getLast? heq
    simp at this
  · subst hp
    have heq' : Q ++ ['/'] = (pre ++ '<' :: post') ++ [z] := by
      rw [heq]
      simp
    have hQ := (List.append_inj' heq' rfl).1
    refine ⟨pre, post', hQ, ?_⟩
    rw [List.find?_eq_none] at hfind ⊢
    intro x hx hpre
    refine hfind x hx ?_
    simp only [List.isPrefixOf_iff_prefix] at hpre ⊢
    exact hpre.trans ⟨[z], by simp⟩

/-- After a rule with the pattern `Q/` has been registered, registering a rule with the
pattern `Q` throws. -/
theorem register_slash_first (Q : List Char) (roA roB : BaseRule) (hQ : Q ≠ [])
    (hA : roA.rule_ = Q ++ ['/']) (hB : roB.rule_ = Q) (pm pm1 : PerMethod)
    (h : PerMethod.register roA pm = some (pm1, none)) :
    PerMethod.register roB pm1 =
      some (⟨pm1.rules ++ [some roB], pm1.trie⟩, some (alreadyExists Q)) := by
  obtain ⟨_, t1, _, hts, _⟩ := register_ok roA pm pm1 h
  obtain ⟨hs1, hs2⟩ := has_trailing_slash_snoc Q hQ
  have h1 := hts (by rw [hA]; exact hs1)
  rw [hA, hs2] at h1
  have h2 := trie_add_twice t1 pm1.trie Q RULE_SPECIAL_REDIRECT_SLASH
    ((pm1.rules ++ [some roB]).length - 1) none (by decide) h1
  unfold PerMethod.register PerMethod.add_rule
  simp only [hB, h2]

/-- After a rule with the pattern `Q` has been registered, registering a rule with the
pattern `Q/` throws. -/
theorem register_slash_second (Q : List Char) (roA roB : BaseRule) (hQ : Q ≠ [])
    (hA : roA.rule_ = Q ++ ['/']) (hB : roB.rule_ = Q) (pm pm1 : PerMethod)
    (hne : pm.rules ≠ []) (h : PerMethod.register roB pm = some (pm1, none)) :
    ∃ pm2 msg, PerMethod.register roA pm1 = some (pm2, some msg) ∧
      (msg = alreadyExists (Q ++ ['/']) ∨ msg = alreadyExists Q) := by
  obtain ⟨_, t1, hadd, hts, hnts⟩ := register_ok roB pm pm1 h
  rw [hB] at hadd hts hnts
  have hlen : pm.rules.length ≠ 0 := by
    cases hpm : pm.rules with
    | nil => exact absurd hpm hne
    | cons a as => simp
  have hthrow : ∀ r2, Trie.add pm1.trie Q r2 = some (pm1.trie, some (alreadyExists Q)) := by
    intro r2
    have h1 := trie_add_twice pm.trie t1 Q _ r2 none hlen hadd
    by_cases hslash : has_trailing_slash Q = true
    · exact trie_add_throws_stable t1 pm1.trie Q _ r2 r2 _ none ⟨t1, _, h1⟩ (hts hslash)
    · simp only [Bool.not_eq_true] at hslash
      rw [hnts hslash]
      exact h1
  obtain ⟨hs1, hs2⟩ := has_trailing_slash_snoc Q hQ
  have hbad : ¬ HasBadOpen (Q ++ ['/']) := by
    intro hb
    have := (trie_add_eq_none_iff pm.trie Q pm.rules.length).mpr (hasBadOpen_snoc Q hb)
    rw [this] at hadd
    cases hadd
  unfold PerMethod.register PerMethod.add_rule
  simp only [hA, hs1, rule_without_trailing_slash, if_true, hs2]
  cases hres : Trie.add pm1.trie (Q ++ ['/']) ((pm1.rules ++ [some roA]).length - 1) with
  | none => exact absurd ((trie_add_eq_none_iff _ _ _).mp hres) hbad
  | some x =>
    obtain ⟨t2, e⟩ := x
    cases e with
    | some msg =>
      exact ⟨_, msg, rfl, Or.inl (trie_add_thrown _ _ _ _ msg hres)⟩
    | none =>
      have h3 := trie_add_throws_stable pm1.trie t2 Q _ 0 RULE_SPECIAL_REDIRECT_SLASH _ none
        ⟨pm1.trie, _, hthrow 0⟩ hres
      simp only [h3, Option.map_some']
      exact ⟨_, _, rfl, Or.inr rfl⟩

/-- `Router::validate` does not end without an error when two rules that allow the same
method have the patterns `Q/` and `Q`. -/
theorem validate_slash_conflict (check : BaseRule → BaseRule × Option (List Char))
    (rules : List BaseRule) (router' : Router) (e : Option (List Char)) (m : Nat)
    (Q : List Char) (roA roB : BaseRule) (hQ : Q ≠ []) (hA : roA.rule_ = Q ++ ['/'])
    (hB : roB.rule_ = Q)
    (hv : Router.validate check (Router.init rules) = some (router', e))
    (hm : m < InternalMethodCount) (hmA : roA ∈ checkedRules check rules)
    (hmB : roB ∈ checkedRules check rules) (haA : roA.allows m = true)
    (haB : roB.allows m = true) : e ≠ none := by
  intro he
  subst he
  obtain ⟨pm1, hreg, _, _⟩ := validate_rules check rules router' m hv hm
  exact register_slash_conflict _ pm1 Q roA roB hQ hA hB
    (List.mem_filter.mpr ⟨hmA, by simpa using haA⟩)
    (List.mem_filter.mpr ⟨hmB, by simpa using haB⟩) hreg

theorem exampleTrie1_add :
    Trie.add Trie.init "/a/<int>".toList 2 = some (exampleTrie1, none) := rfl

theorem exampleTrie2_add :
    Trie.add exampleTrie1 "/a/<string>".toList 3 = some (exampleTrie2, none) := rfl

theorem exampleTrie2_built : Trie.Built exampleTrie2 :=
  Trie.Built.add _ _ _ _ _ (Trie.Built.add _ _ _ _ _ Trie.Built.init exampleTrie1_add)
    exampleTrie2_add

theorem validated_examples :
    (Router.validate checkNone (Router.init [postOnlyRule "/submit".toList])).map Prod.snd =
      some none ∧
    (Router.validate checkNone (Router.init [exampleRule "/about/".toList])).map Prod.snd =
      some none ∧
    (Router.validate checkNone (Router.init [exampleRule "/a".toList])).map Prod.snd =
      some none ∧
    (Router.validate checkNone
      (Router.init [exampleRule "/a".toList, postOnlyRule "/b".toList])).map Prod.snd =
      some none := by
  refine ⟨?_, ?_, ?_, ?_⟩ <;> decide

theorem exampleHandlers_methodBlind (M : HTTPMethod) : exampleHandlers.MethodBlind M :=
  ⟨fun _ h _ _ _ => by
    simp only [exampleHandlers, Option.some.injEq] at h
    rw [← h]
    exact ⟨rfl, rfl, rfl, rfl⟩,
    fun _ _ _ _ _ => ⟨rfl, rfl, rfl, rfl⟩⟩

/-! ## The claims -/

/-- C1, counterexample. With `/a/<string>` registered before `/a/b/` for the same method,
the URL `/a/b` is matched by the first pattern, whose rule id is 2, but after
`Router::validate` the trie of the method returns 1, the id of the redirect entry that
the second pattern has left. (With `a<int>` before a pattern that holds a NUL character,
the URL equal to that pattern is matched by it and `find` returns 0.) -/
theorem earliest_registered_counterexample :
    (PatternMatches strtodNone "/a/<string>".toList "/a/b".toList ∧
      (Router.validate checkNone
          (Router.init [exampleRule "/a/<string>".toList, exampleRule "/a/b/".toList])).map
        (fun x => (x.2, (Trie.find strtodNone (x.1.per_methods_ 0).trie "/a/b".toList).1)) =
          some (none, 1)) ∧
    (PatternMatches strtodNone ['a', Char.ofNat 0, 'c'] ['a', Char.ofNat 0, 'c'] ∧
      (Router.validate checkNone
          (Router.init [exampleRule "a<int>".toList, exampleRule ['a', Char.ofNat 0, 'c']])).map
        (fun x => (x.2,
          (Trie.find strtodNone (x.1.per_methods_ 0).trie ['a', Char.ofNat 0, 'c']).1)) =
          some (none, 0)) := by
  refine ⟨⟨⟨[(ParamType.MAX, ['/']), (ParamType.MAX, ['a']), (ParamType.MAX, ['/']),
      (ParamType.STRING, [])], ⟨[], [], [], [['b']]⟩, ?_, ?_⟩, ?_⟩,
    ⟨⟨literalLabels ['a', Char.ofNat 0, 'c'], routing_params.empty,
      tokens_literal _ (by decide), ?_⟩, ?_⟩⟩
  · exact Tokens.lit _ _ _ (by decide) (Tokens.lit _ _ _ (by decide) (Tokens.lit _ _ _
      (by decide) (Tokens.tok _ (ParamType.STRING, "<string>".toList) _ (by decide) Tokens.nil)))
  · rfl
  · decide!
  · rfl
  · decide!

/-- C1, amended. After a `Router::validate` that ends without an error, in a router
whose patterns hold no NUL character, the trie of every method returns for every URL:
1 when a pattern registered for the method with a trailing slash matches the URL once
that slash is removed; otherwise the id of the earliest-registered pattern of the method
that matches the URL, the pattern registered at position `i` (from 0) having id `i + 2`;
and 0 when no pattern matches. -/
theorem find_earliest_registered_or_redirect (strtod : StrtodFn)
    (check : BaseRule → BaseRule × Option (List Char)) (rules : List BaseRule) (m : Nat)
    (hv : (Router.validate check (Router.init rules)).map Prod.snd = some none)
    (hnul : ∀ ro ∈ checkedRules check rules, Char.ofNat 0 ∉ ro.rule_)
    (hm : m < InternalMethodCount) :
    ∃ router', Router.validate check (Router.init rules) = some (router', none) ∧
      SelectsEarliest strtod ((checkedRules check rules).filter (fun ro => ro.allows m))
        (router'.per_methods_ m).trie := by
  simp only [Option.map_eq_some'] at hv
  obtain ⟨⟨router', e⟩, hv1, hv2⟩ := hv
  simp only at hv2
  subst hv2
  refine ⟨router', hv1, fun url => ?_⟩
  obtain ⟨pm1, hinv, hfind⟩ := validate_table strtod check rules router' m hv1 hnul hm
  rw [hfind url]
  exact table_find strtod pm1 _ hinv url

theorem find_earliest_registered_or_redirect_witness :
    ((Router.validate checkNone
        (Router.init [exampleRule "/a/<int>".toList, exampleRule "/a/<string>".toList])).map
          Prod.snd = some none ∧
      (∀ ro ∈ checkedRules checkNone
          [exampleRule "/a/<int>".toList, exampleRule "/a/<string>".toList],
        Char.ofNat 0 ∉ ro.rule_) ∧
      0 < InternalMethodCount) ∧
    ∃ router', Router.validate checkNone
        (Router.init [exampleRule "/a/<int>".toList, exampleRule "/a/<string>".toList]) =
          some (router', none) ∧
      SelectsEarliest strtodNone
        ((checkedRules checkNone
          [exampleRule "/a/<int>".toList, exampleRule "/a/<string>".toList]).filter
            (fun ro => ro.allows 0))
        (router'.per_methods_ 0).trie :=
  ⟨⟨by decide, by decide, by decide⟩,
    find_earliest_registered_or_redirect strtodNone checkNone
      [exampleRule "/a/<int>".toList, exampleRule "/a/<string>".toList] 0
      (by decide) (by decide) (by decide)⟩

/-- C2. In every trie built by calls of `add` and for every URL, `find` returns a
non-zero id iff some root-to-node path completely matches the URL at a node with a
non-zero rule id (otherwise it returns 0); the id returned is then, with the parameters
returned, itself such a complete match, and it is the smallest rule id among all of
them. -/
theorem find_returns_least_complete_match (strtod : StrtodFn) (t : Trie) (url : List Char)
    (ht : Trie.Built t) :
    ((Trie.find strtod t url).1 ≠ 0 ↔
      ∃ r out, r ≠ 0 ∧ Trie.CompleteMatch strtod t.head_ url routing_params.empty r out) ∧
    ((Trie.find strtod t url).1 ≠ 0 →
      Trie.CompleteMatch strtod t.head_ url routing_params.empty
          (Trie.find strtod t url).1 (Trie.find strtod t url).2 ∧
        ∀ r out, r ≠ 0 →
          Trie.CompleteMatch strtod t.head_ url routing_params.empty r out →
          (Trie.find strtod t url).1 ≤ r) := by
  have hk := raw_keysOk _ (built_raw t ht)
  refine ⟨⟨fun h => ⟨_, _, h, find_node_sound strtod _ _ _ h⟩, ?_⟩, fun h => ⟨?_, ?_⟩⟩
  · rintro ⟨r, out, hr, hm⟩
    exact (find_node_least strtod _ _ _ r out hk hm hr).1
  · exact find_node_sound strtod _ _ _ h
  · intro r out hr hm
    exact (find_node_least strtod _ _ _ r out hk hm hr).2

theorem find_returns_least_complete_match_witness :
    Trie.Built exampleTrie2 ∧
    (((Trie.find strtodNone exampleTrie2 "/a/7".toList).1 ≠ 0 ↔
      ∃ r out, r ≠ 0 ∧
        Trie.CompleteMatch strtodNone exampleTrie2.head_ "/a/7".toList routing_params.empty r out) ∧
    ((Trie.find strtodNone exampleTrie2 "/a/7".toList).1 ≠ 0 →
      Trie.CompleteMatch strtodNone exampleTrie2.head_ "/a/7".toList routing_params.empty
          (Trie.find strtodNone exampleTrie2 "/a/7".toList).1
          (Trie.find strtodNone exampleTrie2 "/a/7".toList).2 ∧
        ∀ r out, r ≠ 0 →
          Trie.CompleteMatch strtodNone exampleTrie2.head_ "/a/7".toList routing_params.empty r out →
          (Trie.find strtodNone exampleTrie2 "/a/7".toList).1 ≤ r)) :=
  ⟨exampleTrie2_built,
    find_returns_least_complete_match strtodNone exampleTrie2 "/a/7".toList exampleTrie2_built⟩

/-- C3, counterexample. The URL `/75` is the pattern `/<int>5` with `7` in the place of
`<int>`, `/abc.html` is `/<string>.html` with `abc` in the place of `<string>`, and
`/ax` is `/<path>x` with `a` in the place of `<path>`, but in the tries that hold only
these patterns under rule id 2 `find` returns `(0, empty)`: the value read for the token
runs on into the literal text. And with the rule id 0, `find` returns no parameters for
`/7` in the trie that holds `/<int>`. -/
theorem literal_instantiation_counterexample :
    (patternOf [Piece.lit '/', Piece.int ['7'], Piece.lit '5'] = "/<int>5".toList ∧
      urlOf [Piece.lit '/', Piece.int ['7'], Piece.lit '5'] = "/75".toList ∧
      (Trie.add Trie.init "/<int>5".toList 2).map
          (fun x => (x.2, Trie.find strtodNone x.1 "/75".toList)) =
        some (none, (0, routing_params.empty))) ∧
    (patternOf [Piece.lit '/', Piece.str true "abc".toList, Piece.lit '.', Piece.lit 'h',
        Piece.lit 't', Piece.lit 'm', Piece.lit 'l'] = "/<string>.html".toList ∧
      urlOf [Piece.lit '/', Piece.str true "abc".toList, Piece.lit '.', Piece.lit 'h',
        Piece.lit 't', Piece.lit 'm', Piece.lit 'l'] = "/abc.html".toList ∧
      (Trie.add Trie.init "/<string>.html".toList 2).map
          (fun x => (x.2, Trie.find strtodNone x.1 "/abc.html".toList)) =
        some (none, (0, routing_params.empty))) ∧
    (patternOf [Piece.lit '/', Piece.path ['a'], Piece.lit 'x'] = "/<path>x".toList ∧
      urlOf [Piece.lit '/', Piece.path ['a'], Piece.lit 'x'] = "/ax".toList ∧
      (Trie.add Trie.init "/<path>x".toList 2).map
          (fun x => (x.2, Trie.find strtodNone x.1 "/ax".toList)) =
        some (none, (0, routing_params.empty))) ∧
    (Trie.add Trie.init "/<int>".toList 0).map
        (fun x => (x.2, Trie.find strtodNone x.1 "/7".toList)) =
      some (none, (0, routing_params.empty)) := by
  refine ⟨⟨rfl, rfl, ?_⟩, ⟨rfl, rfl, ?_⟩, ⟨rfl, rfl, ?_⟩, ?_⟩ <;> decide

/-- C3, amended. Let the pattern `P` be made of literal characters (other than `<`) and
recognized tokens, and let the URL `U` be `P` with each token replaced by a valid value
of its kind that is delimited in `U`: an `<int>` or `<uint>` value is not followed by a
digit, a `<float>` value is a text that `strtod` converts as a whole, a `<string>`
value is followed by `/` or by the end of `U`, a `<path>` value by the end of `U`. Then
for every non-zero rule id `r`, `add(P, r)` on the empty trie returns without an error,
and in the trie it leaves `find(U)` returns `r` and the values, each kind in the order of
the tokens of `P`. -/
theorem literal_instantiation_delimited (strtod : StrtodFn) (ps : List Piece) (r : Nat)
    (hr : r ≠ 0) (hok : allOk strtod ps) :
    ∃ t, Trie.add Trie.init (patternOf ps) r = some (t, none) ∧
      Trie.find strtod t (urlOf ps) = (r, valuesOf strtod ps) := by
  obtain ⟨t, hadd, hraw, hmem, honly⟩ := add_init (patternOf ps) _ r hr (tokens_pieces strtod ps hok)
  refine ⟨t, hadd, ?_⟩
  have hm := matchPath_pieces strtod ps hok routing_params.empty
  rw [empty_append] at hm
  exact find_unique strtod t.head_ (raw_keysOk _ hraw) _ _ _ _ r hr hmem honly hm

theorem literal_instantiation_delimited_witness :
    (2 ≠ 0 ∧ allOk strtodNone [Piece.lit '/', Piece.lit 'a', Piece.lit '/',
        Piece.int ['-', '5'], Piece.lit '/', Piece.path "b/c".toList]) ∧
    ∃ t, Trie.add Trie.init (patternOf [Piece.lit '/', Piece.lit 'a', Piece.lit '/',
        Piece.int ['-', '5'], Piece.lit '/', Piece.path "b/c".toList]) 2 = some (t, none) ∧
      Trie.find strtodNone t (urlOf [Piece.lit '/', Piece.lit 'a', Piece.lit '/',
        Piece.int ['-', '5'], Piece.lit '/', Piece.path "b/c".toList]) =
        (2, valuesOf strtodNone [Piece.lit '/', Piece.lit 'a', Piece.lit '/',
          Piece.int ['-', '5'], Piece.lit '/', Piece.path "b/c".toList]) :=
  have hok : allOk strtodNone [Piece.lit '/', Piece.lit 'a', Piece.lit '/',
      Piece.int ['-', '5'], Piece.lit '/', Piece.path "b/c".toList] :=
    ⟨(by decide : '/' ≠ '<'), (by decide : 'a' ≠ '<'), (by decide : '/' ≠ '<'),
      ⟨⟨['-'], ['5'], rfl, Or.inr (Or.inr rfl), by decide, by decide, by decide, by decide⟩,
        by decide⟩,
      (by decide : '/' ≠ '<'), ⟨by decide, rfl⟩, trivial⟩
  ⟨⟨by decide, hok⟩,
    literal_instantiation_delimited strtodNone _ 2 (by decide) hok⟩

/-- C4. For every trie built by calls of `add`, `optimize` returns, and for every URL
`find` on the optimized trie returns the same rule id and the same bound parameters as
`find` on the trie before. -/
theorem optimize_preserves_find (strtod : StrtodFn) (t : Trie) (ht : Trie.Built t) :
    ∃ t', Trie.optimize t = some t' ∧
      ∀ url, Trie.find strtod t' url = Trie.find strtod t url := by
  obtain ⟨t', h1, _, h3⟩ := optimize_find strtod t (raw_keysOk _ (built_raw t ht))
  exact ⟨t', h1, h3⟩

theorem optimize_preserves_find_witness :
    Trie.Built exampleTrie2 ∧
    ∃ t', Trie.optimize exampleTrie2 = some t' ∧
      ∀ url, Trie.find strtodNone t' url = Trie.find strtodNone exampleTrie2 url :=
  ⟨exampleTrie2_built, optimize_preserves_find strtodNone exampleTrie2 exampleTrie2_built⟩

/-- C5. When `add(P, r1)` with a non-zero `r1` has returned or thrown, a second
`add(P, r2)` on the trie it left throws "handler already exists for P" and leaves the
trie as it is: the rule id at the terminal node of `P` is not overwritten. -/
theorem add_same_pattern_twice_throws (t t1 : Trie) (P : List Char) (r1 r2 : Nat)
    (err : Option (List Char)) (hr1 : r1 ≠ 0) (hadd : Trie.add t P r1 = some (t1, err)) :
    Trie.add t1 P r2 = some (t1, some ("handler already exists for ".toList ++ P)) := by
  simp only [Trie.add, Option.map_eq_some'] at hadd
  obtain ⟨o, ho, hoe⟩ := hadd
  simp only [Prod.mk.injEq] at hoe
  have h2 := add_loop_twice P r1 r2 hr1 _ P t.head_ o ho
  rw [← hoe.1]
  simp only [Trie.add, h2, Option.map_some', alreadyExists]

theorem add_same_pattern_twice_throws_witness :
    (2 ≠ 0 ∧ Trie.add Trie.init "/a/<int>".toList 2 = some (exampleTrie1, none)) ∧
    Trie.add exampleTrie1 "/a/<int>".toList 3 =
      some (exampleTrie1, some ("handler already exists for ".toList ++ "/a/<int>".toList)) :=
  ⟨⟨by decide, exampleTrie1_add⟩,
    add_same_pattern_twice_throws Trie.init exampleTrie1 "/a/<int>".toList 2 3 none (by decide)
      exampleTrie1_add⟩

/-- C6. On a pattern with a `<` that starts none of the seven recognized tokens,
`Trie::add` raises no error: its loop stays at that `<` for ever, so that no number of
iterations brings the call to an end, neither by a return nor by a throw. -/
theorem add_unrecognized_token_never_returns (url : List Char) (rule_index : Nat) (node : Node)
    (h : HasBadOpen url) : ∀ fuel, Trie.add_loop url rule_index fuel url node = none :=
  fun fuel => add_loop_badOpen url rule_index fuel url node h

theorem add_unrecognized_token_never_returns_witness :
    HasBadOpen "/a/<foo>".toList ∧
    ∀ fuel, Trie.add_loop "/a/<foo>".toList 2 fuel "/a/<foo>".toList Trie.init.head_ = none :=
  ⟨⟨"/a/".toList, "foo>".toList, rfl, by decide⟩,
    add_unrecognized_token_never_returns "/a/<foo>".toList 2 Trie.init.head_
      ⟨"/a/".toList, "foo>".toList, rfl, by decide⟩⟩

/-- C8. Let `P` be a pattern without `<` that does not end in `/`, registered as the
only rule of a router for a method. Then the registration returns without an error and
the trie of the method returns 0 for the URL `P + "/"`; and, when `P` is not empty,
`Router::validate` returns without an error and the trie of the method still returns 0
for that URL. -/
theorem no_match_with_added_slash (strtod : StrtodFn)
    (check : BaseRule → BaseRule × Option (List Char)) (ro : BaseRule) (m : Nat)
    (hm : m < InternalMethodCount) (hallow : ro.allows m = true)
    (hcheck : check ro = (ro, none)) (hlit : '<' ∉ ro.rule_)
    (hend : ro.rule_.getLast? ≠ some '/') :
    (∃ router', (Router.init [ro]).internal_add_rule_object ro.rule_ ro = some (router', none) ∧
      (Trie.find strtod (router'.per_methods_ m).trie (ro.rule_ ++ ['/'])).1 = 0) ∧
    (ro.rule_ ≠ [] →
      ∃ router', Router.validate check (Router.init [ro]) = some (router', none) ∧
        (Trie.find strtod (router'.per_methods_ m).trie (ro.rule_ ++ ['/'])).1 = 0) := by
  obtain ⟨t, hreg, hraw, hsimple, honly⟩ := register_init_literal ro hlit hend
  have hfind : (Trie.find strtod t (ro.rule_ ++ ['/'])).1 = 0 := by
    apply find_none
    intro path r hr hmem
    rw [(honly path r hr hmem).1, matchPath_literal]
    simp
  obtain ⟨r1, hr1⟩ := forEach_on_per_method_ok (PerMethod.register ro) _ (methods_nodup ro)
    (Router.init [ro]) (fun m' _ => ⟨_, hreg⟩)
  have hr1' : (Router.init [ro]).internal_add_rule_object ro.rule_ ro = some (r1, none) := hr1
  have hpm : ∀ m', (m' < InternalMethodCount ∧ ro.allows m' = true →
        r1.per_methods_ m' = ⟨[none, none, some ro], t⟩) ∧
      (¬ (m' < InternalMethodCount ∧ ro.allows m' = true) →
        r1.per_methods_ m' = PerMethod.init) := by
    intro m'
    obtain ⟨g1, g2⟩ := internal_add_rule_object_ok _ r1 ro hr1' m'
    refine ⟨fun h => ?_, fun h => g2 h⟩
    have := g1 h
    rw [show (Router.init [ro]).per_methods_ m' = PerMethod.init from rfl, hreg] at this
    simp only [Option.some.injEq, Prod.mk.injEq, and_true] at this
    exact this.symm
  have htrie : (r1.per_methods_ m).trie = t := by rw [(hpm m).1 ⟨hm, hallow⟩]
  refine ⟨⟨r1, hr1', by rw [htrie]; exact hfind⟩, fun hne => ?_⟩
  have hval : ∀ m' ∈ List.range InternalMethodCount,
      ∃ pm, PerMethod.validate (r1.per_methods_ m') = some (pm, none) := by
    intro m' _
    by_cases h : m' < InternalMethodCount ∧ ro.allows m' = true
    · obtain ⟨t', ht', _⟩ := trie_validate_of_simple strtod t (raw_keysOk _ hraw) (hsimple hne)
      exact ⟨⟨[none, none, some ro], t'⟩, by
        rw [(hpm m').1 h]; simp only [PerMethod.validate, ht', Option.map_some']⟩
    · obtain ⟨t', ht', _⟩ := trie_validate_of_simple strtod Trie.init (raw_keysOk _ init_raw)
        init_simple
      exact ⟨⟨[none, none], t'⟩, by
        rw [(hpm m').2 h]
        simp only [PerMethod.validate, PerMethod.init, ht', Option.map_some']⟩
  obtain ⟨router', hrouter'⟩ := forEach_on_per_method_ok PerMethod.validate _
    (List.nodup_range _) r1 hval
  have hset : ({ Router.init [ro] with
      all_rules_ := (Router.init [ro]).all_rules_.set 0 (check ro).1 } : Router) =
      Router.init [ro] := by
    rw [hcheck]; rfl
  have h1 : forEach (fun (x : Nat × BaseRule) => Router.validate_rule check x.1 x.2)
      (Router.init [ro]).all_rules_.enum (Router.init [ro]) = some (r1, none) :=
    (forEach_cons_ok _ (0, ro) [] _ r1).mpr
      ⟨r1, (validate_rule_ok check 0 ro _ r1).mpr
        ⟨by rw [hcheck], by rw [hset, hcheck]; exact hr1'⟩, rfl⟩
  refine ⟨router', (validate_ok check _ router').mpr ⟨r1, h1, hrouter'⟩, ?_⟩
  obtain ⟨g1, _, _⟩ := forEach_on_per_method _ _ (List.nodup_range _) r1 router' hrouter'
  obtain ⟨_, hv⟩ := perMethod_validate_ok _ _ (g1 m (List.mem_range.mpr hm))
  rw [htrie] at hv
  rw [validate_find strtod t _ (raw_keysOk _ hraw) hv]
  exact hfind

theorem no_match_with_added_slash_witness :
    (0 < InternalMethodCount ∧ (exampleRule "/foo".toList).allows 0 = true ∧
      checkNone (exampleRule "/foo".toList) = (exampleRule "/foo".toList, none) ∧
      '<' ∉ (exampleRule "/foo".toList).rule_ ∧
      (exampleRule "/foo".toList).rule_.getLast? ≠ some '/') ∧
    ((∃ router', (Router.init [exampleRule "/foo".toList]).internal_add_rule_object
          (exampleRule "/foo".toList).rule_ (exampleRule "/foo".toList) = some (router', none) ∧
        (Trie.find strtodNone (router'.per_methods_ 0).trie
          ((exampleRule "/foo".toList).rule_ ++ ['/'])).1 = 0) ∧
      ((exampleRule "/foo".toList).rule_ ≠ [] →
        ∃ router', Router.validate checkNone (Router.init [exampleRule "/foo".toList]) =
            some (router', none) ∧
          (Trie.find strtodNone (router'.per_methods_ 0).trie
            ((exampleRule "/foo".toList).rule_ ++ ['/'])).1 = 0)) :=
  ⟨⟨by decide, by decide, rfl, by decide, by decide⟩,
    no_match_with_added_slash strtodNone checkNone (exampleRule "/foo".toList) 0 (by decide)
      (by decide) rfl (by decide) (by decide)⟩

/-- C9. The `INT` branch of `Trie::find` enters the child iff the rest of the URL is an
optional single `+` or `-`, then at least one decimal digit, then a remainder that does
not start with a digit (so the digits are the longest such prefix), and the number so
written lies in the signed 64-bit range; the child is then entered with exactly that
number appended to `int_params` and with the remainder as the rest of the URL. In every
other case the child is skipped: so for `abc`, for `+` or `-` alone and for a number
out of range, while `-5/x` binds -5 and goes on at `/x`. -/
theorem int_param_child (strtod : StrtodFn) (key rest : List Char)
    (params params' : routing_params) (rest' : List Char) :
    (enter strtod ParamType.INT key rest params = some (params', rest') ↔
      ∃ sign ds, rest = sign ++ ds ++ rest' ∧ (sign = [] ∨ sign = ['+'] ∨ sign = ['-']) ∧
        ds ≠ [] ∧ (∀ c ∈ ds, isdigit c = true) ∧
        (∀ c, rest'.head? = some c → isdigit c = false) ∧
        -(2 ^ 63 : Int) ≤ signedValue sign ds ∧ signedValue sign ds ≤ 2 ^ 63 - 1 ∧
        params' = { params with int_params := params.int_params ++ [signedValue sign ds] }) ∧
    enter strtod ParamType.INT key "abc".toList routing_params.empty = none ∧
    enter strtod ParamType.INT key "+".toList routing_params.empty = none ∧
    enter strtod ParamType.INT key "-".toList routing_params.empty = none ∧
    enter strtod ParamType.INT key "9223372036854775808".toList routing_params.empty = none ∧
    enter strtod ParamType.INT key "-9223372036854775808".toList routing_params.empty =
      some (⟨[-9223372036854775808], [], [], []⟩, []) ∧
    enter strtod ParamType.INT key "-5/x".toList routing_params.empty =
      some (⟨[-5], [], [], []⟩, "/x".toList) :=
  ⟨int_child_iff strtod key rest params params' rest', rfl, rfl, rfl, rfl, rfl, rfl⟩

/-- C10. The `UINT` branch of `Trie::find` enters the child iff the rest of the URL is an
optional `+`, then at least one decimal digit, then a remainder that does not start
with a digit, and the number so written is below `2^64`; the child is then entered with
that number appended to `uint_params` and with the remainder as the rest of the URL. A
rest of the URL that starts with `-` never enters the child, and a number of `2^64` or
more is skipped. -/
theorem uint_param_child (strtod : StrtodFn) (key rest : List Char)
    (params params' : routing_params) (rest' : List Char) :
    (enter strtod ParamType.UINT key rest params = some (params', rest') ↔
      ∃ sign ds, rest = sign ++ ds ++ rest' ∧ (sign = [] ∨ sign = ['+']) ∧
        ds ≠ [] ∧ (∀ c ∈ ds, isdigit c = true) ∧
        (∀ c, rest'.head? = some c → isdigit c = false) ∧
        decimalValue ds < 2 ^ 64 ∧
        params' = { params with uint_params := params.uint_params ++ [decimalValue ds] }) ∧
    enter strtod ParamType.UINT key ('-' :: rest) params = none ∧
    enter strtod ParamType.UINT key "18446744073709551616".toList routing_params.empty = none ∧
    enter strtod ParamType.UINT key "+18446744073709551615".toList routing_params.empty =
      some (⟨[], [18446744073709551615], [], []⟩, []) :=
  ⟨uint_child_iff strtod key rest params params' rest', uint_child_minus strtod key rest params,
    rfl, rfl⟩

/-- C11. The `STRING` branch of `Trie::find` enters the child iff the rest of the URL is a
non-empty text without `/` followed by a remainder that is empty or starts with `/` (so
the text runs up to the next `/` or to the end of the URL); the child is then entered
with exactly that text appended to `string_params` and with the remainder, which starts
at the terminator, as the rest of the URL. The child is skipped iff the rest of the URL
is empty or starts with `/`. So `abc/def` binds `abc` and goes on at `/def`. -/
theorem string_param_child (strtod : StrtodFn) (key rest : List Char)
    (params params' : routing_params) (rest' : List Char) :
    (enter strtod ParamType.STRING key rest params = some (params', rest') ↔
      ∃ seg, rest = seg ++ rest' ∧ seg ≠ [] ∧ '/' ∉ seg ∧
        (rest' = [] ∨ rest'.head? = some '/') ∧
        params' = { params with string_params := params.string_params ++ [seg] }) ∧
    (enter strtod ParamType.STRING key rest params = none ↔
      rest = [] ∨ rest.head? = some '/') ∧
    enter strtod ParamType.STRING key "abc/def".toList routing_params.empty =
      some (⟨[], [], [], ["abc".toList]⟩, "/def".toList) ∧
    enter strtod ParamType.STRING key "abc".toList routing_params.empty =
      some (⟨[], [], [], ["abc".toList]⟩, []) :=
  ⟨string_child_iff strtod key rest params params' rest',
    string_child_skip strtod key rest params, rfl, rfl⟩

/-- C12. The `PATH` branch of `Trie::find` enters the child iff the rest of the URL is not
empty; the child is then entered with the whole rest of the URL, `/` characters
included, appended to `string_params`, and with nothing left of the URL. In the trie
that holds `/files/<path>` under rule id 2, before and after `validate`, `find` returns
2 and `a/b/c.txt` for `/files/a/b/c.txt`, and 0 for `/files/`. -/
theorem path_param_child (strtod : StrtodFn) (key rest : List Char)
    (params params' : routing_params) (rest' : List Char) :
    (enter strtod ParamType.PATH key rest params = some (params', rest') ↔
      rest ≠ [] ∧ rest' = [] ∧
        params' = { params with string_params := params.string_params ++ [rest] }) ∧
    enter strtod ParamType.PATH key [] params = none ∧
    (Trie.add Trie.init "/files/<path>".toList 2).map
        (fun x => (x.2, Trie.find strtodNone x.1 "/files/a/b/c.txt".toList,
          Trie.find strtodNone x.1 "/files/".toList)) =
      some (none, (2, ⟨[], [], [], ["a/b/c.txt".toList]⟩), (0, routing_params.empty)) ∧
    ((Trie.add Trie.init "/files/<path>".toList 2).bind (fun x => Trie.validate x.1)).map
        (fun x => (x.2, Trie.find strtodNone x.1 "/files/a/b/c.txt".toList,
          Trie.find strtodNone x.1 "/files/".toList)) =
      some (none, (2, ⟨[], [], [], ["a/b/c.txt".toList]⟩), (0, routing_params.empty)) :=
  ⟨path_child_iff strtod key rest params params' rest', rfl, by decide, by decide⟩

/-- C13. For every trie and every URL, when the top-level call `find(url)` returns the rule
id 0, the parameters it returns are the empty `routing_params`: all four sequences are
empty. -/
theorem find_zero_params_empty (strtod : StrtodFn) (t : Trie) (url : List Char)
    (h : (Trie.find strtod t url).1 = 0) :
    (Trie.find strtod t url).2 = routing_params.empty ∧
      (Trie.find strtod t url).2.int_params = [] ∧
      (Trie.find strtod t url).2.uint_params = [] ∧
      (Trie.find strtod t url).2.double_params = [] ∧
      (Trie.find strtod t url).2.string_params = [] := by
  have := find_zero_empty strtod t.head_ url h
  refine ⟨this, ?_, ?_, ?_, ?_⟩ <;> · simp only [Trie.find, this]; rfl

theorem find_zero_params_empty_witness :
    (Trie.find strtodNone exampleTrie2 "/a/".toList).1 = 0 ∧
    ((Trie.find strtodNone exampleTrie2 "/a/".toList).2 = routing_params.empty ∧
      (Trie.find strtodNone exampleTrie2 "/a/".toList).2.int_params = [] ∧
      (Trie.find strtodNone exampleTrie2 "/a/".toList).2.uint_params = [] ∧
      (Trie.find strtodNone exampleTrie2 "/a/".toList).2.double_params = [] ∧
      (Trie.find strtodNone exampleTrie2 "/a/".toList).2.string_params = []) :=
  ⟨by decide, find_zero_params_empty strtodNone exampleTrie2 "/a/".toList (by decide)⟩

/-- C15. For every list of parameter types `Args` of a handler and every bound parameters,
the argument that `TaggedRule::handle` passes at position `i` is the element of the
sequence for the type at position `i`, at the index that is the number of earlier
positions with the same type. Hence, when the bound parameters hold the values `vs`,
each in the sequence of its type and in the order of `vs`, as `find` returns the values
of the tokens of a pattern, and the types of the handler are the types of these values
in the same order, the arguments are the values `vs`, argument `i` being the value of the
`i`-th token. -/
theorem binder_positional_arguments (Args : List ArgType) (params : routing_params) :
    (∀ i : Nat, (call 0 0 0 0 Args [])[i]? =
      Args[i]?.map (fun T => call_pair.mk T ((Args.take i).count T))) ∧
    (∀ i : Nat, (TaggedRule.handle_args Args params)[i]? =
      Args[i]?.map (fun T => params.get T ((Args.take i).count T))) ∧
    (∀ vs : List Value,
      TaggedRule.handle_args (vs.map Value.type) (collect vs) = vs.map some) ∧
    TaggedRule.handle_args [ArgType.string, ArgType.int64_t, ArgType.string]
        ⟨[7], [], [], ["a".toList, "b".toList]⟩ =
      [some (Value.string "a".toList), some (Value.int64_t 7), some (Value.string "b".toList)] := by
  have h1 : ∀ i : Nat, (call 0 0 0 0 Args [])[i]? =
      Args[i]?.map (fun T => call_pair.mk T ((Args.take i).count T)) := by
    intro i
    rw [call_getElem]
    cases Args[i]? with
    | none => rfl
    | some T => cases T <;> simp [counterOf]
  refine ⟨h1, fun i => ?_, fun vs => ?_, by decide⟩
  · simp only [TaggedRule.handle_args, List.getElem?_map, h1]
    cases Args[i]? <;> rfl
  · have := handle_args_collect_aux vs []
    simpa [TaggedRule.handle_args, collect] using this

/-- C16. For every request that reaches the lookup (its method lies in the enumeration and
is not OPTIONS; a HEAD request is looked up as GET): when the trie of the effective
method returns 0 for the URL and the trie of some method returns a non-zero id for it,
`Router::handle` returns with the status code 405, without headers and without a body,
and has called no handler, whether a catch-all handler is registered or not. So it is
for a GET request on the URL of a rule that is registered for POST only. -/
theorem handle_method_not_allowed (M : HTTPMethod) (strtod : StrtodFn) (H : Handlers)
    (router : Router) (req : request) (res : response) (m : Nat)
    (hm : effective_method M req = some m)
    (h0 : (Trie.find strtod (router.per_methods_ m).trie req.url).1 = 0)
    (hother : ∃ i, i < InternalMethodCount ∧
      (Trie.find strtod (router.per_methods_ i).trie req.url).1 ≠ 0) :
    ∃ r, Router.handle M strtod H router req res = some r ∧ r.res.code = 405 ∧
      r.res.headers = [] ∧ r.res.body = [] ∧ r.thrown = none ∧ r.calls = [] := by
  rw [handle_dispatch M strtod H router req res m hm,
    dispatch_405 strtod H router m req _ h0 hother]
  exact ⟨_, rfl, rfl, rfl, rfl, rfl, rfl⟩

theorem handle_method_not_allowed_witness :
    (effective_method specMethods ⟨0, "/submit".toList, []⟩ = some 0 ∧
      (Trie.find strtodNone ((validated [postOnlyRule "/submit".toList]).per_methods_ 0).trie
        "/submit".toList).1 = 0 ∧
      ∃ i, i < InternalMethodCount ∧
        (Trie.find strtodNone ((validated [postOnlyRule "/submit".toList]).per_methods_ i).trie
          "/submit".toList).1 ≠ 0) ∧
    ∃ r, Router.handle specMethods strtodNone exampleHandlers
        (validated [postOnlyRule "/submit".toList]) ⟨0, "/submit".toList, []⟩
        (response.ofCode 200) = some r ∧ r.res.code = 405 ∧
      r.res.headers = [] ∧ r.res.body = [] ∧ r.thrown = none ∧ r.calls = [] :=
  ⟨⟨by decide, by decide, 1, by decide, by decide⟩,
    handle_method_not_allowed specMethods strtodNone exampleHandlers
      (validated [postOnlyRule "/submit".toList]) ⟨0, "/submit".toList, []⟩
      (response.ofCode 200) 0 (by decide) (by decide) ⟨1, by decide, by decide⟩⟩

/-- C17. For every request that reaches the lookup (its method lies in the enumeration and
is not OPTIONS) and whose URL the trie of no method matches: when a catch-all handler is
registered, `Router::handle` calls it, once, with the request and the response, and calls
nothing else, the response being what the handler leaves (ended by `res.end()` unless the
handler throws, in which case the exception leaves `handle`); when none is registered,
`handle` calls no handler and returns with the status code 404, without headers and
without a body. -/
theorem handle_no_match (M : HTTPMethod) (strtod : StrtodFn) (H : Handlers)
    (router : Router) (req : request) (res : response) (m : Nat) (hM : M.Valid)
    (hm : effective_method M req = some m)
    (hnone : ∀ i, i < InternalMethodCount →
      (Trie.find strtod (router.per_methods_ i).trie req.url).1 = 0) :
    (∀ handler_, H.catchall = some handler_ →
      ∃ r, Router.handle M strtod H router req res = some r ∧
        r.calls = [Call.catchall req (marked M req res)] ∧
        r.thrown = (handler_ req (marked M req res)).thrown ∧
        r.res = if (handler_ req (marked M req res)).thrown = none
          then (handler_ req (marked M req res)).res.end_
          else (handler_ req (marked M req res)).res) ∧
    (H.catchall = none →
      ∃ r, Router.handle M strtod H router req res = some r ∧ r.calls = [] ∧
        r.thrown = none ∧ r.res.code = 404 ∧ r.res.headers = [] ∧ r.res.body = []) := by
  rw [handle_dispatch M strtod H router req res m hm,
    dispatch_no_match strtod H router m req _ (effective_method_lt M hM req m hm) hnone]
  constructor
  · intro handler_ hh
    rw [hh]
    simp only
    cases ht : (handler_ req (marked M req res)).thrown with
    | none => exact ⟨_, rfl, rfl, rfl, by simp⟩
    | some e => exact ⟨_, rfl, rfl, rfl, by simp⟩
  · intro hh
    rw [hh]
    exact ⟨_, rfl, rfl, rfl, rfl, rfl, rfl⟩

theorem handle_no_match_witness :
    (specMethods.Valid ∧
      effective_method specMethods ⟨0, "/nothing".toList, []⟩ = some 0 ∧
      ∀ i, i < InternalMethodCount →
        (Trie.find strtodNone ((validated [postOnlyRule "/submit".toList]).per_methods_ i).trie
          "/nothing".toList).1 = 0) ∧
    ((∀ handler_, exampleHandlers.catchall = some handler_ →
      ∃ r, Router.handle specMethods strtodNone exampleHandlers
          (validated [postOnlyRule "/submit".toList]) ⟨0, "/nothing".toList, []⟩
          (response.ofCode 200) = some r ∧
        r.calls = [Call.catchall ⟨0, "/nothing".toList, []⟩
          (marked specMethods ⟨0, "/nothing".toList, []⟩ (response.ofCode 200))] ∧
        r.thrown = (handler_ ⟨0, "/nothing".toList, []⟩
          (marked specMethods ⟨0, "/nothing".toList, []⟩ (response.ofCode 200))).thrown ∧
        r.res = if (handler_ ⟨0, "/nothing".toList, []⟩
            (marked specMethods ⟨0, "/nothing".toList, []⟩ (response.ofCode 200))).thrown = none
          then (handler_ ⟨0, "/nothing".toList, []⟩
            (marked specMethods ⟨0, "/nothing".toList, []⟩ (response.ofCode 200))).res.end_
          else (handler_ ⟨0, "/nothing".toList, []⟩
            (marked specMethods ⟨0, "/nothing".toList, []⟩ (response.ofCode 200))).res) ∧
    (exampleHandlers.catchall = none →
      ∃ r, Router.handle specMethods strtodNone exampleHandlers
          (validated [postOnlyRule "/submit".toList]) ⟨0, "/nothing".toList, []⟩
          (response.ofCode 200) = some r ∧ r.calls = [] ∧
        r.thrown = none ∧ r.res.code = 404 ∧ r.res.headers = [] ∧ r.res.body = [])) :=
  ⟨⟨by decide, by decide, by decide⟩,
    handle_no_match specMethods strtodNone exampleHandlers
      (validated [postOnlyRule "/submit".toList]) ⟨0, "/nothing".toList, []⟩
      (response.ofCode 200) 0 (by decide) (by decide) (by decide)⟩

/-- C18. For every request that reaches the lookup (its method lies in the enumeration and
is not OPTIONS): when the trie of the effective method returns the rule id 1 for the URL,
in a per-method table that has its two reserved positions, `Router::handle` returns with
the status code 301, without a body, and has called no handler; the only header is
`Location`, equal to `url + "/"` when `get_header_value("Host")` is empty, as it is when
the request has no `Host` header, and to `"http://" + Host + url + "/"` otherwise. -/
theorem handle_redirect_trailing_slash (M : HTTPMethod) (strtod : StrtodFn) (H : Handlers)
    (router : Router) (req : request) (res : response) (m : Nat)
    (hm : effective_method M req = some m)
    (h1 : (Trie.find strtod (router.per_methods_ m).trie req.url).1 =
      RULE_SPECIAL_REDIRECT_SLASH)
    (hsize : 2 ≤ (router.per_methods_ m).rules.length) :
    (∃ r, Router.handle M strtod H router req res = some r ∧ r.res.code = 301 ∧
      r.res.body = [] ∧ r.thrown = none ∧ r.calls = [] ∧
      r.res.headers = [("Location".toList,
        if req.get_header_value "Host".toList = [] then req.url ++ "/".toList
        else "http://".toList ++ req.get_header_value "Host".toList ++ req.url ++
          "/".toList)]) ∧
    ((∀ x ∈ req.headers, x.1.map Char.toLower ≠ "host".toList) →
      req.get_header_value "Host".toList = []) := by
  rw [handle_dispatch M strtod H router req res m hm,
    dispatch_redirect strtod H router m req _ h1 hsize]
  exact ⟨⟨_, rfl, rfl, rfl, rfl, rfl, rfl⟩, fun h => get_header_value_absent req _ h⟩

theorem handle_redirect_trailing_slash_witness :
    (effective_method specMethods ⟨0, "/about".toList,
        [("Host".toList, "example.com".toList)]⟩ = some 0 ∧
      (Trie.find strtodNone ((validated [exampleRule "/about/".toList]).per_methods_ 0).trie
        "/about".toList).1 = RULE_SPECIAL_REDIRECT_SLASH ∧
      2 ≤ ((validated [exampleRule "/about/".toList]).per_methods_ 0).rules.length) ∧
    ((∃ r, Router.handle specMethods strtodNone exampleHandlers
        (validated [exampleRule "/about/".toList])
        ⟨0, "/about".toList, [("Host".toList, "example.com".toList)]⟩
        (response.ofCode 200) = some r ∧ r.res.code = 301 ∧
      r.res.body = [] ∧ r.thrown = none ∧ r.calls = [] ∧
      r.res.headers = [("Location".toList,
        if request.get_header_value ⟨0, "/about".toList,
            [("Host".toList, "example.com".toList)]⟩ "Host".toList = []
        then "/about".toList ++ "/".toList
        else "http://".toList ++ request.get_header_value ⟨0, "/about".toList,
            [("Host".toList, "example.com".toList)]⟩ "Host".toList ++ "/about".toList ++
          "/".toList)]) ∧
    ((∀ x ∈ [("Host".toList, "example.com".toList)],
        x.1.map Char.toLower ≠ "host".toList) →
      request.get_header_value ⟨0, "/about".toList,
        [("Host".toList, "example.com".toList)]⟩ "Host".toList = [])) :=
  ⟨⟨by decide, by decide, by decide⟩,
    handle_redirect_trailing_slash specMethods strtodNone exampleHandlers
      (validated [exampleRule "/about/".toList])
      ⟨0, "/about".toList, [("Host".toList, "example.com".toList)]⟩
      (response.ofCode 200) 0 (by decide) (by decide) (by decide)⟩

/-- C19, counterexample. In the router that holds the rule `/a` for GET, with a handler
that answers a GET request with 200 and any other request with 204, `Router::handle`
ends with the status code 204 on the HEAD request for `/a` and with 200 on the GET
request: the handler is called with the request itself, whose method is HEAD. And with a
handler that takes the mark off the response, the HEAD request ends with
`is_head_response` false. -/
theorem head_as_get_counterexample :
    (Router.handle specMethods strtodNone methodAwareHandlers
        (validated [exampleRule "/a".toList]) ⟨5, "/a".toList, []⟩ (response.ofCode 200)).map
      (fun r => (r.res.code, r.thrown)) = some (204, none) ∧
    (Router.handle specMethods strtodNone methodAwareHandlers
        (validated [exampleRule "/a".toList]) ⟨0, "/a".toList, []⟩ (response.ofCode 200)).map
      (fun r => (r.res.code, r.thrown)) = some (200, none) ∧
    (Router.handle specMethods strtodNone unmarkingHandlers
        (validated [exampleRule "/a".toList]) ⟨5, "/a".toList, []⟩ (response.ofCode 200)).map
      (fun r => (r.res.code, r.res.is_head_response)) = some (200, false) := by
  refine ⟨?_, ?_, ?_⟩ <;> decide

/-- C19, amended. For every router, URL, request headers and response: `Router::handle` on
the HEAD request ends with the same status code and the same headers as on the GET
request for the same URL, with the same exception leaving the call or none, and with
`is_head_response` set, provided that the handlers do not tell the two requests apart
(each leaves the same status code and headers and ends in the same way on the HEAD request
with the marked response as on the GET request, and leaves the mark), or that the GET
request is answered without a call of a handler (404 without a catch-all handler, 405,
301). -/
theorem head_same_as_get (M : HTTPMethod) (strtod : StrtodFn) (H : Handlers)
    (router : Router) (url : List Char) (headers : List (List Char × List Char))
    (res : response) (hM : M.Valid)
    (hH : H.MethodBlind M ∨
      ∃ rg, Router.handle M strtod H router ⟨M.Get, url, headers⟩ res = some rg ∧
        rg.calls = []) :
    HeadAgrees (Router.handle M strtod H router ⟨M.Head, url, headers⟩ res)
      (Router.handle M strtod H router ⟨M.Get, url, headers⟩ res) := by
  rw [handle_get M strtod H router url headers res hM] at hH ⊢
  rw [handle_head M strtod H router url headers res hM]
  exact dispatch_head_agrees M strtod H router url headers res hH

theorem head_same_as_get_witness :
    (specMethods.Valid ∧
      (exampleHandlers.MethodBlind specMethods ∨
        ∃ rg, Router.handle specMethods strtodNone exampleHandlers
            (validated [exampleRule "/a".toList]) ⟨specMethods.Get, "/a".toList, []⟩
            (response.ofCode 200) = some rg ∧ rg.calls = [])) ∧
    HeadAgrees
      (Router.handle specMethods strtodNone exampleHandlers
        (validated [exampleRule "/a".toList]) ⟨specMethods.Head, "/a".toList, []⟩
        (response.ofCode 200))
      (Router.handle specMethods strtodNone exampleHandlers
        (validated [exampleRule "/a".toList]) ⟨specMethods.Get, "/a".toList, []⟩
        (response.ofCode 200)) :=
  ⟨⟨by decide, Or.inl (exampleHandlers_methodBlind specMethods)⟩,
    head_same_as_get specMethods strtodNone exampleHandlers
      (validated [exampleRule "/a".toList]) "/a".toList [] (response.ofCode 200) (by decide)
      (Or.inl (exampleHandlers_methodBlind specMethods))⟩

/-- C20. On an OPTIONS request whose URL is exactly `/*`, `Router::handle` calls no handler
and returns with the status code 204, without a body, with `manual_length_header` set
and with the single header `Allow`, whose value is `OPTIONS, HEAD` followed by `, ` and
the name of the method for each method below `InternalMethodCount`, in ascending order,
whose trie is not empty. With `/a` registered for GET and `/b` for POST the value is
`OPTIONS, HEAD, GET, POST`. -/
theorem options_star_allow (M : HTTPMethod) (strtod : StrtodFn) (H : Handlers)
    (router : Router) (req : request) (res : response) (hM : M.Valid)
    (hmeth : req.method = M.Options) (hurl : req.url = "/*".toList) :
    (∃ r, Router.handle M strtod H router req res = some r ∧ r.res.code = 204 ∧
      r.res.headers = [("Allow".toList, "OPTIONS, HEAD".toList ++
        ((List.range InternalMethodCount).filter
          (fun i => !(router.per_methods_ i).trie.is_empty)).flatMap
            (fun i => ", ".toList ++ M.method_name i))] ∧
      r.res.manual_length_header = true ∧ r.res.body = [] ∧ r.thrown = none ∧ r.calls = []) ∧
    (Router.handle specMethods strtodNone exampleHandlers
        (validated [exampleRule "/a".toList, postOnlyRule "/b".toList])
        ⟨6, "/*".toList, []⟩ (response.ofCode 200)).map
      (fun r => (r.res.code, r.res.headers, r.res.manual_length_header, r.calls)) =
      some (204, [("Allow".toList, "OPTIONS, HEAD, GET, POST".toList)], true, []) := by
  refine ⟨?_, by decide⟩
  rw [handle_options_star M strtod H router req res hM hmeth hurl]
  refine ⟨_, rfl, rfl, ?_, rfl, rfl, rfl, rfl⟩
  simp only [Router.respond_allow, response.end_, response.set_header, response.assign,
    response.ofCode, take_allow, List.filter_nil, List.nil_append]

theorem options_star_allow_witness :
    (specMethods.Valid ∧ (6 : Nat) = specMethods.Options ∧ "/*".toList = "/*".toList) ∧
    ((∃ r, Router.handle specMethods strtodNone exampleHandlers
        (validated [exampleRule "/a".toList, postOnlyRule "/b".toList])
        ⟨6, "/*".toList, []⟩ (response.ofCode 200) = some r ∧ r.res.code = 204 ∧
      r.res.headers = [("Allow".toList, "OPTIONS, HEAD".toList ++
        ((List.range InternalMethodCount).filter
          (fun i => !((validated [exampleRule "/a".toList,
            postOnlyRule "/b".toList]).per_methods_ i).trie.is_empty)).flatMap
            (fun i => ", ".toList ++ specMethods.method_name i))] ∧
      r.res.manual_length_header = true ∧ r.res.body = [] ∧ r.thrown = none ∧ r.calls = []) ∧
    (Router.handle specMethods strtodNone exampleHandlers
        (validated [exampleRule "/a".toList, postOnlyRule "/b".toList])
        ⟨6, "/*".toList, []⟩ (response.ofCode 200)).map
      (fun r => (r.res.code, r.res.headers, r.res.manual_length_header, r.calls)) =
      some (204, [("Allow".toList, "OPTIONS, HEAD, GET, POST".toList)], true, [])) :=
  ⟨⟨by decide, rfl, rfl⟩,
    options_star_allow specMethods strtodNone exampleHandlers
      (validated [exampleRule "/a".toList, postOnlyRule "/b".toList])
      ⟨6, "/*".toList, []⟩ (response.ofCode 200) (by decide) rfl rfl⟩

/-- C21. On an OPTIONS request whose URL is not `/*`, `Router::handle` calls no handler.
When the trie of at least one method below `InternalMethodCount` returns a non-zero rule
id for the URL, it returns with the status code 204, without a body, with
`manual_length_header` set and with the single header `Allow`, whose value is
`OPTIONS, HEAD, ` followed by the names of exactly these methods, in ascending order of
the methods, separated by `, `. When no trie matches, it returns with the status code
404, without headers and without a body. With `/a` registered for GET and POST and `/b`
for POST, the value for `/a` is `OPTIONS, HEAD, GET, POST` and for `/b` it is
`OPTIONS, HEAD, POST`. -/
theorem options_url_allow (M : HTTPMethod) (strtod : StrtodFn) (H : Handlers)
    (router : Router) (req : request) (res : response) (hM : M.Valid)
    (hmeth : req.method = M.Options) (hurl : req.url ≠ "/*".toList) :
    (Router.matching_methods strtod router req.url ≠ [] →
      ∃ r, Router.handle M strtod H router req res = some r ∧ r.res.code = 204 ∧
        r.res.headers = [("Allow".toList, "OPTIONS, HEAD, ".toList ++
          ", ".toList.intercalate
            ((Router.matching_methods strtod router req.url).map M.method_name))] ∧
        r.res.manual_length_header = true ∧ r.res.body = [] ∧ r.thrown = none ∧
        r.calls = []) ∧
    (Router.matching_methods strtod router req.url = [] →
      ∃ r, Router.handle M strtod H router req res = some r ∧ r.res.code = 404 ∧
        r.res.headers = [] ∧ r.res.body = [] ∧ r.thrown = none ∧ r.calls = []) ∧
    (∀ i, i ∈ Router.matching_methods strtod router req.url ↔
      i < InternalMethodCount ∧
        (Trie.find strtod (router.per_methods_ i).trie req.url).1 ≠ 0) ∧
    (Router.matching_methods strtod router req.url).Sorted (fun a b => a < b) ∧
    (Router.handle specMethods strtodNone exampleHandlers
        (validated [⟨"/a".toList, 3, []⟩, postOnlyRule "/b".toList])
        ⟨6, "/a".toList, []⟩ (response.ofCode 200)).map
      (fun r => (r.res.code, r.res.headers, r.calls)) =
      some (204, [("Allow".toList, "OPTIONS, HEAD, GET, POST".toList)], []) ∧
    (Router.handle specMethods strtodNone exampleHandlers
        (validated [⟨"/a".toList, 3, []⟩, postOnlyRule "/b".toList])
        ⟨6, "/b".toList, []⟩ (response.ofCode 200)).map
      (fun r => (r.res.code, r.res.headers, r.calls)) =
      some (204, [("Allow".toList, "OPTIONS, HEAD, POST".toList)], []) ∧
    (Router.handle specMethods strtodNone exampleHandlers
        (validated [⟨"/a".toList, 3, []⟩, postOnlyRule "/b".toList])
        ⟨6, "/c".toList, []⟩ (response.ofCode 200)).map
      (fun r => (r.res.code, r.res.headers, r.calls)) = some (404, [], []) := by
  rw [handle_options_url M strtod H router req res hM hmeth hurl]
  refine ⟨fun h => ?_, fun h => ?_, fun i => ?_, ?_, by decide, by decide, by decide⟩
  · rw [if_pos h]
    refine ⟨_, rfl, rfl, ?_, rfl, rfl, rfl, rfl⟩
    simp only [Router.respond_allow, response.end_, response.set_header, response.assign,
      response.ofCode, take_allow, List.filter_nil, List.nil_append]
    have h0 : "OPTIONS, HEAD, ".toList = "OPTIONS, HEAD".toList ++ ", ".toList := by decide
    rw [h0, List.append_assoc, ← flatMap_intercalate M.method_name _ h]
    rfl
  · rw [if_neg (by simpa using h)]
    exact ⟨_, rfl, rfl, rfl, rfl, rfl, rfl⟩
  · simp [Router.matching_methods, List.mem_filter]
  · exact (List.sorted_lt_range _).filter _

theorem options_url_allow_witness :
    (specMethods.Valid ∧ (6 : Nat) = specMethods.Options ∧ "/b".toList ≠ "/*".toList) ∧
    ((Router.matching_methods strtodNone
        (validated [⟨"/a".toList, 3, []⟩, postOnlyRule "/b".toList]) "/b".toList ≠ [] →
      ∃ r, Router.handle specMethods strtodNone exampleHandlers
          (validated [⟨"/a".toList, 3, []⟩, postOnlyRule "/b".toList])
          ⟨6, "/b".toList, []⟩ (response.ofCode 200) = some r ∧ r.res.code = 204 ∧
        r.res.headers = [("Allow".toList, "OPTIONS, HEAD, ".toList ++
          ", ".toList.intercalate
            ((Router.matching_methods strtodNone
              (validated [⟨"/a".toList, 3, []⟩, postOnlyRule "/b".toList])
              "/b".toList).map specMethods.method_name))] ∧
        r.res.manual_length_header = true ∧ r.res.body = [] ∧ r.thrown = none ∧
        r.calls = []) ∧
    (Router.matching_methods strtodNone
        (validated [⟨"/a".toList, 3, []⟩, postOnlyRule "/b".toList]) "/b".toList = [] →
      ∃ r, Router.handle specMethods strtodNone exampleHandlers
          (validated [⟨"/a".toList, 3, []⟩, postOnlyRule "/b".toList])
          ⟨6, "/b".toList, []⟩ (response.ofCode 200) = some r ∧ r.res.code = 404 ∧
        r.res.headers = [] ∧ r.res.body = [] ∧ r.thrown = none ∧ r.calls = []) ∧
    (∀ i, i ∈ Router.matching_methods strtodNone
        (validated [⟨"/a".toList, 3, []⟩, postOnlyRule "/b".toList]) "/b".toList ↔
      i < InternalMethodCount ∧
        (Trie.find strtodNone
          ((validated [⟨"/a".toList, 3, []⟩, postOnlyRule "/b".toList]).per_methods_ i).trie
          "/b".toList).1 ≠ 0) ∧
    (Router.matching_methods strtodNone
      (validated [⟨"/a".toList, 3, []⟩, postOnlyRule "/b".toList]) "/b".toList).Sorted
        (fun a b => a < b) ∧
    (Router.handle specMethods strtodNone exampleHandlers
        (validated [⟨"/a".toList, 3, []⟩, postOnlyRule "/b".toList])
        ⟨6, "/a".toList, []⟩ (response.ofCode 200)).map
      (fun r => (r.res.code, r.res.headers, r.calls)) =
      some (204, [("Allow".toList, "OPTIONS, HEAD, GET, POST".toList)], []) ∧
    (Router.handle specMethods strtodNone exampleHandlers
        (validated [⟨"/a".toList, 3, []⟩, postOnlyRule "/b".toList])
        ⟨6, "/b".toList, []⟩ (response.ofCode 200)).map
      (fun r => (r.res.code, r.res.headers, r.calls)) =
      some (204, [("Allow".toList, "OPTIONS, HEAD, POST".toList)], []) ∧
    (Router.handle specMethods strtodNone exampleHandlers
        (validated [⟨"/a".toList, 3, []⟩, postOnlyRule "/b".toList])
        ⟨6, "/c".toList, []⟩ (response.ofCode 200)).map
      (fun r => (r.res.code, r.res.headers, r.calls)) = some (404, [], [])) :=
  ⟨⟨by decide, rfl, by decide⟩,
    options_url_allow specMethods strtodNone exampleHandlers
      (validated [⟨"/a".toList, 3, []⟩, postOnlyRule "/b".toList])
      ⟨6, "/b".toList, []⟩ (response.ofCode 200) (by decide) rfl (by decide)⟩

/-- C22. For every request that reaches the lookup (its method lies in the enumeration and
is not OPTIONS) and for which the trie of the effective method returns an id of 2 or
more at which the table holds a rule: when the handler of that rule throws, whatever it
has written to the response before, `Router::handle` returns without an exception, the
response has the status code 500, no headers and no body (it has been assigned
`response(500)` and ended), and the handler of the rule is the only handler called. -/
theorem handler_error_gives_500 (M : HTTPMethod) (strtod : StrtodFn) (H : Handlers)
    (router : Router) (req : request) (res : response) (m : Nat) (rule : BaseRule)
    (e : List Char) (hm : effective_method M req = some m)
    (hid : 2 ≤ (Trie.find strtod (router.per_methods_ m).trie req.url).1)
    (hrule : (router.per_methods_ m).rules.get?
      (Trie.find strtod (router.per_methods_ m).trie req.url).1 = some (some rule))
    (hthrow : (H.handle rule req (marked M req res)
      (Trie.find strtod (router.per_methods_ m).trie req.url).2).thrown = some e) :
    ∃ r, Router.handle M strtod H router req res = some r ∧ r.thrown = none ∧
      r.res.code = 500 ∧ r.res.headers = [] ∧ r.res.body = [] ∧
      r.res = ((H.handle rule req (marked M req res)
        (Trie.find strtod (router.per_methods_ m).trie req.url).2).res.assign
          (response.ofCode 500)).end_ ∧
      r.calls = [Call.rule rule req (marked M req res)
        (Trie.find strtod (router.per_methods_ m).trie req.url).2] := by
  rw [handle_dispatch M strtod H router req res m hm,
    dispatch_rule strtod H router m req _ rule hid hrule, hthrow]
  exact ⟨_, rfl, rfl, rfl, rfl, rfl, rfl, rfl⟩

theorem handler_error_gives_500_witness :
    (effective_method specMethods ⟨0, "/a".toList, []⟩ = some 0 ∧
      2 ≤ (Trie.find strtodNone ((validated [exampleRule "/a".toList]).per_methods_ 0).trie
        "/a".toList).1 ∧
      ((validated [exampleRule "/a".toList]).per_methods_ 0).rules.get?
        (Trie.find strtodNone ((validated [exampleRule "/a".toList]).per_methods_ 0).trie
          "/a".toList).1 = some (some (exampleRule "/a".toList)) ∧
      (throwingHandlers.handle (exampleRule "/a".toList) ⟨0, "/a".toList, []⟩
        (marked specMethods ⟨0, "/a".toList, []⟩ (response.ofCode 200))
        (Trie.find strtodNone ((validated [exampleRule "/a".toList]).per_methods_ 0).trie
          "/a".toList).2).thrown = some "boom".toList) ∧
    ∃ r, Router.handle specMethods strtodNone throwingHandlers
        (validated [exampleRule "/a".toList]) ⟨0, "/a".toList, []⟩ (response.ofCode 200) =
          some r ∧ r.thrown = none ∧
      r.res.code = 500 ∧ r.res.headers = [] ∧ r.res.body = [] ∧
      r.res = ((throwingHandlers.handle (exampleRule "/a".toList) ⟨0, "/a".toList, []⟩
        (marked specMethods ⟨0, "/a".toList, []⟩ (response.ofCode 200))
        (Trie.find strtodNone ((validated [exampleRule "/a".toList]).per_methods_ 0).trie
          "/a".toList).2).res.assign (response.ofCode 500)).end_ ∧
      r.calls = [Call.rule (exampleRule "/a".toList) ⟨0, "/a".toList, []⟩
        (marked specMethods ⟨0, "/a".toList, []⟩ (response.ofCode 200))
        (Trie.find strtodNone ((validated [exampleRule "/a".toList]).per_methods_ 0).trie
          "/a".toList).2] :=
  ⟨⟨by decide, by decide, by decide, rfl⟩,
    handler_error_gives_500 specMethods strtodNone throwingHandlers
      (validated [exampleRule "/a".toList]) ⟨0, "/a".toList, []⟩ (response.ofCode 200) 0
      (exampleRule "/a".toList) "boom".toList (by decide) (by decide) (by decide) rfl⟩

/-- C23, counterexample. In a router with a catch-all handler, on a GET request for a URL
that no trie matches, `Router::handle` calls the catch-all handler, which here answers
200, while `Router::handle_upgrade` answers 404 and calls nothing: `handle_upgrade` has no
branch for the catch-all handler. -/
theorem upgrade_same_outcome_counterexample :
    (Router.handle specMethods strtodNone exampleHandlers
        (validated [postOnlyRule "/submit".toList]) ⟨0, "/nothing".toList, []⟩
        (response.ofCode 200)).map (fun r => (r.res.code, r.calls.length)) = some (200, 1) ∧
    (Router.handle_upgrade strtodNone defaultUpgrade
        (validated [postOnlyRule "/submit".toList]) ⟨0, "/nothing".toList, []⟩
        (response.ofCode 200)).map (fun r => (r.res.code, r.calls.length)) = some (404, 0) := by
  constructor <;> decide

/-- C23, amended. For every router and every request whose method is neither HEAD nor
OPTIONS, `Router::handle_upgrade` looks the URL up as `Router::handle` does and selects
the same rule: it calls `handle_upgrade` of a rule exactly when `handle` calls `handle` of
that rule, and the behaviour of the one is undefined exactly when that of the other is.
Whenever `handle` ends without a call of a handler (a method outside the enumeration,
404, 405, 301, or the error of a rule id out of range), `handle_upgrade` ends with the
same response and the same exception or none. Whenever `handle_upgrade` ends without a
call, so does `handle`, with the same response, unless no trie matches the URL and a
catch-all handler is registered. -/
theorem upgrade_matches_like_handle (M : HTTPMethod) (strtod : StrtodFn) (H : Handlers)
    (upgrade : BaseRule → request → response → HandlerOutcome) (router : Router)
    (req : request) (res : response) (hh : req.method ≠ M.Head) (ho : req.method ≠ M.Options) :
    (∀ rh, Router.handle M strtod H router req res = some rh → rh.calls = [] →
      Router.handle_upgrade strtod upgrade router req res = some ⟨rh.res, rh.thrown, []⟩) ∧
    (∀ ru, Router.handle_upgrade strtod upgrade router req res = some ru → ru.calls = [] →
      (H.catchall = none ∨ Router.matching_methods strtod router req.url ≠ [] ∨
        req.method ≥ InternalMethodCount) →
      Router.handle M strtod H router req res = some ⟨ru.res, ru.thrown, []⟩) ∧
    (∀ rule,
      (∃ ru, Router.handle_upgrade strtod upgrade router req res = some ru ∧
        ru.calls = [(rule, req, res)]) ↔
      (∃ rh, Router.handle M strtod H router req res = some rh ∧
        rh.calls = [Call.rule rule req res
          (Trie.find strtod (router.per_methods_ req.method).trie req.url).2])) ∧
    (Router.handle_upgrade strtod upgrade router req res = none ↔
      Router.handle M strtod H router req res = none) := by
  rcases upgrade_cases M strtod H upgrade router req res hh ho with
    ⟨out, h1, h2, _⟩ | ⟨hlt, hnone, h2, handler_, hc, rh, h1, hcalls, _⟩ |
    ⟨rule, rh, ru, h1, h2, _, hc1, hc2⟩ | ⟨h1, h2⟩
  · rw [h1, h2]
    refine ⟨?_, ?_, ?_, by simp⟩
    · intro rh hrh _
      simp only [Option.some.injEq] at hrh
      rw [← hrh]
    · intro ru hru _ _
      simp only [Option.some.injEq] at hru
      rw [← hru]
    · intro rule
      simp
  · rw [h1, h2]
    refine ⟨?_, ?_, ?_, by simp⟩
    · intro rh' hrh hcalls'
      simp only [Option.some.injEq] at hrh
      rw [← hrh, hcalls] at hcalls'
      cases hcalls'
    · intro ru hru _ hcond
      rcases hcond with h | h | h
      · rw [hc] at h
        cases h
      · exact absurd hnone h
      · omega
    · intro rule
      simp [hcalls]
  · rw [h1, h2]
    refine ⟨?_, ?_, ?_, by simp⟩
    · intro rh' hrh hcalls'
      simp only [Option.some.injEq] at hrh
      rw [← hrh, hc1] at hcalls'
      cases hcalls'
    · intro ru' hru hcalls' _
      simp only [Option.some.injEq] at hru
      rw [← hru, hc2] at hcalls'
      cases hcalls'
    · intro rule'
      simp [hc1, hc2]
  · rw [h1, h2]
    simp

theorem upgrade_matches_like_handle_witness :
    ((0 : Nat) ≠ specMethods.Head ∧ (0 : Nat) ≠ specMethods.Options) ∧
    ((∀ rh, Router.handle specMethods strtodNone exampleHandlers
        (validated [exampleRule "/about/".toList]) ⟨0, "/about".toList, []⟩
        (response.ofCode 200) = some rh → rh.calls = [] →
      Router.handle_upgrade strtodNone defaultUpgrade
        (validated [exampleRule "/about/".toList]) ⟨0, "/about".toList, []⟩
        (response.ofCode 200) = some ⟨rh.res, rh.thrown, []⟩) ∧
    (∀ ru, Router.handle_upgrade strtodNone defaultUpgrade
        (validated [exampleRule "/about/".toList]) ⟨0, "/about".toList, []⟩
        (response.ofCode 200) = some ru → ru.calls = [] →
      (exampleHandlers.catchall = none ∨
        Router.matching_methods strtodNone (validated [exampleRule "/about/".toList])
          "/about".toList ≠ [] ∨ (0 : Nat) ≥ InternalMethodCount) →
      Router.handle specMethods strtodNone exampleHandlers
        (validated [exampleRule "/about/".toList]) ⟨0, "/about".toList, []⟩
        (response.ofCode 200) = some ⟨ru.res, ru.thrown, []⟩) ∧
    (∀ rule,
      (∃ ru, Router.handle_upgrade strtodNone defaultUpgrade
        (validated [exampleRule "/about/".toList]) ⟨0, "/about".toList, []⟩
        (response.ofCode 200) = some ru ∧
        ru.calls = [(rule, ⟨0, "/about".toList, []⟩, response.ofCode 200)]) ↔
      (∃ rh, Router.handle specMethods strtodNone exampleHandlers
        (validated [exampleRule "/about/".toList]) ⟨0, "/about".toList, []⟩
        (response.ofCode 200) = some rh ∧
        rh.calls = [Call.rule rule ⟨0, "/about".toList, []⟩ (response.ofCode 200)
          (Trie.find strtodNone
            ((validated [exampleRule "/about/".toList]).per_methods_ 0).trie
            "/about".toList).2])) ∧
    (Router.handle_upgrade strtodNone defaultUpgrade
        (validated [exampleRule "/about/".toList]) ⟨0, "/about".toList, []⟩
        (response.ofCode 200) = none ↔
      Router.handle specMethods strtodNone exampleHandlers
        (validated [exampleRule "/about/".toList]) ⟨0, "/about".toList, []⟩
        (response.ofCode 200) = none)) :=
  ⟨⟨by decide, by decide⟩,
    upgrade_matches_like_handle specMethods strtodNone exampleHandlers defaultUpgrade
      (validated [exampleRule "/about/".toList]) ⟨0, "/about".toList, []⟩
      (response.ofCode 200) (by decide) (by decide)⟩

/-- C24. The rule that the constructor leaves allows the method `Get` and no other.
`methods(m1, ..., mk)`, for methods of the enumeration, leaves a rule that allows exactly
the methods `m1`, ..., `mk`, whatever the rule allowed before. `foreach_method` calls its
argument once for each method below `InternalMethodCount` that the rule allows, in
ascending order, and for no other; so a registration that ends without an error puts the
rule once at the end of the list of rules of each such method and leaves the tables of
the other methods as they are. -/
theorem methods_mask_and_registration (M : HTTPMethod) (rule : List Char) (self : BaseRule)
    (method : Nat) (args_method : List Nat) (ro : BaseRule) (router : Router)
    (hget : M.Get < InternalMethodCount)
    (hargs : ∀ x ∈ method :: args_method, x ≤ InternalMethodCount)
    (hreg : (router.internal_add_rule_object ro.rule_ ro).map Prod.snd = some none) :
    (∀ i, (BaseRule.new M rule).allows i = true ↔ i = M.Get) ∧
    (∀ i, (RuleParameterTraits.methods self method args_method).allows i = true ↔
      i ∈ method :: args_method) ∧
    ro.foreach_method (fun (method : Nat) (log : List Nat) => some (log ++ [method], none)) [] =
      some ((List.range InternalMethodCount).filter ro.allows, none) ∧
    ((List.range InternalMethodCount).filter ro.allows).Sorted (fun a b => a < b) ∧
    (∀ i, i ∈ (List.range InternalMethodCount).filter ro.allows ↔
      i < InternalMethodCount ∧ ro.allows i = true) ∧
    ∃ router', router.internal_add_rule_object ro.rule_ ro = some (router', none) ∧
      ∀ i, (i < InternalMethodCount ∧ ro.allows i = true →
          (router'.per_methods_ i).rules = (router.per_methods_ i).rules ++ [some ro]) ∧
        (¬ (i < InternalMethodCount ∧ ro.allows i = true) →
          router'.per_methods_ i = router.per_methods_ i) := by
  have h32 : InternalMethodCount < 32 := by decide
  refine ⟨fun i => new_allows M rule i (by omega),
    fun i => methods_allows self args_method method i (fun x hx => by
      have := hargs x hx
      omega), ?_, (List.sorted_lt_range _).filter _, mem_methods ro, ?_⟩
  · rw [BaseRule.foreach_method, forEach_log]
    rfl
  · simp only [Option.map_eq_some'] at hreg
    obtain ⟨⟨router', e⟩, hreg1, hreg2⟩ := hreg
    simp only at hreg2
    subst hreg2
    refine ⟨router', hreg1, fun i => ?_⟩
    obtain ⟨g1, g2⟩ := internal_add_rule_object_ok router router' ro hreg1 i
    exact ⟨fun hi => (register_ok ro _ _ (g1 hi)).1, g2⟩

theorem methods_mask_and_registration_witness :
    (specMethods.Get < InternalMethodCount ∧
      (∀ x ∈ (1 : Nat) :: [0], x ≤ InternalMethodCount) ∧
      ((Router.init []).internal_add_rule_object
        (RuleParameterTraits.methods (postOnlyRule "/a".toList) 1 [0]).rule_
        (RuleParameterTraits.methods (postOnlyRule "/a".toList) 1 [0])).map Prod.snd =
          some none) ∧
    ((∀ i, (BaseRule.new specMethods "/a".toList).allows i = true ↔ i = specMethods.Get) ∧
    (∀ i, (RuleParameterTraits.methods (postOnlyRule "/a".toList) 1 [0]).allows i = true ↔
      i ∈ (1 : Nat) :: [0]) ∧
    (RuleParameterTraits.methods (postOnlyRule "/a".toList) 1 [0]).foreach_method
        (fun (method : Nat) (log : List Nat) => some (log ++ [method], none)) [] =
      some ((List.range InternalMethodCount).filter
        (RuleParameterTraits.methods (postOnlyRule "/a".toList) 1 [0]).allows, none) ∧
    ((List.range InternalMethodCount).filter
      (RuleParameterTraits.methods (postOnlyRule "/a".toList) 1 [0]).allows).Sorted
        (fun a b => a < b) ∧
    (∀ i, i ∈ (List.range InternalMethodCount).filter
        (RuleParameterTraits.methods (postOnlyRule "/a".toList) 1 [0]).allows ↔
      i < InternalMethodCount ∧
        (RuleParameterTraits.methods (postOnlyRule "/a".toList) 1 [0]).allows i = true) ∧
    ∃ router', (Router.init []).internal_add_rule_object
        (RuleParameterTraits.methods (postOnlyRule "/a".toList) 1 [0]).rule_
        (RuleParameterTraits.methods (postOnlyRule "/a".toList) 1 [0]) = some (router', none) ∧
      ∀ i, (i < InternalMethodCount ∧
          (RuleParameterTraits.methods (postOnlyRule "/a".toList) 1 [0]).allows i = true →
          (router'.per_methods_ i).rules = ((Router.init []).per_methods_ i).rules ++
            [some (RuleParameterTraits.methods (postOnlyRule "/a".toList) 1 [0])]) ∧
        (¬ (i < InternalMethodCount ∧
          (RuleParameterTraits.methods (postOnlyRule "/a".toList) 1 [0]).allows i = true) →
          router'.per_methods_ i = (Router.init []).per_methods_ i)) :=
  ⟨⟨by decide, by decide, by decide⟩,
    methods_mask_and_registration specMethods "/a".toList (postOnlyRule "/a".toList) 1 [0]
      (RuleParameterTraits.methods (postOnlyRule "/a".toList) 1 [0]) (Router.init [])
      (by decide) (by decide) (by decide)⟩

/-- C26, counterexample. For a dynamic rule with the pattern `/a` and the name `users`, the
error of `DynamicRule::wrap` carries the message
`route_dynamic: Handler type is mismatched with URL parameters: /a`, in which the name
does not occur. When two rules named `first` and `second` are registered with the
pattern `/a` for the same method, `Router::validate` ends with the error of `Trie::add`,
whose message `handler already exists for /a` holds neither name. And when `/about/` is
registered after `/about`, the message `handler already exists for /about` names the
pattern without its trailing slash. -/
theorem build_error_message_counterexample :
    (DynamicRule.wrap ⟨"/a".toList, 1, "users".toList⟩ false =
        some "route_dynamic: Handler type is mismatched with URL parameters: /a".toList ∧
      ¬ List.IsInfix "users".toList
        "route_dynamic: Handler type is mismatched with URL parameters: /a".toList) ∧
    ((Router.validate checkNone (Router.init
        [⟨"/a".toList, 1, "first".toList⟩, ⟨"/a".toList, 1, "second".toList⟩])).map Prod.snd =
        some (some "handler already exists for /a".toList) ∧
      ¬ List.IsInfix "first".toList "handler already exists for /a".toList ∧
      ¬ List.IsInfix "second".toList "handler already exists for /a".toList) ∧
    ((Router.validate checkNone (Router.init
        [⟨"/about".toList, 1, "first".toList⟩, ⟨"/about/".toList, 1, "second".toList⟩])).map
        Prod.snd = some (some "handler already exists for /about".toList) ∧
      ¬ List.IsInfix "/about/".toList "handler already exists for /about".toList) := by
  refine ⟨⟨rfl, by decide⟩, ⟨by decide, by decide, by decide⟩, ⟨by decide, by decide⟩⟩

/-- C26, amended. The error of `DynamicRule::validate` and of `TaggedRule::validate` for a
rule without a handler carries the message `name: no handler for url P`, or
`no handler for url P` for a rule without a name: it holds the pattern and the name. The
error of `DynamicRule::wrap` carries the message
`route_dynamic: Handler type is mismatched with URL parameters: P`, and the error of
`Trie::add(P, r)` the message `handler already exists for P`, where `P` is the string
that `add` was given: both hold the pattern and say nothing of the name. An error with
which `Router::validate` ends is the error of `rule->validate()` for one of the rules, or
the error of `Trie::add` for the pattern of a rule or for that pattern without its
trailing slash, or the error `Internal error: Trie header should be simple!`. -/
theorem build_error_messages (rule : BaseRule) (t t' : Trie) (P : List Char) (r : Nat)
    (msg : List Char) (hadd : Trie.add t P r = some (t', some msg)) :
    (DynamicRule.validate rule false =
        some (rule.name_ ++ (if rule.name_ ≠ [] then ": ".toList else []) ++
          "no handler for url ".toList ++ rule.rule_) ∧
      TaggedRule.validate rule false = DynamicRule.validate rule false ∧
      List.IsInfix rule.rule_ (rule.name_ ++ (if rule.name_ ≠ [] then ": ".toList else []) ++
          "no handler for url ".toList ++ rule.rule_) ∧
      List.IsInfix rule.name_ (rule.name_ ++ (if rule.name_ ≠ [] then ": ".toList else []) ++
          "no handler for url ".toList ++ rule.rule_)) ∧
    DynamicRule.wrap rule false =
      some ("route_dynamic: Handler type is mismatched with URL parameters: ".toList ++
        rule.rule_) ∧
    msg = "handler already exists for ".toList ++ P ∧
    (∀ (check : BaseRule → BaseRule × Option (List Char)) (rules : List BaseRule)
        (router' : Router) (e : List Char),
      Router.validate check (Router.init rules) = some (router', some e) →
      (∃ rule ∈ rules, (check rule).2 = some e) ∨
      (∃ rule ∈ rules, e = "handler already exists for ".toList ++ (check rule).1.rule_ ∨
        (has_trailing_slash (check rule).1.rule_ = true ∧
          e = "handler already exists for ".toList ++ (check rule).1.rule_.dropLast)) ∨
      e = "Internal error: Trie header should be simple!".toList) := by
  refine ⟨⟨rfl, rfl, ?_, ?_⟩, rfl, trie_add_thrown t t' P r msg hadd,
    fun check rules router' e h => validate_error check rules router' e h⟩
  · exact ⟨rule.name_ ++ (if rule.name_ ≠ [] then ": ".toList else []) ++
      "no handler for url ".toList, [], by simp⟩
  · exact ⟨[], (if rule.name_ ≠ [] then ": ".toList else []) ++
      "no handler for url ".toList ++ rule.rule_, by simp⟩

theorem build_error_messages_witness :
    Trie.add exampleTrie1 "/a/<int>".toList 3 =
      some (exampleTrie1, some "handler already exists for /a/<int>".toList) ∧
    ((DynamicRule.validate ⟨"/a".toList, 1, "users".toList⟩ false =
        some (("users".toList : List Char) ++
          (if ("users".toList : List Char) ≠ [] then ": ".toList else []) ++
          "no handler for url ".toList ++ "/a".toList) ∧
      TaggedRule.validate ⟨"/a".toList, 1, "users".toList⟩ false =
        DynamicRule.validate ⟨"/a".toList, 1, "users".toList⟩ false ∧
      List.IsInfix "/a".toList (("users".toList : List Char) ++
          (if ("users".toList : List Char) ≠ [] then ": ".toList else []) ++
          "no handler for url ".toList ++ "/a".toList) ∧
      List.IsInfix "users".toList (("users".toList : List Char) ++
          (if ("users".toList : List Char) ≠ [] then ": ".toList else []) ++
          "no handler for url ".toList ++ "/a".toList)) ∧
    DynamicRule.wrap ⟨"/a".toList, 1, "users".toList⟩ false =
      some ("route_dynamic: Handler type is mismatched with URL parameters: ".toList ++
        "/a".toList) ∧
    "handler already exists for /a/<int>".toList =
      "handler already exists for ".toList ++ "/a/<int>".toList ∧
    (∀ (check : BaseRule → BaseRule × Option (List Char)) (rules : List BaseRule)
        (router' : Router) (e : List Char),
      Router.validate check (Router.init rules) = some (router', some e) →
      (∃ rule ∈ rules, (check rule).2 = some e) ∨
      (∃ rule ∈ rules, e = "handler already exists for ".toList ++ (check rule).1.rule_ ∨
        (has_trailing_slash (check rule).1.rule_ = true ∧
          e = "handler already exists for ".toList ++ (check rule).1.rule_.dropLast)) ∨
      e = "Internal error: Trie header should be simple!".toList)) :=
  ⟨rfl, build_error_messages ⟨"/a".toList, 1, "users".toList⟩ exampleTrie1 exampleTrie1
    "/a/<int>".toList 3 "handler already exists for /a/<int>".toList rfl⟩

/-- C27. Sibling-uniqueness is an invariant of the trie. In a trie obtained from the empty
trie by calls of `add`, no node has two children that clash, where two children clash
when they are parameter nodes of the same kind or literal nodes whose keys begin with the
same character; `optimize` returns on such a trie, and in the trie it leaves no node has
two children that clash either. -/
theorem sibling_uniqueness_invariant (t : Trie) (ht : Trie.Built t) :
    (∀ x ∈ t.head_.subnodes, x.children.Pairwise (fun a b => ¬ Node.Clash a b)) ∧
      ∃ t', Trie.optimize t = some t' ∧
        ∀ x ∈ t'.head_.subnodes, x.children.Pairwise (fun a b => ¬ Node.Clash a b) := by
  have hsu := built_siblings t ht
  refine ⟨(siblingsUnique_iff _).mp hsu, ?_⟩
  obtain ⟨cs', _, hopt⟩ := optimize_total t
  exact ⟨_, hopt, (siblingsUnique_iff _).mp
    (optimize_siblings t _ (raw_keysOk _ (built_raw t ht)) hsu hopt)⟩

theorem sibling_uniqueness_invariant_witness :
    Trie.Built exampleTrie2 ∧
      ((∀ x ∈ exampleTrie2.head_.subnodes,
          x.children.Pairwise (fun a b => ¬ Node.Clash a b)) ∧
        ∃ t', Trie.optimize exampleTrie2 = some t' ∧
          ∀ x ∈ t'.head_.subnodes, x.children.Pairwise (fun a b => ¬ Node.Clash a b)) :=
  ⟨exampleTrie2_built, sibling_uniqueness_invariant exampleTrie2 exampleTrie2_built⟩

/-- C28. `optimize` returns on every trie and reaches a fixed point. In the trie it leaves,
a node other than the root that has exactly one child is not simple: it carries a rule
id, is a parameter node, or has a parameter child. Running `optimize` on that trie again
returns the same trie. -/
theorem optimize_reaches_fixed_point (t : Trie) :
    ∃ t', Trie.optimize t = some t' ∧
      (∀ c ∈ t'.head_.children, ∀ x ∈ c.subnodes, x.children.length = 1 →
        x.IsSimpleNode = false ∧
          (x.rule_index ≠ 0 ∨ x.param ≠ ParamType.MAX ∨
            ∃ ch ∈ x.children, ch.param ≠ ParamType.MAX)) ∧
      Trie.optimize t' = some t' := by
  obtain ⟨cs', _, hopt⟩ := optimize_total t
  obtain ⟨hc, hfix⟩ := optimize_compressed t _ hopt
  refine ⟨_, hopt, ?_, hfix⟩
  intro c hmem x hx hlen
  have hns : x.IsSimpleNode = false := by
    rcases hc c hmem x hx with h | h
    · rw [h] at hlen
      cases hlen
    · exact h
  refine ⟨hns, ?_⟩
  obtain ⟨r, k, p, cs⟩ := x
  by_contra hcon
  simp only [Node.rule_index, Node.param, Node.children, not_or, not_exists, not_and,
    not_not] at hcon hlen
  have := (isSimple_iff r k p cs).mpr ⟨hcon.1, by omega, hcon.2.1, hcon.2.2⟩
  rw [this] at hns
  cases hns

/-- C29. `Trie::validate` returns without an error exactly when the head is simple, and
otherwise throws `Internal error: Trie header should be simple!` and leaves the trie as it
is. In a trie built by calls of `add` that returned without an error, the head is simple
exactly when it has rule id 0, at most one child and no parameter child. Consequently
validation fails for such a trie when it was given the empty pattern under an id other
than 0, a pattern that begins with a parameter token, or two patterns whose first
characters differ; and in a router that `Router::validate` leaves without an error, no
pattern registered for a method is empty or begins with a parameter token, and all
patterns registered for the method begin with the same character. -/
theorem trie_validate_iff_root_simple (t : Trie) (added : List (List Char × Nat))
    (h : Trie.Holds t added) :
    (∀ t0 : Trie,
      ((∃ t', Trie.validate t0 = some (t', none)) ↔ t0.head_.IsSimpleNode = true) ∧
      (t0.head_.IsSimpleNode = false →
        Trie.validate t0 =
          some (t0, some "Internal error: Trie header should be simple!".toList))) ∧
    (t.head_.IsSimpleNode = true ↔
      t.head_.rule_index = 0 ∧ t.head_.children.length ≤ 1 ∧
        ∀ c ∈ t.head_.children, c.param = ParamType.MAX) ∧
    ((∃ r, r ≠ 0 ∧ ([], r) ∈ added) ∨
      (∃ P r, (P, r) ∈ added ∧ ∃ x ∈ paramTraits, x.2.isPrefixOf P = true) ∨
      (∃ c1 P1 r1 c2 P2 r2, (c1 :: P1, r1) ∈ added ∧ (c2 :: P2, r2) ∈ added ∧ c1 ≠ c2) →
      Trie.validate t = some (t, some "Internal error: Trie header should be simple!".toList)) ∧
    (∀ (check : BaseRule → BaseRule × Option (List Char)) (rules : List BaseRule)
        (router' : Router) (m : Nat),
      Router.validate check (Router.init rules) = some (router', none) →
      m < InternalMethodCount →
      ∀ ro ∈ (checkedRules check rules).filter (fun ro => ro.allows m),
        ro.rule_ ≠ [] ∧ (∀ x ∈ paramTraits, x.2.isPrefixOf ro.rule_ = false) ∧
          ∀ ro2 ∈ (checkedRules check rules).filter (fun ro => ro.allows m),
            ro2.rule_.head? = ro.rule_.head?) := by
  have hthrow : ∀ t0 : Trie, t0.head_.IsSimpleNode = false →
      Trie.validate t0 =
        some (t0, some "Internal error: Trie header should be simple!".toList) := by
    intro t0 hs
    simp [Trie.validate, hs]
  refine ⟨fun t0 => ⟨⟨?_, ?_⟩, hthrow t0⟩, ?_, fun hbad => hthrow t (holds_not_simple t added h hbad),
    ?_⟩
  · rintro ⟨t', ht'⟩
    exact (trie_validate_ok t0 t' ht').1
  · intro hs
    obtain ⟨cs', _, hopt⟩ := optimize_total t0
    refine ⟨⟨Node.mk t0.head_.rule_index t0.head_.key t0.head_.param cs'⟩, ?_⟩
    simp [Trie.validate, hs, hopt]
  · have hp := (holds_head t added h).1
    obtain ⟨⟨r, k, p, cs⟩⟩ := t
    simp only [Node.param] at hp
    rw [isSimple_iff]
    simp only [Node.rule_index, Node.children]
    constructor
    · rintro ⟨h1, h2, _, h4⟩
      exact ⟨h1, by omega, h4⟩
    · rintro ⟨h1, h2, h4⟩
      exact ⟨h1, by omega, hp, h4⟩
  · intro check rules router' m hv hm
    obtain ⟨pm1, hreg, _, hval⟩ := validate_rules check rules router' m hv hm
    have hsimple := (trie_validate_ok pm1.trie _ hval).1
    obtain ⟨added', hh, _, hmem⟩ := register_holds _ PerMethod.init pm1 [] Trie.Holds.init
      (by simp [PerMethod.init]) hreg
    have hgood : ∀ hbad, False := fun hbad => by
      have := holds_not_simple pm1.trie added' hh hbad
      rw [hsimple] at this
      cases this
    have hne : ∀ ro ∈ (checkedRules check rules).filter (fun ro => ro.allows m),
        ro.rule_ ≠ [] := by
      intro ro hro hnil
      obtain ⟨r, hr, hm'⟩ := hmem ro hro
      rw [hnil] at hm'
      exact hgood (Or.inl ⟨r, hr, hm'⟩)
    intro ro hro
    refine ⟨hne ro hro, fun x hx => ?_, fun ro2 hro2 => ?_⟩
    · cases hpre : x.2.isPrefixOf ro.rule_ with
      | false => rfl
      | true =>
        obtain ⟨r, _, hm'⟩ := hmem ro hro
        exact (hgood (Or.inr (Or.inl ⟨ro.rule_, r, hm', x, hx, hpre⟩))).elim
    · obtain ⟨r, _, hm1⟩ := hmem ro hro
      obtain ⟨r2, _, hm2⟩ := hmem ro2 hro2
      have n1 := hne ro hro
      have n2 := hne ro2 hro2
      cases e1 : ro.rule_ with
      | nil => exact absurd e1 n1
      | cons c1 P1 =>
        cases e2 : ro2.rule_ with
        | nil => exact absurd e2 n2
        | cons c2 P2 =>
          rw [e1] at hm1
          rw [e2] at hm2
          by_cases hc : c1 = c2
          · rw [hc]
            rfl
          · exact (hgood (Or.inr (Or.inr ⟨c1, P1, r, c2, P2, r2, hm1, hm2, hc⟩))).elim

theorem trie_validate_iff_root_simple_witness :
    Trie.Holds exampleTrie2 [("/a/<string>".toList, 3), ("/a/<int>".toList, 2)] ∧
    ((∀ t0 : Trie,
      ((∃ t', Trie.validate t0 = some (t', none)) ↔ t0.head_.IsSimpleNode = true) ∧
      (t0.head_.IsSimpleNode = false →
        Trie.validate t0 =
          some (t0, some "Internal error: Trie header should be simple!".toList))) ∧
    (exampleTrie2.head_.IsSimpleNode = true ↔
      exampleTrie2.head_.rule_index = 0 ∧ exampleTrie2.head_.children.length ≤ 1 ∧
        ∀ c ∈ exampleTrie2.head_.children, c.param = ParamType.MAX) ∧
    ((∃ r, r ≠ 0 ∧ ([], r) ∈ [("/a/<string>".toList, 3), ("/a/<int>".toList, 2)]) ∨
      (∃ P r, (P, r) ∈ [("/a/<string>".toList, 3), ("/a/<int>".toList, 2)] ∧
        ∃ x ∈ paramTraits, x.2.isPrefixOf P = true) ∨
      (∃ c1 P1 r1 c2 P2 r2,
        (c1 :: P1, r1) ∈ [("/a/<string>".toList, 3), ("/a/<int>".toList, 2)] ∧
        (c2 :: P2, r2) ∈ [("/a/<string>".toList, 3), ("/a/<int>".toList, 2)] ∧ c1 ≠ c2) →
      Trie.validate exampleTrie2 =
        some (exampleTrie2, some "Internal error: Trie header should be simple!".toList)) ∧
    (∀ (check : BaseRule → BaseRule × Option (List Char)) (rules : List BaseRule)
        (router' : Router) (m : Nat),
      Router.validate check (Router.init rules) = some (router', none) →
      m < InternalMethodCount →
      ∀ ro ∈ (checkedRules check rules).filter (fun ro => ro.allows m),
        ro.rule_ ≠ [] ∧ (∀ x ∈ paramTraits, x.2.isPrefixOf ro.rule_ = false) ∧
          ∀ ro2 ∈ (checkedRules check rules).filter (fun ro => ro.allows m),
            ro2.rule_.head? = ro.rule_.head?)) :=
  ⟨Trie.Holds.add _ _ _ _ _ (Trie.Holds.add _ _ _ _ _ Trie.Holds.init exampleTrie1_add)
      exampleTrie2_add,
    trie_validate_iff_root_simple exampleTrie2
      [("/a/<string>".toList, 3), ("/a/<int>".toList, 2)]
      (Trie.Holds.add _ _ _ _ _ (Trie.Holds.add _ _ _ _ _ Trie.Holds.init exampleTrie1_add)
        exampleTrie2_add)⟩

/-- C30. In a router that `Router::validate`, which registers the rules with
`internal_add_rule_object` and then validates the tables, leaves without an error, for
every method and every URL the id that the `find` of the method's trie returns is 0 or an
id stored by registration: 1 when a pattern registered for the method has a trailing
slash, or the position `n + 2` of the rule registered `n`-th. Such an id is smaller than
`rules.size()`, and for an id of 2 or more `rules[id]` is the rule registered under it.
So `handle` and `handle_upgrade` return for every request, and the error
`Trie internal structure corrupted!` is not thrown: `handle_upgrade` throws nothing, and
`handle` throws only when it has called a handler. -/
theorem corrupted_branch_unreachable (M : HTTPMethod) (strtod : StrtodFn)
    (check : BaseRule → BaseRule × Option (List Char)) (rules : List BaseRule)
    (hM : M.Valid)
    (hv : (Router.validate check (Router.init rules)).map Prod.snd = some none) :
    ∃ router', Router.validate check (Router.init rules) = some (router', none) ∧
      (∀ m, m < InternalMethodCount → ∀ url,
        (Trie.find strtod (router'.per_methods_ m).trie url).1 = 0 ∨
        (StoredId ((checkedRules check rules).filter (fun ro => ro.allows m))
            (Trie.find strtod (router'.per_methods_ m).trie url).1 ∧
          (Trie.find strtod (router'.per_methods_ m).trie url).1 <
            (router'.per_methods_ m).rules.length ∧
          (2 ≤ (Trie.find strtod (router'.per_methods_ m).trie url).1 →
            ∃ ro, ((checkedRules check rules).filter (fun ro => ro.allows m))[
                (Trie.find strtod (router'.per_methods_ m).trie url).1 - 2]? = some ro ∧
              (router'.per_methods_ m).rules.get?
                (Trie.find strtod (router'.per_methods_ m).trie url).1 = some (some ro)))) ∧
      (∀ (H : Handlers) (req : request) (res : response),
        ∃ r, Router.handle M strtod H router' req res = some r ∧
          (r.calls = [] → r.thrown = none)) ∧
      (∀ (upgrade : BaseRule → request → response → HandlerOutcome) (req : request)
          (res : response),
        ∃ r, Router.handle_upgrade strtod upgrade router' req res = some r ∧
          r.thrown = none) := by
  simp only [Option.map_eq_some'] at hv
  obtain ⟨⟨router', e⟩, hv1, hv2⟩ := hv
  simp only at hv2
  subst hv2
  have hkey : ∀ m, m < InternalMethodCount → ∀ url,
      (Trie.find strtod (router'.per_methods_ m).trie url).1 = 0 ∨
      ((Trie.find strtod (router'.per_methods_ m).trie url).1 <
          (router'.per_methods_ m).rules.length ∧
        ((Trie.find strtod (router'.per_methods_ m).trie url).1 ≠
            RULE_SPECIAL_REDIRECT_SLASH →
          ∃ ro, (router'.per_methods_ m).rules.get?
            (Trie.find strtod (router'.per_methods_ m).trie url).1 = some (some ro))) := by
    intro m hm url
    obtain ⟨hr, hf⟩ := validate_stored strtod check rules router' m hv1 hm
    rcases hf url with h0 | hs
    · exact Or.inl h0
    · obtain ⟨_, g2, g3⟩ := stored_in_table _ _ _ hr hs
      refine Or.inr ⟨g2, fun hne => ?_⟩
      obtain ⟨_, ro, _, hro⟩ := g3 hne
      exact ⟨ro, hro⟩
  refine ⟨router', hv1, fun m hm url => ?_,
    fun H req res => handle_not_corrupted M strtod H router' req res hM
      (fun m hm => hkey m hm req.url),
    fun upgrade req res => upgrade_not_corrupted strtod upgrade router' req res
      (fun hm => hkey req.method hm req.url)⟩
  obtain ⟨hr, hf⟩ := validate_stored strtod check rules router' m hv1 hm
  rcases hf url with h0 | hs
  · exact Or.inl h0
  · obtain ⟨_, g2, g3⟩ := stored_in_table _ _ _ hr hs
    refine Or.inr ⟨hs, g2, fun h2 => ?_⟩
    obtain ⟨_, ro, h4, hro⟩ := g3 (by simp only [RULE_SPECIAL_REDIRECT_SLASH]; omega)
    exact ⟨ro, h4, hro⟩

theorem corrupted_branch_unreachable_witness :
    (specMethods.Valid ∧
      (Router.validate checkNone (Router.init
        [exampleRule "/a/<int>".toList, postOnlyRule "/b/".toList])).map Prod.snd =
          some none) ∧
    ∃ router', Router.validate checkNone (Router.init
        [exampleRule "/a/<int>".toList, postOnlyRule "/b/".toList]) = some (router', none) ∧
      (∀ m, m < InternalMethodCount → ∀ url,
        (Trie.find strtodNone (router'.per_methods_ m).trie url).1 = 0 ∨
        (StoredId ((checkedRules checkNone
              [exampleRule "/a/<int>".toList, postOnlyRule "/b/".toList]).filter
                (fun ro => ro.allows m))
            (Trie.find strtodNone (router'.per_methods_ m).trie url).1 ∧
          (Trie.find strtodNone (router'.per_methods_ m).trie url).1 <
            (router'.per_methods_ m).rules.length ∧
          (2 ≤ (Trie.find strtodNone (router'.per_methods_ m).trie url).1 →
            ∃ ro, ((checkedRules checkNone
                [exampleRule "/a/<int>".toList, postOnlyRule "/b/".toList]).filter
                  (fun ro => ro.allows m))[
                (Trie.find strtodNone (router'.per_methods_ m).trie url).1 - 2]? = some ro ∧
              (router'.per_methods_ m).rules.get?
                (Trie.find strtodNone (router'.per_methods_ m).trie url).1 =
                  some (some ro)))) ∧
      (∀ (H : Handlers) (req : request) (res : response),
        ∃ r, Router.handle specMethods strtodNone H router' req res = some r ∧
          (r.calls = [] → r.thrown = none)) ∧
      (∀ (upgrade : BaseRule → request → response → HandlerOutcome) (req : request)
          (res : response),
        ∃ r, Router.handle_upgrade strtodNone upgrade router' req res = some r ∧
          r.thrown = none) :=
  ⟨⟨by decide, by decide⟩,
    corrupted_branch_unreachable specMethods strtodNone checkNone
      [exampleRule "/a/<int>".toList, postOnlyRule "/b/".toList] (by decide) (by decide)⟩

/-- C31. `Trie::add` is atomic on the failure for a duplicate pattern: whenever
`add(P, r)` throws, which it does only with the message `handler already exists for P`,
the trie is left exactly as it was before the call, with the same nodes and the same rule
ids. -/
theorem add_atomic_on_duplicate (t t' : Trie) (P : List Char) (r : Nat) (msg : List Char)
    (h : Trie.add t P r = some (t', some msg)) :
    msg = "handler already exists for ".toList ++ P ∧ t' = t ∧
      t'.head_.subnodes = t.head_.subnodes ∧ t'.head_.entries = t.head_.entries := by
  have ht := trie_add_atomic t t' P r msg h
  subst ht
  exact ⟨trie_add_thrown t' t' P r msg h, rfl, rfl, rfl⟩

theorem add_atomic_on_duplicate_witness :
    Trie.add exampleTrie2 "/a/<int>".toList 7 =
        some (exampleTrie2, some "handler already exists for /a/<int>".toList) ∧
      ("handler already exists for /a/<int>".toList =
          "handler already exists for ".toList ++ "/a/<int>".toList ∧
        exampleTrie2 = exampleTrie2 ∧
        exampleTrie2.head_.subnodes = exampleTrie2.head_.subnodes ∧
        exampleTrie2.head_.entries = exampleTrie2.head_.entries) :=
  ⟨rfl, add_atomic_on_duplicate exampleTrie2 exampleTrie2 "/a/<int>".toList 7
    "handler already exists for /a/<int>".toList rfl⟩

/-- C32. A pattern `Q/` (of length above 1) and the pattern `Q` cannot both be registered
for a method, whichever comes first. After a rule with `Q/` has been registered in a
table, registering a rule with `Q` throws `handler already exists for Q` and leaves the
trie as it is, because the node of `Q` holds the redirect id 1. After a rule with `Q` has
been registered, registering a rule with `Q/` throws `handler already exists for Q`, when
the redirect entry is added, unless `Q/` was itself there already and
`handler already exists for Q/` is thrown first. And `Router::validate` never ends without
an error when two of its rules, in whatever positions, allow the same method and have
these patterns; with `/about/` and `/about` for GET it ends with
`handler already exists for /about` in either order. -/
theorem slash_and_plain_pattern_conflict (Q : List Char) (roA roB : BaseRule) (hQ : Q ≠ [])
    (hA : roA.rule_ = Q ++ ['/']) (hB : roB.rule_ = Q) :
    (has_trailing_slash roA.rule_ = true ∧ rule_without_trailing_slash roA.rule_ = Q) ∧
    (∀ pm pm1 : PerMethod, PerMethod.register roA pm = some (pm1, none) →
      PerMethod.register roB pm1 =
        some (⟨pm1.rules ++ [some roB], pm1.trie⟩,
          some ("handler already exists for ".toList ++ Q))) ∧
    (∀ pm pm1 : PerMethod, pm.rules ≠ [] → PerMethod.register roB pm = some (pm1, none) →
      ∃ pm2 msg, PerMethod.register roA pm1 = some (pm2, some msg) ∧
        (msg = "handler already exists for ".toList ++ (Q ++ ['/']) ∨
          msg = "handler already exists for ".toList ++ Q)) ∧
    (∀ (check : BaseRule → BaseRule × Option (List Char)) (rules : List BaseRule)
        (router' : Router) (e : Option (List Char)) (m : Nat),
      Router.validate check (Router.init rules) = some (router', e) →
      m < InternalMethodCount → roA ∈ checkedRules check rules →
      roB ∈ checkedRules check rules → roA.allows m = true → roB.allows m = true →
      e ≠ none) ∧
    (Router.validate checkNone (Router.init
        [exampleRule "/about/".toList, exampleRule "/about".toList])).map Prod.snd =
      some (some "handler already exists for /about".toList) ∧
    (Router.validate checkNone (Router.init
        [exampleRule "/about".toList, exampleRule "/about/".toList])).map Prod.snd =
      some (some "handler already exists for /about".toList) := by
  obtain ⟨hs1, hs2⟩ := has_trailing_slash_snoc Q hQ
  refine ⟨⟨by rw [hA]; exact hs1, by rw [rule_without_trailing_slash, hA, hs1, if_pos rfl, hs2]⟩,
    fun pm pm1 h => register_slash_first Q roA roB hQ hA hB pm pm1 h,
    fun pm pm1 hne h => register_slash_second Q roA roB hQ hA hB pm pm1 hne h,
    fun check rules router' e m hv hm hmA hmB haA haB =>
      validate_slash_conflict check rules router' e m Q roA roB hQ hA hB hv hm hmA hmB haA haB,
    by decide, by decide⟩

theorem slash_and_plain_pattern_conflict_witness :
    ("/about".toList ≠ [] ∧
      (exampleRule "/about/".toList).rule_ = "/about".toList ++ ['/'] ∧
      (exampleRule "/about".toList).rule_ = "/about".toList) ∧
    ((has_trailing_slash (exampleRule "/about/".toList).rule_ = true ∧
      rule_without_trailing_slash (exampleRule "/about/".toList).rule_ = "/about".toList) ∧
    (∀ pm pm1 : PerMethod,
      PerMethod.register (exampleRule "/about/".toList) pm = some (pm1, none) →
      PerMethod.register (exampleRule "/about".toList) pm1 =
        some (⟨pm1.rules ++ [some (exampleRule "/about".toList)], pm1.trie⟩,
          some ("handler already exists for ".toList ++ "/about".toList))) ∧
    (∀ pm pm1 : PerMethod, pm.rules ≠ [] →
      PerMethod.register (exampleRule "/about".toList) pm = some (pm1, none) →
      ∃ pm2 msg, PerMethod.register (exampleRule "/about/".toList) pm1 =
          some (pm2, some msg) ∧
        (msg = "handler already exists for ".toList ++ ("/about".toList ++ ['/']) ∨
          msg = "handler already exists for ".toList ++ "/about".toList)) ∧
    (∀ (check : BaseRule → BaseRule × Option (List Char)) (rules : List BaseRule)
        (router' : Router) (e : Option (List Char)) (m : Nat),
      Router.validate check (Router.init rules) = some (router', e) →
      m < InternalMethodCount → exampleRule "/about/".toList ∈ checkedRules check rules →
      exampleRule "/about".toList ∈ checkedRules check rules →
      (exampleRule "/about/".toList).allows m = true →
      (exampleRule "/about".toList).allows m = true → e ≠ none) ∧
    (Router.validate checkNone (Router.init
        [exampleRule "/about/".toList, exampleRule "/about".toList])).map Prod.snd =
      some (some "handler already exists for /about".toList) ∧
    (Router.validate checkNone (Router.init
        [exampleRule "/about".toList, exampleRule "/about/".toList])).map Prod.snd =
      some (some "handler already exists for /about".toList)) :=
  ⟨⟨by decide, rfl, rfl⟩,
    slash_and_plain_pattern_conflict "/about".toList (exampleRule "/about/".toList)
      (exampleRule "/about".toList) (by decide) rfl rfl⟩

/-- C33. The String parameter is matched greedily and without backtracking. For every
pattern `A ++ tok ++ B` in which `tok` is `<string>` or `<str>` and `B` begins with a
literal character other than `/`, the trie that holds only this pattern returns
`(0, empty)` from `find` for every URL, and so does the trie that `optimize` makes of it:
the segment taken for the parameter runs to the next `/` or to the end of the URL, where
the literal does not stand. -/
theorem string_param_no_backtracking (strtod : StrtodFn) (A B tok : List Char) (c : Char)
    (r : Nat) (t : Trie) (htok : tok = "<string>".toList ∨ tok = "<str>".toList)
    (hc : c ≠ '/') (hlit : c ≠ '<')
    (hadd : Trie.add Trie.init (A ++ tok ++ c :: B) r = some (t, none)) :
    ∀ url, Trie.find strtod t url = (0, routing_params.empty) ∧
      ∃ t', Trie.optimize t = some t' ∧
        Trie.find strtod t' url = (0, routing_params.empty) := by
  refine single_pattern_no_match strtod _ r t hadd ?_
  intro ls hls
  have hsplit : ∃ lsA lsB, ls = lsA ++ (ParamType.STRING, []) :: lsB ∧ Tokens (c :: B) lsB := by
    rcases htok with h | h
    · subst h
      exact tokens_split (Piece.str true []) (fun c hp => by cases hp) (c :: B) A.length A ls
        (le_refl _) hls
    · subst h
      exact tokens_split (Piece.str false []) (fun c hp => by cases hp) (c :: B) A.length A ls
        (le_refl _) hls
  obtain ⟨lsA, lsB, h1, h2⟩ := hsplit
  obtain ⟨l, more, h3, h4⟩ := tokens_cons c B lsB h2
  rw [h1, h3, h4 hlit]
  exact matchPath_append_none strtod lsA _
    (matchPath_after_string strtod [] c more hc)

theorem string_param_no_backtracking_witness :
    (("<string>".toList = "<string>".toList ∨ "<string>".toList = "<str>".toList) ∧
      '.' ≠ '/' ∧ '.' ≠ '<' ∧
      Trie.add Trie.init ("/".toList ++ "<string>".toList ++ '.' :: "html".toList) 2 =
        some (exampleStringTrie, none)) ∧
    ∀ url, Trie.find strtodNone exampleStringTrie url = (0, routing_params.empty) ∧
      ∃ t', Trie.optimize exampleStringTrie = some t' ∧
        Trie.find strtodNone t' url = (0, routing_params.empty) :=
  ⟨⟨Or.inl rfl, by decide, by decide, rfl⟩,
    string_param_no_backtracking strtodNone "/".toList "html".toList "<string>".toList '.' 2
      exampleStringTrie (Or.inl rfl) (by decide) (by decide) rfl⟩

/-- C34. Nothing after a `<path>` token can match. For every trie and every URL, `find`
enters a `PATH` node only with the end of the URL as the position; the visit of a `PATH`
child returns the rule index of the child itself; and `find` returns the same result in
the trie from which all nodes below `PATH` nodes have been removed, so a rule id stored
at a strict descendant of a `PATH` node is never what `find` returns. In particular the
trie that holds only a pattern `A ++ "<path>" ++ B` with `B` not empty returns
`(0, empty)` for every URL, before and after `optimize`; so does the trie of
`/<path>/x` for the URL `/a/x`. -/
theorem nothing_after_path_matches (strtod : StrtodFn) (t : Trie) (url : List Char) :
    (∀ (k rest : List Char) (params : routing_params) (x : routing_params × List Char),
      enter strtod ParamType.PATH k rest params = some x → rest ≠ [] ∧ x.2 = []) ∧
    (∀ (child : Node) (rest : List Char) (params : routing_params),
      child.param = ParamType.PATH →
      Trie.visit strtod child rest params =
        if rest = [] then (0, routing_params.empty)
        else (child.rule_index,
          { params with string_params := params.string_params ++ [rest] })) ∧
    Trie.find strtod (Trie.prune t) url = Trie.find strtod t url ∧
    (∀ c ∈ (Trie.prune t).head_.children, ∀ x ∈ c.subnodes,
      x.param = ParamType.PATH → x.children = []) ∧
    (∀ (A B : List Char) (r : Nat) (t1 : Trie), B ≠ [] →
      Trie.add Trie.init (A ++ "<path>".toList ++ B) r = some (t1, none) →
      Trie.find strtod t1 url = (0, routing_params.empty) ∧
        ∃ t2, Trie.optimize t1 = some t2 ∧
          Trie.find strtod t2 url = (0, routing_params.empty)) ∧
    (Trie.add Trie.init "/<path>/x".toList 2).map
      (fun y => ((Trie.find strtodNone y.1 "/a/x".toList).1, y.2)) = some (0, none) := by
  refine ⟨?_, ?_, find_prune strtod t url, ?_, ?_, by decide⟩
  · intro k rest params x h
    obtain ⟨params', rest'⟩ := x
    obtain ⟨h1, h2, _⟩ := (path_child_iff strtod k rest params params' rest').mp h
    exact ⟨h1, h2⟩
  · intro child rest params hp
    obtain ⟨r, k, p, cs⟩ := child
    simp only [Node.param] at hp
    subst hp
    exact visit_path strtod r k cs rest params
  · intro c hc x hx hxp
    simp only [Trie.prune, Node.children] at hc
    rw [pruneList_eq_map] at hc
    obtain ⟨c0, _, rfl⟩ := List.mem_map.mp hc
    exact prune_subnodes c0 x hx hxp
  · intro A B r t1 hB hadd
    refine single_pattern_no_match strtod _ r t1 hadd ?_ url
    intro ls hls
    obtain ⟨lsA, lsB, h1, h2⟩ := tokens_split (Piece.path []) (fun c hp => by cases hp) B
      A.length A ls (le_refl _) hls
    cases B with
    | nil => exact absurd rfl hB
    | cons b B' =>
      obtain ⟨l, more, h3, _⟩ := tokens_cons b B' lsB h2
      rw [h1, h3]
      have hl := tokens_labels _ _ h2 l (by rw [h3]; exact List.mem_cons_self _ _)
      exact matchPath_append_none strtod lsA _
        (matchPath_after_path strtod [] l more hl)

/-- C35. On a request whose method is OPTIONS, `Router::handle` returns without a call of
a rule handler or of the catch-all handler and without an exception, with the status code
204 or 404; the outcome is the same whatever the handlers are and for every router with
the same tries. In a router that `Router::validate` leaves without an error, every rule
that `handle` calls, on whatever request, allows a method other than OPTIONS: a rule
registered under OPTIONS only is never called. With `/a` registered under OPTIONS only,
an OPTIONS request for `/a` is answered 204 with `Allow: OPTIONS, HEAD, OPTIONS` and a GET
request for `/a` is answered 405, both without a call. -/
theorem options_request_calls_no_handler (M : HTTPMethod) (strtod : StrtodFn) (H : Handlers)
    (router : Router) (req : request) (res : response) (hM : M.Valid)
    (hmeth : req.method = M.Options) :
    (∃ r, Router.handle M strtod H router req res = some r ∧ r.calls = [] ∧
      r.thrown = none ∧ (r.res.code = 204 ∨ r.res.code = 404)) ∧
    (∀ (H' : Handlers) (router' : Router),
      (∀ i, (router'.per_methods_ i).trie = (router.per_methods_ i).trie) →
      Router.handle M strtod H' router' req res = Router.handle M strtod H router req res) ∧
    (∀ (check : BaseRule → BaseRule × Option (List Char)) (rules : List BaseRule)
        (router0 : Router) (req0 : request) (res0 : response) (r0 : Handled),
      Router.validate check (Router.init rules) = some (router0, none) →
      Router.handle M strtod H router0 req0 res0 = some r0 →
      ∀ rule req' res' params, Call.rule rule req' res' params ∈ r0.calls →
        rule ∈ checkedRules check rules ∧
          ∃ m, m < InternalMethodCount ∧ m ≠ M.Options ∧ rule.allows m = true) ∧
    (Router.handle specMethods strtodNone exampleHandlers
        (validated [⟨"/a".toList, 64, []⟩]) ⟨6, "/a".toList, []⟩ (response.ofCode 200)).map
      (fun r => (r.res.code, r.res.headers, r.calls)) =
      some (204, [("Allow".toList, "OPTIONS, HEAD, OPTIONS".toList)], []) ∧
    (Router.handle specMethods strtodNone exampleHandlers
        (validated [⟨"/a".toList, 64, []⟩]) ⟨0, "/a".toList, []⟩ (response.ofCode 200)).map
      (fun r => (r.res.code, r.res.headers, r.calls)) = some (405, [], []) := by
  refine ⟨handle_options M strtod H router req res hM hmeth,
    fun H' router' ht => handle_options_tries M strtod H H' router router' req res hM hmeth ht,
    ?_, by decide, by decide⟩
  intro check rules router0 req0 res0 r0 hv h0 rule req' res' params hc
  obtain ⟨m, hm, hmo, hmem⟩ := handle_calls M strtod H router0 req0 res0 r0 hM h0 rule req' res'
    params hc
  obtain ⟨hrules, _⟩ := validate_stored strtod check rules router0 m hv hm
  rw [hrules] at hmem
  simp only [List.mem_cons, List.mem_map, Option.some.injEq, exists_eq_right] at hmem
  have hmem' : rule ∈ (checkedRules check rules).filter (fun ro => ro.allows m) := by
    rcases hmem with h | h | h
    · cases h
    · cases h
    · exact h
  have hf := List.mem_filter.mp hmem'
  exact ⟨hf.1, m, hm, hmo, by simpa using hf.2⟩

theorem options_request_calls_no_handler_witness :
    (specMethods.Valid ∧ (⟨6, "/a".toList, []⟩ : request).method = specMethods.Options) ∧
    ((∃ r, Router.handle specMethods strtodNone exampleHandlers
        (validated [⟨"/a".toList, 64, []⟩]) ⟨6, "/a".toList, []⟩ (response.ofCode 200) =
          some r ∧ r.calls = [] ∧ r.thrown = none ∧ (r.res.code = 204 ∨ r.res.code = 404)) ∧
    (∀ (H' : Handlers) (router' : Router),
      (∀ i, (router'.per_methods_ i).trie =
        ((validated [⟨"/a".toList, 64, []⟩]).per_methods_ i).trie) →
      Router.handle specMethods strtodNone H' router' ⟨6, "/a".toList, []⟩
          (response.ofCode 200) =
        Router.handle specMethods strtodNone exampleHandlers
          (validated [⟨"/a".toList, 64, []⟩]) ⟨6, "/a".toList, []⟩ (response.ofCode 200)) ∧
    (∀ (check : BaseRule → BaseRule × Option (List Char)) (rules : List BaseRule)
        (router0 : Router) (req0 : request) (res0 : response) (r0 : Handled),
      Router.validate check (Router.init rules) = some (router0, none) →
      Router.handle specMethods strtodNone exampleHandlers router0 req0 res0 = some r0 →
      ∀ rule req' res' params, Call.rule rule req' res' params ∈ r0.calls →
        rule ∈ checkedRules check rules ∧
          ∃ m, m < InternalMethodCount ∧ m ≠ specMethods.Options ∧ rule.allows m = true) ∧
    (Router.handle specMethods strtodNone exampleHandlers
        (validated [⟨"/a".toList, 64, []⟩]) ⟨6, "/a".toList, []⟩ (response.ofCode 200)).map
      (fun r => (r.res.code, r.res.headers, r.calls)) =
      some (204, [("Allow".toList, "OPTIONS, HEAD, OPTIONS".toList)], []) ∧
    (Router.handle specMethods strtodNone exampleHandlers
        (validated [⟨"/a".toList, 64, []⟩]) ⟨0, "/a".toList, []⟩ (response.ofCode 200)).map
      (fun r => (r.res.code, r.res.headers, r.calls)) = some (405, [], [])) :=
  ⟨⟨by decide, rfl⟩,
    options_request_calls_no_handler specMethods strtodNone exampleHandlers
      (validated [⟨"/a".toList, 64, []⟩]) ⟨6, "/a".toList, []⟩ (response.ofCode 200)
      (by decide) rfl⟩

end crow
